import Mathlib

/-!
Verification of birch: bit-array codec, pattern compiler, streaming matcher,
ranked results.

A shallow embedding of `bit_arr.c`, `birch.c` and the pattern compiler of
`birch_main.c`, followed by theorems about them.

Conventions of the embedding.

* An `unsigned char` is a `Nat` below 256; every store into one is reduced
  `% 256`.  `size_t`, `unsigned long` and `bit_size_t` are 64 bits wide and
  reduced `% 2 ^ 64` where the C arithmetic can wrap.
* A C string is the list of its characters before the terminating NUL.
* A heap buffer `(arr, size_bytes)` is a `List Nat`; the list holds exactly the
  allocated bytes, so an index at or beyond its length is an access outside the
  buffer.
* Allocation (`malloc`, `calloc`, `realloc`) always succeeds.
-/

namespace Birch

/-! ## bit_arr.c -/

def CHAR_BIT : Nat := 8

/-- Outcome of a routine returning a freshly allocated byte buffer: the buffer,
the null pointer, or an access outside the allocated buffer (undefined
behaviour in C). -/
inductive bit_arr_result where
  | arr (bytes : List Nat)
  | null
  | out_of_bounds
  deriving DecidableEq, Repr

/-- Subtraction `a - b` in 64-bit unsigned arithmetic (`size_t`, `unsigned long`,
`bit_size_t`), for operands below `2 ^ 64`. -/
def sub_u64 (a b : Nat) : Nat := (2 ^ 64 + a - b) % 2 ^ 64

/-- Tail of `mul_10`: the two additions with carry detection and the store of
the sum into `arr[index]`. -/
def mul_10_sum (arr : List Nat) (index sum shift_1 shift_3 : Nat) : List Nat × Nat :=
  let sum := (sum + shift_1) % 256
  let cout := if sum < shift_1 then 1 else 0
  let sum := (sum + shift_3) % 256
  let cout := cout ||| (if sum < shift_3 then 1 else 0)
  (arr.set index sum, cout)

/-- Function `mul_10(arr, index)`: multiplies the bytes `arr[0..index]` by ten in
place and returns the carry out of byte `index`.  The result is `none` when
`arr[index]` lies outside the buffer. -/
def mul_10 (arr : List Nat) : Nat → Option (List Nat × Nat)
  | 0 =>
    match arr[0]? with
    | none => none
    | some cur =>
      let shift_1 := (cur <<< 1) % 256
      let shift_3 := (cur <<< 3) % 256
      some (mul_10_sum arr 0 0 shift_1 shift_3)
  | prv_index + 1 =>
    match arr[prv_index + 1]? with
    | none => none
    | some cur =>
      let shift_1 := (cur <<< 1) % 256
      let shift_3 := (cur <<< 3) % 256
      match arr[prv_index]? with
      | none => none
      | some prv =>
        let shift_1 := shift_1 ||| (prv >>> (CHAR_BIT - 1))
        let shift_3 := shift_3 ||| (prv >>> (CHAR_BIT - 3))
        match mul_10 arr prv_index with
        | none => none
        | some (arr, sum) => some (mul_10_sum arr (prv_index + 1) sum shift_1 shift_3)

/-- The carry loop of `add_uchar`, `do { ++i; arr[i] += 1; } while (arr[i] == 0)`,
run over the bytes from `arr[i + 1]` on.  It has no bound: running off the end
of the buffer is `none`. -/
def add_uchar_carry : List Nat → Option (List Nat)
  | [] => none
  | x :: rest =>
    let y := (x + 1) % 256
    if y = 0 then
      match add_uchar_carry rest with
      | none => none
      | some rest => some (y :: rest)
    else some (y :: rest)

/-- Function `add_uchar(arr, size_bytes, c)`; `none` is a write outside the buffer. -/
def add_uchar (arr : List Nat) (size_bytes : Nat) (c : Nat) : Option (List Nat) :=
  if size_bytes = 0 then some arr
  else
    match arr with
    | [] => none
    | a0 :: rest =>
      let a0 := (a0 + c) % 256
      if size_bytes = 1 then some (a0 :: rest)
      else if a0 < c then
        match add_uchar_carry rest with
        | none => none
        | some rest => some (a0 :: rest)
      else some (a0 :: rest)

/-- The loop of `lshift` over the bytes from index `i` on, `prev` being the
original value of byte `i - 1`. -/
def lshift_loop (shift : Nat) : List Nat → Nat → List Nat
  | [], _ => []
  | cur :: rest, prev =>
    (((cur <<< shift) ||| (prev >>> (CHAR_BIT - shift))) % 256) :: lshift_loop shift rest cur

/-- Function `lshift(arr, size_bytes, shift)`, for `shift < CHAR_BIT` (asserted in C). -/
def lshift (arr : List Nat) (size_bytes : Nat) (shift : Nat) : List Nat :=
  if size_bytes = 0 ∨ shift = 0 then arr else lshift_loop shift arr 0

/-- Function `hex_to_nibble(hex)`. -/
def hex_to_nibble (hex : Char) : Nat :=
  if '0'.toNat ≤ hex.toNat ∧ hex.toNat ≤ '9'.toNat then hex.toNat - '0'.toNat
  else if 'a'.toNat ≤ hex.toNat ∧ hex.toNat ≤ 'f'.toNat then 0xa + (hex.toNat - 'a'.toNat)
  else if 'A'.toNat ≤ hex.toNat ∧ hex.toNat ≤ 'F'.toNat then 0xa + (hex.toNat - 'A'.toNat)
  else 0xff

/-- The `while (*s != 0)` loop of `from_str`. -/
def from_str_loop (size_bytes shift max_char : Nat) : List Char → List Nat → bit_arr_result
  | [], arr => .arr arr
  | c :: s, arr =>
    let arr := lshift arr size_bytes shift
    let v := hex_to_nibble c
    if v > max_char then .null
    else
      match add_uchar arr size_bytes v with
      | none => .out_of_bounds
      | some arr => from_str_loop size_bytes shift max_char s arr

/-- Function `from_str(s, size_bytes, shift, max_char)`. -/
def from_str (s : List Char) (size_bytes shift max_char : Nat) : bit_arr_result :=
  from_str_loop size_bytes shift max_char s (List.replicate size_bytes 0)

def from_str_hex (s : List Char) (size_bytes : Nat) : bit_arr_result :=
  from_str s size_bytes 4 0xf

def from_str_oct (s : List Char) (size_bytes : Nat) : bit_arr_result :=
  from_str s size_bytes 3 7

/-- The `while (*s != 0)` loop of `from_str_dec`.  The two `bit_arr_to_str` calls
whose result is freed at once leave `arr` untouched and are omitted.  The index
`size_bytes - 1` is computed in `size_t`. -/
def from_str_dec_loop (size_bytes : Nat) : List Char → List Nat → bit_arr_result
  | [], arr => .arr arr
  | c :: s, arr =>
    match mul_10 arr (sub_u64 size_bytes 1) with
    | none => .out_of_bounds
    | some (arr, _) =>
      let v := hex_to_nibble c
      if v > 0x9 then .null
      else
        match add_uchar arr size_bytes v with
        | none => .out_of_bounds
        | some arr => from_str_dec_loop size_bytes s arr

/-- Function `from_str_dec(s, size_bytes)`. -/
def from_str_dec (s : List Char) (size_bytes : Nat) : bit_arr_result :=
  from_str_dec_loop size_bytes s (List.replicate size_bytes 0)

/-- Upper-case hexadecimal digit of a value below 16 (the `X` conversion). -/
def hex_digit (v : Nat) : Char :=
  if v < 10 then Char.ofNat ('0'.toNat + v) else Char.ofNat ('A'.toNat + (v - 10))

/-- The two characters written by `snprintf(cur, 3, "%02X", b)` for a byte `b`. -/
def hex_byte (b : Nat) : List Char :=
  [hex_digit (b / 16), hex_digit (b % 16)]

/-- The `while (size_bytes > 0)` loop of `bit_arr_to_str`. -/
def bit_arr_to_str_loop (arr : List Nat) : Nat → List Char
  | 0 => []
  | size_bytes + 1 => hex_byte (arr.getD size_bytes 0) ++ bit_arr_to_str_loop arr size_bytes

/-- Function `bit_arr_to_str(arr, size_bytes)`; `none` is the null pointer returned
when the buffer size overflows `size_t`. -/
def bit_arr_to_str (arr : List Nat) (size_bytes : Nat) : Option (List Char) :=
  let tmp := (size_bytes <<< 1) % 2 ^ 64
  if tmp < size_bytes then none
  else
    let alloc_size := (tmp + 3) % 2 ^ 64
    if alloc_size < tmp then none
    else some ('0' :: 'x' :: bit_arr_to_str_loop arr size_bytes)

/-- Function `bit_arr_from_str(str, size_bytes)`. -/
def bit_arr_from_str (str : List Char) (size_bytes : Nat) : bit_arr_result :=
  match str with
  | '0' :: rest =>
    match rest with
    | 'x' :: s => from_str_hex s size_bytes
    | 'X' :: s => from_str_hex s size_bytes
    | _ => from_str_oct rest size_bytes
  | _ => from_str_dec str size_bytes

/-! ## Specification-side vocabulary -/

/-- Little-endian value of a byte buffer. -/
def le_val : List Nat → Nat
  | [] => 0
  | x :: xs => x + 256 * le_val xs

/-- Every element of the buffer is a byte. -/
def is_bytes (arr : List Nat) : Prop := ∀ x ∈ arr, x < 256

instance (arr : List Nat) : Decidable (is_bytes arr) := by
  unfold is_bytes; infer_instance

/-- The `k` upper-case hexadecimal digits of `v % 16 ^ k`, most significant first. -/
def hex_string (v : Nat) : Nat → List Char
  | 0 => []
  | k + 1 => hex_digit ((v / 16 ^ k) % 16) :: hex_string v k

/-- Digit characters of the three literal alphabets. -/
def dec_digit (c : Char) : Prop := '0'.toNat ≤ c.toNat ∧ c.toNat ≤ '9'.toNat

def oct_digit (c : Char) : Prop := '0'.toNat ≤ c.toNat ∧ c.toNat ≤ '7'.toNat

def hex_digit_char (c : Char) : Prop :=
  dec_digit c ∨ ('a'.toNat ≤ c.toNat ∧ c.toNat ≤ 'f'.toNat) ∨ ('A'.toNat ≤ c.toNat ∧ c.toNat ≤ 'F'.toNat)

instance (c : Char) : Decidable (dec_digit c) := by unfold dec_digit; infer_instance

instance (c : Char) : Decidable (oct_digit c) := by unfold oct_digit; infer_instance

instance (c : Char) : Decidable (hex_digit_char c) := by unfold hex_digit_char; infer_instance

/-- Numeric value of a digit character: `0`-`9`, `a`-`f`, `A`-`F`. -/
def digit_value (c : Char) : Nat :=
  if dec_digit c then c.toNat - '0'.toNat
  else if 'a'.toNat ≤ c.toNat ∧ c.toNat ≤ 'f'.toNat then c.toNat - 'a'.toNat + 10
  else c.toNat - 'A'.toNat + 10

/-- Numeric value of a digit string read in base `base`, most significant digit first. -/
def digits_value (base : Nat) (ds : List Char) : Nat :=
  ds.foldl (fun acc c => acc * base + digit_value c) 0

/-- The string `s` is an integer literal of value `v`: `0x`/`0X` followed by
hexadecimal digits, `0` followed by octal digits, or decimal digits not starting
with `0`. -/
def is_literal (s : List Char) (v : Nat) : Prop :=
  (∃ ds, (s = '0' :: 'x' :: ds ∨ s = '0' :: 'X' :: ds) ∧ (∀ c ∈ ds, hex_digit_char c) ∧
    v = digits_value 16 ds) ∨
  (∃ ds, s = '0' :: ds ∧ (∀ c ∈ ds, oct_digit c) ∧ v = digits_value 8 ds) ∨
  ((∀ c ∈ s, dec_digit c) ∧ s.head? ≠ some '0' ∧ v = digits_value 10 s)

/-! ### Inputs of `test/bit_arr_test.c` -/

def test_str_hex : List Char := "0x12345678910111213141516171819202".toList

def test_str_oct : List Char := "0221505317044200421102305012426056140311002".toList

def test_str_dec : List Char := "24197857200254328746765703854004736514".toList

/-! ## birch.h -/

inductive endian where
  | ENDIAN_LITTLE
  | ENDIAN_BIG
  | ENDIAN_BOTH
  deriving DecidableEq, Repr

inductive alignment where
  | ALIGNMENT_UNALIGNED
  | ALIGNMENT_ALIGNED
  deriving DecidableEq, Repr

inductive data_type where
  | DATA_TYPE_INTEGER
  | DATA_TYPE_FLOAT
  | DATA_TYPE_STRING
  deriving DecidableEq, Repr

open endian alignment data_type

/-- The record `struct birch_ptn`.  The buffers `ptn` and `mask` are the lists of
their allocated bytes. -/
structure birch_ptn where
  arg_str : List Char
  type : data_type
  alignment : alignment
  endian : endian
  ptn : List Nat
  mask : List Nat
  offs : Nat
  size : Nat
  index : Nat
  size_bytes : Nat
  deriving DecidableEq, Repr

/-- The record `struct birch_match`.  The pointer `ptn` is `none` when null and
otherwise names the variant it points to by (group index, variant index); the
pointer `path` is kept as an address, the string stored there being looked up in
a memory `mem : Nat → List Char`. -/
structure birch_match where
  ptn : Option (Nat × Nat)
  path : Nat
  offs : Nat
  deriving DecidableEq, Repr

/-- The four-element array `match_dist`, indexed by `enum match_dist_indices`. -/
structure match_dist_t where
  nexist : Nat
  dir_diff : Nat
  file_diff : Nat
  offs_diff : Nat
  deriving DecidableEq, Repr

/-- The record `struct birch_ptn_group`; its field `size` is `ptns.length`. -/
structure birch_ptn_group where
  ptns : List birch_ptn
  cur_match : birch_match
  deriving DecidableEq, Repr

/-- The record `struct birch_ptn_groups`; its field `size` is `groups.length`. -/
structure birch_ptn_groups where
  groups : List birch_ptn_group
  match_dist : match_dist_t
  deriving DecidableEq, Repr

/-- The all-zero match written by `parse_args` and `result_from_groups`. -/
def null_match : birch_match := { ptn := none, path := 0, offs := 0 }

/-! ## birch.c -/

/-- Function `path_delim_count(path)`, the counter `diff` (an `unsigned int`) made
explicit. -/
def path_delim_count : List Char → Nat → Nat
  | [], diff => diff
  | c :: path, diff =>
    if c = '/' then path_delim_count path ((diff + 1) % 2 ^ 32) else path_delim_count path diff

/-- Function `path_dir_diff(patha, pathb)`. -/
def path_dir_diff : List Char → List Char → Nat
  | a :: patha, b :: pathb =>
    if a = b then path_dir_diff patha pathb
    else (path_delim_count (a :: patha) 0 + path_delim_count (b :: pathb) 0) % 2 ^ 32
  | patha, pathb => (path_delim_count patha 0 + path_delim_count pathb 0) % 2 ^ 32

/-- Function `ptn_group_match_dist_calc(dist, lsa, lsb)`. -/
def ptn_group_match_dist_calc (mem : Nat → List Char) (lsa lsb : birch_match) : match_dist_t :=
  if lsa.ptn = none ∨ lsb.ptn = none then
    { nexist := 1, dir_diff := 0, file_diff := 0, offs_diff := 0 }
  else
    let tmp := sub_u64 lsa.offs lsb.offs
    { nexist := 0
      dir_diff := path_dir_diff (mem lsa.path) (mem lsb.path)
      file_diff := if mem lsa.path ≠ mem lsb.path then 1 else 0
      offs_diff := if tmp > lsa.offs then sub_u64 lsb.offs lsa.offs else tmp }

/-- The inner loop `groups->match_dist[j] += new_match_dist[j] - old_match_dist[j]`
in `unsigned long` arithmetic. -/
def match_dist_add_diff (d new_match_dist old_match_dist : match_dist_t) : match_dist_t :=
  { nexist := (d.nexist + sub_u64 new_match_dist.nexist old_match_dist.nexist) % 2 ^ 64
    dir_diff := (d.dir_diff + sub_u64 new_match_dist.dir_diff old_match_dist.dir_diff) % 2 ^ 64
    file_diff := (d.file_diff + sub_u64 new_match_dist.file_diff old_match_dist.file_diff) % 2 ^ 64
    offs_diff := (d.offs_diff + sub_u64 new_match_dist.offs_diff old_match_dist.offs_diff) % 2 ^ 64 }

/-- The `while (i < groups->size)` loop of `ptn_group_match_dist_update` over the
groups from index `i` on; `g` is the index of the group whose match slot is
`match_old` (the test `ls == match_old` compares addresses). -/
def ptn_group_match_dist_update_loop (mem : Nat → List Char) (g : Nat)
    (match_old match_new : birch_match) : List birch_ptn_group → Nat → match_dist_t → match_dist_t
  | [], _, d => d
  | group :: rest, i, d =>
    if i = g then ptn_group_match_dist_update_loop mem g match_old match_new rest (i + 1) d
    else
      let old_match_dist := ptn_group_match_dist_calc mem group.cur_match match_old
      let new_match_dist := ptn_group_match_dist_calc mem group.cur_match match_new
      ptn_group_match_dist_update_loop mem g match_old match_new rest (i + 1)
        (match_dist_add_diff d new_match_dist old_match_dist)

/-- Function `ptn_group_match_dist_update(groups, match_old, match_new)` with
`match_old = &groups->groups[g].match`. -/
def ptn_group_match_dist_update (mem : Nat → List Char) (groups : birch_ptn_groups) (g : Nat)
    (match_new : birch_match) : birch_ptn_groups :=
  if groups.groups.length = 1 then
    { groups with match_dist := { nexist := 0, dir_diff := 0, file_diff := 0, offs_diff := 0 } }
  else
    let match_old := ((groups.groups[g]?).map (fun group => group.cur_match)).getD null_match
    { groups with
      match_dist := ptn_group_match_dist_update_loop mem g match_old match_new groups.groups 0
        groups.match_dist }

/-- Function `ptn_group_match_dist_cmp(match_dista, match_distb)`; its result type
`char` is signed (x86-64), so that the -1 returned is negative. -/
def ptn_group_match_dist_cmp (a b : match_dist_t) : Int :=
  if a.nexist ≠ b.nexist then (if a.nexist > b.nexist then 1 else -1)
  else if a.dir_diff ≠ b.dir_diff then (if a.dir_diff > b.dir_diff then 1 else -1)
  else if a.file_diff ≠ b.file_diff then (if a.file_diff > b.file_diff then 1 else -1)
  else if a.offs_diff ≠ b.offs_diff then (if a.offs_diff > b.offs_diff then 1 else -1)
  else 0

/-- The loop of `ptn_match_backtrack` from index `i` on, with `k` iterations left;
`pm` is `ptn_match`.  `none` is a read outside `ptn->ptn` or a failed call. -/
def ptn_match_backtrack_loop (pm : birch_ptn → Nat → Option (birch_ptn × Nat)) :
    Nat → Nat → birch_ptn → Option birch_ptn
  | 0, _, ptn => some ptn
  | k + 1, i, ptn =>
    match ptn.ptn[i]? with
    | none => none
    | some b =>
      match pm ptn b with
      | none => none
      | some (ptn, _) => ptn_match_backtrack_loop pm k (i + 1) ptn

/-- Function `ptn_match_backtrack(ptn, count)`: the loop runs for `i = 1 .. count - 1`. -/
def ptn_match_backtrack (pm : birch_ptn → Nat → Option (birch_ptn × Nat)) (ptn : birch_ptn)
    (count : Nat) : Option birch_ptn :=
  ptn_match_backtrack_loop pm (count - 1) 1 { ptn with index := 0 }

/-- Function `ptn_match(ptn, c)` with the depth of the mutual recursion with
`ptn_match_backtrack` bounded by `fuel`.  The result is the updated variant and
the returned `int`; `none` is exhausted fuel or a read outside `mask`/`ptn`. -/
def ptn_match_fuel : Nat → birch_ptn → Nat → Option (birch_ptn × Nat)
  | 0, _, _ => none
  | fuel + 1, ptn, c =>
    match ptn.mask[ptn.index]?, ptn.ptn[ptn.index]? with
    | some m, some p =>
      if (c &&& m) = p then
        let ptn := { ptn with index := ptn.index + 1 }
        if ptn.index = ptn.size_bytes then
          match ptn_match_backtrack (ptn_match_fuel fuel) ptn ptn.index with
          | none => none
          | some ptn => some (ptn, 1)
        else some (ptn, 0)
      else if ptn.index ≠ 0 then
        match ptn_match_backtrack (ptn_match_fuel fuel) ptn ptn.index with
        | none => none
        | some ptn =>
          match ptn_match_fuel fuel ptn c with
          | none => none
          | some (ptn, _) => some (ptn, 0)
      else some (ptn, 0)
    | _, _ => none

/-- Function `ptn_match(ptn, c)`: a call at cursor `index` nests at most `index`
further calls, each at a smaller cursor, so `index + 1` levels suffice. -/
def ptn_match (ptn : birch_ptn) (c : Nat) : Option (birch_ptn × Nat) :=
  ptn_match_fuel (ptn.index + 1) ptn c

/-- Function `result_swap(a, b)`: exchanges the match slots of two groups. -/
def result_swap (a b : birch_ptn_group) : birch_ptn_group × birch_ptn_group :=
  ({ a with cur_match := b.cur_match }, { b with cur_match := a.cur_match })

/-- The first loop of `results_swap` over the group arrays of `a` and `b`. -/
def results_swap_loop : List birch_ptn_group → List birch_ptn_group →
    List birch_ptn_group × List birch_ptn_group
  | ga :: as, gb :: bs =>
    let (ga, gb) := result_swap ga gb
    let (as, bs) := results_swap_loop as bs
    (ga :: as, gb :: bs)
  | as, bs => (as, bs)

/-- Function `results_swap(a, b)`; the groups have the same topology. -/
def results_swap (a b : birch_ptn_groups) : birch_ptn_groups × birch_ptn_groups :=
  let (as, bs) := results_swap_loop a.groups b.groups
  ({ groups := as, match_dist := b.match_dist }, { groups := bs, match_dist := a.match_dist })

/-- The loop of `results_cpy` over the group arrays of `to` and `from`. -/
def results_cpy_loop : List birch_ptn_group → List birch_ptn_group → List birch_ptn_group
  | gt :: ts, gf :: fs => { gt with cur_match := gf.cur_match } :: results_cpy_loop ts fs
  | ts, _ => ts

/-- Function `results_cpy(to, from)`: copies the match slots and the distance. -/
def results_cpy (to_ from_ : birch_ptn_groups) : birch_ptn_groups :=
  { groups := results_cpy_loop to_.groups from_.groups, match_dist := from_.match_dist }

/-- The loop of `groups_cmp` over the group arrays of `a` and `b`; the `memcmp` of
two `struct birch_match` (two pointers and a 64-bit offset, no padding) is
equality of the three fields. -/
def groups_cmp_loop : List birch_ptn_group → List birch_ptn_group → Nat
  | ga :: as, gb :: bs =>
    if ga.cur_match.ptn ≠ none ∧ ga.cur_match = gb.cur_match then 1 else groups_cmp_loop as bs
  | _, _ => 0

/-- Function `groups_cmp(a, b)`. -/
def groups_cmp (a b : birch_ptn_groups) : Nat :=
  groups_cmp_loop a.groups b.groups

/-- A result tuple read at an index known to be in range. -/
def result_at (results : List birch_ptn_groups) (i : Nat) : birch_ptn_groups :=
  results.getD i { groups := [], match_dist := { nexist := 0, dir_diff := 0, file_diff := 0, offs_diff := 0 } }

/-- The first loop of `result_add`, `while (i > 0) { --i; ... }`: the index of the
first tuple, scanning from the last slot down, that shares a match with
`groups`, if any. -/
def result_add_find (groups : birch_ptn_groups) (results : List birch_ptn_groups) :
    Nat → Option Nat
  | 0 => none
  | i + 1 =>
    if groups_cmp (result_at results i) groups ≠ 0 then some i
    else result_add_find groups results i

/-- The last loop of `result_add`: bubbles slot `i` toward the front while its
distance is lower than its predecessor's (`j = i - 1`). -/
def result_add_bubble (results : List birch_ptn_groups) : Nat → List birch_ptn_groups
  | 0 => results
  | j + 1 =>
    if ptn_group_match_dist_cmp (result_at results (j + 1)).match_dist
        (result_at results j).match_dist < 0 then
      let (a, b) := results_swap (result_at results (j + 1)) (result_at results j)
      result_add_bubble ((results.set (j + 1) a).set j b) j
    else results

/-- Function `result_add(groups, results, results_size)`, for
`results_size = results.length ≥ 1`. -/
def result_add (groups : birch_ptn_groups) (results : List birch_ptn_groups)
    (results_size : Nat) : List birch_ptn_groups :=
  match result_add_find groups results results_size with
  | some i =>
    if ptn_group_match_dist_cmp groups.match_dist (result_at results i).match_dist < 0 then
      result_add_bubble (results.set i (results_cpy (result_at results i) groups)) i
    else results
  | none =>
    let i := sub_u64 results_size 1
    if ptn_group_match_dist_cmp groups.match_dist (result_at results i).match_dist < 0 then
      result_add_bubble (results.set i (results_cpy (result_at results i) groups)) i
    else result_add_bubble results i

/-- The state threaded through the scan loops of `birch_file`. -/
structure scan_state where
  groups : birch_ptn_groups
  results : List birch_ptn_groups
  deriving DecidableEq, Repr

/-- Body of the innermost loop of `birch_file` for the variant `ptn_index` of the
group `group_index` at the byte `c` of absolute index `byte_index`
(`file_index + buf_index`).  `none` is a failed `ptn_match`. -/
def birch_file_ptn (mem : Nat → List Char) (results_size : Nat) (path : Nat)
    (byte_index c : Nat) (group_index ptn_index : Nat) (st : scan_state) : Option scan_state :=
  match st.groups.groups[group_index]? with
  | none => none
  | some group =>
    match group.ptns[ptn_index]? with
    | none => none
    | some ptn =>
      match ptn_match ptn c with
      | none => none
      | some (ptn, r) =>
        let group := { group with ptns := group.ptns.set ptn_index ptn }
        let groups := { st.groups with groups := st.groups.groups.set group_index group }
        if r ≠ 0 then
          let m : birch_match :=
            { ptn := some (group_index, ptn_index)
              path := path
              offs := (sub_u64 (((byte_index * CHAR_BIT) % 2 ^ 64 + ptn.offs) % 2 ^ 64) ptn.size
                        + CHAR_BIT) % 2 ^ 64 }
          let groups := ptn_group_match_dist_update mem groups group_index m
          let group := { group with cur_match := m }
          let groups := { groups with groups := groups.groups.set group_index group }
          some { groups := groups, results := result_add groups st.results results_size }
        else some { st with groups := groups }

/-- The loop `while (ptn_index < group->size)` of `birch_file`, `k` iterations left. -/
def birch_file_ptns (mem : Nat → List Char) (results_size : Nat) (path : Nat)
    (byte_index c : Nat) (group_index : Nat) : Nat → Nat → scan_state → Option scan_state
  | 0, _, st => some st
  | k + 1, ptn_index, st =>
    match birch_file_ptn mem results_size path byte_index c group_index ptn_index st with
    | none => none
    | some st => birch_file_ptns mem results_size path byte_index c group_index k (ptn_index + 1) st

/-- The loop `while (group_index < groups->size)` of `birch_file`, `k` iterations left. -/
def birch_file_groups (mem : Nat → List Char) (results_size : Nat) (path : Nat)
    (byte_index c : Nat) : Nat → Nat → scan_state → Option scan_state
  | 0, _, st => some st
  | k + 1, group_index, st =>
    let size := ((st.groups.groups[group_index]?).map (fun g => g.ptns.length)).getD 0
    match birch_file_ptns mem results_size path byte_index c group_index size 0 st with
    | none => none
    | some st => birch_file_groups mem results_size path byte_index c k (group_index + 1) st

/-- The loops over the bytes of the file (`do ... while` over the blocks read and
`while (buf_index < size_read)`): the bytes come in order, `byte_index` being
`file_index + buf_index`. -/
def birch_file_bytes (mem : Nat → List Char) (results_size : Nat) (path : Nat) :
    List Nat → Nat → scan_state → Option scan_state
  | [], _, st => some st
  | c :: rest, byte_index, st =>
    match birch_file_groups mem results_size path byte_index c st.groups.groups.length 0 st with
    | none => none
    | some st => birch_file_bytes mem results_size path rest (byte_index + 1) st

/-- The first loops of `birch_file`: `ptn->index = 0` for every variant of every group. -/
def birch_file_reset (groups : birch_ptn_groups) : birch_ptn_groups :=
  { groups with
    groups := groups.groups.map (fun group =>
      { group with ptns := group.ptns.map (fun ptn => { ptn with index := 0 }) }) }

/-- Function `birch_file(results, results_size, path, groups)` on a file whose
bytes are `content` (read without error). -/
def birch_file (mem : Nat → List Char) (results : List birch_ptn_groups) (results_size : Nat)
    (path : Nat) (content : List Nat) (groups : birch_ptn_groups) : Option scan_state :=
  birch_file_bytes mem results_size path content 0
    { groups := birch_file_reset groups, results := results }

/-! ## birch_main.c: the pattern compiler -/

/-- What the compiler takes from its host: the byte order of the machine
(`ENDIAN_NATIVE`), the C library conversions `strtof` and `strtod` (the object
representation of the value parsed, in host byte order, and whether the whole
string was consumed, `end == expected_end`), and the indeterminate content of
array slots obtained from `realloc`. -/
structure host where
  ENDIAN_NATIVE : endian
  strtof : List Char → List Nat × Bool
  strtod : List Char → List Nat × Bool
  uninit : birch_ptn

/-- Function `ptn_mask_gen(size, size_bytes)`.  `none` is the division by zero of
`malloc_safe(0, 1)`. -/
def ptn_mask_gen (size size_bytes : Nat) : Option (List Nat) :=
  if size_bytes = 0 then none
  else
    let last := ((1 <<< (size % 8)) - 1) % 256
    some (List.replicate (size_bytes - 1) 0xff ++ [if last = 0 then 0xff else last])

/-- The loop of `lshift_copy` over the bytes from index `i` on: the shifted bytes
and the final value of `prev`. -/
def lshift_copy_loop : List Nat → Nat → List Nat × Nat
  | [], prev => ([], prev)
  | a :: rest, prev =>
    let (shifted, last) := lshift_copy_loop rest a
    ((((a <<< 1) ||| (prev >>> (CHAR_BIT - 1))) % 256) :: shifted, last)

/-- Function `lshift_copy(arr, size_bytes, shifted_size_bytes)`, called with
`size_bytes ≤ shifted_size_bytes ≤ size_bytes + 1` and a buffer `arr` of at least
`size_bytes` bytes; the null pointer returned for `shifted_size_bytes == 0` is
the empty buffer. -/
def lshift_copy (arr : List Nat) (size_bytes shifted_size_bytes : Nat) : List Nat :=
  if shifted_size_bytes = 0 then []
  else
    let (shifted, prev) := lshift_copy_loop (arr.take size_bytes) 0
    if size_bytes < shifted_size_bytes then shifted ++ [prev >>> (CHAR_BIT - 1)] else shifted

/-- Body of the loop of `ptn_unalign`: the variant written into the slot `cur`
from its predecessor `prev`. -/
def ptn_unalign_step (prev cur : birch_ptn) : birch_ptn :=
  let new_offs := (prev.offs + 1) % 2 ^ 32
  let new_size := (prev.size + new_offs) % 2 ^ 64
  let new_size_bytes := (sub_u64 new_size 1) / CHAR_BIT + 1
  { cur with
    arg_str := prev.arg_str
    type := prev.type
    alignment := prev.alignment
    endian := prev.endian
    ptn := lshift_copy prev.ptn prev.size_bytes new_size_bytes
    mask := lshift_copy prev.mask prev.size_bytes new_size_bytes
    offs := new_offs
    size := prev.size
    size_bytes := new_size_bytes }

/-- A slot of a variant array read at an index known to be in range. -/
def ptn_at (h : host) (group : List birch_ptn) (i : Nat) : birch_ptn :=
  group.getD i h.uninit

/-- The loop `while (shift < CHAR_BIT)` of `ptn_unalign`, `k` iterations left. -/
def ptn_unalign_loop (h : host) : Nat → Nat → List birch_ptn → List birch_ptn
  | 0, _, unaligned => unaligned
  | k + 1, shift, unaligned =>
    ptn_unalign_loop h k (shift + 1)
      (unaligned.set shift (ptn_unalign_step (ptn_at h unaligned (shift - 1)) (ptn_at h unaligned shift)))

/-- Function `ptn_unalign(unaligned)` on the array of `CHAR_BIT` slots starting at
the base variant. -/
def ptn_unalign (h : host) (unaligned : List birch_ptn) : List birch_ptn :=
  ptn_unalign_loop h (CHAR_BIT - 1) 1 unaligned

/-- The loop of `endian_reverse_common`, at most `k` iterations left. -/
def endian_reverse_common_loop : Nat → Nat → Nat → List Nat → List Nat
  | 0, _, _, arr => arr
  | k + 1, i, j, arr =>
    if i < j then
      let tmp := arr.getD j 0
      endian_reverse_common_loop k (i + 1) (j - 1) ((arr.set j (arr.getD i 0)).set i tmp)
    else arr

/-- Function `endian_reverse_common(arr, size_bytes)`, for `size_bytes ≥ 1`; the
loop runs at most `size_bytes` times. -/
def endian_reverse_common (arr : List Nat) (size_bytes : Nat) : List Nat :=
  endian_reverse_common_loop size_bytes 0 (sub_u64 size_bytes 1) arr

/-- Function `endian_reverse(arr, size)`; `size` is a size in bits. -/
def endian_reverse (arr : List Nat) (size : Nat) : List Nat :=
  endian_reverse_common arr ((sub_u64 size 1) / CHAR_BIT + 1)

/-- Function `endian_reverse_copy(arr, size)`; `size` is a size in bits and the
copy holds `((size - 1) / CHAR_BIT) + 1` bytes. -/
def endian_reverse_copy (arr : List Nat) (size : Nat) : List Nat :=
  let size_bytes := (sub_u64 size 1) / CHAR_BIT + 1
  endian_reverse_common (arr.take size_bytes) size_bytes

/-- The loop of the `ENDIAN_BOTH` branch of `ptn_group_modify`, `k` iterations left. -/
def ptn_group_modify_both (h : host) (esl : Nat) : Nat → Nat → List birch_ptn → List birch_ptn
  | 0, _, group => group
  | k + 1, from_, group =>
    let to_ := from_ + esl
    let src := ptn_at h group from_
    let dst := ptn_at h group to_
    ptn_group_modify_both h esl k (from_ + 1)
      (group.set to_
        { dst with
          ptn := endian_reverse_copy src.ptn src.size_bytes
          mask := endian_reverse_copy src.mask src.size_bytes
          offs := src.offs
          size := src.size
          size_bytes := src.size_bytes })

/-- The loop of the `endian != type_endian` branch of `ptn_group_modify`. -/
def ptn_group_modify_reverse (h : host) : Nat → Nat → List birch_ptn → List birch_ptn
  | 0, _, group => group
  | k + 1, i, group =>
    let p := ptn_at h group i
    ptn_group_modify_reverse h k (i + 1)
      (group.set i
        { p with
          ptn := endian_reverse p.ptn p.size_bytes
          mask := endian_reverse p.mask p.size_bytes })

/-- Function `ptn_group_modify(group, alignment, endian, type_endian)` on the slots
from the base variant on. -/
def ptn_group_modify (h : host) (group : List birch_ptn) (al : alignment) (en type_endian : endian) :
    List birch_ptn :=
  let group := if al = ALIGNMENT_UNALIGNED then ptn_unalign h group else group
  let esl := if al = ALIGNMENT_UNALIGNED then CHAR_BIT else 1
  if en = ENDIAN_BOTH then ptn_group_modify_both h esl esl 0 group
  else if en ≠ type_endian then ptn_group_modify_reverse h esl 0 group
  else group

/-- The bytes of a C string with its terminating NUL, as copied by `strncpy`. -/
def c_string_bytes (s : List Char) : List Nat :=
  s.map (fun c => c.toNat % 256) ++ [0]

/-- Function `group_add_ptn(group, arg_str, type, alignment, endian, size)`: the
return code and the group afterwards.  `none` is a crash (`malloc_safe(0, 1)`)
or undefined behaviour inside `bit_arr_from_str`. -/
def group_add_ptn (h : host) (group : birch_ptn_group) (arg_str : List Char) (type : data_type)
    (al : alignment) (en : endian) (size : Nat) : Option (Int × birch_ptn_group) :=
  let prev_group_size := group.ptns.length
  let added :=
    if en = ENDIAN_BOTH ∧ type ≠ DATA_TYPE_STRING then
      (if al = ALIGNMENT_UNALIGNED then CHAR_BIT <<< 1 else 2)
    else if al = ALIGNMENT_UNALIGNED then CHAR_BIT
    else 1
  let tmp := group.ptns ++ List.replicate added h.uninit
  let size_bytes := ((size + (CHAR_BIT - 1)) % 2 ^ 64) / CHAR_BIT
  match ptn_mask_gen size size_bytes with
  | none => none
  | some mask =>
    let ptn : birch_ptn :=
      { h.uninit with
        mask := mask, offs := 0, size := size, size_bytes := size_bytes, arg_str := arg_str,
        type := type, alignment := al, endian := en }
    let finish := fun (ptn : birch_ptn) (modify : List birch_ptn → List birch_ptn) =>
      { group with ptns := tmp.take prev_group_size ++ modify ((tmp.drop prev_group_size).set 0 ptn) }
    match type with
    | DATA_TYPE_INTEGER =>
      match bit_arr_from_str arg_str size_bytes with
      | .out_of_bounds => none
      | .null => some (-1, finish { ptn with ptn := [] } id)
      | .arr bytes =>
        some (0, finish { ptn with ptn := bytes }
          (fun slots => ptn_group_modify h slots al en ENDIAN_LITTLE))
    | DATA_TYPE_FLOAT =>
      if size = 4 * CHAR_BIT then
        let (bytes, whole) := h.strtof arg_str
        if ¬ whole then some (-1, finish { ptn with ptn := bytes } id)
        else
          some (0, finish { ptn with ptn := bytes }
            (fun slots => ptn_group_modify h slots al en h.ENDIAN_NATIVE))
      else if size = 8 * CHAR_BIT then
        let (bytes, whole) := h.strtod arg_str
        if ¬ whole then some (-1, finish { ptn with ptn := bytes } id)
        else
          some (0, finish { ptn with ptn := bytes }
            (fun slots => ptn_group_modify h slots al en h.ENDIAN_NATIVE))
      else some (-2, finish ptn id)
    | DATA_TYPE_STRING =>
      if arg_str.length < ptn.size_bytes then some (-1, finish ptn id)
      else
        some (0, finish { ptn with ptn := c_string_bytes arg_str }
          (fun slots => if al = ALIGNMENT_UNALIGNED then ptn_unalign h slots else slots))

/-- Function `factorial(n)` in `size_t` arithmetic. -/
def factorial : Nat → Nat → Nat
  | 0, r => r
  | n + 1, r => factorial n ((r * (n + 1)) % 2 ^ 64)

/-- Function `combinations2(groups)`.  A division by a divisor that is zero
modulo `2 ^ 64`, undefined in C, gives 0 here; the divisor is nonzero for fewer
than 66 groups. -/
def combinations2 (groups : birch_ptn_groups) : Nat :=
  let size := groups.groups.length
  if size < 2 then 1
  else factorial size 1 / ((factorial (size - 2) 1 <<< 1) % 2 ^ 64)

/-- Function `result_from_groups(to, from)`. -/
def result_from_groups (from_ : birch_ptn_groups) : birch_ptn_groups :=
  { groups := from_.groups.map (fun group_from =>
      { ptns := group_from.ptns, cur_match := null_match })
    match_dist := { from_.match_dist with nexist := (from_.match_dist.nexist + 1) % 2 ^ 64 } }

/-- The lines of `parse_args` that set the initial distance of the groups state. -/
def parse_args_init_dist (groups : birch_ptn_groups) : birch_ptn_groups :=
  { groups with
    match_dist := { nexist := combinations2 groups, dir_diff := 0, file_diff := 0, offs_diff := 0 } }

/-- The loop of `main` that allocates and initialises the `results_size` results. -/
def results_init (groups : birch_ptn_groups) (results_size : Nat) : List birch_ptn_groups :=
  List.replicate results_size (result_from_groups groups)

/-! ## Concrete inputs used by the examples -/

/-- A little-endian host whose `realloc` hands out zeroed slots.  Its float
conversions are stubs that consume no character; no example compiles a float
pattern. -/
def example_host : host :=
  { ENDIAN_NATIVE := ENDIAN_LITTLE
    strtof := (fun _ => ([0, 0, 0, 0], false))
    strtod := (fun _ => ([0, 0, 0, 0, 0, 0, 0, 0], false))
    uninit := birch_ptn.mk [] DATA_TYPE_INTEGER ALIGNMENT_UNALIGNED ENDIAN_LITTLE [] [] 0 0 0 0 }

/-- The group `parse_args` creates before it adds the first pattern to it. -/
def new_group : birch_ptn_group := { ptns := [], cur_match := null_match }

/-- The groups state `parse_args` returns for a command line with one pattern per
group: each spec compiled into a new group, then the initial distance set.  A
spec that fails to compile makes the whole result `none`. -/
def compile_groups (h : host) :
    List (List Char × data_type × alignment × endian × Nat) → Option (List birch_ptn_group)
  | [] => some []
  | (arg_str, type, al, en, size) :: rest =>
    match group_add_ptn h new_group arg_str type al en size with
    | some (0, group) =>
      match compile_groups h rest with
      | some groups => some (group :: groups)
      | none => none
    | _ => none

/-- Scans one file after another with `birch_file`, as `dir_tree_search_dir` does
with the files of the tree; each file is its path address and its bytes. -/
def scan_files (mem : Nat → List Char) (results_size : Nat) :
    List (Nat × List Nat) → scan_state → Option scan_state
  | [], st => some st
  | (path, content) :: rest, st =>
    match birch_file mem st.results results_size path content st.groups with
    | none => none
    | some st => scan_files mem results_size rest st

/-- The state `main` starts the scan from: the groups as left by `parse_args` and
`results_size` results initialised by `result_from_groups`. -/
def scan_init (groups : List birch_ptn_group) (results_size : Nat) : scan_state :=
  let gs := parse_args_init_dist
    { groups := groups, match_dist := { nexist := 0, dir_diff := 0, file_diff := 0, offs_diff := 0 } }
  { groups := gs, results := results_init gs results_size }

/-- Runs `main` after argument parsing: compiles one group per spec and scans the
files; the result lists the current match of every group and, for every result
tuple, its matches and its distance. -/
def run_scan (h : host) (mem : Nat → List Char)
    (specs : List (List Char × data_type × alignment × endian × Nat)) (results_size : Nat)
    (files : List (Nat × List Nat)) :
    Option (List birch_match × match_dist_t × List (List birch_match × match_dist_t)) :=
  match compile_groups h specs with
  | none => none
  | some groups =>
    match scan_files mem results_size files (scan_init groups results_size) with
    | none => none
    | some st =>
      some (st.groups.groups.map (fun g => g.cur_match), st.groups.match_dist,
        st.results.map (fun r => (r.groups.map (fun g => g.cur_match), r.match_dist)))

/-! ## Predicates of the claims -/

/-- The test `b & ~m == 0` on two `unsigned char` values: no bit of `b` lies
outside `m`. -/
def within_byte (b m : Nat) : Prop := b &&& (m ^^^ 0xff) = 0

instance (b m : Nat) : Decidable (within_byte b m) := by unfold within_byte; infer_instance

/-- Mask consistency of a variant: `bytes[i] & ~mask[i] == 0` for every
`i < size_bytes`, both buffers holding at least `size_bytes` bytes. -/
def ptn_within_mask (p : birch_ptn) : Prop :=
  ∀ i, i < p.size_bytes →
    i < p.ptn.length ∧ i < p.mask.length ∧ within_byte (p.ptn.getD i 0) (p.mask.getD i 0)

instance (p : birch_ptn) : Decidable (ptn_within_mask p) := by
  unfold ptn_within_mask; infer_instance

/-- Two bytes, the first within the second as a mask. -/
def byte_ok (a m : Nat) : Prop := a < 256 ∧ m < 256 ∧ within_byte a m

/-- Well-formedness of a shift variant: `size_bytes` covers `offs + size` bits,
both buffers hold `size_bytes` bytes and every pattern byte lies within its
mask byte. -/
def variant_ok (p : birch_ptn) : Prop :=
  1 ≤ p.size ∧ p.size + 16 < 2 ^ 64 ∧ p.offs ≤ 7 ∧
    p.size_bytes = (p.size + p.offs - 1) / 8 + 1 ∧
    p.size_bytes ≤ p.ptn.length ∧ p.size_bytes ≤ p.mask.length ∧
    List.Forall₂ byte_ok (p.ptn.take p.size_bytes) (p.mask.take p.size_bytes)

/-- The variants `ptn_unalign` writes after the slot `prev`: `k` successive
applications of the loop body, each to a slot holding `cur`. -/
def unalign_chain (cur : birch_ptn) : Nat → birch_ptn → List birch_ptn
  | 0, _ => []
  | k + 1, prev => ptn_unalign_step prev cur :: unalign_chain cur k (ptn_unalign_step prev cur)

/-- The variant after the in-place reversal of the `endian != type_endian` branch
of `ptn_group_modify`. -/
def ptn_reversed (p : birch_ptn) : birch_ptn :=
  { p with ptn := endian_reverse p.ptn p.size_bytes, mask := endian_reverse p.mask p.size_bytes }

/-- The eight shift variants compiled for the unaligned little-endian 8-bit integer
pattern `0x11` (`-iul 8 0x11`): bytes, mask, `offs`, `size_bytes`. -/
def example_unaligned_ptns : List birch_ptn :=
  [([0x11], [0xff], 0, 1), ([0x22, 0x00], [0xfe, 0x01], 1, 2), ([0x44, 0x00], [0xfc, 0x03], 2, 2),
    ([0x88, 0x00], [0xf8, 0x07], 3, 2), ([0x10, 0x01], [0xf0, 0x0f], 4, 2),
    ([0x20, 0x02], [0xe0, 0x1f], 5, 2), ([0x40, 0x04], [0xc0, 0x3f], 6, 2),
    ([0x80, 0x08], [0x80, 0x7f], 7, 2)].map
    (fun v => birch_ptn.mk "0x11".toList DATA_TYPE_INTEGER ALIGNMENT_UNALIGNED ENDIAN_LITTLE
      v.1 v.2.1 v.2.2.1 8 0 v.2.2.2)

/-- Lexicographic order on distance vectors, `nexist` most significant. -/
def dist_lt (a b : match_dist_t) : Prop :=
  a.nexist < b.nexist ∨ (a.nexist = b.nexist ∧
    (a.dir_diff < b.dir_diff ∨ (a.dir_diff = b.dir_diff ∧
      (a.file_diff < b.file_diff ∨ (a.file_diff = b.file_diff ∧ a.offs_diff < b.offs_diff)))))

/-- Lexicographic `≤` on distance vectors. -/
def dist_le (a b : match_dist_t) : Prop := dist_lt a b ∨ a = b

instance (a b : match_dist_t) : Decidable (dist_lt a b) := by unfold dist_lt; infer_instance

instance (a b : match_dist_t) : Decidable (dist_le a b) := by unfold dist_le; infer_instance

/-- The result list is sorted ascending by distance:
`distance(result[i]) ≤ distance(result[i + 1])` for every `i < K - 1`. -/
def results_sorted (results : List birch_ptn_groups) : Prop :=
  ∀ i, i < results.length - 1 →
    dist_le (result_at results i).match_dist (result_at results (i + 1)).match_dist

instance (results : List birch_ptn_groups) : Decidable (results_sorted results) := by
  unfold results_sorted; infer_instance

/-- A result tuple or groups state given by the current match of every group and
its distance; the variants play no part in `result_add`. -/
def example_tuple (ms : List birch_match) (d : match_dist_t) : birch_ptn_groups :=
  { groups := ms.map (fun m => { ptns := [], cur_match := m }), match_dist := d }

/-- Element `j` of the array `match_dist` (`enum match_dist_indices`). -/
def match_dist_t.get (d : match_dist_t) (j : Nat) : Nat :=
  match j with
  | 0 => d.nexist
  | 1 => d.dir_diff
  | 2 => d.file_diff
  | _ => d.offs_diff

/-- Element-wise sum of two distance vectors, without wrap-around. -/
def match_dist_t.add (a b : match_dist_t) : match_dist_t :=
  { nexist := a.nexist + b.nexist, dir_diff := a.dir_diff + b.dir_diff,
    file_diff := a.file_diff + b.file_diff, offs_diff := a.offs_diff + b.offs_diff }

/-- The zero distance vector. -/
def match_dist_zero : match_dist_t := { nexist := 0, dir_diff := 0, file_diff := 0, offs_diff := 0 }

/-- Element-wise sum of `pair_distance(x, m)` over the matches `x` of `others`. -/
def pair_distance_row (mem : Nat → List Char) (m : birch_match) : List birch_match → match_dist_t
  | [] => match_dist_zero
  | x :: others =>
    (ptn_group_match_dist_calc mem x m).add (pair_distance_row mem m others)

/-- Element-wise sum of `pair_distance` over the unordered pairs of distinct
groups, each pair counted once; `ms` lists the current match of every group. -/
def pair_distance_sum (mem : Nat → List Char) : List birch_match → match_dist_t
  | [] => match_dist_zero
  | m :: rest => (pair_distance_row mem m rest).add (pair_distance_sum mem rest)

/-- Element-wise sum of `pair_distance` over the ordered pairs of distinct groups:
every unordered pair counted twice. -/
def ordered_pair_distance_sum (mem : Nat → List Char) (ms : List birch_match) : match_dist_t :=
  (pair_distance_sum mem ms).add (pair_distance_sum mem ms)

/-- The current match of every group. -/
def current_matches (groups : birch_ptn_groups) : List birch_match :=
  groups.groups.map (fun g => g.cur_match)

/-- Memory of the examples: address 1 holds the path `d/x`, address 2 the path `d/y`. -/
def example_mem (a : Nat) : List Char :=
  if a = 1 then "d/x".toList else if a = 2 then "d/y".toList else []

/-- The aggregate distance of the groups state is, element by element and modulo
`2 ^ 64`, the sum of `pair_distance` over the unordered pairs of distinct
groups; every current match holds a 64-bit offset. -/
def dist_invariant (mem : Nat → List Char) (groups : birch_ptn_groups) : Prop :=
  (∀ m ∈ current_matches groups, m.offs < 2 ^ 64) ∧
  ∀ j, groups.match_dist.get j = (pair_distance_sum mem (current_matches groups)).get j % 2 ^ 64

/-- Two groups as `parse_args` leaves them for `-ial 8 0x12 -ial 8 0x78`: one
aligned 8-bit variant each, no current match. -/
def example_two_groups : List birch_ptn_group :=
  [{ ptns := [birch_ptn.mk "0x12".toList DATA_TYPE_INTEGER ALIGNMENT_ALIGNED ENDIAN_LITTLE
        [0x12] [0xff] 0 8 0 1], cur_match := null_match },
   { ptns := [birch_ptn.mk "0x78".toList DATA_TYPE_INTEGER ALIGNMENT_ALIGNED ENDIAN_LITTLE
        [0x78] [0xff] 0 8 0 1], cur_match := null_match }]

/-- The match taken most recently by group `g` in the history `H` of the matches
found so far, newest first; the null match when the group has none. -/
def latest_match (g : Nat) : List birch_match → birch_match
  | [] => null_match
  | m :: H => if m.ptn.map Prod.fst = some g then m else latest_match g H

/-- The match slots of `G` groups after the matches of the history `H`. -/
def snapshot (G : Nat) (H : List birch_match) : List birch_match :=
  (List.range G).map (fun g => latest_match g H)

/-- Two tuples of match slots share no non-null match in the same group. -/
def no_shared (a b : List birch_match) : Prop :=
  ∀ (h : Nat) (m : birch_match), a[h]? = some m → b[h]? = some m → m.ptn = none

/-- Dedup of a result list: no two distinct result tuples hold an identical
non-null match (same variant, same path, same bit offset) in the same group. -/
def results_dedup (results : List birch_ptn_groups) : Prop :=
  ∀ (i k h : Nat) (m : birch_match), i < results.length → k < results.length → i ≠ k →
    (current_matches (result_at results i))[h]? = some m →
    (current_matches (result_at results k))[h]? = some m → m.ptn = none

/-- The fields `offs` and `size` of the variant `v` of the group `g`. -/
def ptn_shape (groups : List birch_ptn_group) (g v : Nat) : Nat × Nat :=
  match groups[g]? with
  | none => (0, 0)
  | some group =>
    match group.ptns[v]? with
    | none => (0, 0)
    | some ptn => (ptn.offs, ptn.size)

/-- The match `birch_file` records when the variant `v` of the group `g`, of
fields `offs` and `size` given by `sh`, completes at the byte `j` of the file
at `path`. -/
def match_at (sh : Nat → Nat → Nat × Nat) (path j g v : Nat) : birch_match :=
  { ptn := some (g, v)
    path := path
    offs := (sub_u64 (((j * CHAR_BIT) % 2 ^ 64 + (sh g v).1) % 2 ^ 64) (sh g v).2
              + CHAR_BIT) % 2 ^ 64 }

/-- The match slots of every tuple of a result list. -/
def result_matches (results : List birch_ptn_groups) : List (List birch_match) :=
  results.map current_matches

/-- Every match of the history `H` was recorded at a byte below `2 ^ 61` of a
file of `done`, or of the file at `path` at a position of the scan before the
variant `v` of the group `g` at the byte `j`. -/
def history_before (sh : Nat → Nat → Nat × Nat) (done : List Nat) (path j g v : Nat)
    (H : List birch_match) : Prop :=
  ∀ m ∈ H, ∃ p j1 g1 v1, m = match_at sh p j1 g1 v1 ∧ j1 < 2 ^ 61 ∧
    (p ∈ done ∨ (p = path ∧ (j1 < j ∨ (j1 = j ∧ (g1 < g ∨ (g1 = g ∧ v1 < v))))))

/-- What the scan keeps true of its state when it is about to feed the byte `j`
of the file at `path` to the variant `v` of the group `g`, for a history `H`
of the matches found so far: the history has no repetition, the groups hold
the latest match of each group, every result tuple is the state after some
older part of the history, and the result tuples share no non-null match. -/
def scan_invariant (sh : Nat → Nat → Nat × Nat) (G K : Nat) (done : List Nat)
    (path j g v : Nat) (st : scan_state) : Prop :=
  j < 2 ^ 61 → ∃ H : List birch_match,
    H.Nodup ∧ history_before sh done path j g v H ∧
    current_matches st.groups = snapshot G H ∧
    (∀ c ∈ result_matches st.results, ∃ H1, H1 <:+ H ∧ c = snapshot G H1) ∧
    (result_matches st.results).Pairwise no_shared ∧ st.results.length = K ∧
    (∀ g1 v1, ptn_shape st.groups.groups g1 v1 = sh g1 v1)

/-- The bytes of a sequence fed one at a time through `ptn_match`, as the scan
loop of `birch_file` does for one variant: the values returned, in order. -/
def ptn_run : birch_ptn → List Nat → Option (List Nat)
  | _, [] => some []
  | ptn, c :: cs =>
    match ptn_match ptn c with
    | none => none
    | some (ptn, r) => (ptn_run ptn cs).map (fun rs => r :: rs)

/-- The `size_bytes` consecutive bytes of `text` ending at index `j` exist and
satisfy `(window[i] & mask[i]) == bytes[i]` for every `i < size_bytes`. -/
def window_match (ptn : birch_ptn) (text : List Nat) (j : Nat) : Prop :=
  ptn.size_bytes ≤ j + 1 ∧ j < text.length ∧
  ∀ i, i < ptn.size_bytes →
    (text.getD (j + 1 - ptn.size_bytes + i) 0 &&& ptn.mask.getD i 0) = ptn.ptn.getD i 0

instance (ptn : birch_ptn) (text : List Nat) (j : Nat) : Decidable (window_match ptn text j) := by
  unfold window_match; infer_instance

/-- The bit `p` of a byte sequence, the bits of each byte counted from the least
significant one (the order in which `lshift` moves a pattern through the
bytes). -/
def file_bit (content : List Nat) (p : Nat) : Bool :=
  (content.getD (p / CHAR_BIT) 0).testBit (p % CHAR_BIT)

/-- The payload of `size` bits held in the little-endian buffer `payload` occurs
in `content` with its first bit at the bit position `p`. -/
def payload_occurs (payload : List Nat) (size : Nat) (content : List Nat) (p : Nat) : Prop :=
  p + size ≤ CHAR_BIT * content.length ∧
  ∀ i, i < size → file_bit content (p + i) = file_bit payload i

instance (payload : List Nat) (size : Nat) (content : List Nat) (p : Nat) :
    Decidable (payload_occurs payload size content p) := by
  unfold payload_occurs; infer_instance

/-- The masks of a variant are nested: every bit of an earlier mask byte is also
in each later one.  This holds when every mask byte is `0xff`. -/
def masks_nested (p : birch_ptn) : Prop :=
  ∀ k i, k < i → i < p.size_bytes → p.mask.getD k 0 &&& p.mask.getD i 0 = p.mask.getD k 0

instance (p : birch_ptn) : Decidable (masks_nested p) := by
  unfold masks_nested
  exact decidable_of_iff (∀ i, i < p.size_bytes → ∀ k, k < i →
    p.mask.getD k 0 &&& p.mask.getD i 0 = p.mask.getD k 0)
    ⟨fun h k i hk hi => h i hi k hk, fun h i hi k hk => h k i hk hi⟩

/-- The last `q` bytes of the bytes fed so far (`hist`, newest first) pass the
mask test against the first `q` bytes of the variant. -/
def fits (p : birch_ptn) (hist : List Nat) (q : Nat) : Prop :=
  q ≤ hist.length ∧
  ∀ i, i < q → (hist.getD (q - 1 - i) 0 &&& p.mask.getD i 0) = p.ptn.getD i 0

/-- The cursor `q` is the longest one, up to `bound`, that fits the bytes fed. -/
def is_longest (p : birch_ptn) (hist : List Nat) (bound q : Nat) : Prop :=
  q ≤ bound ∧ fits p hist q ∧ ∀ q1, q1 ≤ bound → fits p hist q1 → q1 ≤ q

/-- The bytes `ptn[1..n]` that `ptn_match_backtrack` feeds, newest first. -/
def replay_hist (p : birch_ptn) : Nat → List Nat
  | 0 => []
  | n + 1 => p.ptn.getD (n + 1) 0 :: replay_hist p n

/-- The number of variants a pattern spec stands for: `CHAR_BIT` shifts when
Unaligned, doubled for endian Both unless the pattern is a String. -/
def variant_count (type : data_type) (al : alignment) (en : endian) : Nat :=
  (if al = ALIGNMENT_UNALIGNED then 8 else 1) *
    (if en = ENDIAN_BOTH ∧ type ≠ DATA_TYPE_STRING then 2 else 1)

/-- The length of the longest common prefix of two paths. -/
def common_prefix_length : List Char → List Char → Nat
  | a :: patha, b :: pathb => if a = b then common_prefix_length patha pathb + 1 else 0
  | _, _ => 0

/-- The loop of `results_print` from index `i` on: for every tuple printed, its
rank `i + 1`, its distance and the matches printed by `result_print` (those
with a variant); the loop stops at the first tuple whose `nexist` exceeds
`nexist_max`. -/
def results_print_loop (nexist_max : Nat) :
    List birch_ptn_groups → Nat → List (Nat × match_dist_t × List birch_match)
  | [], _ => []
  | result :: rest, i =>
    if result.match_dist.nexist > nexist_max then []
    else
      (i + 1, result.match_dist,
        (result.groups.map (fun g => g.cur_match)).filter (fun m => m.ptn ≠ none))
        :: results_print_loop nexist_max rest (i + 1)

/-- Function `results_print(results, results_size)`, for `results_size ≥ 1`: what
it prints. -/
def results_print (results : List birch_ptn_groups) (results_size : Nat) :
    List (Nat × match_dist_t × List birch_match) :=
  results_print_loop (combinations2 (result_at results 0)) (results.take results_size) 0

/-- The match slots and the distance of every tuple of a result list. -/
def result_contents (results : List birch_ptn_groups) :
    List (List birch_match × match_dist_t) :=
  results.map (fun r => (current_matches r, r.match_dist))

/-- A result tuple of `G` groups is either still without a match or holds a
distance that is, element by element and modulo `2 ^ 64`, the sum of
`pair_distance` over the unordered pairs of its matches. -/
def tuple_ok (mem : Nat → List Char) (G : Nat) (c : List birch_match × match_dist_t) : Prop :=
  c.1.length = G ∧
  ((∀ m ∈ c.1, m.ptn = none) ∨
    ∀ j, c.2.get j = (pair_distance_sum mem c.1).get j % 2 ^ 64)

/-- What the scan keeps true of its state with `G` groups and `K` results: the
aggregate distance of the groups state is the sum over the unordered pairs of
its matches, and so is the distance of every result tuple that holds a match. -/
def tuples_invariant (mem : Nat → List Char) (G K : Nat) (st : scan_state) : Prop :=
  st.groups.groups.length = G ∧ dist_invariant mem st.groups ∧ st.results.length = K ∧
  ∀ c ∈ result_contents st.results, tuple_ok mem G c

/-- Three groups as `parse_args` leaves them for `-ial 8 0x12 -ial 8 0x78 -ial 8
0x99`: one aligned 8-bit variant each, no current match. -/
def example_three_groups : List birch_ptn_group :=
  example_two_groups ++
    [{ ptns := [birch_ptn.mk "0x99".toList DATA_TYPE_INTEGER ALIGNMENT_ALIGNED ENDIAN_LITTLE
        [0x99] [0xff] 0 8 0 1], cur_match := null_match }]

/-- The scan state with a single group holding a single variant `p` at cursor
`q`, the current match `cm`, the aggregate distance `D` and the results `R`. -/
def single_state (p : birch_ptn) (q : Nat) (cm : birch_match) (D : match_dist_t)
    (R : List birch_ptn_groups) : scan_state :=
  { groups := { groups := [{ ptns := [{ p with index := q }], cur_match := cm }], match_dist := D }
    results := R }

instance (p : birch_ptn) (hist : List Nat) (q : Nat) : Decidable (fits p hist q) := by
  unfold fits; infer_instance

/-- A result tuple of a single group: the variants `ps`, the match `m` and the
distance `D`. -/
def single_tuple (ps : List birch_ptn) (m : birch_match) (D : match_dist_t) : birch_ptn_groups :=
  { groups := [{ ptns := ps, cur_match := m }], match_dist := D }

/-- The variant the aligned little-endian 32-bit integer pattern `0x78563412`
compiles to. -/
def example_aligned_ptn : birch_ptn :=
  birch_ptn.mk "0x78563412".toList DATA_TYPE_INTEGER ALIGNMENT_ALIGNED ENDIAN_LITTLE
    [0x12, 0x34, 0x56, 0x78] [0xff, 0xff, 0xff, 0xff] 0 32 0 4

/-- The aligned two-byte variant of the string pattern `aa` (`-sa 16 aa`), cursor
at 0. -/
def example_aa_ptn : birch_ptn :=
  birch_ptn.mk "aa".toList DATA_TYPE_STRING ALIGNMENT_ALIGNED ENDIAN_LITTLE
    [0x61, 0x61, 0] [0xff, 0xff] 0 16 0 2

/-- The distance of every tuple of a result list. -/
def result_dists (results : List birch_ptn_groups) : List match_dist_t :=
  results.map (fun r => r.match_dist)

/-- The result list after the groups states `states` have been offered through
`result_add`, in order. -/
def offer_all (results_size : Nat) (states : List birch_ptn_groups)
    (results : List birch_ptn_groups) : List birch_ptn_groups :=
  states.foldl (fun r S => result_add S r results_size) results

/-- A groups state of two groups before any match, as `parse_args` returns it. -/
def example_offered_groups : birch_ptn_groups :=
  example_tuple [null_match, null_match] ⟨1, 0, 0, 0⟩

/-- Two groups states offered in turn: matches 24 bits apart, then matches 8 bits
apart. -/
def example_offers : List birch_ptn_groups :=
  [example_tuple [⟨some (0, 0), 1, 8⟩, ⟨some (1, 0), 1, 32⟩] ⟨0, 0, 0, 24⟩,
    example_tuple [⟨some (0, 0), 1, 40⟩, ⟨some (1, 0), 1, 48⟩] ⟨0, 0, 0, 8⟩]

/-- The variant `v` is the shift by `k` bits of a base variant of `size` bits:
its `offs` is `k`, its `size` is unchanged, its `size_bytes` is
`⌈(size + k) / 8⌉`, and the first `size_bytes` bytes of its buffer `f v` (the
pattern bytes or the mask) are bytes whose little-endian value is `V * 2 ^ k`,
`V` being the value of the base buffer. -/
def shifted_by (f : birch_ptn → List Nat) (size V k : Nat) (v : birch_ptn) : Prop :=
  v.offs = k ∧ v.size = size ∧ v.size_bytes = (size + k + 7) / 8 ∧
    v.size_bytes ≤ (f v).length ∧ is_bytes ((f v).take v.size_bytes) ∧
    le_val ((f v).take v.size_bytes) = V * 2 ^ k

/-- The base variant `parse_args` compiles for the 8-bit integer pattern `0x11`
before `ptn_unalign` shifts it. -/
def example_base_ptn : birch_ptn :=
  birch_ptn.mk "0x11".toList DATA_TYPE_INTEGER ALIGNMENT_UNALIGNED ENDIAN_LITTLE [0x11] [0xff] 0 8 0 1

/-! ## birch_main.c: the argument parser -/

/-- The local variables of `parse_args` together with the roots and groups it
fills in; `groups` is the array `groups->groups`. -/
structure parse_state where
  roots : List (List Char)
  groups : List birch_ptn_group
  state : Nat
  alignment : alignment
  endian : endian
  data_type : data_type
  data_size : Nat
  group_link : Nat
  results_size : Nat

/-- What `parse_args` leaves behind: a crash inside `group_add_ptn`, the return
value -1, or the roots, the groups state and the returned `results_size`. -/
inductive parse_result where
  | crash
  | error
  | ok (roots : List (List Char)) (groups : birch_ptn_groups) (results_size : Nat)

/-- The loop `while (arg[j] != 0)` of `parse_args` over the characters of a flag
argument from index `j` on; what it prints is left out.  `none` is the
`return -1` of an unrecognised flag. -/
def parse_args_flags (h : host) : List Char → Nat → parse_state → Option parse_state
  | [], _, st => some st
  | c :: rest, endian_set, st =>
    if c = 'h' then parse_args_flags h rest endian_set st
    else if c = 'u' then
      parse_args_flags h rest endian_set { st with alignment := ALIGNMENT_UNALIGNED, state := 1 }
    else if c = 'a' then
      parse_args_flags h rest endian_set { st with alignment := ALIGNMENT_ALIGNED, state := 1 }
    else if c = 'l' then
      parse_args_flags h rest 1
        { st with
          endian := if endian_set = 0 then ENDIAN_LITTLE
            else if st.endian ≠ ENDIAN_LITTLE then ENDIAN_BOTH else st.endian
          state := 1 }
    else if c = 'b' then
      parse_args_flags h rest 1
        { st with
          endian := if endian_set = 0 then ENDIAN_BIG
            else if st.endian ≠ ENDIAN_BIG then ENDIAN_BOTH else st.endian
          state := 1 }
    else if c = 'n' then
      parse_args_flags h rest 1
        { st with
          endian := if endian_set = 0 then h.ENDIAN_NATIVE
            else if st.endian ≠ h.ENDIAN_NATIVE then ENDIAN_BOTH else st.endian
          state := 1 }
    else if c = 'i' then
      parse_args_flags h rest endian_set { st with data_type := DATA_TYPE_INTEGER, state := 1 }
    else if c = 's' then
      parse_args_flags h rest endian_set { st with data_type := DATA_TYPE_STRING, state := 1 }
    else if c = 'f' then
      parse_args_flags h rest endian_set { st with data_type := DATA_TYPE_FLOAT, state := 1 }
    else if c = 'g' then parse_args_flags h rest endian_set { st with group_link := 1 }
    else if c = 'r' then parse_args_flags h rest endian_set { st with state := 3 }
    else none

/-- The branch `/* search patterns */` of `parse_args` for the pattern value
`arg`: a new group is appended when `group_link == 0` or there is no group,
otherwise `group_link` is cleared; the pattern is then added to the last group.
The outer `none` is a crash inside `group_add_ptn`, the inner one the
`return -1` of a pattern that does not compile. -/
def parse_args_pattern (h : host) (arg : List Char) (st : parse_state) :
    Option (Option parse_state) :=
  let st :=
    if st.group_link = 0 ∨ st.groups.length = 0 then { st with groups := st.groups ++ [new_group] }
    else { st with group_link := 0 }
  match group_add_ptn h (st.groups.getD (st.groups.length - 1) new_group) arg st.data_type
      st.alignment st.endian st.data_size with
  | none => none
  | some (rc, group) =>
    if rc ≠ 0 then some none
    else some (some { st with groups := st.groups.set (st.groups.length - 1) group, state := 0 })

/-- The body of the loop `while (i < argc)` of `parse_args` for the argument
`arg`; `strtol` gives the value of `strtol(arg, 0, 0)` as converted to the
unsigned variable it is assigned to. -/
def parse_args_arg (h : host) (strtol : List Char → Nat) (arg : List Char) (st : parse_state) :
    Option (Option parse_state) :=
  match arg with
  | '-' :: flags => some (parse_args_flags h flags 0 st)
  | _ =>
    if st.state = 0 then some (some { st with roots := st.roots ++ [arg] })
    else if st.state = 1 then some (some { st with data_size := strtol arg, state := 2 })
    else if st.state = 3 then some (some { st with results_size := strtol arg, state := 0 })
    else parse_args_pattern h arg st

/-- The loop `while (i < argc)` of `parse_args` over the arguments left. -/
def parse_args_loop (h : host) (strtol : List Char → Nat) :
    List (List Char) → parse_state → Option (Option parse_state)
  | [], st => some (some st)
  | arg :: rest, st =>
    match parse_args_arg h strtol arg st with
    | none => none
    | some none => some none
    | some (some st) => parse_args_loop h strtol rest st

/-- Function `parse_args(roots, groups, argc, argv)`; `argv` starts with the
program name. -/
def parse_args (h : host) (strtol : List Char → Nat) (argv : List (List Char)) : parse_result :=
  if argv.length < 3 then .error
  else
    match parse_args_loop h strtol (argv.drop 1)
        { roots := [], groups := [], state := 0, alignment := ALIGNMENT_ALIGNED,
          endian := h.ENDIAN_NATIVE, data_type := DATA_TYPE_STRING, data_size := CHAR_BIT,
          group_link := 0, results_size := 1 } with
    | none => .crash
    | some none => .error
    | some (some st) =>
      .ok st.roots
        (parse_args_init_dist
          { groups := st.groups
            match_dist := { nexist := 0, dir_diff := 0, file_diff := 0, offs_diff := 0 } })
        st.results_size

/-- A `strtol` for the examples: the value of a string of decimal digits. -/
def example_strtol (s : List Char) : Nat :=
  s.foldl (fun n c => 10 * n + (c.toNat - '0'.toNat)) 0

/-- The pattern bytes of every variant of every group `parse_args` returns; the
empty list when it fails. -/
def parsed_group_bytes (r : parse_result) : List (List (List Nat)) :=
  match r with
  | .ok _ groups _ => groups.groups.map (fun g => g.ptns.map (fun p => p.ptn))
  | _ => []

/-- The command line of the examples: the program name, a root and the
arguments given. -/
def example_argv (args : List String) : List (List Char) :=
  "birch".toList :: "ROOT".toList :: args.map String.toList

/-- A groups state of `G` groups without variants, as far as `combinations2`
reads it: only the number of groups. -/
def groups_of_size (G : Nat) : birch_ptn_groups :=
  { groups := List.replicate G new_group
    match_dist := { nexist := 0, dir_diff := 0, file_diff := 0, offs_diff := 0 } }

/-! ## Theorems -/

/-! ### Byte buffers as little-endian numbers -/

theorem le_val_lt (arr : List Nat) (h : is_bytes arr) : le_val arr < 256 ^ arr.length := by
  induction arr with
  | nil => simp [le_val]
  | cons x xs ih =>
    have hx : x < 256 := h x (by simp)
    have hxs := ih (fun y hy => h y (by simp [hy]))
    simp only [le_val, List.length_cons, pow_succ]
    omega

theorem le_val_inj (a b : List Nat) (ha : is_bytes a) (hb : is_bytes b)
    (hl : a.length = b.length) (hv : le_val a = le_val b) : a = b := by
  induction a generalizing b with
  | nil =>
    cases b with
    | nil => rfl
    | cons y ys => simp at hl
  | cons x xs ih =>
    cases b with
    | nil => simp at hl
    | cons y ys =>
      have hx : x < 256 := ha x (by simp)
      have hy : y < 256 := hb y (by simp)
      simp only [le_val] at hv
      have h1 : x = y := by omega
      have h2 : le_val xs = le_val ys := by omega
      have := ih ys (fun z hz => ha z (by simp [hz])) (fun z hz => hb z (by simp [hz]))
        (by simpa using hl) h2
      rw [h1, this]

theorem le_val_replicate_zero (n : Nat) : le_val (List.replicate n 0) = 0 := by
  induction n with
  | zero => rfl
  | succ n ih => simp [List.replicate_succ, le_val, ih]

theorem is_bytes_replicate_zero (n : Nat) : is_bytes (List.replicate n 0) := by
  intro x hx
  rw [List.mem_replicate] at hx
  omega

theorem le_val_append (a b : List Nat) : le_val (a ++ b) = le_val a + 256 ^ a.length * le_val b := by
  induction a with
  | nil => simp [le_val]
  | cons x xs ih =>
    have e : (x :: xs) ++ b = x :: (xs ++ b) := rfl
    rw [e]
    simp only [le_val, ih, List.length_cons, pow_succ]
    ring

theorem le_val_take_succ (arr : List Nat) (i : Nat) (h : i < arr.length) :
    le_val (arr.take (i + 1)) = le_val (arr.take i) + 256 ^ i * arr[i] := by
  rw [List.take_succ, le_val_append]
  simp [List.getElem?_eq_getElem h, le_val, List.length_take, Nat.min_eq_left (Nat.le_of_lt h)]

theorem is_bytes_take (arr : List Nat) (i : Nat) (h : is_bytes arr) : is_bytes (arr.take i) :=
  fun x hx => h x (List.mem_of_mem_take hx)

theorem add_mul_mod_mul (a b M : Nat) (ha : a < 256) :
    (a + 256 * b) % (256 * M) = a + 256 * (b % M) := by
  rw [Nat.mod_mul]
  have h1 : (a + 256 * b) % 256 = a := by omega
  have h2 : (a + 256 * b) / 256 = b := by omega
  rw [h1, h2]

theorem lshift_head (s cur prev : Nat) (hs0 : 0 < s) (hs : s < 8) (hp : prev < 256) :
    ((cur <<< s) ||| (prev >>> (CHAR_BIT - s))) % 256
      = (cur * 2 ^ s) % 256 + prev / 2 ^ (8 - s) := by
  have hq : prev >>> (CHAR_BIT - s) < 2 ^ s := by
    rw [Nat.shiftRight_eq_div_pow]
    unfold CHAR_BIT
    interval_cases s <;> omega
  rw [Nat.shiftLeft_eq, Nat.mul_comm cur, ← Nat.mul_add_lt_is_or hq, Nat.shiftRight_eq_div_pow]
  unfold CHAR_BIT
  interval_cases s <;> omega

theorem lshift_loop_spec (s : Nat) (hs0 : 0 < s) (hs : s < 8) :
    ∀ (arr : List Nat) (prev : Nat), is_bytes arr → prev < 256 →
      is_bytes (lshift_loop s arr prev) ∧ (lshift_loop s arr prev).length = arr.length ∧
      le_val (lshift_loop s arr prev)
        = (le_val arr * 2 ^ s + prev / 2 ^ (8 - s)) % 256 ^ arr.length := by
  intro arr
  induction arr with
  | nil =>
    intro prev _ hp
    refine ⟨by simp [lshift_loop, is_bytes], rfl, ?_⟩
    simp [lshift_loop, le_val, Nat.mod_one]
  | cons cur rest ih =>
    intro prev hb hp
    have hc : cur < 256 := hb cur (by simp)
    have hr : is_bytes rest := fun y hy => hb y (by simp [hy])
    obtain ⟨ib, il, iv⟩ := ih cur hr hc
    have hh := lshift_head s cur prev hs0 hs hp
    refine ⟨?_, by simp [lshift_loop, il], ?_⟩
    · intro x hx
      simp only [lshift_loop, List.mem_cons] at hx
      rcases hx with hx | hx
      · rw [hx]; exact Nat.mod_lt _ (by norm_num)
      · exact ib x hx
    · simp only [lshift_loop, le_val, List.length_cons, pow_succ]
      rw [iv, hh, Nat.mul_comm (256 ^ rest.length) 256]
      have hlt : (cur * 2 ^ s) % 256 + prev / 2 ^ (8 - s) < 256 := by
        interval_cases s <;> omega
      rw [← add_mul_mod_mul _ _ _ hlt]
      congr 1
      interval_cases s <;> omega

theorem add_uchar_carry_spec :
    ∀ (rest : List Nat), is_bytes rest → le_val rest + 1 < 256 ^ rest.length →
      ∃ r, add_uchar_carry rest = some r ∧ is_bytes r ∧ r.length = rest.length ∧
        le_val r = le_val rest + 1 := by
  intro rest
  induction rest with
  | nil => intro _ h; simp [le_val] at h
  | cons x xs ih =>
    intro hb h
    have hx : x < 256 := hb x (by simp)
    have hxs : is_bytes xs := fun y hy => hb y (by simp [hy])
    simp only [le_val, List.length_cons, pow_succ] at h
    by_cases hy : (x + 1) % 256 = 0
    · obtain ⟨r, hr, rb, rl, rv⟩ := ih hxs (by omega)
      refine ⟨(x + 1) % 256 :: r, by simp [add_uchar_carry, hy, hr], ?_, by simp [rl], ?_⟩
      · intro z hz
        simp only [List.mem_cons] at hz
        rcases hz with hz | hz
        · omega
        · exact rb z hz
      · simp only [le_val, rv]; omega
    · refine ⟨(x + 1) % 256 :: xs, by simp [add_uchar_carry, hy], ?_, by simp, ?_⟩
      · intro z hz
        simp only [List.mem_cons] at hz
        rcases hz with hz | hz
        · omega
        · exact hxs z hz
      · simp only [le_val]; omega

theorem add_uchar_spec (arr : List Nat) (c : Nat) (hb : is_bytes arr) (hc : c < 256)
    (h : le_val arr + c < 256 ^ arr.length) :
    ∃ r, add_uchar arr arr.length c = some r ∧ is_bytes r ∧ r.length = arr.length ∧
      le_val r = le_val arr + c := by
  cases arr with
  | nil =>
    refine ⟨[], by simp [add_uchar], hb, rfl, ?_⟩
    simp [le_val] at h ⊢
    omega
  | cons a0 rest =>
    have ha : a0 < 256 := hb a0 (by simp)
    have hrest : is_bytes rest := fun y hy => hb y (by simp [hy])
    have hrl := le_val_lt rest hrest
    simp only [le_val, List.length_cons, pow_succ] at h
    have hbyte : ∀ r, is_bytes r → is_bytes ((a0 + c) % 256 :: r) := by
      intro r hr z hz
      simp only [List.mem_cons] at hz
      rcases hz with hz | hz
      · omega
      · exact hr z hz
    by_cases h1 : rest.length + 1 = 1
    · have hl0 : rest.length = 0 := by omega
      have hrest0 : rest = [] := List.length_eq_zero.mp hl0
      subst hrest0
      refine ⟨(a0 + c) % 256 :: [], by simp [add_uchar], hbyte [] hrest, rfl, ?_⟩
      simp [le_val] at h ⊢
      omega
    · by_cases h2 : (a0 + c) % 256 < c
      · obtain ⟨r, hr, rb, rl, rv⟩ := add_uchar_carry_spec rest hrest (by omega)
        refine ⟨(a0 + c) % 256 :: r, by simp [add_uchar, h1, h2, hr], hbyte r rb, by simp [rl], ?_⟩
        simp only [le_val, rv]; omega
      · refine ⟨(a0 + c) % 256 :: rest, by simp [add_uchar, h1, h2], hbyte rest hrest, by simp, ?_⟩
        simp only [le_val]
        omega

theorem mod_mul_left_add (t D y m : Nat) (ht : t < D) :
    (t + D * y) % (D * m) = t + D * (y % m) := by
  have hD : 0 < D := by omega
  rw [Nat.mod_mul, Nat.add_mul_mod_self_left, Nat.mod_eq_of_lt ht, Nat.add_mul_div_left _ _ hD,
    Nat.div_eq_of_lt ht, Nat.zero_add]

theorem shl_mod_or_shr (k cur prv : Nat) (hk0 : 0 < k) (hk : k < 8) (hp : prv < 256) :
    ((cur <<< k) % 256) ||| (prv >>> (CHAR_BIT - k)) = (cur * 2 ^ k) % 256 + prv / 2 ^ (8 - k) := by
  have hq : prv >>> (CHAR_BIT - k) < 2 ^ k := by
    rw [Nat.shiftRight_eq_div_pow]
    unfold CHAR_BIT
    interval_cases k <;> omega
  have e1 : (cur <<< k) % 256 = 2 ^ k * (cur % 2 ^ (8 - k)) := by
    rw [Nat.shiftLeft_eq]
    interval_cases k <;> omega
  rw [e1, ← Nat.mul_add_lt_is_or hq, Nat.shiftRight_eq_div_pow]
  unfold CHAR_BIT
  interval_cases k <;> omega

theorem mul_10_sum_spec (arr : List Nat) (index cin s1 s3 : Nat) (hcin : cin ≤ 1)
    (h1 : s1 < 256) (h3 : s3 < 256) :
    mul_10_sum arr index cin s1 s3
      = (arr.set index ((cin + s1 + s3) % 256), (cin + s1 + s3) / 256) := by
  unfold mul_10_sum
  have e1 : ((cin + s1) % 256 + s3) % 256 = (cin + s1 + s3) % 256 := by omega
  simp only [e1]
  congr 1
  by_cases c1 : (cin + s1) % 256 < s1
  · by_cases c2 : (cin + s1 + s3) % 256 < s3
    · exfalso; omega
    · simp only [c1, c2, if_true, if_false]
      have : (cin + s1 + s3) / 256 = 1 := by omega
      rw [this]; rfl
  · by_cases c2 : (cin + s1 + s3) % 256 < s3
    · simp only [c1, c2, if_true, if_false]
      have : (cin + s1 + s3) / 256 = 1 := by omega
      rw [this]; rfl
    · simp only [c1, c2, if_true, if_false]
      have : (cin + s1 + s3) / 256 = 0 := by omega
      rw [this]; rfl

/-- Arithmetic of one byte position of the multiplication by `k` (2 or 8). -/
theorem mul_step_arith (k T D p a : Nat) (hk : k = 2 ∨ k = 8) (hT : T < D) (hp : p < 256) :
    (k * (T + D * p + D * 256 * a)) % (D * 256 * 256)
      = (k * (T + D * p)) % (D * 256) + D * 256 * ((a * k) % 256 + p / (256 / k)) := by
  have hD : 0 < D := by omega
  have hdm := Nat.div_add_mod (k * T) D
  have hmlt := Nat.mod_lt (k * T) hD
  have he : k * T / D < k := by
    apply Nat.div_lt_of_lt_mul
    rw [Nat.mul_comm D k]
    rcases hk with hk | hk <;> subst hk <;> omega
  generalize k * T / D = e at *
  generalize k * T % D = t at *
  have hkT : k * T = t + D * e := by omega
  have x1 : k * (T + D * p) = t + D * (e + k * p) := by
    rw [Nat.mul_add, hkT]; ring
  have x2 : k * (T + D * p + D * 256 * a) = t + D * (e + k * p + 256 * (k * a)) := by
    rw [Nat.mul_add, Nat.mul_add, hkT]; ring
  rw [x1, x2, Nat.mul_assoc D 256 256, mod_mul_left_add _ _ _ _ hmlt,
    mod_mul_left_add _ _ _ _ hmlt]
  have key : (e + k * p + 256 * (k * a)) % (256 * 256)
      = (e + k * p) % 256 + 256 * ((a * k) % 256 + p / (256 / k)) := by
    rcases hk with hk | hk <;> subst hk <;> omega
  rw [key]; ring

theorem take_set_same (l : List Nat) (n a : Nat) : (l.set n a).take n = l.take n :=
  List.ext_getElem? fun i => by
    rw [List.getElem?_take, List.getElem?_take]
    split
    · next h => rw [List.getElem?_set_ne (by omega)]
    · rfl

theorem mul_10_spec :
    ∀ (i : Nat) (arr : List Nat), i < arr.length → is_bytes arr →
      ∃ arr1 c, mul_10 arr i = some (arr1, c) ∧ arr1.length = arr.length ∧ is_bytes arr1 ∧
        c ≤ 1 ∧ arr1.drop (i + 1) = arr.drop (i + 1) ∧
        le_val (arr1.take (i + 1)) + c * 256 ^ (i + 1)
          = (2 * le_val (arr.take (i + 1))) % 256 ^ (i + 1)
            + (8 * le_val (arr.take (i + 1))) % 256 ^ (i + 1) := by
  intro i
  induction i with
  | zero =>
    intro arr hi hb
    cases arr with
    | nil => simp at hi
    | cons a rest =>
      have ha : a < 256 := hb a (by simp)
      have e1 : (a <<< 1) % 256 < 256 := Nat.mod_lt _ (by norm_num)
      have e3 : (a <<< 3) % 256 < 256 := Nat.mod_lt _ (by norm_num)
      refine ⟨_, _, by simp [mul_10, mul_10_sum_spec _ _ _ _ _ (Nat.zero_le 1) e1 e3]; exact ⟨rfl, rfl⟩,
        by simp, ?_, ?_, by simp, ?_⟩
      · intro z hz
        simp only [List.set_cons_zero, List.mem_cons] at hz
        rcases hz with hz | hz
        · rw [hz]; exact Nat.mod_lt _ (by norm_num)
        · exact hb z (by simp [hz])
      · omega
      · simp only [List.set_cons_zero, List.take_succ_cons, List.take_zero, le_val,
          Nat.shiftLeft_eq, Nat.zero_add, pow_one, Nat.mul_zero, Nat.add_zero]
        rw [Nat.add_mod (a * 2) (a * 2 ^ 3), Nat.mul_comm a 2, Nat.mul_comm a (2 ^ 3)]
        have e8 : (2 : Nat) ^ 3 = 8 := by norm_num
        rw [e8]
        generalize 2 * a % 256 = x
        generalize 8 * a % 256 = y
        omega
  | succ i ih =>
    intro arr hi hb
    have hi1 : i < arr.length := by omega
    obtain ⟨arr1, cin, hm, hl, hb1, hc, hd, hv⟩ := ih arr hi1 hb
    have hcur : arr[i + 1] < 256 := hb _ (List.getElem_mem _)
    have hprv : arr[i] < 256 := hb _ (List.getElem_mem _)
    have s1 : arr[i + 1] <<< 1 % 256 ||| arr[i] >>> (CHAR_BIT - 1)
        = (arr[i + 1] * 2) % 256 + arr[i] / (256 / 2) := by
      rw [shl_mod_or_shr 1 arr[i + 1] arr[i] (by norm_num) (by norm_num) hprv]
      norm_num
    have s3 : arr[i + 1] <<< 3 % 256 ||| arr[i] >>> (CHAR_BIT - 3)
        = (arr[i + 1] * 8) % 256 + arr[i] / (256 / 8) := by
      rw [shl_mod_or_shr 3 arr[i + 1] arr[i] (by norm_num) (by norm_num) hprv]
      norm_num
    have hTlt := le_val_lt (arr.take i) (is_bytes_take arr i hb)
    rw [List.length_take, Nat.min_eq_left (Nat.le_of_lt hi1)] at hTlt
    have hV := le_val_take_succ arr i hi1
    have hV2 := le_val_take_succ arr (i + 1) hi
    have a2 := mul_step_arith 2 (le_val (arr.take i)) (256 ^ i) arr[i] arr[i + 1] (Or.inl rfl)
      hTlt hprv
    have a8 := mul_step_arith 8 (le_val (arr.take i)) (256 ^ i) arr[i] arr[i + 1] (Or.inr rfl)
      hTlt hprv
    generalize hu : (arr[i + 1] * 2) % 256 + arr[i] / (256 / 2) = u at s1 a2
    generalize hw : (arr[i + 1] * 8) % 256 + arr[i] / (256 / 8) = w at s3 a8
    have s1lt : u < 256 := by omega
    have s3lt : w < 256 := by omega
    refine ⟨arr1.set (i + 1) ((cin + u + w) % 256), (cin + u + w) / 256, ?_, by simp [hl],
      ?_, ?_, ?_, ?_⟩
    · simp only [mul_10, List.getElem?_eq_getElem hi, List.getElem?_eq_getElem hi1, hm, s1, s3,
        mul_10_sum_spec _ _ _ _ _ hc s1lt s3lt]
    · intro z hz
      rcases List.mem_or_eq_of_mem_set hz with hz | hz
      · exact hb1 z hz
      · rw [hz]; exact Nat.mod_lt _ (by norm_num)
    · omega
    · rw [List.drop_set_of_lt _ _ (by omega)]
      have := congrArg (List.drop 1) hd
      simpa [List.drop_drop, Nat.add_comm] using this
    · have hi' : i + 1 < (arr1.set (i + 1) ((cin + u + w) % 256)).length := by
        simp [hl]; omega
      rw [le_val_take_succ _ (i + 1) hi', take_set_same,
        List.getElem_set_self, hV2, hV]
      rw [hV] at hv
      have p1 : (256 : Nat) ^ (i + 1 + 1) = 256 ^ i * 256 * 256 := by ring
      have p2 : (256 : Nat) ^ (i + 1) = 256 ^ i * 256 := by ring
      rw [p1]
      rw [p2] at hv ⊢
      rw [a2, a8]
      generalize le_val (List.take (i + 1) arr1) = W at *
      generalize (2 * (le_val (List.take i arr) + 256 ^ i * arr[i])) % (256 ^ i * 256) = X2 at *
      generalize (8 * (le_val (List.take i arr) + 256 ^ i * arr[i])) % (256 ^ i * 256) = X8 at *
      generalize (256 : Nat) ^ i * 256 = M at *
      have := Nat.div_add_mod (cin + u + w) 256
      have e : W + M * ((cin + u + w) % 256) + (cin + u + w) / 256 * (M * 256)
          = W + M * (256 * ((cin + u + w) / 256) + (cin + u + w) % 256) := by ring
      rw [e, this]
      have : W + M * (cin + u + w) = (W + cin * M) + M * u + M * w := by ring
      rw [this, hv]; ring

theorem mul_10_full (arr : List Nat) (hn : 1 ≤ arr.length) (hb : is_bytes arr) :
    ∃ arr1 c, mul_10 arr (arr.length - 1) = some (arr1, c) ∧ arr1.length = arr.length ∧
      is_bytes arr1 ∧ le_val arr1 = (10 * le_val arr) % 256 ^ arr.length := by
  obtain ⟨arr1, c, hm, hl, hb1, _, _, hv⟩ := mul_10_spec (arr.length - 1) arr (by omega) hb
  refine ⟨arr1, c, hm, hl, hb1, ?_⟩
  have e : arr.length - 1 + 1 = arr.length := by omega
  rw [e] at hv
  have t1 : arr1.take arr.length = arr1 := List.take_of_length_le (by omega)
  have t2 : arr.take arr.length = arr := List.take_of_length_le (by omega)
  rw [t1, t2] at hv
  have hlt := le_val_lt arr1 hb1
  rw [hl] at hlt
  have h1 : (le_val arr1 + c * 256 ^ arr.length) % 256 ^ arr.length = le_val arr1 := by
    rw [Nat.add_mul_mod_self_right, Nat.mod_eq_of_lt hlt]
  rw [← h1, hv, ← Nat.add_mod]
  congr 1
  ring

theorem foldl_digits_ge (B : Nat) (hB : 1 ≤ B) (f : Char → Nat) :
    ∀ (ds : List Char) (w : Nat), w ≤ ds.foldl (fun acc c => acc * B + f c) w := by
  intro ds
  induction ds with
  | nil => intro w; exact Nat.le_refl _
  | cons c cs ih =>
    intro w
    simp only [List.foldl_cons]
    have h1 : w ≤ w * B + f c := by nlinarith
    exact Nat.le_trans h1 (ih _)

theorem lshift_eq_loop (arr : List Nat) (k : Nat) (hk : k ≠ 0) :
    lshift arr arr.length k = lshift_loop k arr 0 := by
  unfold lshift
  cases arr with
  | nil => simp [lshift_loop]
  | cons a rest => simp [hk]

theorem from_str_loop_spec (k maxc : Nat) (hk0 : 0 < k) (hk : k < 8) (hm : maxc < 256) :
    ∀ (ds : List Char) (arr : List Nat), is_bytes arr → (∀ c ∈ ds, hex_to_nibble c ≤ maxc) →
      ds.foldl (fun acc c => acc * 2 ^ k + hex_to_nibble c) (le_val arr) < 256 ^ arr.length →
      ∃ r, from_str_loop arr.length k maxc ds arr = .arr r ∧ is_bytes r ∧
        r.length = arr.length ∧
        le_val r = ds.foldl (fun acc c => acc * 2 ^ k + hex_to_nibble c) (le_val arr) := by
  intro ds
  induction ds with
  | nil => intro arr hb _ _; exact ⟨arr, rfl, hb, rfl, rfl⟩
  | cons c cs ih =>
    intro arr hb hd hv
    simp only [List.foldl_cons] at hv ⊢
    have hc : hex_to_nibble c ≤ maxc := hd c (by simp)
    have hge := foldl_digits_ge (2 ^ k) (Nat.one_le_two_pow) hex_to_nibble cs
      (le_val arr * 2 ^ k + hex_to_nibble c)
    obtain ⟨sb, sl, sv⟩ := lshift_loop_spec k hk0 hk arr 0 hb (by norm_num)
    rw [Nat.zero_div, Nat.add_zero, Nat.mod_eq_of_lt (by omega)] at sv
    obtain ⟨r1, hr1, rb1, rl1, rv1⟩ := add_uchar_spec (lshift_loop k arr 0) (hex_to_nibble c) sb
      (by omega) (by rw [sv, sl]; omega)
    have hv' : cs.foldl (fun acc c => acc * 2 ^ k + hex_to_nibble c) (le_val r1)
        < 256 ^ r1.length := by rw [rv1, sv, rl1, sl]; exact hv
    obtain ⟨r, hr, rb, rl, rv⟩ := ih r1 rb1 (fun d hd' => hd d (by simp [hd'])) hv'
    refine ⟨r, ?_, rb, by rw [rl, rl1, sl], by rw [rv, rv1, sv]⟩
    rw [rl1, sl] at hr
    rw [sl] at hr1
    simp only [from_str_loop, lshift_eq_loop arr k (by omega), hr1, hr]
    simp [Nat.not_lt.mpr hc]

theorem from_str_dec_loop_spec (n : Nat) (hn : 1 ≤ n) (hn64 : n < 2 ^ 64) :
    ∀ (ds : List Char) (arr : List Nat), arr.length = n → is_bytes arr →
      (∀ c ∈ ds, hex_to_nibble c ≤ 9) →
      ds.foldl (fun acc c => acc * 10 + hex_to_nibble c) (le_val arr) < 256 ^ n →
      ∃ r, from_str_dec_loop n ds arr = .arr r ∧ is_bytes r ∧ r.length = n ∧
        le_val r = ds.foldl (fun acc c => acc * 10 + hex_to_nibble c) (le_val arr) := by
  intro ds
  induction ds with
  | nil => intro arr hl hb _ _; exact ⟨arr, rfl, hb, hl, rfl⟩
  | cons c cs ih =>
    intro arr hl hb hd hv
    simp only [List.foldl_cons] at hv ⊢
    have hc : hex_to_nibble c ≤ 9 := hd c (by simp)
    have hge := foldl_digits_ge 10 (by norm_num) hex_to_nibble cs
      (le_val arr * 10 + hex_to_nibble c)
    obtain ⟨a1, c1, hm1, hl1, hb1, hv1⟩ := mul_10_full arr (by omega) hb
    rw [hl] at hm1 hl1 hv1
    rw [Nat.mod_eq_of_lt (by omega)] at hv1
    obtain ⟨r1, hr1, rb1, rl1, rv1⟩ := add_uchar_spec a1 (hex_to_nibble c) hb1
      (by omega) (by rw [hv1, hl1]; omega)
    rw [hl1] at hr1 rl1
    have hv' : cs.foldl (fun acc c => acc * 10 + hex_to_nibble c) (le_val r1) < 256 ^ n := by
      rw [rv1, hv1, Nat.mul_comm 10]; exact hv
    obtain ⟨r, hr, rb, rl, rv⟩ := ih r1 rl1 rb1 (fun d hd' => hd d (by simp [hd'])) hv'
    refine ⟨r, ?_, rb, rl, by rw [rv, rv1, hv1, Nat.mul_comm 10]⟩
    have hidx : sub_u64 n 1 = n - 1 := by unfold sub_u64; omega
    rw [from_str_dec_loop, hidx, hm1]
    simp only [hr1, if_neg (Nat.not_lt.mpr hc)]
    exact hr

theorem hex_to_nibble_hex_digit (d : Nat) (hd : d < 16) : hex_to_nibble (hex_digit d) = d := by
  interval_cases d <;> decide

theorem hex_string_congr :
    ∀ (k v w : Nat), v % 16 ^ k = w % 16 ^ k → hex_string v k = hex_string w k := by
  intro k
  induction k with
  | zero => intro v w _; rfl
  | succ k ih =>
    intro v w h
    have hv := Nat.mod_pow_succ (x := v) (b := 16) (k := k)
    have hw := Nat.mod_pow_succ (x := w) (b := 16) (k := k)
    have hp : 0 < 16 ^ k := Nat.pow_pos (by norm_num)
    have lv := Nat.mod_lt v hp
    have lw := Nat.mod_lt w hp
    rw [h, hw] at hv
    have e1 : (w % 16 ^ k + 16 ^ k * (w / 16 ^ k % 16)) % 16 ^ k
        = (v % 16 ^ k + 16 ^ k * (v / 16 ^ k % 16)) % 16 ^ k := by rw [hv]
    rw [Nat.add_mul_mod_self_left, Nat.add_mul_mod_self_left, Nat.mod_mod, Nat.mod_mod] at e1
    have e2 : 16 ^ k * (w / 16 ^ k % 16) = 16 ^ k * (v / 16 ^ k % 16) := by omega
    have e3 := Nat.eq_of_mul_eq_mul_left hp e2
    simp only [hex_string, e3, ih v w e1.symm]

theorem foldl_hex_string (v : Nat) :
    ∀ (k w : Nat), (hex_string v k).foldl (fun acc c => acc * 2 ^ 4 + hex_to_nibble c) w
      = w * 16 ^ k + v % 16 ^ k := by
  intro k
  induction k with
  | zero => intro w; simp [hex_string, Nat.mod_one]
  | succ k ih =>
    intro w
    simp only [hex_string, List.foldl_cons, ih]
    rw [hex_to_nibble_hex_digit _ (Nat.mod_lt _ (by norm_num)), Nat.mod_pow_succ]
    ring

theorem hex_string_nibble_le (v : Nat) :
    ∀ (k : Nat), ∀ c ∈ hex_string v k, hex_to_nibble c ≤ 0xf := by
  intro k
  induction k with
  | zero => intro c hc; simp [hex_string] at hc
  | succ k ih =>
    intro c hc
    simp only [hex_string, List.mem_cons] at hc
    rcases hc with hc | hc
    · rw [hc, hex_to_nibble_hex_digit _ (Nat.mod_lt _ (by norm_num))]
      have := Nat.mod_lt (v / 16 ^ k) (show 0 < 16 by norm_num)
      omega
    · exact ih c hc

theorem bit_arr_to_str_loop_eq (arr : List Nat) (hb : is_bytes arr) :
    ∀ (n : Nat), n ≤ arr.length →
      bit_arr_to_str_loop arr n = hex_string (le_val (arr.take n)) (2 * n) := by
  intro n
  induction n with
  | zero => intro _; rfl
  | succ n ih =>
    intro hn
    have hn' : n < arr.length := by omega
    have ha : arr[n] < 256 := hb _ (List.getElem_mem _)
    have hV := le_val_take_succ arr n hn'
    have hlt := le_val_lt (arr.take n) (is_bytes_take arr n hb)
    rw [List.length_take, Nat.min_eq_left (Nat.le_of_lt hn')] at hlt
    have e16 : (256 : Nat) ^ n = 16 ^ (2 * n) := by
      rw [pow_mul]; norm_num
    rw [e16] at hV hlt
    have hp : 0 < 16 ^ (2 * n) := Nat.pow_pos (by norm_num)
    have k2 : 2 * (n + 1) = 2 * n + 1 + 1 := by ring
    rw [k2]
    simp only [bit_arr_to_str_loop, hex_string, hex_byte, List.getD_eq_getElem?_getD,
      List.getElem?_eq_getElem hn', Option.getD_some, List.cons_append, List.nil_append]
    have d0 : le_val (arr.take (n + 1)) / 16 ^ (2 * n) = arr[n] := by
      rw [hV, Nat.add_mul_div_left _ _ hp, Nat.div_eq_of_lt hlt, Nat.zero_add]
    have d1 : le_val (arr.take (n + 1)) / 16 ^ (2 * n + 1) = arr[n] / 16 := by
      rw [pow_succ, ← Nat.div_div_eq_div_mul, d0]
    have m0 : le_val (arr.take (n + 1)) % 16 ^ (2 * n) = le_val (arr.take n) % 16 ^ (2 * n) := by
      rw [hV, Nat.add_mul_mod_self_left]
    rw [d0, d1, ih (by omega), hex_string_congr _ _ _ m0]
    have : arr[n] / 16 % 16 = arr[n] / 16 := by omega
    rw [this]

theorem hex_digits_nibble (ds : List Char) (h : ∀ c ∈ ds, hex_digit_char c) :
    ∀ c ∈ ds, hex_to_nibble c = digit_value c ∧ hex_to_nibble c ≤ 0xf := by
  intro c hc
  have := h c hc
  unfold hex_digit_char dec_digit at this
  unfold hex_to_nibble digit_value dec_digit
  simp only [show '0'.toNat = 48 from rfl, show '9'.toNat = 57 from rfl,
    show 'a'.toNat = 97 from rfl, show 'f'.toNat = 102 from rfl,
    show 'A'.toNat = 65 from rfl, show 'F'.toNat = 70 from rfl] at this ⊢
  split_ifs <;> omega

theorem oct_digits_nibble (ds : List Char) (h : ∀ c ∈ ds, oct_digit c) :
    ∀ c ∈ ds, hex_to_nibble c = digit_value c ∧ hex_to_nibble c ≤ 7 := by
  intro c hc
  have := h c hc
  unfold oct_digit at this
  unfold hex_to_nibble digit_value dec_digit
  simp only [show '0'.toNat = 48 from rfl, show '9'.toNat = 57 from rfl,
    show '7'.toNat = 55 from rfl,
    show 'a'.toNat = 97 from rfl, show 'f'.toNat = 102 from rfl,
    show 'A'.toNat = 65 from rfl, show 'F'.toNat = 70 from rfl] at this ⊢
  split_ifs <;> omega

theorem dec_digits_nibble (ds : List Char) (h : ∀ c ∈ ds, dec_digit c) :
    ∀ c ∈ ds, hex_to_nibble c = digit_value c ∧ hex_to_nibble c ≤ 9 := by
  intro c hc
  have := h c hc
  unfold dec_digit at this
  unfold hex_to_nibble digit_value dec_digit
  simp only [show '0'.toNat = 48 from rfl, show '9'.toNat = 57 from rfl,
    show 'a'.toNat = 97 from rfl, show 'f'.toNat = 102 from rfl,
    show 'A'.toNat = 65 from rfl, show 'F'.toNat = 70 from rfl] at this ⊢
  split_ifs
  omega

theorem foldl_nibble_eq_digits_value (B : Nat) :
    ∀ (ds : List Char) (w : Nat), (∀ c ∈ ds, hex_to_nibble c = digit_value c) →
      ds.foldl (fun acc c => acc * B + hex_to_nibble c) w
        = ds.foldl (fun acc c => acc * B + digit_value c) w := by
  intro ds
  induction ds with
  | nil => intro w _; rfl
  | cons c cs ih =>
    intro w h
    simp only [List.foldl_cons]
    rw [h c (by simp)]
    exact ih _ (fun d hd => h d (by simp [hd]))

theorem bit_arr_to_str_of_val (r : List Nat) (n : Nat) (hl : r.length = n) (hb : is_bytes r)
    (hn64 : 2 * n + 3 < 2 ^ 64) :
    bit_arr_to_str r n = some ('0' :: 'x' :: hex_string (le_val r) (2 * n)) := by
  have h1 : (n <<< 1) % 2 ^ 64 = 2 * n := by
    rw [Nat.shiftLeft_eq]; omega
  have h2 : (2 * n + 3) % 2 ^ 64 = 2 * n + 3 := Nat.mod_eq_of_lt hn64
  have h3 := bit_arr_to_str_loop_eq r hb n (by omega)
  rw [List.take_of_length_le (by omega)] at h3
  unfold bit_arr_to_str
  simp only [h1, h2, h3]
  rw [if_neg (by omega), if_neg (by omega)]

theorem pow_two_eight_mul (n : Nat) : 2 ^ (8 * n) = 256 ^ n := by
  rw [pow_mul]; norm_num

theorem from_str_hex_spec (n : Nat) (ds : List Char) (hd : ∀ c ∈ ds, hex_digit_char c)
    (hv : digits_value 16 ds < 256 ^ n) :
    ∃ r, from_str_hex ds n = .arr r ∧ is_bytes r ∧ r.length = n ∧
      le_val r = digits_value 16 ds := by
  have hnib := hex_digits_nibble ds hd
  have hfold := foldl_nibble_eq_digits_value 16 ds 0 (fun c hc => (hnib c hc).1)
  have := from_str_loop_spec 4 0xf (by norm_num) (by norm_num) (by norm_num) ds
    (List.replicate n 0) (is_bytes_replicate_zero n) (fun c hc => (hnib c hc).2)
  simp only [le_val_replicate_zero, List.length_replicate, show (2 : Nat) ^ 4 = 16 from rfl,
    hfold] at this
  exact this hv

theorem from_str_oct_spec (n : Nat) (ds : List Char) (hd : ∀ c ∈ ds, oct_digit c)
    (hv : digits_value 8 ds < 256 ^ n) :
    ∃ r, from_str_oct ds n = .arr r ∧ is_bytes r ∧ r.length = n ∧
      le_val r = digits_value 8 ds := by
  have hnib := oct_digits_nibble ds hd
  have hfold := foldl_nibble_eq_digits_value 8 ds 0 (fun c hc => (hnib c hc).1)
  have := from_str_loop_spec 3 7 (by norm_num) (by norm_num) (by norm_num) ds
    (List.replicate n 0) (is_bytes_replicate_zero n) (fun c hc => (hnib c hc).2)
  simp only [le_val_replicate_zero, List.length_replicate, show (2 : Nat) ^ 3 = 8 from rfl,
    hfold] at this
  exact this hv

theorem from_str_dec_spec (n : Nat) (hn : 1 ≤ n) (hn64 : n < 2 ^ 64) (ds : List Char)
    (hd : ∀ c ∈ ds, dec_digit c) (hv : digits_value 10 ds < 256 ^ n) :
    ∃ r, from_str_dec ds n = .arr r ∧ is_bytes r ∧ r.length = n ∧
      le_val r = digits_value 10 ds := by
  have hnib := dec_digits_nibble ds hd
  have hfold := foldl_nibble_eq_digits_value 10 ds 0 (fun c hc => (hnib c hc).1)
  have := from_str_dec_loop_spec n hn hn64 ds (List.replicate n 0) (by simp)
    (is_bytes_replicate_zero n) (fun c hc => (hnib c hc).2)
  simp only [le_val_replicate_zero, hfold] at this
  exact this hv

theorem bit_arr_from_str_oct (ds : List Char) (n : Nat) (hd : ∀ c ∈ ds, oct_digit c) :
    bit_arr_from_str ('0' :: ds) n = from_str_oct ds n := by
  cases ds with
  | nil => rfl
  | cons c cs =>
    have hc := hd c (by simp)
    unfold oct_digit at hc
    have hx : c ≠ 'x' := by
      intro h; rw [h] at hc; revert hc; decide
    have hX : c ≠ 'X' := by
      intro h; rw [h] at hc; revert hc; decide
    unfold bit_arr_from_str
    simp only
    split
    · next s heq =>
      injection heq with h1 h2
      exact absurd h1 hx
    · next s heq =>
      injection heq with h1 h2
      exact absurd h1 hX
    · rfl

theorem bit_arr_from_str_dec (s : List Char) (n : Nat) (h : s.head? ≠ some '0') :
    bit_arr_from_str s n = from_str_dec s n := by
  unfold bit_arr_from_str
  split
  · simp at h
  · rfl

/-! ### Claims about the bit-array codec -/

/-- C6: for every buffer `b` of `n` bytes (with `2 * n + 3` representable in
`size_t`, the guard of `bit_arr_to_str`), rendering `b` as a hex string and
parsing the string back with `bit_arr_from_str` returns `b`. -/
theorem bit_arr_roundtrip (n : Nat) (b : List Nat) (hlen : b.length = n) (hb : is_bytes b)
    (hn64 : 2 * n + 3 < 2 ^ 64) :
    ∃ str, bit_arr_to_str b n = some str ∧ bit_arr_from_str str n = .arr b := by
  refine ⟨_, bit_arr_to_str_of_val b n hlen hb hn64, ?_⟩
  have hlt := le_val_lt b hb
  rw [hlen] at hlt
  have e16 : (16 : Nat) ^ (2 * n) = 256 ^ n := by rw [pow_mul]; norm_num
  have hnib := hex_string_nibble_le (le_val b) (2 * n)
  have hfold := foldl_hex_string (le_val b) (2 * n) 0
  rw [Nat.zero_mul, Nat.zero_add, e16, Nat.mod_eq_of_lt hlt] at hfold
  obtain ⟨r, hr, rb, rl, rv⟩ := from_str_loop_spec 4 0xf (by norm_num) (by norm_num) (by norm_num)
    (hex_string (le_val b) (2 * n)) (List.replicate n 0) (is_bytes_replicate_zero n) hnib
    (by rw [le_val_replicate_zero, hfold, List.length_replicate]; exact hlt)
  rw [le_val_replicate_zero, hfold] at rv
  rw [List.length_replicate] at hr rl
  have : r = b := le_val_inj r b rb hb (by rw [rl, hlen]) rv
  rw [this] at hr
  exact hr

theorem bit_arr_roundtrip_witness :
    [0x34, 0x12].length = 2 ∧ is_bytes [0x34, 0x12] ∧ 2 * 2 + 3 < 2 ^ 64 ∧
      ∃ str, bit_arr_to_str [0x34, 0x12] 2 = some str ∧
        bit_arr_from_str str 2 = .arr [0x34, 0x12] :=
  ⟨rfl, by decide, by norm_num,
    bit_arr_roundtrip 2 [0x34, 0x12] rfl (by decide) (by norm_num)⟩

/-- C7: for `n ≥ 1` and an integer literal `s` (hex, octal or decimal, valid
digits) of value `v < 2 ^ (8 * n)`, `bit_arr_from_str s n` succeeds and
`bit_arr_to_str` of the result is `0x` followed by the `2 * n` upper-case hex
digits of `v`, most significant first; the rendering depends on `v` only, so
all spellings of one number render alike. -/
theorem bit_arr_from_str_literal (n : Nat) (s : List Char) (v : Nat) (hn : 1 ≤ n)
    (hn64 : 2 * n + 3 < 2 ^ 64) (hs : is_literal s v) (hv : v < 2 ^ (8 * n)) :
    ∃ arr, bit_arr_from_str s n = .arr arr ∧
      bit_arr_to_str arr n = some ('0' :: 'x' :: hex_string v (2 * n)) := by
  rw [pow_two_eight_mul] at hv
  rcases hs with ⟨ds, hshape, hd, hval⟩ | ⟨ds, hshape, hd, hval⟩ | ⟨hd, hhead, hval⟩
  · rw [hval] at hv
    obtain ⟨r, hr, rb, rl, rv⟩ := from_str_hex_spec n ds hd hv
    refine ⟨r, ?_, ?_⟩
    · rcases hshape with h | h <;> rw [h] <;> exact hr
    · rw [bit_arr_to_str_of_val r n rl rb hn64, rv, hval]
  · rw [hval] at hv
    obtain ⟨r, hr, rb, rl, rv⟩ := from_str_oct_spec n ds hd hv
    refine ⟨r, ?_, ?_⟩
    · rw [hshape, bit_arr_from_str_oct ds n hd]; exact hr
    · rw [bit_arr_to_str_of_val r n rl rb hn64, rv, hval]
  · rw [hval] at hv
    obtain ⟨r, hr, rb, rl, rv⟩ := from_str_dec_spec n hn (by omega) s hd hv
    refine ⟨r, ?_, ?_⟩
    · rw [bit_arr_from_str_dec s n hhead]; exact hr
    · rw [bit_arr_to_str_of_val r n rl rb hn64, rv, hval]

set_option maxRecDepth 100000 in
theorem bit_arr_from_str_literal_witness :
    (is_literal test_str_dec 0x12345678910111213141516171819202 ∧
      ∃ arr, bit_arr_from_str test_str_dec 16 = .arr arr ∧
        bit_arr_to_str arr 16 = some ('0' :: 'x' :: hex_string 0x12345678910111213141516171819202 (2 * 16))) ∧
    (is_literal test_str_oct 0x12345678910111213141516171819202 ∧
      ∃ arr, bit_arr_from_str test_str_oct 16 = .arr arr ∧
        bit_arr_to_str arr 16 = some ('0' :: 'x' :: hex_string 0x12345678910111213141516171819202 (2 * 16))) ∧
    (is_literal test_str_hex 0x12345678910111213141516171819202 ∧
      ∃ arr, bit_arr_from_str test_str_hex 16 = .arr arr ∧
        bit_arr_to_str arr 16 = some ('0' :: 'x' :: hex_string 0x12345678910111213141516171819202 (2 * 16))) ∧
    '0' :: 'x' :: hex_string 0x12345678910111213141516171819202 (2 * 16) = test_str_hex :=
  have hdec : is_literal test_str_dec 0x12345678910111213141516171819202 :=
    Or.inr (Or.inr ⟨by decide, by decide, by decide⟩)
  have hoct : is_literal test_str_oct 0x12345678910111213141516171819202 :=
    Or.inr (Or.inl ⟨test_str_oct.tail, by decide, by decide, by decide⟩)
  have hhex : is_literal test_str_hex 0x12345678910111213141516171819202 :=
    Or.inl ⟨test_str_hex.tail.tail, Or.inl (by decide), by decide, by decide⟩
  ⟨⟨hdec, bit_arr_from_str_literal 16 _ _ (by norm_num) (by norm_num) hdec (by norm_num)⟩,
   ⟨hoct, bit_arr_from_str_literal 16 _ _ (by norm_num) (by norm_num) hoct (by norm_num)⟩,
   ⟨hhex, bit_arr_from_str_literal 16 _ _ (by norm_num) (by norm_num) hhex (by norm_num)⟩,
   by decide⟩

/-- C8 (failing input): on the decimal string `65536x` with a two-byte buffer the
carry loop of `add_uchar` runs past the end of the buffer while adding the
digit `6` to `0xFFFA`, before the invalid character `x` is reached, so the call
does not return the null pointer; sibling inputs behave as the claim says. -/
theorem bit_arr_from_str_carry_overrun :
    bit_arr_from_str "65536x".toList 2 = .out_of_bounds ∧
    bit_arr_from_str "6553x".toList 2 = .null ∧
    bit_arr_from_str "65535".toList 2 = .arr [0xff, 0xff] ∧
    bit_arr_from_str "".toList 2 = .arr [0, 0] := by
  decide

/-! ### Claims about the pattern compiler -/

set_option maxRecDepth 100000 in
/-- C10 (failing input): the aligned big-endian 32-bit integer pattern `0x12345678`
compiles to the bytes `78 56 34 12`, the same as with endian Little and not
their reversal `12 34 56 78`: `ptn_group_modify` hands `endian_reverse` the size
in bytes where a size in bits is expected, so only `(4 - 1) / 8 + 1 = 1` byte is
reversed.  The scan of `00 12 34 56 78 00` therefore finds no match, whereas the
little-endian pattern `0x78563412` matches at bit offset 8. -/
theorem endian_big_not_reversed :
    (group_add_ptn example_host new_group "0x12345678".toList DATA_TYPE_INTEGER ALIGNMENT_ALIGNED
        ENDIAN_BIG 32).map (fun r => (r.1, r.2.ptns.map (fun p => (p.ptn, p.mask))))
      = some (0, [([0x78, 0x56, 0x34, 0x12], [0xff, 0xff, 0xff, 0xff])]) ∧
    (group_add_ptn example_host new_group "0x12345678".toList DATA_TYPE_INTEGER ALIGNMENT_ALIGNED
        ENDIAN_LITTLE 32).map (fun r => (r.1, r.2.ptns.map (fun p => (p.ptn, p.mask))))
      = some (0, [([0x78, 0x56, 0x34, 0x12], [0xff, 0xff, 0xff, 0xff])]) ∧
    (run_scan example_host (fun _ => [])
        [("0x12345678".toList, DATA_TYPE_INTEGER, ALIGNMENT_ALIGNED, ENDIAN_BIG, 32)] 1
        [(1, [0x00, 0x12, 0x34, 0x56, 0x78, 0x00])]).map (fun r => r.1)
      = some [null_match] ∧
    (run_scan example_host (fun _ => [])
        [("0x78563412".toList, DATA_TYPE_INTEGER, ALIGNMENT_ALIGNED, ENDIAN_LITTLE, 32)] 1
        [(1, [0x00, 0x12, 0x34, 0x56, 0x78, 0x00])]).map (fun r => r.1)
      = some [{ ptn := some (0, 0), path := 1, offs := 8 }] := by
  decide

theorem testBit_255 (j : Nat) : (0xff : Nat).testBit j = decide (j < 8) := by
  have : (0xff : Nat) = 2 ^ 8 - 1 := by norm_num
  rw [this, Nat.testBit_two_pow_sub_one]

theorem testBit_of_lt_256 (b j : Nat) (hb : b < 256) (hj : 8 ≤ j) : b.testBit j = false := by
  apply Nat.testBit_lt_two_pow
  calc b < 2 ^ 8 := by omega
    _ ≤ 2 ^ j := Nat.pow_le_pow_right (by norm_num) hj

theorem within_byte_bits (b m : Nat) (h : within_byte b m) (j : Nat) (hj : j < 8)
    (hb : b.testBit j = true) : m.testBit j = true := by
  have := congrArg (fun x => Nat.testBit x j) h
  simp only [Nat.testBit_and, Nat.testBit_xor, testBit_255, hb, Nat.zero_testBit, hj,
    decide_True, Bool.true_and] at this
  cases hm : m.testBit j
  · rw [hm] at this; simp at this
  · rfl

theorem within_byte_of_bits (b m : Nat) (hb : b < 256)
    (h : ∀ j, j < 8 → b.testBit j = true → m.testBit j = true) : within_byte b m := by
  unfold within_byte
  apply Nat.eq_of_testBit_eq
  intro j
  simp only [Nat.testBit_and, Nat.testBit_xor, testBit_255, Nat.zero_testBit]
  by_cases hj : j < 8
  · cases hbj : b.testBit j
    · simp
    · simp [h j hj hbj, hj]
  · simp [testBit_of_lt_256 b j hb (by omega)]

theorem within_byte_shift (a m p q : Nat) (hp : p < 256) (ha : within_byte a m)
    (hpq : within_byte p q) :
    within_byte (((a <<< 1) ||| (p >>> (CHAR_BIT - 1))) % 256)
      (((m <<< 1) ||| (q >>> (CHAR_BIT - 1))) % 256) := by
  apply within_byte_of_bits _ _ (Nat.mod_lt _ (by norm_num))
  intro j hj hb
  have e256 : (256 : Nat) = 2 ^ 8 := by norm_num
  have e7 : CHAR_BIT - 1 = 7 := rfl
  rw [e256, e7] at hb ⊢
  simp only [Nat.testBit_mod_two_pow, Nat.testBit_or, Nat.testBit_shiftLeft,
    Nat.testBit_shiftRight, hj, decide_True, Bool.true_and, Bool.or_eq_true,
    Bool.and_eq_true, decide_eq_true_eq] at hb ⊢
  rcases hb with ⟨h1, h2⟩ | h2
  · exact Or.inl ⟨h1, within_byte_bits a m ha (j - 1) (by omega) h2⟩
  · by_cases hj0 : j = 0
    · subst hj0
      exact Or.inr (within_byte_bits p q hpq 7 (by norm_num) h2)
    · rw [testBit_of_lt_256 p (7 + j) hp (by omega)] at h2
      exact absurd h2 (by simp)

theorem within_byte_shr7 (p q : Nat) (hp : p < 256) (hpq : within_byte p q) :
    within_byte (p >>> (CHAR_BIT - 1)) (q >>> (CHAR_BIT - 1)) := by
  have e7 : CHAR_BIT - 1 = 7 := rfl
  rw [e7]
  have hlt : p >>> 7 < 256 := by
    rw [Nat.shiftRight_eq_div_pow]; omega
  apply within_byte_of_bits _ _ hlt
  intro j hj hb
  simp only [Nat.testBit_shiftRight] at hb ⊢
  by_cases hj0 : j = 0
  · subst hj0
    exact within_byte_bits p q hpq 7 (by norm_num) hb
  · rw [testBit_of_lt_256 p (7 + j) hp (by omega)] at hb
    exact absurd hb (by simp)

theorem within_byte_ff (b : Nat) : within_byte b 0xff := by
  unfold within_byte
  simp

theorem forall₂_take_of_index (R : Nat → Nat → Prop) :
    ∀ (n : Nat) (a m : List Nat), n ≤ a.length → n ≤ m.length →
      (∀ i, i < n → R (a.getD i 0) (m.getD i 0)) → List.Forall₂ R (a.take n) (m.take n) := by
  intro n
  induction n with
  | zero => intro a m _ _ _; simp
  | succ n ih =>
    intro a m ha hm h
    cases a with
    | nil => simp at ha
    | cons x xs =>
      cases m with
      | nil => simp at hm
      | cons y ys =>
        simp only [List.take_succ_cons, List.forall₂_cons]
        refine ⟨by simpa using h 0 (by omega), ih xs ys (by simpa using ha) (by simpa using hm) ?_⟩
        intro i hi
        simpa using h (i + 1) (by omega)

theorem index_of_forall₂_take (R : Nat → Nat → Prop) :
    ∀ (n : Nat) (a m : List Nat), n ≤ a.length → n ≤ m.length →
      List.Forall₂ R (a.take n) (m.take n) → ∀ i, i < n → R (a.getD i 0) (m.getD i 0) := by
  intro n
  induction n with
  | zero => intro a m _ _ _ i hi; omega
  | succ n ih =>
    intro a m ha hm h i hi
    cases a with
    | nil => simp at ha
    | cons x xs =>
      cases m with
      | nil => simp at hm
      | cons y ys =>
        simp only [List.take_succ_cons, List.forall₂_cons] at h
        cases i with
        | zero => simpa using h.1
        | succ i =>
          simpa using ih xs ys (by simpa using ha) (by simpa using hm) h.2 i (by omega)

theorem lshift_copy_loop_length :
    ∀ (as : List Nat) (p : Nat), (lshift_copy_loop as p).1.length = as.length := by
  intro as
  induction as with
  | nil => intro p; rfl
  | cons a as ih => intro p; simp [lshift_copy_loop, ih a]

theorem lshift_copy_loop_ok :
    ∀ (as ms : List Nat), List.Forall₂ byte_ok as ms → ∀ (pa pm : Nat), byte_ok pa pm →
      List.Forall₂ byte_ok (lshift_copy_loop as pa).1 (lshift_copy_loop ms pm).1 ∧
      byte_ok (lshift_copy_loop as pa).2 (lshift_copy_loop ms pm).2 := by
  intro as ms h
  induction h with
  | nil => intro pa pm hp; exact ⟨List.Forall₂.nil, hp⟩
  | @cons a m as ms ham _ ih =>
    intro pa pm hp
    obtain ⟨i1, i2⟩ := ih a m ham
    simp only [lshift_copy_loop]
    refine ⟨List.Forall₂.cons ⟨Nat.mod_lt _ (by norm_num), Nat.mod_lt _ (by norm_num), ?_⟩ i1, i2⟩
    exact within_byte_shift a m pa pm hp.1 ham.2.2 hp.2.2

theorem byte_ok_zero : byte_ok 0 0 := by
  refine ⟨by norm_num, by norm_num, ?_⟩
  unfold within_byte; simp

theorem byte_ok_shr7 (p q : Nat) (h : byte_ok p q) :
    byte_ok (p >>> (CHAR_BIT - 1)) (q >>> (CHAR_BIT - 1)) := by
  have e7 : CHAR_BIT - 1 = 7 := rfl
  refine ⟨?_, ?_, within_byte_shr7 p q h.1 h.2.2⟩
  · rw [e7, Nat.shiftRight_eq_div_pow]; have := h.1; omega
  · rw [e7, Nat.shiftRight_eq_div_pow]; have := h.2.1; omega

theorem lshift_copy_ok (a m : List Nat) (n n1 : Nat) (ha : n ≤ a.length) (hm : n ≤ m.length)
    (hn1 : n1 = n ∨ n1 = n + 1) (hpos : 1 ≤ n1)
    (h : List.Forall₂ byte_ok (a.take n) (m.take n)) :
    (lshift_copy a n n1).length = n1 ∧ (lshift_copy m n n1).length = n1 ∧
      List.Forall₂ byte_ok (lshift_copy a n n1) (lshift_copy m n n1) := by
  obtain ⟨h1, h2⟩ := lshift_copy_loop_ok _ _ h 0 0 byte_ok_zero
  have la := lshift_copy_loop_length (a.take n) 0
  have lm := lshift_copy_loop_length (m.take n) 0
  rw [List.length_take, Nat.min_eq_left ha] at la
  rw [List.length_take, Nat.min_eq_left hm] at lm
  unfold lshift_copy
  rw [if_neg (by omega), if_neg (by omega)]
  rcases hn1 with e | e
  · subst e
    simp only [Nat.lt_irrefl, if_false]
    exact ⟨la, lm, h1⟩
  · subst e
    simp only [Nat.lt_succ_self, if_true, List.length_append, List.length_singleton, la, lm,
      true_and]
    exact List.rel_append h1 (List.Forall₂.cons (byte_ok_shr7 _ _ h2) List.Forall₂.nil)

theorem ptn_within_mask_of_ok (p : birch_ptn) (h : variant_ok p) : ptn_within_mask p := by
  obtain ⟨_, _, _, _, hl1, hl2, hf⟩ := h
  intro i hi
  have := index_of_forall₂_take byte_ok p.size_bytes p.ptn p.mask hl1 hl2 hf i hi
  exact ⟨by omega, by omega, this.2.2⟩

theorem ptn_unalign_step_ok (prev cur : birch_ptn) (h : variant_ok prev) (ho : prev.offs ≤ 6) :
    variant_ok (ptn_unalign_step prev cur) ∧ (ptn_unalign_step prev cur).offs = prev.offs + 1 := by
  obtain ⟨h1, h2, _, h4, h5, h6, h7⟩ := h
  have e1 : (prev.offs + 1) % 2 ^ 32 = prev.offs + 1 := by omega
  have e2 : (prev.size + (prev.offs + 1)) % 2 ^ 64 = prev.size + (prev.offs + 1) := by omega
  have e3 : sub_u64 (prev.size + (prev.offs + 1)) 1 = prev.size + prev.offs := by
    unfold sub_u64; omega
  have hn : (prev.size + prev.offs) / CHAR_BIT + 1 = prev.size_bytes ∨
      (prev.size + prev.offs) / CHAR_BIT + 1 = prev.size_bytes + 1 := by
    unfold CHAR_BIT; omega
  obtain ⟨l1, l2, l3⟩ := lshift_copy_ok prev.ptn prev.mask prev.size_bytes
    ((prev.size + prev.offs) / CHAR_BIT + 1) h5 h6 hn (by omega) h7
  unfold ptn_unalign_step variant_ok
  simp only [e1, e2, e3, and_true]
  rw [List.take_of_length_le (by rw [l1]), List.take_of_length_le (by rw [l2])]
  refine ⟨h1, h2, by omega, ?_, by rw [l1], by rw [l2], l3⟩
  unfold CHAR_BIT; omega

theorem unalign_chain_ok (cur : birch_ptn) :
    ∀ (k : Nat) (prev : birch_ptn), variant_ok prev → prev.offs + k ≤ 7 →
      ∀ p ∈ unalign_chain cur k prev, variant_ok p := by
  intro k
  induction k with
  | zero => intro prev _ _ p hp; simp [unalign_chain] at hp
  | succ k ih =>
    intro prev hprev ho p hp
    obtain ⟨s1, s2⟩ := ptn_unalign_step_ok prev cur hprev (by omega)
    simp only [unalign_chain, List.mem_cons] at hp
    rcases hp with hp | hp
    · rw [hp]; exact s1
    · exact ih _ s1 (by omega) p hp

theorem ptn_unalign_eq_chain (h : host) (base : birch_ptn) :
    ptn_unalign h (base :: List.replicate 7 h.uninit) = base :: unalign_chain h.uninit 7 base := by
  rfl

theorem getElem?_eq_some_getD (arr : List Nat) (j : Nat) (hj : j < arr.length) :
    arr[j]? = some (arr.getD j 0) := by
  simp [List.getD_eq_getElem?_getD, List.getElem?_eq_getElem hj]

theorem endian_reverse_common_loop_spec :
    ∀ (k i j : Nat) (arr : List Nat), j < arr.length → j ≤ i + 2 * k →
      (endian_reverse_common_loop k i j arr).length = arr.length ∧
      ∀ x, (endian_reverse_common_loop k i j arr)[x]?
        = if i ≤ x ∧ x ≤ j then arr[i + j - x]? else arr[x]? := by
  intro k
  induction k with
  | zero =>
    intro i j arr _ hk
    refine ⟨rfl, fun x => ?_⟩
    simp only [endian_reverse_common_loop]
    split
    · next h => have : i + j - x = x := by omega
                rw [this]
    · rfl
  | succ k ih =>
    intro i j arr hj hk
    by_cases hij : i < j
    · have hi : i < arr.length := by omega
      have hlen : ((arr.set j (arr.getD i 0)).set i (arr.getD j 0)).length = arr.length := by simp
      obtain ⟨l1, l2⟩ := ih (i + 1) (j - 1) ((arr.set j (arr.getD i 0)).set i (arr.getD j 0))
        (by rw [hlen]; omega) (by omega)
      simp only [endian_reverse_common_loop, if_pos hij]
      refine ⟨by rw [l1, hlen], fun x => ?_⟩
      rw [l2 x]
      have ei := getElem?_eq_some_getD arr i hi
      have ej := getElem?_eq_some_getD arr j hj
      have hset : ∀ y, ((arr.set j (arr.getD i 0)).set i (arr.getD j 0))[y]?
          = if y = i then arr[j]? else if y = j then arr[i]? else arr[y]? := by
        intro y
        rw [List.getElem?_set, List.getElem?_set, List.length_set]
        by_cases hyi : y = i
        · subst hyi
          rw [if_pos rfl, if_pos hi, if_pos rfl, ej]
        · rw [if_neg (Ne.symm hyi), if_neg hyi]
          by_cases hyj : y = j
          · subst hyj
            rw [if_pos rfl, if_pos hj, if_pos rfl, ei]
          · rw [if_neg (Ne.symm hyj), if_neg hyj]
      by_cases hx1 : i + 1 ≤ x ∧ x ≤ j - 1
      · rw [if_pos hx1, if_pos (by omega), hset, if_neg (by omega), if_neg (by omega)]
        congr 1; omega
      · rw [if_neg hx1, hset]
        by_cases hxi : x = i
        · rw [if_pos hxi, if_pos (by omega)]
          congr 1; omega
        · rw [if_neg hxi]
          by_cases hxj : x = j
          · rw [if_pos hxj, if_pos (by omega)]
            congr 1; omega
          · rw [if_neg hxj, if_neg (by omega)]
    · refine ⟨by simp [endian_reverse_common_loop, hij], fun x => ?_⟩
      simp only [endian_reverse_common_loop, if_neg hij]
      split
      · next h => have : i + j - x = x := by omega
                  rw [this]
      · rfl

theorem endian_reverse_common_spec (arr : List Nat) (r : Nat) (hr : 1 ≤ r) (hr64 : r < 2 ^ 64)
    (hl : r ≤ arr.length) :
    (endian_reverse_common arr r).length = arr.length ∧
    ∀ x, (endian_reverse_common arr r).getD x 0
      = if x < r then arr.getD (r - 1 - x) 0 else arr.getD x 0 := by
  have e : sub_u64 r 1 = r - 1 := by unfold sub_u64; omega
  obtain ⟨l1, l2⟩ := endian_reverse_common_loop_spec r 0 (r - 1) arr (by omega) (by omega)
  unfold endian_reverse_common
  rw [e]
  refine ⟨l1, fun x => ?_⟩
  simp only [List.getD_eq_getElem?_getD, l2 x]
  by_cases hx : x < r
  · rw [if_pos (by omega), if_pos hx]
    congr 2; omega
  · rw [if_neg (by omega), if_neg hx]

theorem endian_reverse_common_loop_length :
    ∀ (k i j : Nat) (arr : List Nat), (endian_reverse_common_loop k i j arr).length = arr.length := by
  intro k
  induction k with
  | zero => intro i j arr; rfl
  | succ k ih =>
    intro i j arr
    simp only [endian_reverse_common_loop]
    split
    · rw [ih]; simp
    · rfl

theorem ptn_reversed_within (p : birch_ptn) (hn : 1 ≤ p.size_bytes) (hn64 : p.size_bytes < 2 ^ 64) :
    ptn_within_mask (ptn_reversed p) ↔ ptn_within_mask p := by
  have er : sub_u64 p.size_bytes 1 / CHAR_BIT + 1 ≤ p.size_bytes ∧
      1 ≤ sub_u64 p.size_bytes 1 / CHAR_BIT + 1 ∧
      sub_u64 p.size_bytes 1 / CHAR_BIT + 1 < 2 ^ 64 := by
    unfold sub_u64 CHAR_BIT; omega
  generalize hr : sub_u64 p.size_bytes 1 / CHAR_BIT + 1 = r at er
  have hp : (ptn_reversed p).ptn = endian_reverse_common p.ptn r := by
    simp only [ptn_reversed, endian_reverse, hr]
  have hm : (ptn_reversed p).mask = endian_reverse_common p.mask r := by
    simp only [ptn_reversed, endian_reverse, hr]
  have hs : (ptn_reversed p).size_bytes = p.size_bytes := rfl
  have len1 : (ptn_reversed p).ptn.length = p.ptn.length := by
    rw [hp]; exact endian_reverse_common_loop_length _ _ _ _
  have len2 : (ptn_reversed p).mask.length = p.mask.length := by
    rw [hm]; exact endian_reverse_common_loop_length _ _ _ _
  have key : p.size_bytes ≤ p.ptn.length → p.size_bytes ≤ p.mask.length →
      (ptn_within_mask (ptn_reversed p) ↔ ptn_within_mask p) := by
    intro hl1 hl2
    obtain ⟨_, a2⟩ := endian_reverse_common_spec p.ptn r er.2.1 er.2.2 (by omega)
    obtain ⟨_, m2⟩ := endian_reverse_common_spec p.mask r er.2.1 er.2.2 (by omega)
    constructor
    · intro h i hi
      refine ⟨by omega, by omega, ?_⟩
      by_cases hir : i < r
      · have := (h (r - 1 - i) (by rw [hs]; omega)).2.2
        rw [hp, hm, a2, m2, if_pos (by omega), if_pos (by omega)] at this
        have e : r - 1 - (r - 1 - i) = i := by omega
        rw [e] at this
        exact this
      · have := (h i (by rw [hs]; omega)).2.2
        rw [hp, hm, a2, m2, if_neg hir, if_neg hir] at this
        exact this
    · intro h i hi
      rw [hs] at hi
      rw [len1, len2, hp, hm, a2, m2]
      refine ⟨by omega, by omega, ?_⟩
      by_cases hir : i < r
      · rw [if_pos hir, if_pos hir]
        exact (h (r - 1 - i) (by omega)).2.2
      · rw [if_neg hir, if_neg hir]
        exact (h i hi).2.2
  constructor
  · intro h
    have h0 := h (p.size_bytes - 1) (by rw [hs]; omega)
    rw [len1, len2] at h0
    exact (key (by omega) (by omega)).mp h
  · intro h
    have h0 := h (p.size_bytes - 1) (by omega)
    exact (key (by omega) (by omega)).mpr h

theorem ptn_group_modify_reverse_get (h : host) :
    ∀ (k i : Nat) (group : List birch_ptn), i + k ≤ group.length → ∀ x,
      (ptn_group_modify_reverse h k i group)[x]?
        = if i ≤ x ∧ x < i + k then (group[x]?).map ptn_reversed else group[x]? := by
  intro k
  induction k with
  | zero =>
    intro i group _ x
    simp only [ptn_group_modify_reverse]
    rw [if_neg (by omega)]
  | succ k ih =>
    intro i group hik x
    have hi : i < group.length := by omega
    have hat : ptn_at h group i = group[i] := by
      simp [ptn_at, List.getD_eq_getElem?_getD, List.getElem?_eq_getElem hi]
    simp only [ptn_group_modify_reverse]
    rw [ih (i + 1) _ (by rw [List.length_set]; omega) x, hat, List.getElem?_set]
    by_cases hx : i = x
    · subst hx
      rw [if_neg (by omega), if_pos rfl, if_pos hi, if_pos (by omega),
        List.getElem?_eq_getElem hi]
      rfl
    · rw [if_neg hx]
      by_cases hx2 : i + 1 ≤ x ∧ x < i + 1 + k
      · rw [if_pos hx2, if_pos (by omega)]
      · rw [if_neg hx2, if_neg (by omega)]

theorem ptn_group_modify_reverse_eq (h : host) (group : List birch_ptn) :
    ptn_group_modify_reverse h group.length 0 group = group.map ptn_reversed := by
  apply List.ext_getElem?
  intro x
  rw [ptn_group_modify_reverse_get h group.length 0 group (by omega) x, List.getElem?_map]
  by_cases hx : x < group.length
  · rw [if_pos (by omega)]
  · rw [if_neg (by omega), List.getElem?_eq_none (by omega)]
    rfl

/-! ### Every buffer returned by the parser is a buffer of `size_bytes` bytes -/

theorem is_bytes_cons (x : Nat) (xs : List Nat) :
    is_bytes (x :: xs) ↔ x < 256 ∧ is_bytes xs := by
  unfold is_bytes
  simp

theorem lshift_loop_bytes (k : Nat) :
    ∀ (arr : List Nat) (prev : Nat),
      is_bytes (lshift_loop k arr prev) ∧ (lshift_loop k arr prev).length = arr.length := by
  intro arr
  induction arr with
  | nil => intro prev; exact ⟨by simp [lshift_loop, is_bytes], rfl⟩
  | cons a rest ih =>
    intro prev
    simp only [lshift_loop, is_bytes_cons, List.length_cons]
    exact ⟨⟨Nat.mod_lt _ (by norm_num), (ih a).1⟩, by rw [(ih a).2]⟩

theorem lshift_bytes (arr : List Nat) (n k : Nat) (hb : is_bytes arr) :
    is_bytes (lshift arr n k) ∧ (lshift arr n k).length = arr.length := by
  unfold lshift
  split
  · exact ⟨hb, rfl⟩
  · exact lshift_loop_bytes k arr 0

theorem add_uchar_carry_bytes :
    ∀ (rest r : List Nat), is_bytes rest → add_uchar_carry rest = some r →
      is_bytes r ∧ r.length = rest.length := by
  intro rest
  induction rest with
  | nil => intro r _ h; simp [add_uchar_carry] at h
  | cons x xs ih =>
    intro r hb h
    rw [is_bytes_cons] at hb
    simp only [add_uchar_carry] at h
    split at h
    · cases hc : add_uchar_carry xs with
      | none => rw [hc] at h; simp at h
      | some r1 =>
        rw [hc] at h
        simp only [Option.some.injEq] at h
        obtain ⟨b1, l1⟩ := ih r1 hb.2 hc
        rw [← h, is_bytes_cons]
        exact ⟨⟨Nat.mod_lt _ (by norm_num), b1⟩, by simp [l1]⟩
    · simp only [Option.some.injEq] at h
      rw [← h, is_bytes_cons]
      exact ⟨⟨Nat.mod_lt _ (by norm_num), hb.2⟩, rfl⟩

theorem add_uchar_bytes (arr r : List Nat) (n c : Nat) (hb : is_bytes arr)
    (h : add_uchar arr n c = some r) : is_bytes r ∧ r.length = arr.length := by
  unfold add_uchar at h
  split at h
  · simp only [Option.some.injEq] at h
    rw [← h]; exact ⟨hb, rfl⟩
  · cases arr with
    | nil => simp at h
    | cons a0 rest =>
      rw [is_bytes_cons] at hb
      simp only at h
      split at h
      · simp only [Option.some.injEq] at h
        rw [← h, is_bytes_cons]
        exact ⟨⟨Nat.mod_lt _ (by norm_num), hb.2⟩, rfl⟩
      · split at h
        · cases hc : add_uchar_carry rest with
          | none => rw [hc] at h; simp at h
          | some r1 =>
            rw [hc] at h
            simp only [Option.some.injEq] at h
            obtain ⟨b1, l1⟩ := add_uchar_carry_bytes rest r1 hb.2 hc
            rw [← h, is_bytes_cons]
            exact ⟨⟨Nat.mod_lt _ (by norm_num), b1⟩, by simp [l1]⟩
        · simp only [Option.some.injEq] at h
          rw [← h, is_bytes_cons]
          exact ⟨⟨Nat.mod_lt _ (by norm_num), hb.2⟩, rfl⟩

theorem mul_10_sum_bytes (arr arr1 : List Nat) (index sum s1 s3 c : Nat) (hb : is_bytes arr)
    (h : mul_10_sum arr index sum s1 s3 = (arr1, c)) :
    is_bytes arr1 ∧ arr1.length = arr.length := by
  unfold mul_10_sum at h
  simp only [Prod.mk.injEq] at h
  rw [← h.1]
  refine ⟨?_, by simp⟩
  intro z hz
  rcases List.mem_or_eq_of_mem_set hz with hz | hz
  · exact hb z hz
  · rw [hz]; exact Nat.mod_lt _ (by norm_num)

theorem mul_10_bytes :
    ∀ (i : Nat) (arr arr1 : List Nat) (c : Nat), is_bytes arr → mul_10 arr i = some (arr1, c) →
      is_bytes arr1 ∧ arr1.length = arr.length := by
  intro i
  induction i with
  | zero =>
    intro arr arr1 c hb h
    simp only [mul_10] at h
    split at h
    · simp at h
    · simp only [Option.some.injEq] at h
      exact mul_10_sum_bytes arr arr1 _ _ _ _ c hb h
  | succ i ih =>
    intro arr arr1 c hb h
    simp only [mul_10] at h
    split at h
    · simp at h
    · split at h
      · simp at h
      · split at h
        · simp at h
        · next a2 s2 hm =>
          simp only [Option.some.injEq] at h
          obtain ⟨b2, l2⟩ := ih arr a2 s2 hb hm
          have := mul_10_sum_bytes a2 arr1 _ _ _ _ c b2 h
          exact ⟨this.1, by rw [this.2, l2]⟩

theorem from_str_loop_bytes (n k mc : Nat) :
    ∀ (ds : List Char) (arr r : List Nat), is_bytes arr →
      from_str_loop n k mc ds arr = .arr r → is_bytes r ∧ r.length = arr.length := by
  intro ds
  induction ds with
  | nil =>
    intro arr r hb h
    simp only [from_str_loop, bit_arr_result.arr.injEq] at h
    rw [← h]; exact ⟨hb, rfl⟩
  | cons c cs ih =>
    intro arr r hb h
    simp only [from_str_loop] at h
    split at h
    · simp at h
    · obtain ⟨sb, sl⟩ := lshift_bytes arr n k hb
      split at h
      · simp at h
      · next a1 ha1 =>
        obtain ⟨b1, l1⟩ := add_uchar_bytes _ a1 n _ sb ha1
        obtain ⟨b2, l2⟩ := ih a1 r b1 h
        exact ⟨b2, by rw [l2, l1, sl]⟩

theorem from_str_dec_loop_bytes (n : Nat) :
    ∀ (ds : List Char) (arr r : List Nat), is_bytes arr →
      from_str_dec_loop n ds arr = .arr r → is_bytes r ∧ r.length = arr.length := by
  intro ds
  induction ds with
  | nil =>
    intro arr r hb h
    simp only [from_str_dec_loop, bit_arr_result.arr.injEq] at h
    rw [← h]; exact ⟨hb, rfl⟩
  | cons c cs ih =>
    intro arr r hb h
    rw [from_str_dec_loop] at h
    split at h
    · simp at h
    · next a0 c0 hm =>
      obtain ⟨b0, l0⟩ := mul_10_bytes _ arr a0 c0 hb hm
      simp only at h
      split at h
      · simp at h
      · split at h
        · simp at h
        · next a1 ha1 =>
          obtain ⟨b1, l1⟩ := add_uchar_bytes _ a1 n _ b0 ha1
          obtain ⟨b2, l2⟩ := ih a1 r b1 h
          exact ⟨b2, by rw [l2, l1, l0]⟩

theorem bit_arr_from_str_bytes (s : List Char) (n : Nat) (r : List Nat)
    (h : bit_arr_from_str s n = .arr r) : is_bytes r ∧ r.length = n := by
  have hz := is_bytes_replicate_zero n
  have hl : (List.replicate n 0).length = n := List.length_replicate _ _
  unfold bit_arr_from_str at h
  split at h
  · split at h
    · have := from_str_loop_bytes n 4 0xf _ _ r hz h
      rw [hl] at this; exact this
    · have := from_str_loop_bytes n 4 0xf _ _ r hz h
      rw [hl] at this; exact this
    · have := from_str_loop_bytes n 3 7 _ _ r hz h
      rw [hl] at this; exact this
  · have := from_str_dec_loop_bytes n _ _ r hz h
    rw [hl] at this; exact this

theorem ptn_mask_gen_spec (size n : Nat) (hn : 1 ≤ n) :
    ∃ mask, ptn_mask_gen size n = some mask ∧ mask.length = n ∧ is_bytes mask ∧
      (size % 8 = 0 → ∀ x ∈ mask, x = 0xff) := by
  refine ⟨_, by unfold ptn_mask_gen; rw [if_neg (by omega)], ?_, ?_, ?_⟩
  · simp; omega
  · intro x hx
    simp only [List.mem_append, List.mem_replicate, List.mem_singleton] at hx
    rcases hx with ⟨_, hx⟩ | hx
    · omega
    · rw [hx]
      split
      · norm_num
      · exact Nat.mod_lt _ (by norm_num)
  · intro h8 x hx
    simp only [List.mem_append, List.mem_replicate, List.mem_singleton] at hx
    rcases hx with ⟨_, hx⟩ | hx
    · exact hx
    · rw [hx, h8]
      rfl

theorem variants_within (u base : birch_ptn) (k : Nat) (f : birch_ptn → birch_ptn)
    (hf : f = id ∨ f = ptn_reversed) (hk : k ≤ 7) (h0 : base.offs = 0) (h1 : 1 ≤ base.size)
    (h2 : base.size + 16 < 2 ^ 64) (h3 : base.size_bytes = (base.size - 1) / 8 + 1)
    (hbp : is_bytes (base.ptn.take base.size_bytes)) (hbm : is_bytes base.mask)
    (hbase : ptn_within_mask (f base)) :
    ∀ p ∈ (base :: unalign_chain u k base).map f, ptn_within_mask p := by
  have hn1 : 1 ≤ base.size_bytes := by omega
  have hn64 : base.size_bytes < 2 ^ 64 := by omega
  have hw : ptn_within_mask base := by
    rcases hf with hf | hf
    · rw [hf] at hbase; exact hbase
    · rw [hf] at hbase; exact (ptn_reversed_within base hn1 hn64).mp hbase
  have hlen := hw (base.size_bytes - 1) (by omega)
  have hl1 : base.size_bytes ≤ base.ptn.length := by omega
  have hl2 : base.size_bytes ≤ base.mask.length := by omega
  have hok : variant_ok base := by
    refine ⟨h1, h2, by omega, by rw [h0]; exact h3, hl1, hl2, ?_⟩
    apply forall₂_take_of_index byte_ok _ _ _ hl1 hl2
    intro i hi
    refine ⟨?_, ?_, (hw i hi).2.2⟩
    · apply hbp
      rw [List.getD_eq_getElem?_getD, List.getElem?_eq_getElem (by omega)]
      simp only [Option.getD_some]
      exact List.mem_take_iff_getElem.mpr ⟨i, by omega, rfl⟩
    · apply hbm
      rw [List.getD_eq_getElem?_getD, List.getElem?_eq_getElem (by omega)]
      simp only [Option.getD_some]
      exact List.getElem_mem _
  have hall : ∀ q ∈ base :: unalign_chain u k base, variant_ok q := by
    intro q hq
    simp only [List.mem_cons] at hq
    rcases hq with hq | hq
    · rw [hq]; exact hok
    · exact unalign_chain_ok u k base hok (by omega) q hq
  intro p hp
  simp only [List.mem_map] at hp
  obtain ⟨q, hq, hpq⟩ := hp
  have hqok := hall q hq
  have hqw := ptn_within_mask_of_ok q hqok
  obtain ⟨q1, q2, q3, q4, _, _, _⟩ := hqok
  rw [← hpq]
  rcases hf with hf | hf
  · rw [hf]; exact hqw
  · rw [hf]
    exact (ptn_reversed_within q (by omega) (by omega)).mpr hqw

theorem ptn_group_modify_single (h : host) (base : birch_ptn) (al : alignment)
    (en te : endian) (hen : en ≠ ENDIAN_BOTH) :
    ptn_group_modify h
        (base :: List.replicate ((if al = ALIGNMENT_UNALIGNED then CHAR_BIT else 1) - 1) h.uninit)
        al en te
      = (base :: unalign_chain h.uninit (if al = ALIGNMENT_UNALIGNED then 7 else 0) base).map
          (if en ≠ te then ptn_reversed else id) := by
  cases al
  · simp only [ptn_group_modify, if_true, if_neg hen]
    have e : CHAR_BIT - 1 = 7 := rfl
    rw [e, ptn_unalign_eq_chain]
    by_cases hte : en = te
    · simp [hte]
    · simp only [hte, ne_eq, not_false_eq_true, if_true]
      exact ptn_group_modify_reverse_eq h (base :: unalign_chain h.uninit 7 base)
  · have e : (if ALIGNMENT_ALIGNED = ALIGNMENT_UNALIGNED then CHAR_BIT else 1) = 1 := rfl
    have e0 : (if ALIGNMENT_ALIGNED = ALIGNMENT_UNALIGNED then 7 else 0) = 0 := rfl
    simp only [ptn_group_modify, e, e0, if_neg hen]
    by_cases hte : en = te
    · simp [hte, unalign_chain]
    · simp only [hte, ne_eq, not_false_eq_true, if_true]
      exact ptn_group_modify_reverse_eq h [base]

theorem new_slots_eq (gp : List birch_ptn) (added : Nat) (u base : birch_ptn) (ha : 1 ≤ added) :
    List.take gp.length (gp ++ List.replicate added u) = gp ∧
    (List.drop gp.length (gp ++ List.replicate added u)).set 0 base
      = base :: List.replicate (added - 1) u := by
  refine ⟨by simp, ?_⟩
  rw [List.drop_left]
  obtain ⟨a, rfl⟩ : ∃ a, added = a + 1 := ⟨added - 1, by omega⟩
  simp [List.replicate_succ]

theorem compiled_variants_within (h : host) (gp : List birch_ptn) (base : birch_ptn) (k : Nat)
    (f : birch_ptn → birch_ptn) (hf : f = id ∨ f = ptn_reversed) (hk : k ≤ 7)
    (h0 : base.offs = 0) (h1 : 1 ≤ base.size) (h2 : base.size + 16 < 2 ^ 64)
    (h3 : base.size_bytes = (base.size - 1) / 8 + 1)
    (hl : base.size_bytes ≤ base.ptn.length) (hml : base.mask.length = base.size_bytes)
    (hbp : is_bytes (base.ptn.take base.size_bytes)) (hbm : is_bytes base.mask)
    (hbase : (∀ x ∈ base.mask, x = 0xff) ∨
      ptn_within_mask (ptn_at h (gp ++ (base :: unalign_chain h.uninit k base).map f) gp.length)) :
    ∀ p ∈ (gp ++ (base :: unalign_chain h.uninit k base).map f).drop gp.length,
      ptn_within_mask p := by
  rw [List.drop_left]
  apply variants_within h.uninit base k f hf hk h0 h1 h2 h3 hbp hbm
  rcases hbase with hff | hw
  · have hw : ptn_within_mask base := by
      intro i hi
      refine ⟨by omega, by omega, ?_⟩
      have : base.mask.getD i 0 = 0xff := by
        apply hff
        rw [List.getD_eq_getElem?_getD, List.getElem?_eq_getElem (by omega)]
        simp only [Option.getD_some]
        exact List.getElem_mem _
      rw [this]
      exact within_byte_ff _
    rcases hf with hf | hf
    · rw [hf]; exact hw
    · rw [hf]; exact (ptn_reversed_within base (by omega) (by omega)).mpr hw
  · have : ptn_at h (gp ++ (base :: unalign_chain h.uninit k base).map f) gp.length = f base := by
      unfold ptn_at
      rw [List.getD_eq_getElem?_getD, List.getElem?_append_right (Nat.le_refl _), Nat.sub_self,
        List.map_cons, List.getElem?_cons_zero, Option.getD_some]
    rw [this] at hw
    exact hw

theorem modified_variants_within (h : host) (gp : List birch_ptn) (base : birch_ptn)
    (al : alignment) (en te : endian) (hen : en ≠ ENDIAN_BOTH) (out : List birch_ptn)
    (hout : out = List.take gp.length
          (gp ++ List.replicate (if al = ALIGNMENT_UNALIGNED then CHAR_BIT else 1) h.uninit) ++
        ptn_group_modify h
          ((List.drop gp.length
            (gp ++ List.replicate (if al = ALIGNMENT_UNALIGNED then CHAR_BIT else 1) h.uninit)).set
            0 base) al en te)
    (h0 : base.offs = 0) (h1 : 1 ≤ base.size) (h2 : base.size + 16 < 2 ^ 64)
    (h3 : base.size_bytes = (base.size - 1) / 8 + 1)
    (hl : base.size_bytes ≤ base.ptn.length) (hml : base.mask.length = base.size_bytes)
    (hbp : is_bytes (base.ptn.take base.size_bytes)) (hbm : is_bytes base.mask)
    (hbase : (∀ x ∈ base.mask, x = 0xff) ∨ ptn_within_mask (ptn_at h out gp.length)) :
    ∀ p ∈ out.drop gp.length, ptn_within_mask p := by
  have ha : 1 ≤ (if al = ALIGNMENT_UNALIGNED then CHAR_BIT else 1) := by
    split
    · unfold CHAR_BIT; omega
    · omega
  obtain ⟨e1, e2⟩ := new_slots_eq gp _ h.uninit base ha
  rw [e1, e2, ptn_group_modify_single h base al en te hen] at hout
  rw [hout] at hbase ⊢
  apply compiled_variants_within h gp base _ _ _ _ h0 h1 h2 h3 hl hml hbp hbm hbase
  · split
    · exact Or.inr rfl
    · exact Or.inl rfl
  · split <;> omega

theorem unaligned_variants_within (h : host) (gp : List birch_ptn) (base : birch_ptn)
    (al : alignment) (out : List birch_ptn)
    (hout : out = List.take gp.length
          (gp ++ List.replicate (if al = ALIGNMENT_UNALIGNED then CHAR_BIT else 1) h.uninit) ++
        (if al = ALIGNMENT_UNALIGNED then
          ptn_unalign h ((List.drop gp.length
            (gp ++ List.replicate (if al = ALIGNMENT_UNALIGNED then CHAR_BIT else 1) h.uninit)).set
            0 base)
        else (List.drop gp.length
            (gp ++ List.replicate (if al = ALIGNMENT_UNALIGNED then CHAR_BIT else 1) h.uninit)).set
            0 base))
    (h0 : base.offs = 0) (h1 : 1 ≤ base.size) (h2 : base.size + 16 < 2 ^ 64)
    (h3 : base.size_bytes = (base.size - 1) / 8 + 1)
    (hl : base.size_bytes ≤ base.ptn.length) (hml : base.mask.length = base.size_bytes)
    (hbp : is_bytes (base.ptn.take base.size_bytes)) (hbm : is_bytes base.mask)
    (hbase : (∀ x ∈ base.mask, x = 0xff) ∨ ptn_within_mask (ptn_at h out gp.length)) :
    ∀ p ∈ out.drop gp.length, ptn_within_mask p := by
  have ha : 1 ≤ (if al = ALIGNMENT_UNALIGNED then CHAR_BIT else 1) := by
    split
    · unfold CHAR_BIT; omega
    · omega
  obtain ⟨e1, e2⟩ := new_slots_eq gp _ h.uninit base ha
  rw [e1, e2] at hout
  have hout2 : out = gp ++ (base :: unalign_chain h.uninit
      (if al = ALIGNMENT_UNALIGNED then 7 else 0) base).map id := by
    rw [hout, List.map_id]
    cases al
    · simp only [if_true]
      have e : CHAR_BIT - 1 = 7 := rfl
      rw [e, ptn_unalign_eq_chain]
    · rfl
  rw [hout2] at hbase ⊢
  apply compiled_variants_within h gp base _ _ (Or.inl rfl) _ h0 h1 h2 h3 hl hml hbp hbm hbase
  split <;> omega

theorem is_bytes_c_string (s : List Char) : is_bytes (c_string_bytes s) := by
  intro x hx
  unfold c_string_bytes at hx
  simp only [List.mem_append, List.mem_map, List.mem_singleton] at hx
  rcases hx with ⟨c, _, hc⟩ | hx
  · rw [← hc]; exact Nat.mod_lt _ (by norm_num)
  · omega

/-- C9 (amended): for a pattern spec compiled successfully by `group_add_ptn` with a
single endian, or of type String, whose size in bits is a multiple of 8 or,
more generally, whose first variant lies within its mask, every variant added to
the group has `bytes[i] & ~mask[i] == 0` for all `i < size_bytes`, both buffers
holding `size_bytes` bytes. -/
theorem group_add_ptn_within_mask (h : host) (group group1 : birch_ptn_group)
    (arg_str : List Char) (type : data_type) (al : alignment) (en : endian) (size : Nat)
    (hsize : 1 ≤ size) (hsize64 : size + 16 < 2 ^ 64)
    (hen : en ≠ ENDIAN_BOTH ∨ type = DATA_TYPE_STRING)
    (hfloat : ∀ s, is_bytes (h.strtof s).1 ∧ (h.strtof s).1.length = 4)
    (hdouble : ∀ s, is_bytes (h.strtod s).1 ∧ (h.strtod s).1.length = 8)
    (hok : group_add_ptn h group arg_str type al en size = some (0, group1))
    (hbase : size % 8 = 0 ∨ ptn_within_mask (ptn_at h group1.ptns group.ptns.length)) :
    ∀ p ∈ group1.ptns.drop group.ptns.length, ptn_within_mask p := by
  have hn : ((size + (CHAR_BIT - 1)) % 2 ^ 64) / CHAR_BIT = (size - 1) / 8 + 1 := by
    unfold CHAR_BIT; omega
  obtain ⟨mask, hmask, mlen, mbytes, mff⟩ := ptn_mask_gen_spec size ((size - 1) / 8 + 1) (by omega)
  have hbase1 : (∀ x ∈ mask, x = 0xff) ∨
      ptn_within_mask (ptn_at h group1.ptns group.ptns.length) := by
    rcases hbase with hb | hb
    · exact Or.inl (mff hb)
    · exact Or.inr hb
  unfold group_add_ptn at hok
  simp only [hn, hmask] at hok
  cases type
  · -- integer
    have hen1 : en ≠ ENDIAN_BOTH := by
      rcases hen with hen | hen
      · exact hen
      · exact absurd hen (by decide)
    simp only [hen1, false_and, if_false] at hok
    cases hparse : bit_arr_from_str arg_str ((size - 1) / 8 + 1) with
    | out_of_bounds => rw [hparse] at hok; simp at hok
    | null => rw [hparse] at hok; simp at hok
    | arr bytes =>
      rw [hparse] at hok
      simp only [Option.some.injEq, Prod.mk.injEq, true_and] at hok
      obtain ⟨bb, bl⟩ := bit_arr_from_str_bytes _ _ _ hparse
      exact modified_variants_within h group.ptns _ al en ENDIAN_LITTLE hen1 group1.ptns
        (by rw [← hok]) rfl hsize hsize64 rfl (by simp only [bl]; omega) mlen
        (is_bytes_take _ _ bb) mbytes hbase1
  · -- float
    have hen1 : en ≠ ENDIAN_BOTH := by
      rcases hen with hen | hen
      · exact hen
      · exact absurd hen (by decide)
    simp only [hen1, false_and, if_false] at hok
    by_cases h32 : size = 4 * CHAR_BIT
    · rw [if_pos h32] at hok
      obtain ⟨fb, fl⟩ := hfloat arg_str
      by_cases hw : (h.strtof arg_str).2 = true
      · simp only [hw, not_true_eq_false, if_false, Option.some.injEq, Prod.mk.injEq,
          true_and] at hok
        have hsb : (size - 1) / 8 + 1 = 4 := by unfold CHAR_BIT at h32; omega
        exact modified_variants_within h group.ptns _ al en h.ENDIAN_NATIVE hen1 group1.ptns
          (by rw [← hok]) rfl hsize hsize64 rfl (by simp only [fl, hsb]; omega) mlen
          (is_bytes_take _ _ fb) mbytes hbase1
      · simp [hw] at hok
    · rw [if_neg h32] at hok
      by_cases h64 : size = 8 * CHAR_BIT
      · rw [if_pos h64] at hok
        obtain ⟨fb, fl⟩ := hdouble arg_str
        by_cases hw : (h.strtod arg_str).2 = true
        · simp only [hw, not_true_eq_false, if_false, Option.some.injEq, Prod.mk.injEq,
            true_and] at hok
          have hsb : (size - 1) / 8 + 1 = 8 := by unfold CHAR_BIT at h64; omega
          exact modified_variants_within h group.ptns _ al en h.ENDIAN_NATIVE hen1 group1.ptns
            (by rw [← hok]) rfl hsize hsize64 rfl (by simp only [fl, hsb]; omega) mlen
            (is_bytes_take _ _ fb) mbytes hbase1
        · simp [hw] at hok
      · rw [if_neg h64] at hok
        simp at hok
  · -- string
    simp only [ne_eq, not_true_eq_false, and_false, if_false] at hok
    by_cases hlen : arg_str.length < (size - 1) / 8 + 1
    · rw [if_pos hlen] at hok
      simp at hok
    · rw [if_neg hlen] at hok
      simp only [Option.some.injEq, Prod.mk.injEq, true_and] at hok
      have hcl : (c_string_bytes arg_str).length = arg_str.length + 1 := by
        simp [c_string_bytes]
      exact unaligned_variants_within h group.ptns _ al group1.ptns
        (by rw [← hok]) rfl hsize hsize64 rfl (by simp only [hcl]; omega) mlen
        (is_bytes_take _ _ (is_bytes_c_string arg_str)) mbytes hbase1

set_option maxRecDepth 100000 in
theorem group_add_ptn_within_mask_witness :
    (group_add_ptn example_host new_group "0x11".toList DATA_TYPE_INTEGER ALIGNMENT_UNALIGNED
        ENDIAN_LITTLE 8 = some (0, { ptns := example_unaligned_ptns, cur_match := null_match })) ∧
    (8 % 8 = 0 ∨ ptn_within_mask (ptn_at example_host example_unaligned_ptns 0)) ∧
    ∀ p ∈ example_unaligned_ptns.drop new_group.ptns.length, ptn_within_mask p :=
  ⟨by decide, Or.inl rfl,
    group_add_ptn_within_mask example_host new_group
      { ptns := example_unaligned_ptns, cur_match := null_match } "0x11".toList DATA_TYPE_INTEGER
      ALIGNMENT_UNALIGNED ENDIAN_LITTLE 8 (by norm_num) (by norm_num) (Or.inl (by decide))
      (fun _ => ⟨(by decide : is_bytes [0, 0, 0, 0]), rfl⟩)
      (fun _ => ⟨(by decide : is_bytes [0, 0, 0, 0, 0, 0, 0, 0]), rfl⟩) (by decide) (Or.inl rfl)⟩

set_option maxRecDepth 100000 in
/-- C9 (counterexample): the aligned 4-bit integer pattern `0xFF` compiles
successfully to the byte `0xFF` under the mask `0x0F`; the parsed value is
never truncated to `size_bits`, so `bytes[0] & ~mask[0] = 0xF0`. -/
theorem mask_consistency_counterexample :
    ∃ group1, group_add_ptn example_host new_group "0xFF".toList DATA_TYPE_INTEGER
        ALIGNMENT_ALIGNED ENDIAN_LITTLE 4 = some (0, group1) ∧
      group1.ptns.map (fun p => (p.ptn, p.mask, p.size_bytes)) = [([0xff], [0x0f], 1)] ∧
      ¬ ∀ p ∈ group1.ptns, ptn_within_mask p :=
  ⟨{ ptns := [birch_ptn.mk "0xFF".toList DATA_TYPE_INTEGER ALIGNMENT_ALIGNED ENDIAN_LITTLE
        [0xff] [0x0f] 0 4 0 1], cur_match := null_match }, by decide, by decide, by decide⟩

/-! ### The ranked result set -/

theorem dist_cmp_lt_iff (a b : match_dist_t) :
    ptn_group_match_dist_cmp a b < 0 ↔ dist_lt a b := by
  unfold ptn_group_match_dist_cmp dist_lt
  split_ifs <;> constructor <;> intro h <;> omega

theorem match_dist_ext (a b : match_dist_t) (h1 : a.nexist = b.nexist)
    (h2 : a.dir_diff = b.dir_diff) (h3 : a.file_diff = b.file_diff)
    (h4 : a.offs_diff = b.offs_diff) : a = b := by
  cases a; cases b; simp_all

theorem dist_le_of_not_lt (a b : match_dist_t) (h : ¬ dist_lt b a) : dist_le a b := by
  unfold dist_lt at h
  unfold dist_le dist_lt
  by_cases e : a.nexist = b.nexist ∧ a.dir_diff = b.dir_diff ∧ a.file_diff = b.file_diff ∧
      a.offs_diff = b.offs_diff
  · exact Or.inr (match_dist_ext a b e.1 e.2.1 e.2.2.1 e.2.2.2)
  · left; omega

theorem dist_le_trans (a b c : match_dist_t) (h1 : dist_le a b) (h2 : dist_le b c) :
    dist_le a c := by
  unfold dist_le at *
  rcases h1 with h1 | h1
  · rcases h2 with h2 | h2
    · left; unfold dist_lt at *; omega
    · rw [← h2]; exact Or.inl h1
  · rw [h1]; exact h2

theorem dist_le_of_lt (a b : match_dist_t) (h : dist_lt a b) : dist_le a b := Or.inl h

theorem dist_le_refl (a : match_dist_t) : dist_le a a := Or.inr rfl

theorem result_at_set (results : List birch_ptn_groups) (i j : Nat) (x : birch_ptn_groups)
    (hi : i < results.length) :
    result_at (results.set i x) j = if i = j then x else result_at results j := by
  unfold result_at
  simp only [List.getD_eq_getElem?_getD, List.getElem?_set]
  by_cases hij : i = j
  · simp [hij, hi]
    subst hij
    simp [hi]
  · simp [hij]

theorem results_swap_dist (a b : birch_ptn_groups) :
    (results_swap a b).1.match_dist = b.match_dist ∧
      (results_swap a b).2.match_dist = a.match_dist := by
  unfold results_swap
  exact ⟨rfl, rfl⟩

theorem result_add_bubble_length :
    ∀ (i : Nat) (results : List birch_ptn_groups),
      (result_add_bubble results i).length = results.length := by
  intro i
  induction i with
  | zero => intro results; rfl
  | succ j ih =>
    intro results
    simp only [result_add_bubble]
    split
    · rw [ih]; simp
    · rfl

/-- Bubbling slot `i` toward the front sorts a list that is sorted everywhere
except that slot `i` may be lower than its predecessors. -/
theorem result_add_bubble_sorted :
    ∀ (i : Nat) (results : List birch_ptn_groups), i < results.length →
      (∀ j, j + 1 < results.length → j + 1 ≠ i →
        dist_le (result_at results j).match_dist (result_at results (j + 1)).match_dist) →
      (1 ≤ i → i + 1 < results.length →
        dist_le (result_at results (i - 1)).match_dist (result_at results (i + 1)).match_dist) →
      results_sorted (result_add_bubble results i) := by
  intro i
  induction i with
  | zero =>
    intro results _ h _ j hj
    exact h j (by simp only [result_add_bubble] at hj; omega) (by omega)
  | succ j ih =>
    intro results hi h hb
    simp only [result_add_bubble]
    by_cases hc : ptn_group_match_dist_cmp (result_at results (j + 1)).match_dist
        (result_at results j).match_dist < 0
    · rw [if_pos hc]
      have hlt := (dist_cmp_lt_iff _ _).mp hc
      obtain ⟨sw1, sw2⟩ := results_swap_dist (result_at results (j + 1)) (result_at results j)
      have hlen1 : (results.set (j + 1) (results_swap (result_at results (j + 1))
          (result_at results j)).1).length = results.length := by simp
      have hat : ∀ x, (result_at ((results.set (j + 1) (results_swap (result_at results (j + 1))
          (result_at results j)).1).set j (results_swap (result_at results (j + 1))
          (result_at results j)).2) x).match_dist
          = if x = j then (result_at results (j + 1)).match_dist
            else if x = j + 1 then (result_at results j).match_dist
            else (result_at results x).match_dist := by
        intro x
        rw [result_at_set _ _ _ _ (by rw [hlen1]; omega), result_at_set _ _ _ _ hi]
        by_cases hx : x = j
        · subst hx
          rw [if_pos rfl, if_pos rfl, sw2]
        · rw [if_neg (Ne.symm hx), if_neg hx]
          by_cases hx1 : x = j + 1
          · subst hx1
            rw [if_pos rfl, if_pos rfl, sw1]
          · rw [if_neg (Ne.symm hx1), if_neg hx1]
      apply ih _ (by simp; omega)
      · intro x hx hxj
        simp only [List.length_set] at hx
        rw [hat x, hat (x + 1)]
        by_cases e1 : x = j
        · subst e1
          rw [if_pos rfl, if_neg (by omega), if_pos rfl]
          exact dist_le_of_lt _ _ hlt
        · rw [if_neg e1, if_neg hxj]
          by_cases e2 : x = j + 1
          · subst e2
            rw [if_pos rfl, if_neg (by omega)]
            have := hb (by omega) (by omega)
            simpa using this
          · rw [if_neg e2, if_neg (by omega)]
            exact h x hx (by omega)
      · intro hj1 hj2
        simp only [List.length_set] at hj2
        rw [hat (j - 1), hat (j + 1)]
        rw [if_neg (by omega), if_neg (by omega), if_neg (by omega), if_pos rfl]
        have := h (j - 1) (by omega) (by omega)
        have e : j - 1 + 1 = j := by omega
        rw [e] at this
        exact this
    · rw [if_neg hc]
      have hle := dist_le_of_not_lt _ _ (fun hh => hc ((dist_cmp_lt_iff _ _).mpr hh))
      intro x hx
      by_cases e : x = j
      · subst e; exact hle
      · exact h x (by omega) (by omega)

theorem results_sorted_le (results : List birch_ptn_groups) (hs : results_sorted results) :
    ∀ (d i : Nat), i + d < results.length →
      dist_le (result_at results i).match_dist (result_at results (i + d)).match_dist := by
  intro d
  induction d with
  | zero => intro i _; exact dist_le_refl _
  | succ d ih =>
    intro i hi
    exact dist_le_trans _ _ _ (ih i (by omega)) (hs (i + d) (by omega))

theorem result_add_replace_sorted (groups : birch_ptn_groups) (results : List birch_ptn_groups)
    (i : Nat) (hi : i < results.length) (hs : results_sorted results)
    (hlt : ptn_group_match_dist_cmp groups.match_dist (result_at results i).match_dist < 0) :
    results_sorted
      (result_add_bubble (results.set i (results_cpy (result_at results i) groups)) i) := by
  have hlt1 := (dist_cmp_lt_iff _ _).mp hlt
  have hcpy : (results_cpy (result_at results i) groups).match_dist = groups.match_dist := rfl
  apply result_add_bubble_sorted i _ (by simp; exact hi)
  · intro j hj hji
    simp only [List.length_set] at hj
    rw [result_at_set _ _ _ _ hi, result_at_set _ _ _ _ hi, if_neg (Ne.symm hji)]
    by_cases e : i = j
    · subst e
      rw [if_pos rfl, hcpy]
      exact dist_le_trans _ _ _ (dist_le_of_lt _ _ hlt1) (hs i (by omega))
    · rw [if_neg e]
      exact hs j (by omega)
  · intro h1 h2
    simp only [List.length_set] at h2
    rw [result_at_set _ _ _ _ hi, result_at_set _ _ _ _ hi, if_neg (by omega), if_neg (by omega)]
    have := results_sorted_le results hs 2 (i - 1) (by omega)
    have e : i - 1 + 2 = i + 1 := by omega
    rw [e] at this
    exact this

theorem result_add_find_lt (groups : birch_ptn_groups) (results : List birch_ptn_groups) :
    ∀ (n i : Nat), result_add_find groups results n = some i → i < n := by
  intro n
  induction n with
  | zero => intro i h; simp [result_add_find] at h
  | succ n ih =>
    intro i h
    simp only [result_add_find] at h
    split at h
    · simp only [Option.some.injEq] at h; omega
    · have := ih i h; omega

theorem result_add_keeps_sorted (groups : birch_ptn_groups) (results : List birch_ptn_groups)
    (K : Nat) (hK : K = results.length) (h1 : 1 ≤ K) (h64 : K < 2 ^ 64)
    (hs : results_sorted results) :
    results_sorted (result_add groups results K) := by
  unfold result_add
  cases hf : result_add_find groups results K with
  | some i =>
    have hi := result_add_find_lt groups results K i hf
    simp only
    split
    · next hlt => exact result_add_replace_sorted groups results i (by omega) hs hlt
    · exact hs
  | none =>
    have e : sub_u64 K 1 = K - 1 := by unfold sub_u64; omega
    simp only [e]
    split
    · next hlt => exact result_add_replace_sorted groups results (K - 1) (by omega) hs hlt
    · apply result_add_bubble_sorted (K - 1) results (by omega)
      · intro j hj _
        exact hs j (by omega)
      · intro _ h2
        omega

/-! ### Invariants of the scan loops -/

/-- Induction principle for the scan of one file: a property indexed by the
position of the scan (byte index, group index, variant index) that every
variant step carries to the next variant, and that is kept when the position
moves on to the next group or the next byte, holds at the end of the file. -/
theorem birch_file_bytes_invariant (mem : Nat → List Char) (K path : Nat)
    (I : Nat → Nat → Nat → scan_state → Prop)
    (hstep : ∀ j c g v st st1, I j g v st →
      birch_file_ptn mem K path j c g v st = some st1 → I j g (v + 1) st1)
    (hgroup : ∀ j g v st, I j g v st → I j (g + 1) 0 st)
    (hbyte : ∀ j g st, I j g 0 st → I (j + 1) 0 0 st) :
    ∀ (content : List Nat) (j : Nat) (st st1 : scan_state), I j 0 0 st →
      birch_file_bytes mem K path content j st = some st1 → I (j + content.length) 0 0 st1 := by
  have hptns : ∀ (j c g k v : Nat) (st st1 : scan_state), I j g v st →
      birch_file_ptns mem K path j c g k v st = some st1 → I j g (v + k) st1 := by
    intro j c g k
    induction k with
    | zero =>
      intro v st st1 hI h
      simp only [birch_file_ptns, Option.some.injEq] at h
      rw [← h]; exact hI
    | succ k ih =>
      intro v st st1 hI h
      simp only [birch_file_ptns] at h
      split at h
      · simp at h
      · next st2 h2 =>
        have := ih (v + 1) st2 st1 (hstep j c g v st st2 hI h2) h
        have e : v + 1 + k = v + (k + 1) := by omega
        rw [e] at this
        exact this
  have hgroups : ∀ (j c k g : Nat) (st st1 : scan_state), I j g 0 st →
      birch_file_groups mem K path j c k g st = some st1 → I j (g + k) 0 st1 := by
    intro j c k
    induction k with
    | zero =>
      intro g st st1 hI h
      simp only [birch_file_groups, Option.some.injEq] at h
      rw [← h]; exact hI
    | succ k ih =>
      intro g st st1 hI h
      simp only [birch_file_groups] at h
      split at h
      · simp at h
      · next st2 h2 =>
        have h3 := hgroup j g _ st2 (hptns j c g _ 0 st st2 hI h2)
        have := ih (g + 1) st2 st1 h3 h
        have e : g + 1 + k = g + (k + 1) := by omega
        rw [e] at this
        exact this
  intro content
  induction content with
  | nil =>
    intro j st st1 hI h
    simp only [birch_file_bytes, Option.some.injEq] at h
    rw [← h]; exact hI
  | cons c rest ih =>
    intro j st st1 hI h
    simp only [birch_file_bytes] at h
    split at h
    · simp at h
    · next st2 h2 =>
      have h3 := hgroups j c _ 0 st st2 hI h2
      have := ih (j + 1) st2 st1 (hbyte j _ st2 h3) h
      have e : j + 1 + rest.length = j + (c :: rest).length := by simp; omega
      rw [e] at this
      exact this

/-- A property of the scan state kept by every variant step and by the cursor
reset at the start of a file holds after scanning any sequence of files. -/
theorem scan_files_invariant (mem : Nat → List Char) (K : Nat) (P : scan_state → Prop)
    (hstep : ∀ path j c g v st st1, P st →
      birch_file_ptn mem K path j c g v st = some st1 → P st1)
    (hreset : ∀ st, P st → P { groups := birch_file_reset st.groups, results := st.results }) :
    ∀ (files : List (Nat × List Nat)) (st st1 : scan_state), P st →
      scan_files mem K files st = some st1 → P st1 := by
  intro files
  induction files with
  | nil =>
    intro st st1 hP h
    simp only [scan_files, Option.some.injEq] at h
    rw [← h]; exact hP
  | cons f rest ih =>
    intro st st1 hP h
    obtain ⟨path, content⟩ := f
    simp only [scan_files] at h
    split at h
    · simp at h
    · next st2 h2 =>
      apply ih st2 st1 _ h
      have := birch_file_bytes_invariant mem K path (fun _ _ _ s => P s)
        (fun j c g v s s1 hs hh => hstep path j c g v s s1 hs hh)
        (fun _ _ _ _ hs => hs) (fun _ _ _ hs => hs) content 0 _ st2 (hreset st hP) h2
      exact this

/-- C3: for a result list of `K ≥ 1` tuples sorted ascending by lexicographic
distance and every groups state, the list after `result_add` is again sorted:
`distance(result[i]) ≤ distance(result[i + 1])` for every `i < K - 1`.  The
initial all-sentinel list is sorted (`results_init_sorted`), hence so is the
result list after every offer of a scan (`scan_files_sorted`). -/
theorem result_add_sorted (groups : birch_ptn_groups) (results : List birch_ptn_groups)
    (K : Nat) (hK : K = results.length) (h1 : 1 ≤ K) (h64 : K < 2 ^ 64)
    (hs : results_sorted results) :
    results_sorted (result_add groups results K) :=
  result_add_keeps_sorted groups results K hK h1 h64 hs

theorem result_add_sorted_witness :
    (2 = [example_tuple [⟨some (0, 0), 1, 8⟩, ⟨some (1, 0), 1, 32⟩] ⟨0, 0, 0, 24⟩,
          example_tuple [null_match, null_match] ⟨2, 0, 0, 0⟩].length ∧
      results_sorted [example_tuple [⟨some (0, 0), 1, 8⟩, ⟨some (1, 0), 1, 32⟩] ⟨0, 0, 0, 24⟩,
          example_tuple [null_match, null_match] ⟨2, 0, 0, 0⟩]) ∧
    results_sorted
      (result_add (example_tuple [⟨some (0, 0), 1, 40⟩, ⟨some (1, 0), 1, 48⟩] ⟨0, 0, 0, 8⟩)
        [example_tuple [⟨some (0, 0), 1, 8⟩, ⟨some (1, 0), 1, 32⟩] ⟨0, 0, 0, 24⟩,
          example_tuple [null_match, null_match] ⟨2, 0, 0, 0⟩] 2) :=
  ⟨⟨rfl, by decide⟩,
    result_add_sorted _ _ 2 rfl (by norm_num) (by norm_num) (by decide)⟩

theorem result_add_length (groups : birch_ptn_groups) (results : List birch_ptn_groups)
    (K : Nat) : (result_add groups results K).length = results.length := by
  unfold result_add
  split
  · split
    · rw [result_add_bubble_length]; simp
    · rfl
  · simp only
    split
    · rw [result_add_bubble_length]; simp
    · rw [result_add_bubble_length]

theorem birch_file_ptn_results (mem : Nat → List Char) (K path j c g v : Nat)
    (st st1 : scan_state) (h : birch_file_ptn mem K path j c g v st = some st1) :
    st1.results = st.results ∨ ∃ groups, st1.results = result_add groups st.results K := by
  unfold birch_file_ptn at h
  split at h
  · simp at h
  · split at h
    · simp at h
    · split at h
      · simp at h
      · simp only at h
        split at h
        · simp only [Option.some.injEq] at h
          rw [← h]
          exact Or.inr ⟨_, rfl⟩
        · simp only [Option.some.injEq] at h
          rw [← h]
          exact Or.inl rfl

theorem results_init_sorted (groups : birch_ptn_groups) (K : Nat) :
    results_sorted (results_init groups K) := by
  intro i hi
  unfold results_init at hi ⊢
  rw [List.length_replicate] at hi
  unfold result_at
  rw [List.getD_eq_getElem?_getD, List.getD_eq_getElem?_getD,
    List.getElem?_replicate_of_lt (by omega), List.getElem?_replicate_of_lt (by omega)]
  exact dist_le_refl _

/-- The ranked result set is sorted after every offer of a scan: the initial
all-sentinel list is sorted and `result_add` keeps it so. -/
theorem scan_files_sorted (mem : Nat → List Char) (K : Nat) (h1 : 1 ≤ K) (h64 : K < 2 ^ 64)
    (groups : List birch_ptn_group) (files : List (Nat × List Nat)) (st1 : scan_state)
    (h : scan_files mem K files (scan_init groups K) = some st1) :
    results_sorted st1.results := by
  have := scan_files_invariant mem K
    (fun st => results_sorted st.results ∧ st.results.length = K)
    (by
      intro path j c g v st st2 hP hh
      rcases birch_file_ptn_results mem K path j c g v st st2 hh with e | ⟨gs, e⟩
      · rw [e]; exact hP
      · rw [e]
        exact ⟨result_add_keeps_sorted gs st.results K hP.2.symm h1 h64 hP.1,
          by rw [result_add_length]; exact hP.2⟩)
    (fun st hP => hP) files (scan_init groups K) st1
    ⟨results_init_sorted _ K, by simp [scan_init, results_init]⟩ h
  exact this.1

/-! ### The aggregate distance vector -/

theorem match_dist_get_add (a b : match_dist_t) (j : Nat) :
    (a.add b).get j = a.get j + b.get j := by
  unfold match_dist_t.add match_dist_t.get
  split <;> rfl

theorem match_dist_get_add_diff (d n o : match_dist_t) (j : Nat) :
    (match_dist_add_diff d n o).get j = (d.get j + sub_u64 (n.get j) (o.get j)) % 2 ^ 64 := by
  unfold match_dist_add_diff match_dist_t.get
  split <;> rfl

theorem match_dist_get_zero (j : Nat) : match_dist_zero.get j = 0 := by
  unfold match_dist_zero match_dist_t.get
  split <;> rfl

theorem path_delim_count_lt : ∀ (p : List Char) (d : Nat), d < 2 ^ 32 →
    path_delim_count p d < 2 ^ 32 := by
  intro p
  induction p with
  | nil => intro d hd; exact hd
  | cons c p ih =>
    intro d hd
    simp only [path_delim_count]
    split
    · exact ih _ (Nat.mod_lt _ (by norm_num))
    · exact ih _ hd

theorem path_dir_diff_comm : ∀ (a b : List Char), path_dir_diff a b = path_dir_diff b a := by
  intro a
  induction a with
  | nil =>
    intro b
    cases b with
    | nil => rfl
    | cons y ys => simp only [path_dir_diff]; rw [Nat.add_comm]
  | cons x xs ih =>
    intro b
    cases b with
    | nil => simp only [path_dir_diff]; rw [Nat.add_comm]
    | cons y ys =>
      simp only [path_dir_diff]
      by_cases hxy : x = y
      · subst hxy
        simp only [if_true]
        exact ih ys
      · rw [if_neg hxy, if_neg (Ne.symm hxy), Nat.add_comm]

theorem path_dir_diff_lt (a b : List Char) : path_dir_diff a b < 2 ^ 64 := by
  have h : ∀ (a b : List Char), path_dir_diff a b < 2 ^ 32 := by
    intro a
    induction a with
    | nil => intro b; cases b <;> simp only [path_dir_diff] <;> exact Nat.mod_lt _ (by norm_num)
    | cons x xs ih =>
      intro b
      cases b with
      | nil => simp only [path_dir_diff]; exact Nat.mod_lt _ (by norm_num)
      | cons y ys =>
        simp only [path_dir_diff]
        split
        · exact ih ys
        · exact Nat.mod_lt _ (by norm_num)
  have := h a b
  omega

theorem dist_calc_comm (mem : Nat → List Char) (a b : birch_match) (ha : a.offs < 2 ^ 64)
    (hb : b.offs < 2 ^ 64) :
    ptn_group_match_dist_calc mem a b = ptn_group_match_dist_calc mem b a := by
  unfold ptn_group_match_dist_calc
  by_cases hn : a.ptn = none ∨ b.ptn = none
  · rw [if_pos hn, if_pos (Or.symm hn)]
  · rw [if_neg hn, if_neg (fun h => hn (Or.symm h))]
    have e1 : path_dir_diff (mem a.path) (mem b.path) = path_dir_diff (mem b.path) (mem a.path) :=
      path_dir_diff_comm _ _
    have e2 : (if mem a.path ≠ mem b.path then 1 else 0)
        = (if mem b.path ≠ mem a.path then (1 : Nat) else 0) := by
      by_cases h : mem a.path = mem b.path
      · simp [h]
      · simp [h, Ne.symm h]
    have e3 : (if sub_u64 a.offs b.offs > a.offs then sub_u64 b.offs a.offs
          else sub_u64 a.offs b.offs)
        = (if sub_u64 b.offs a.offs > b.offs then sub_u64 a.offs b.offs
          else sub_u64 b.offs a.offs) := by
      unfold sub_u64
      split_ifs <;> omega
    simp only [e1, e2, e3]

theorem dist_calc_get_lt (mem : Nat → List Char) (a b : birch_match) (j : Nat) :
    (ptn_group_match_dist_calc mem a b).get j < 2 ^ 64 := by
  unfold ptn_group_match_dist_calc
  split
  · unfold match_dist_t.get
    split <;> norm_num
  · unfold match_dist_t.get
    split
    · norm_num
    · exact path_dir_diff_lt _ _
    · simp only; split <;> norm_num
    · simp only
      unfold sub_u64
      split <;> exact Nat.mod_lt _ (by norm_num)

/-- The matches of the groups other than `g` met by the loop of
`ptn_group_match_dist_update` that starts at index `i`. -/
theorem update_loop_congr (mem : Nat → List Char) (g : Nat) (old new : birch_match) (j : Nat) :
    ∀ (l : List birch_ptn_group) (i : Nat) (d : match_dist_t),
      ((ptn_group_match_dist_update_loop mem g old new l i d).get j
          + (pair_distance_row mem old
              (if i ≤ g then (l.map (fun x => x.cur_match)).eraseIdx (g - i)
                else l.map (fun x => x.cur_match))).get j) % 2 ^ 64
        = (d.get j + (pair_distance_row mem new
              (if i ≤ g then (l.map (fun x => x.cur_match)).eraseIdx (g - i)
                else l.map (fun x => x.cur_match))).get j) % 2 ^ 64 := by
  intro l
  induction l with
  | nil =>
    intro i d
    simp [ptn_group_match_dist_update_loop, pair_distance_row]
  | cons grp rest ih =>
    intro i d
    by_cases hig : i = g
    · subst hig
      have := ih (i + 1) d
      rw [if_neg (by omega)] at this
      simp only [ptn_group_match_dist_update_loop, if_true, Nat.le_refl, Nat.sub_self,
        List.map_cons, List.eraseIdx_cons_zero]
      exact this
    · have hn := dist_calc_get_lt mem grp.cur_match new j
      have ho := dist_calc_get_lt mem grp.cur_match old j
      have := ih (i + 1) (match_dist_add_diff d (ptn_group_match_dist_calc mem grp.cur_match new)
        (ptn_group_match_dist_calc mem grp.cur_match old))
      rw [match_dist_get_add_diff] at this
      have hoth : (if i ≤ g then ((grp :: rest).map (fun x => x.cur_match)).eraseIdx (g - i)
            else (grp :: rest).map (fun x => x.cur_match))
          = grp.cur_match :: (if i + 1 ≤ g then (rest.map (fun x => x.cur_match)).eraseIdx
              (g - (i + 1)) else rest.map (fun x => x.cur_match)) := by
        by_cases hlt : i ≤ g
        · have e : g - i = (g - (i + 1)) + 1 := by omega
          rw [if_pos hlt, if_pos (by omega), e]
          rfl
        · rw [if_neg hlt, if_neg (by omega)]
          rfl
      rw [hoth]
      simp only [ptn_group_match_dist_update_loop, if_neg hig, pair_distance_row,
        match_dist_get_add]
      generalize (ptn_group_match_dist_update_loop mem g old new rest (i + 1) _).get j = L at *
      generalize (pair_distance_row mem old _).get j = Ro at *
      generalize (pair_distance_row mem new _).get j = Rn at *
      generalize (ptn_group_match_dist_calc mem grp.cur_match new).get j = n at *
      generalize (ptn_group_match_dist_calc mem grp.cur_match old).get j = o at *
      unfold sub_u64 at this
      omega

theorem pair_distance_row_set (mem : Nat → List Char) (x old new : birch_match) (j : Nat) :
    ∀ (rest : List birch_match) (g : Nat), rest[g]? = some old →
      (pair_distance_row mem x (rest.set g new)).get j + (ptn_group_match_dist_calc mem old x).get j
        = (pair_distance_row mem x rest).get j + (ptn_group_match_dist_calc mem new x).get j := by
  intro rest
  induction rest with
  | nil => intro g h; simp at h
  | cons y ys ih =>
    intro g h
    cases g with
    | zero =>
      simp only [List.getElem?_cons_zero, Option.some.injEq] at h
      subst h
      simp only [List.set_cons_zero, pair_distance_row, match_dist_get_add]
      omega
    | succ g =>
      simp only [List.getElem?_cons_succ] at h
      have := ih g h
      simp only [List.set_cons_succ, pair_distance_row, match_dist_get_add]
      omega

theorem pair_distance_sum_set (mem : Nat → List Char) (old new : birch_match)
    (hnew : new.offs < 2 ^ 64) (j : Nat) :
    ∀ (ms : List birch_match) (g : Nat), ms[g]? = some old → (∀ m ∈ ms, m.offs < 2 ^ 64) →
      (pair_distance_sum mem (ms.set g new)).get j
          + (pair_distance_row mem old (ms.eraseIdx g)).get j
        = (pair_distance_sum mem ms).get j + (pair_distance_row mem new (ms.eraseIdx g)).get j := by
  intro ms
  induction ms with
  | nil => intro g h; simp at h
  | cons x rest ih =>
    intro g h hoffs
    cases g with
    | zero =>
      simp only [List.getElem?_cons_zero, Option.some.injEq] at h
      subst h
      simp only [List.set_cons_zero, List.eraseIdx_cons_zero, pair_distance_sum,
        match_dist_get_add]
      omega
    | succ g =>
      simp only [List.getElem?_cons_succ] at h
      have hx : x.offs < 2 ^ 64 := hoffs x (by simp)
      have hold : old.offs < 2 ^ 64 := hoffs old (by
        simp only [List.mem_cons]
        exact Or.inr (List.getElem?_mem h))
      have i1 := ih g h (fun m hm => hoffs m (by simp [hm]))
      have i2 := pair_distance_row_set mem x old new j rest g h
      rw [dist_calc_comm mem old x hold hx, dist_calc_comm mem new x hnew hx] at i2
      simp only [List.set_cons_succ, List.eraseIdx_cons_succ, pair_distance_sum,
        pair_distance_row, match_dist_get_add]
      omega

theorem update_loop_lt (mem : Nat → List Char) (g : Nat) (old new : birch_match) :
    ∀ (l : List birch_ptn_group) (i : Nat) (d : match_dist_t), (∀ j, d.get j < 2 ^ 64) →
      ∀ j, (ptn_group_match_dist_update_loop mem g old new l i d).get j < 2 ^ 64 := by
  intro l
  induction l with
  | nil => intro i d hd j; exact hd j
  | cons grp rest ih =>
    intro i d hd j
    simp only [ptn_group_match_dist_update_loop]
    split
    · exact ih _ d hd j
    · apply ih
      intro k
      rw [match_dist_get_add_diff]
      exact Nat.mod_lt _ (by norm_num)

theorem dist_update_pair_sum (mem : Nat → List Char) (groups : birch_ptn_groups) (g : Nat)
    (m_new : birch_match) (hg : g < groups.groups.length) (hnew : m_new.offs < 2 ^ 64)
    (hoffs : ∀ m ∈ current_matches groups, m.offs < 2 ^ 64)
    (hinv : groups.groups.length ≠ 1 → ∀ j, groups.match_dist.get j
      = (pair_distance_sum mem (current_matches groups)).get j % 2 ^ 64) :
    ∀ j, (ptn_group_match_dist_update mem groups g m_new).match_dist.get j
      = (pair_distance_sum mem ((current_matches groups).set g m_new)).get j % 2 ^ 64 := by
  intro j
  unfold ptn_group_match_dist_update
  by_cases h1 : groups.groups.length = 1
  · rw [if_pos h1]
    have hg0 : g = 0 := by omega
    subst hg0
    obtain ⟨x, hx⟩ := List.length_eq_one.mp h1
    simp only [current_matches, hx, List.map_cons, List.map_nil, List.set_cons_zero,
      pair_distance_sum, pair_distance_row, match_dist_get_add, match_dist_get_zero]
    unfold match_dist_t.get
    split <;> rfl
  · rw [if_neg h1]
    have hold : ((groups.groups[g]?).map (fun group => group.cur_match)).getD null_match
        = (groups.groups[g]).cur_match := by
      rw [List.getElem?_eq_getElem hg]; rfl
    have hget : (current_matches groups)[g]? = some (groups.groups[g]).cur_match := by
      unfold current_matches
      rw [List.getElem?_map, List.getElem?_eq_getElem hg]; rfl
    simp only [hold]
    have c1 := update_loop_congr mem g (groups.groups[g]).cur_match m_new j groups.groups 0
      groups.match_dist
    rw [if_pos (Nat.zero_le _), Nat.sub_zero] at c1
    have c2 := pair_distance_sum_set mem (groups.groups[g]).cur_match m_new hnew j
      (current_matches groups) g hget hoffs
    have c3 := hinv h1 j
    unfold current_matches at c2 c3
    have hlt : (ptn_group_match_dist_update_loop mem g (groups.groups[g]).cur_match m_new
        groups.groups 0 groups.match_dist).get j < 2 ^ 64 := by
      apply update_loop_lt
      intro k
      rw [hinv h1 k]
      exact Nat.mod_lt _ (by norm_num)
    unfold current_matches
    generalize (ptn_group_match_dist_update_loop mem g _ m_new groups.groups 0
      groups.match_dist).get j = L at *
    generalize (pair_distance_row mem (groups.groups[g]).cur_match _).get j = Ro at *
    generalize (pair_distance_row mem m_new _).get j = Rn at *
    generalize (pair_distance_sum mem ((groups.groups.map fun g => g.cur_match).set g m_new)).get j
      = Pn at *
    generalize (pair_distance_sum mem (groups.groups.map fun g => g.cur_match)).get j = Po at *
    generalize groups.match_dist.get j = D at *
    omega

theorem map_set_same {α β : Type} (f : α → β) (l : List α) (g : Nat) (x y : α)
    (hx : l[g]? = some x) (hf : f y = f x) : (l.set g y).map f = l.map f := by
  apply List.ext_getElem?
  intro i
  rw [List.getElem?_map, List.getElem?_map, List.getElem?_set]
  by_cases hi : g = i
  · subst hi
    rw [if_pos rfl, hx]
    have : g < l.length := by
      by_contra hh
      rw [List.getElem?_eq_none (by omega)] at hx
      simp at hx
    rw [if_pos this]
    simp [hf]
  · rw [if_neg hi]

theorem map_set_comm {α β : Type} (f : α → β) (l : List α) (g : Nat) (y : α) :
    (l.set g y).map f = (l.map f).set g (f y) := by
  apply List.ext_getElem?
  intro i
  rw [List.getElem?_map, List.getElem?_set, List.getElem?_set, List.length_map]
  by_cases hi : g = i
  · subst hi
    rw [if_pos rfl, if_pos rfl]
    split <;> simp
  · rw [if_neg hi, if_neg hi, List.getElem?_map]

theorem dist_update_groups (mem : Nat → List Char) (groups : birch_ptn_groups) (g : Nat)
    (m : birch_match) : (ptn_group_match_dist_update mem groups g m).groups = groups.groups := by
  unfold ptn_group_match_dist_update
  split <;> rfl

theorem birch_file_ptn_dist_invariant (mem : Nat → List Char) (K path j c g v : Nat)
    (st st1 : scan_state) (hP : dist_invariant mem st.groups)
    (h : birch_file_ptn mem K path j c g v st = some st1) : dist_invariant mem st1.groups := by
  unfold birch_file_ptn at h
  split at h
  · simp at h
  · next group hgroup =>
    split at h
    · simp at h
    · split at h
      · simp at h
      · next ptn1 r hmatch =>
        have hg : g < st.groups.groups.length := by
          by_contra hh
          rw [List.getElem?_eq_none (by omega)] at hgroup
          simp at hgroup
        have hcm0 : current_matches
            { st.groups with
              groups := st.groups.groups.set g { group with ptns := group.ptns.set v ptn1 } }
            = current_matches st.groups := by
          unfold current_matches
          exact map_set_same _ _ g group _ hgroup rfl
        simp only at h
        split at h
        · simp only [Option.some.injEq] at h
          rw [← h]
          simp only
          have hnew : ((sub_u64 (((j * CHAR_BIT) % 2 ^ 64 + ptn1.offs) % 2 ^ 64) ptn1.size
              + CHAR_BIT) % 2 ^ 64) < 2 ^ 64 := Nat.mod_lt _ (by norm_num)
          have hup := dist_update_pair_sum mem
            { st.groups with
              groups := st.groups.groups.set g { group with ptns := group.ptns.set v ptn1 } }
            g ⟨some (g, v), path, _⟩ (by simp; exact hg) hnew
            (by rw [hcm0]; exact hP.1) (by intro _; rw [hcm0]; exact hP.2)
          rw [hcm0] at hup
          have hcm1 : current_matches
              { groups := (ptn_group_match_dist_update mem
                  { st.groups with
                    groups := st.groups.groups.set g { group with ptns := group.ptns.set v ptn1 } }
                  g ⟨some (g, v), path, (sub_u64 (((j * CHAR_BIT) % 2 ^ 64 + ptn1.offs) % 2 ^ 64)
                    ptn1.size + CHAR_BIT) % 2 ^ 64⟩).groups.set g
                  { ptns := group.ptns.set v ptn1,
                    cur_match := ⟨some (g, v), path, (sub_u64 (((j * CHAR_BIT) % 2 ^ 64 + ptn1.offs)
                      % 2 ^ 64) ptn1.size + CHAR_BIT) % 2 ^ 64⟩ },
                match_dist := (ptn_group_match_dist_update mem
                  { st.groups with
                    groups := st.groups.groups.set g { group with ptns := group.ptns.set v ptn1 } }
                  g ⟨some (g, v), path, (sub_u64 (((j * CHAR_BIT) % 2 ^ 64 + ptn1.offs) % 2 ^ 64)
                    ptn1.size + CHAR_BIT) % 2 ^ 64⟩).match_dist }
              = (current_matches st.groups).set g ⟨some (g, v), path,
                  (sub_u64 (((j * CHAR_BIT) % 2 ^ 64 + ptn1.offs) % 2 ^ 64) ptn1.size
                    + CHAR_BIT) % 2 ^ 64⟩ := by
            rw [← hcm0]
            unfold current_matches
            simp only [dist_update_groups]
            rw [map_set_comm]
          refine ⟨?_, ?_⟩
          · rw [hcm1]
            intro m hm
            rcases List.mem_or_eq_of_mem_set hm with hm | hm
            · exact hP.1 m hm
            · rw [hm]; exact hnew
          · intro k
            rw [hcm1]
            exact hup k
        · simp only [Option.some.injEq] at h
          rw [← h]
          simp only
          exact ⟨by rw [hcm0]; exact hP.1, by intro k; rw [hcm0]; exact hP.2 k⟩

theorem combinations2_small (groups : birch_ptn_groups) (h2 : 2 ≤ groups.groups.length)
    (h20 : groups.groups.length ≤ 20) :
    combinations2 groups * 2 = groups.groups.length * (groups.groups.length - 1) := by
  unfold combinations2
  generalize groups.groups.length = n at *
  interval_cases n <;> decide

theorem pair_distance_row_null (mem : Nat → List Char) :
    ∀ (k j : Nat), (pair_distance_row mem null_match (List.replicate k null_match)).get j
      = if j = 0 then k else 0 := by
  intro k
  induction k with
  | zero => intro j; simp [pair_distance_row, match_dist_get_zero]
  | succ k ih =>
    intro j
    have hc : ptn_group_match_dist_calc mem null_match null_match = ⟨1, 0, 0, 0⟩ := rfl
    simp only [List.replicate_succ, pair_distance_row, match_dist_get_add, ih, hc]
    by_cases hj : j = 0
    · subst hj
      simp only [if_true]
      show 1 + k = k + 1
      omega
    · simp only [if_neg hj, Nat.add_zero]
      unfold match_dist_t.get
      split
      · exact absurd rfl hj
      · rfl
      · rfl
      · rfl

theorem pair_distance_sum_null (mem : Nat → List Char) :
    ∀ (n j : Nat), (pair_distance_sum mem (List.replicate n null_match)).get j * 2
      = if j = 0 then n * (n - 1) else 0 := by
  intro n
  induction n with
  | zero => intro j; simp [pair_distance_sum, match_dist_get_zero]
  | succ n ih =>
    intro j
    simp only [List.replicate_succ, pair_distance_sum, match_dist_get_add,
      pair_distance_row_null, Nat.add_mul, ih]
    by_cases hj : j = 0
    · simp only [hj, if_true]
      cases n with
      | zero => rfl
      | succ m => simp only [Nat.add_sub_cancel]; ring
    · simp [hj]

theorem scan_init_dist_invariant (mem : Nat → List Char) (groups : List birch_ptn_group)
    (K : Nat) (h2 : 2 ≤ groups.length) (h20 : groups.length ≤ 20)
    (hnull : ∀ g ∈ groups, g.cur_match = null_match) :
    dist_invariant mem (scan_init groups K).groups := by
  have hcm : current_matches (scan_init groups K).groups
      = List.replicate groups.length null_match := by
    unfold current_matches scan_init parse_args_init_dist
    simp only
    apply List.eq_replicate_iff.mpr
    refine ⟨by simp, ?_⟩
    intro m hm
    simp only [List.mem_map] at hm
    obtain ⟨g, hg, hgm⟩ := hm
    rw [← hgm]; exact hnull g hg
  refine ⟨?_, ?_⟩
  · rw [hcm]
    intro m hm
    rw [List.mem_replicate] at hm
    rw [hm.2]
    exact Nat.pow_pos (by norm_num)
  · intro j
    rw [hcm]
    have hs := pair_distance_sum_null mem groups.length j
    have hc := combinations2_small
      { groups := groups, match_dist := { nexist := 0, dir_diff := 0, file_diff := 0, offs_diff := 0 } }
      h2 h20
    simp only at hc
    have hd : (scan_init groups K).groups.match_dist
        = { nexist := combinations2
              { groups := groups,
                match_dist := { nexist := 0, dir_diff := 0, file_diff := 0, offs_diff := 0 } },
            dir_diff := 0, file_diff := 0, offs_diff := 0 } := rfl
    rw [hd]
    have hbound : groups.length * (groups.length - 1) ≤ 20 * 20 :=
      Nat.mul_le_mul h20 (by omega)
    by_cases hj : j = 0
    · subst hj
      rw [if_pos rfl] at hs
      have e : (pair_distance_sum mem (List.replicate groups.length null_match)).get 0
          = combinations2
              { groups := groups,
                match_dist := { nexist := 0, dir_diff := 0, file_diff := 0, offs_diff := 0 } } := by
        omega
      rw [e]
      show combinations2 _ = combinations2 _ % 2 ^ 64
      rw [Nat.mod_eq_of_lt (by omega)]
    · rw [if_neg hj] at hs
      have e : (pair_distance_sum mem (List.replicate groups.length null_match)).get j = 0 := by
        omega
      rw [e]
      unfold match_dist_t.get
      split
      · exact absurd rfl hj
      · rfl
      · rfl
      · rfl

theorem birch_file_reset_matches (groups : birch_ptn_groups) :
    current_matches (birch_file_reset groups) = current_matches groups ∧
      (birch_file_reset groups).match_dist = groups.match_dist := by
  unfold current_matches birch_file_reset
  simp only [List.map_map, and_true]
  rfl

theorem scan_files_dist_invariant (mem : Nat → List Char) (K : Nat)
    (groups : List birch_ptn_group) (files : List (Nat × List Nat)) (st1 : scan_state)
    (h2 : 2 ≤ groups.length) (h20 : groups.length ≤ 20)
    (hnull : ∀ g ∈ groups, g.cur_match = null_match)
    (h : scan_files mem K files (scan_init groups K) = some st1) :
    dist_invariant mem st1.groups := by
  apply scan_files_invariant mem K (fun st => dist_invariant mem st.groups)
    (fun path j c g v st st2 hP hh => birch_file_ptn_dist_invariant mem K path j c g v st st2 hP hh)
    _ files (scan_init groups K) st1 (scan_init_dist_invariant mem groups K h2 h20 hnull) h
  intro st hP
  obtain ⟨e1, e2⟩ := birch_file_reset_matches st.groups
  unfold dist_invariant
  simp only [e1, e2]
  exact hP

/-! ### C5: the aggregate distance counts every unordered pair once -/

/-- C5 (amended): for a scan started by `main` with `G` groups, `2 ≤ G ≤ 20`, none
of which has a current match yet, the aggregate distance vector `D` of the groups
state reached after scanning any sequence of files (of any contents, so at any
byte of a scan) equals, element by element and modulo `2 ^ 64`, the sum of
`pair_distance` over the `G * (G - 1) / 2` unordered pairs of distinct groups,
each pair counted once. -/
theorem aggregate_distance_unordered_pairs (mem : Nat → List Char) (K : Nat)
    (groups : List birch_ptn_group) (files : List (Nat × List Nat)) (st1 : scan_state)
    (h2 : 2 ≤ groups.length) (h20 : groups.length ≤ 20)
    (hnull : ∀ g ∈ groups, g.cur_match = null_match)
    (h : scan_files mem K files (scan_init groups K) = some st1) :
    ∀ j, j < 4 → st1.groups.match_dist.get j
      = (pair_distance_sum mem (current_matches st1.groups)).get j % 2 ^ 64 :=
  fun j _ => (scan_files_dist_invariant mem K groups files st1 h2 h20 hnull h).2 j

set_option maxRecDepth 100000 in
theorem aggregate_distance_unordered_pairs_witness :
    ∃ st1, scan_files example_mem 1 [(1, [0, 0x12, 0x34]), (2, [0x56, 0x78, 0])]
        (scan_init example_two_groups 1) = some st1 ∧
      ∀ j, j < 4 → st1.groups.match_dist.get j
        = (pair_distance_sum example_mem (current_matches st1.groups)).get j % 2 ^ 64 :=
  have hs : (scan_files example_mem 1 [(1, [0, 0x12, 0x34]), (2, [0x56, 0x78, 0])]
      (scan_init example_two_groups 1)).isSome = true := by decide
  ⟨Option.get _ hs, (Option.some_get hs).symm,
    aggregate_distance_unordered_pairs example_mem 1 example_two_groups
      [(1, [0, 0x12, 0x34]), (2, [0x56, 0x78, 0])] (Option.get _ hs)
      (by decide) (by decide) (by decide) (Option.some_get hs).symm⟩

set_option maxRecDepth 100000 in
/-- C5 (counterexample): with two groups, before any file is scanned the
aggregate distance is `(1, 0, 0, 0)` where the sum over ordered pairs is
`(2, 0, 0, 0)`; after the first group matched in `d/x` and the second in `d/y`
it is `(0, 0, 1, 0)` where the sum over ordered pairs is `(0, 0, 2, 0)`. -/
theorem aggregate_distance_ordered_counterexample :
    ((scan_files example_mem 1 [] (scan_init example_two_groups 1)).map
      (fun st => (st.groups.match_dist,
        ordered_pair_distance_sum example_mem (current_matches st.groups)))
      = some (⟨1, 0, 0, 0⟩, ⟨2, 0, 0, 0⟩)) ∧
    ((scan_files example_mem 1 [(1, [0, 0x12, 0x34]), (2, [0x56, 0x78, 0])]
        (scan_init example_two_groups 1)).map
      (fun st => (st.groups.match_dist,
        ordered_pair_distance_sum example_mem (current_matches st.groups)))
      = some (⟨0, 0, 1, 0⟩, ⟨0, 0, 2, 0⟩)) := by
  constructor <;> decide

/-! ### Dedup of the result list -/

theorem latest_match_mem (g : Nat) :
    ∀ (H : List birch_match), (latest_match g H).ptn ≠ none → latest_match g H ∈ H := by
  intro H
  induction H with
  | nil => intro h; exact absurd rfl h
  | cons m H ih =>
    intro h
    simp only [latest_match] at h ⊢
    split
    · simp
    · next hm =>
      rw [if_neg hm] at h
      exact List.mem_cons_of_mem _ (ih h)

theorem latest_match_group (g : Nat) :
    ∀ (H : List birch_match), (latest_match g H).ptn ≠ none →
      (latest_match g H).ptn.map Prod.fst = some g := by
  intro H
  induction H with
  | nil => intro h; exact absurd rfl h
  | cons m H ih =>
    intro h
    simp only [latest_match] at h ⊢
    split
    · next hm => exact hm
    · next hm =>
      rw [if_neg hm] at h
      exact ih h

theorem latest_match_append_of_none (g : Nat) (A : List birch_match) :
    ∀ (P : List birch_match), (∀ x ∈ P, x.ptn.map Prod.fst ≠ some g) →
      latest_match g (P ++ A) = latest_match g A := by
  intro P
  induction P with
  | nil => intro _; rfl
  | cons x P ih =>
    intro h
    simp only [List.cons_append, latest_match]
    rw [if_neg (h x (by simp))]
    exact ih (fun y hy => h y (by simp [hy]))

theorem latest_match_append_mem (g : Nat) (A : List birch_match) :
    ∀ (P : List birch_match), (∃ x ∈ P, x.ptn.map Prod.fst = some g) →
      latest_match g (P ++ A) ∈ P := by
  intro P
  induction P with
  | nil => intro ⟨x, hx, _⟩; simp at hx
  | cons x P ih =>
    intro ⟨y, hy, hyg⟩
    simp only [List.cons_append, latest_match]
    split
    · simp
    · next hx =>
      rcases List.mem_cons.mp hy with e | hyP
      · rw [e] at hyg; exact absurd hyg hx
      · exact List.mem_cons_of_mem _ (ih ⟨y, hyP, hyg⟩)

/-- A match that is the latest of its group both in an old part `A` of a history
without repetition and in the whole history is also the latest in every part
in between. -/
theorem latest_match_between (g : Nat) (A B C : List birch_match) (hAB : A <:+ B)
    (hBC : B <:+ C) (hC : C.Nodup) (he : latest_match g A = latest_match g C)
    (hn : (latest_match g A).ptn ≠ none) : latest_match g B = latest_match g A := by
  obtain ⟨P, hP⟩ := hAB
  obtain ⟨Q, hQ⟩ := hBC
  subst hP
  apply latest_match_append_of_none
  intro x hx hxg
  have hmemA := latest_match_mem g A hn
  have hC2 : ((Q ++ P) ++ A).Nodup := by rw [List.append_assoc, hQ]; exact hC
  have hin : latest_match g ((Q ++ P) ++ A) ∈ Q ++ P :=
    latest_match_append_mem g A (Q ++ P) ⟨x, by simp [hx], hxg⟩
  rw [List.append_assoc, hQ, ← he] at hin
  exact (List.nodup_append.mp hC2).2.2 hin hmemA

theorem snapshot_getElem? (G : Nat) (H : List birch_match) (h : Nat) :
    (snapshot G H)[h]? = if h < G then some (latest_match h H) else none := by
  unfold snapshot
  rw [List.getElem?_map]
  by_cases hh : h < G
  · rw [List.getElem?_range hh, if_pos hh]; rfl
  · rw [List.getElem?_eq_none (by simp; omega), if_neg hh]; rfl

theorem snapshot_length (G : Nat) (H : List birch_match) : (snapshot G H).length = G := by
  simp [snapshot]

theorem snapshot_cons (G : Nat) (H : List birch_match) (m : birch_match) (g v : Nat)
    (hm : m.ptn = some (g, v)) : snapshot G (m :: H) = (snapshot G H).set g m := by
  apply List.ext_getElem?
  intro h
  rw [List.getElem?_set, snapshot_getElem?, snapshot_getElem?, snapshot_length]
  simp only [latest_match, hm, Option.map_some', Option.some.injEq]
  by_cases hg : g = h
  · subst hg
    simp
  · rw [if_neg hg, if_neg hg]

theorem no_shared_symm (a b : List birch_match) (h : no_shared a b) : no_shared b a :=
  fun i m hb ha => h i m ha hb

theorem no_shared_snapshot (G : Nat) (A B : List birch_match) :
    no_shared (snapshot G A) (snapshot G B) ↔
      ∀ h, h < G → latest_match h A = latest_match h B → (latest_match h A).ptn = none := by
  constructor
  · intro hs h hh he
    apply hs h (latest_match h A)
    · rw [snapshot_getElem?, if_pos hh]
    · rw [snapshot_getElem?, if_pos hh, he]
  · intro hs h m ha hb
    rw [snapshot_getElem?] at ha hb
    by_cases hh : h < G
    · rw [if_pos hh, Option.some.injEq] at ha hb
      rw [← ha]
      exact hs h hh (by rw [ha, hb])
    · rw [if_neg hh] at ha
      simp at ha

/-- Among the states after older parts `A` and `B` of a history without
repetition, at most one shares a match with the state after the whole history:
if `A` does and `A`, `B` share none, then `B` does not. -/
theorem snapshot_share_unique (G : Nat) (A B C : List birch_match) (hA : A <:+ C)
    (hB : B <:+ C) (hC : C.Nodup)
    (hAC : ¬ no_shared (snapshot G A) (snapshot G C))
    (hAB : no_shared (snapshot G A) (snapshot G B)) :
    no_shared (snapshot G B) (snapshot G C) := by
  rw [no_shared_snapshot] at hAC hAB ⊢
  intro h' hh' he'
  by_contra hn'
  apply hAC
  intro h hh he
  by_contra hn
  rcases List.suffix_or_suffix_of_suffix hA hB with hAB1 | hBA1
  · have := latest_match_between h A B C hAB1 hB hC he hn
    exact hn (hAB h hh this.symm)
  · have := latest_match_between h' B A C hBA1 hA hC he' hn'
    have e := hAB h' hh' this
    rw [this] at e
    exact hn' e

theorem results_cpy_loop_matches :
    ∀ (ts fs : List birch_ptn_group), ts.length = fs.length →
      (results_cpy_loop ts fs).map (fun g => g.cur_match) = fs.map (fun g => g.cur_match) := by
  intro ts
  induction ts with
  | nil =>
    intro fs h
    cases fs with
    | nil => rfl
    | cons f fs => simp at h
  | cons t ts ih =>
    intro fs h
    cases fs with
    | nil => simp at h
    | cons f fs =>
      simp only [List.length_cons, Nat.add_right_cancel_iff] at h
      simp only [results_cpy_loop, List.map_cons, ih fs h]

theorem results_cpy_matches (to_ from_ : birch_ptn_groups)
    (h : to_.groups.length = from_.groups.length) :
    current_matches (results_cpy to_ from_) = current_matches from_ :=
  results_cpy_loop_matches _ _ h

theorem results_swap_loop_matches :
    ∀ (as bs : List birch_ptn_group), as.length = bs.length →
      (results_swap_loop as bs).1.map (fun g => g.cur_match) = bs.map (fun g => g.cur_match) ∧
      (results_swap_loop as bs).2.map (fun g => g.cur_match) = as.map (fun g => g.cur_match) := by
  intro as
  induction as with
  | nil =>
    intro bs h
    cases bs with
    | nil => exact ⟨rfl, rfl⟩
    | cons f fs => simp at h
  | cons t ts ih =>
    intro bs h
    cases bs with
    | nil => simp at h
    | cons f fs =>
      simp only [List.length_cons, Nat.add_right_cancel_iff] at h
      obtain ⟨i1, i2⟩ := ih fs h
      simp only [results_swap_loop, result_swap, List.map_cons, i1, i2, and_self]

theorem results_swap_matches (a b : birch_ptn_groups) (h : a.groups.length = b.groups.length) :
    current_matches (results_swap a b).1 = current_matches b ∧
      current_matches (results_swap a b).2 = current_matches a :=
  results_swap_loop_matches _ _ h

theorem groups_cmp_loop_eq_zero :
    ∀ (as bs : List birch_ptn_group), groups_cmp_loop as bs = 0 ↔
      no_shared (as.map (fun g => g.cur_match)) (bs.map (fun g => g.cur_match)) := by
  intro as
  induction as with
  | nil =>
    intro bs
    simp only [groups_cmp_loop, List.map_nil, true_iff]
    intro h m ha
    simp at ha
  | cons a as ih =>
    intro bs
    cases bs with
    | nil =>
      simp only [groups_cmp_loop, List.map_nil, true_iff]
      intro h m _ hb
      simp at hb
    | cons b bs =>
      simp only [groups_cmp_loop, List.map_cons]
      constructor
      · intro h
        split at h
        · simp at h
        · next hne =>
          have i := (ih bs).mp h
          intro k m ha hb
          cases k with
          | zero =>
            simp only [List.getElem?_cons_zero, Option.some.injEq] at ha hb
            by_contra hn
            apply hne
            rw [ha, hb]
            exact ⟨hn, rfl⟩
          | succ k =>
            simp only [List.getElem?_cons_succ] at ha hb
            exact i k m ha hb
      · intro h
        split
        · next he =>
          exfalso
          exact he.1 (h 0 a.cur_match (by simp) (by simp [he.2]))
        · apply (ih bs).mpr
          intro k m ha hb
          exact h (k + 1) m (by simpa using ha) (by simpa using hb)

theorem groups_cmp_eq_zero (a b : birch_ptn_groups) :
    groups_cmp a b = 0 ↔ no_shared (current_matches a) (current_matches b) :=
  groups_cmp_loop_eq_zero _ _

theorem result_add_find_some (groups : birch_ptn_groups) (results : List birch_ptn_groups) :
    ∀ (n i : Nat), result_add_find groups results n = some i →
      i < n ∧ groups_cmp (result_at results i) groups ≠ 0 := by
  intro n
  induction n with
  | zero => intro i h; simp [result_add_find] at h
  | succ n ih =>
    intro i h
    simp only [result_add_find] at h
    split at h
    · next hc =>
      simp only [Option.some.injEq] at h
      subst h
      exact ⟨by omega, hc⟩
    · obtain ⟨h1, h2⟩ := ih i h
      exact ⟨by omega, h2⟩

theorem result_add_find_none (groups : birch_ptn_groups) (results : List birch_ptn_groups) :
    ∀ (n : Nat), result_add_find groups results n = none →
      ∀ i, i < n → groups_cmp (result_at results i) groups = 0 := by
  intro n
  induction n with
  | zero => intro _ i hi; omega
  | succ n ih =>
    intro h i hi
    simp only [result_add_find] at h
    split at h
    · simp at h
    · next hc =>
      by_cases e : i = n
      · subst e
        simpa using hc
      · exact ih h i (by omega)

theorem result_matches_getD (results : List birch_ptn_groups) (i : Nat) :
    current_matches (result_at results i) = (result_matches results).getD i [] := by
  unfold result_at result_matches
  rw [List.getD_eq_getElem?_getD, List.getD_eq_getElem?_getD, List.getElem?_map]
  cases results[i]? <;> rfl

theorem swap_adjacent_perm {α : Type} (d : α) :
    ∀ (l : List α) (j : Nat), j + 1 < l.length →
      List.Perm ((l.set (j + 1) (l.getD j d)).set j (l.getD (j + 1) d)) l := by
  intro l
  induction l with
  | nil => intro j h; simp at h
  | cons x xs ih =>
    intro j h
    cases j with
    | zero =>
      cases xs with
      | nil => simp at h
      | cons y ys =>
        simp only [List.set_cons_succ, List.set_cons_zero, List.getD_cons_zero,
          List.getD_cons_succ]
        exact List.Perm.swap x y ys
    | succ j =>
      simp only [List.set_cons_succ, List.getD_cons_succ]
      apply List.Perm.cons
      exact ih j (by simpa using h)

theorem result_add_bubble_perm (G : Nat) :
    ∀ (i : Nat) (results : List birch_ptn_groups), i < results.length →
      (∀ c ∈ result_matches results, c.length = G) →
      List.Perm (result_matches (result_add_bubble results i)) (result_matches results) := by
  intro i
  induction i with
  | zero => intro results _ _; exact List.Perm.refl _
  | succ j ih =>
    intro results hi hlen
    simp only [result_add_bubble]
    split
    · have hl : ∀ k, k < results.length → (result_at results k).groups.length = G := by
        intro k hk
        have := hlen ((result_matches results).getD k []) (by
          rw [List.getD_eq_getElem?_getD, List.getElem?_eq_getElem (by
            simpa [result_matches] using hk)]
          simp)
        rw [← result_matches_getD] at this
        simpa [current_matches] using this
      have hsw := results_swap_matches (result_at results (j + 1)) (result_at results j)
        (by rw [hl _ hi, hl _ (by omega)])
      have e : result_matches ((results.set (j + 1)
            (results_swap (result_at results (j + 1)) (result_at results j)).1).set j
            (results_swap (result_at results (j + 1)) (result_at results j)).2)
          = ((result_matches results).set (j + 1) ((result_matches results).getD j [])).set j
              ((result_matches results).getD (j + 1) []) := by
        unfold result_matches
        rw [map_set_comm, map_set_comm, hsw.1, hsw.2]
        rw [← result_matches, result_matches_getD, result_matches_getD]
      have hp := swap_adjacent_perm [] (result_matches results) j
        (by simpa [result_matches] using hi)
      have hrec := ih ((results.set (j + 1)
            (results_swap (result_at results (j + 1)) (result_at results j)).1).set j
            (results_swap (result_at results (j + 1)) (result_at results j)).2)
        (by simp; omega)
        (by
          rw [e]
          intro c hc
          exact hlen c ((List.Perm.mem_iff hp).mp hc))
      rw [e] at hrec
      exact hrec.trans hp
    · exact List.Perm.refl _

theorem pairwise_set {α : Type} (R : α → α → Prop) (hsymm : ∀ x y, R x y → R y x)
    (l : List α) (i : Nat) (s : α) (hp : l.Pairwise R)
    (hs : ∀ (k : Nat) (hk : k < l.length), k ≠ i → R (l.get ⟨k, hk⟩) s) :
    (l.set i s).Pairwise R := by
  rw [List.pairwise_iff_getElem] at hp ⊢
  intro a b ha hb hab
  rw [List.length_set] at ha hb
  rw [List.getElem_set, List.getElem_set]
  by_cases e1 : i = a
  · rw [if_pos e1]
    have e2 : ¬ i = b := by omega
    rw [if_neg e2]
    exact hsymm _ _ (hs b hb (by omega))
  · rw [if_neg e1]
    by_cases e2 : i = b
    · rw [if_pos e2]
      exact hs a ha (by omega)
    · rw [if_neg e2]
      exact hp a b ha hb hab

theorem result_add_matches (G : Nat) (S1 : birch_ptn_groups) (results : List birch_ptn_groups)
    (K : Nat) (hK : K = results.length) (h1 : 1 ≤ K) (h64 : K < 2 ^ 64)
    (hlen : ∀ c ∈ result_matches results, c.length = G) (hS : S1.groups.length = G) :
    List.Perm (result_matches (result_add S1 results K)) (result_matches results) ∨
    ∃ i, i < K ∧
      List.Perm (result_matches (result_add S1 results K))
        ((result_matches results).set i (current_matches S1)) ∧
      (groups_cmp (result_at results i) S1 ≠ 0 ∨
        ∀ k, k < K → groups_cmp (result_at results k) S1 = 0) := by
  have hl : ∀ k, k < results.length → (result_at results k).groups.length = G := by
    intro k hk
    have := hlen ((result_matches results).getD k []) (by
      rw [List.getD_eq_getElem?_getD, List.getElem?_eq_getElem (by
        simpa [result_matches] using hk)]
      simp)
    rw [← result_matches_getD] at this
    simpa [current_matches] using this
  have hset : ∀ i, i < results.length →
      List.Perm (result_matches (result_add_bubble
        (results.set i (results_cpy (result_at results i) S1)) i))
        ((result_matches results).set i (current_matches S1)) := by
    intro i hi
    have e : result_matches (results.set i (results_cpy (result_at results i) S1))
        = (result_matches results).set i (current_matches S1) := by
      unfold result_matches
      rw [map_set_comm, results_cpy_matches _ _ (by rw [hl i hi, hS])]
    rw [← e]
    apply result_add_bubble_perm G i _ (by simpa using hi)
    rw [e]
    intro c hc
    rcases List.mem_or_eq_of_mem_set hc with hc | hc
    · exact hlen c hc
    · rw [hc]; simpa [current_matches] using hS
  unfold result_add
  split
  · next i hfind =>
    obtain ⟨hi, hc⟩ := result_add_find_some S1 results K i hfind
    split
    · exact Or.inr ⟨i, hi, hset i (by omega), Or.inl hc⟩
    · exact Or.inl (List.Perm.refl _)
  · next hfind =>
    have e : sub_u64 K 1 = K - 1 := by unfold sub_u64; omega
    simp only [e]
    split
    · exact Or.inr ⟨K - 1, by omega, hset (K - 1) (by omega),
        Or.inr (result_add_find_none S1 results K hfind)⟩
    · exact Or.inl (result_add_bubble_perm G (K - 1) results (by omega) hlen)

/-- The step of the dedup proof: offering the state reached by a match `m` not in
the history keeps every result tuple a state after an old part of the history
and keeps the result tuples free of shared matches. -/
theorem result_add_dedup (G K : Nat) (H : List birch_match) (m : birch_match)
    (S1 : birch_ptn_groups) (results : List birch_ptn_groups)
    (hH : (m :: H).Nodup) (hS : current_matches S1 = snapshot G (m :: H))
    (hK : K = results.length) (h1 : 1 ≤ K) (h64 : K < 2 ^ 64)
    (hsnap : ∀ c ∈ result_matches results, ∃ H1, H1 <:+ H ∧ c = snapshot G H1)
    (hp : (result_matches results).Pairwise no_shared) :
    (∀ c ∈ result_matches (result_add S1 results K),
        ∃ H1, H1 <:+ (m :: H) ∧ c = snapshot G H1) ∧
      (result_matches (result_add S1 results K)).Pairwise no_shared := by
  have hlen : ∀ c ∈ result_matches results, c.length = G := by
    intro c hc
    obtain ⟨H1, _, e⟩ := hsnap c hc
    rw [e, snapshot_length]
  have hSl : S1.groups.length = G := by
    have := congrArg List.length hS
    simpa [current_matches, snapshot_length] using this
  have hsnap1 : ∀ c ∈ result_matches results, ∃ H1, H1 <:+ (m :: H) ∧ c = snapshot G H1 := by
    intro c hc
    obtain ⟨H1, hs, e⟩ := hsnap c hc
    exact ⟨H1, hs.trans (List.suffix_cons m H), e⟩
  have hsymm : ∀ x y, no_shared x y → no_shared y x := no_shared_symm
  rcases result_add_matches G S1 results K hK h1 h64 hlen hSl with hperm | ⟨i, hi, hperm, hc⟩
  · refine ⟨fun c hc => hsnap1 c ((List.Perm.mem_iff hperm).mp hc), ?_⟩
    exact (List.Perm.pairwise_iff (fun {x y} h => hsymm x y h) hperm).mpr hp
  · refine ⟨?_, ?_⟩
    · intro c hc
      rcases List.mem_or_eq_of_mem_set ((List.Perm.mem_iff hperm).mp hc) with hc | hc
      · exact hsnap1 c hc
      · exact ⟨m :: H, List.suffix_refl _, by rw [hc, hS]⟩
    · apply (List.Perm.pairwise_iff (fun {x y} h => hsymm x y h) hperm).mpr
      apply pairwise_set no_shared hsymm _ _ _ hp
      intro k hk hki
      have hkK : k < K := by simpa [result_matches, hK] using hk
      have ek : current_matches (result_at results k) = (result_matches results).get ⟨k, hk⟩ := by
        rw [result_matches_getD, List.getD_eq_getElem?_getD, List.getElem?_eq_getElem hk]
        rfl
      rcases hc with hc | hc
      · have hiL : i < (result_matches results).length := by
          simpa [result_matches, hK] using hi
        have ei : current_matches (result_at results i)
            = (result_matches results).get ⟨i, hiL⟩ := by
          rw [result_matches_getD, List.getD_eq_getElem?_getD, List.getElem?_eq_getElem hiL]
          rfl
        obtain ⟨A, hA, eA⟩ := hsnap1 _ (List.get_mem (result_matches results) i hiL)
        obtain ⟨B, hB, eB⟩ := hsnap1 _ (List.get_mem (result_matches results) k hk)
        have hik : no_shared ((result_matches results).get ⟨i, hiL⟩)
            ((result_matches results).get ⟨k, hk⟩) := by
          rw [List.pairwise_iff_getElem] at hp
          rcases Nat.lt_or_gt_of_ne hki with hlt | hgt
          · exact hsymm _ _ (hp k i hk hiL hlt)
          · exact hp i k hiL hk hgt
        rw [hS, eB]
        apply snapshot_share_unique G A B (m :: H) hA hB hH
        · rw [← eA, ← hS, ← ei]
          intro hns
          exact hc ((groups_cmp_eq_zero _ _).mpr hns)
        · rw [← eA, ← eB]
          exact hik
      · rw [← ek]
        exact (groups_cmp_eq_zero _ _).mp (hc k hkK)

theorem ptn_match_backtrack_loop_frame (pm : birch_ptn → Nat → Option (birch_ptn × Nat))
    (hpm : ∀ p c p1 r, pm p c = some (p1, r) → p1 = { p with index := p1.index }) :
    ∀ (k i : Nat) (p p1 : birch_ptn), ptn_match_backtrack_loop pm k i p = some p1 →
      p1 = { p with index := p1.index } := by
  intro k
  induction k with
  | zero =>
    intro i p p1 h
    simp only [ptn_match_backtrack_loop, Option.some.injEq] at h
    rw [← h]
  | succ k ih =>
    intro i p p1 h
    simp only [ptn_match_backtrack_loop] at h
    split at h
    · simp at h
    · split at h
      · simp at h
      · next p2 r h2 =>
        have e1 := hpm _ _ _ _ h2
        have e2 := ih _ _ _ h
        rw [e2, e1]

/-- Function `ptn_match` changes nothing of a variant but its cursor. -/
theorem ptn_match_fuel_frame :
    ∀ (fuel : Nat) (p : birch_ptn) (c : Nat) (p1 : birch_ptn) (r : Nat),
      ptn_match_fuel fuel p c = some (p1, r) → p1 = { p with index := p1.index } := by
  intro fuel
  induction fuel with
  | zero => intro p c p1 r h; simp [ptn_match_fuel] at h
  | succ fuel ih =>
    intro p c p1 r h
    simp only [ptn_match_fuel] at h
    split at h
    · split at h
      · split at h
        · split at h
          · simp at h
          · next p2 h2 =>
            simp only [Option.some.injEq, Prod.mk.injEq] at h
            have e := ptn_match_backtrack_loop_frame _ ih _ _ _ _ h2
            rw [← h.1, e]
        · simp only [Option.some.injEq, Prod.mk.injEq] at h
          rw [← h.1]
      · split at h
        · split at h
          · simp at h
          · next p2 h2 =>
            split at h
            · simp at h
            · next p3 r3 h3 =>
              simp only [Option.some.injEq, Prod.mk.injEq] at h
              have e2 := ptn_match_backtrack_loop_frame _ ih _ _ _ _ h2
              have e3 := ih _ _ _ _ h3
              rw [← h.1, e3, e2]
        · simp only [Option.some.injEq, Prod.mk.injEq] at h
          rw [← h.1]
    · simp at h

theorem ptn_match_frame (p : birch_ptn) (c : Nat) (p1 : birch_ptn) (r : Nat)
    (h : ptn_match p c = some (p1, r)) : p1 = { p with index := p1.index } :=
  ptn_match_fuel_frame _ p c p1 r h

theorem ptn_shape_set (groups : List birch_ptn_group) (g v : Nat) (group : birch_ptn_group)
    (p p1 : birch_ptn) (m : birch_match) (hg : groups[g]? = some group)
    (hv : group.ptns[v]? = some p) (ho : p1.offs = p.offs) (hs : p1.size = p.size) :
    ∀ g1 v1, ptn_shape (groups.set g { ptns := group.ptns.set v p1, cur_match := m }) g1 v1
      = ptn_shape groups g1 v1 := by
  intro g1 v1
  have hgl : g < groups.length := by
    by_contra hh
    rw [List.getElem?_eq_none (by omega)] at hg
    simp at hg
  have hvl : v < group.ptns.length := by
    by_contra hh
    rw [List.getElem?_eq_none (by omega)] at hv
    simp at hv
  unfold ptn_shape
  rw [List.getElem?_set]
  by_cases e : g = g1
  · subst e
    rw [if_pos rfl, if_pos hgl, hg]
    simp only
    rw [List.getElem?_set]
    by_cases e2 : v = v1
    · subst e2
      rw [if_pos rfl, if_pos hvl, hv]
      simp only [ho, hs]
    · rw [if_neg e2]
  · rw [if_neg e]

theorem ptn_shape_reset (groups : birch_ptn_groups) :
    ∀ g v, ptn_shape (birch_file_reset groups).groups g v = ptn_shape groups.groups g v := by
  intro g v
  unfold ptn_shape birch_file_reset
  simp only [List.getElem?_map]
  cases groups.groups[g]? with
  | none => rfl
  | some group =>
    simp only [Option.map_some', List.getElem?_map]
    cases group.ptns[v]? <;> rfl

theorem birch_file_ptn_cases (mem : Nat → List Char) (K path j c g v : Nat)
    (st st1 : scan_state) (h : birch_file_ptn mem K path j c g v st = some st1) :
    (∀ g1 v1, ptn_shape st1.groups.groups g1 v1 = ptn_shape st.groups.groups g1 v1) ∧
    ((st1.results = st.results ∧ current_matches st1.groups = current_matches st.groups) ∨
     (st1.results = result_add st1.groups st.results K ∧
      current_matches st1.groups = (current_matches st.groups).set g
        (match_at (ptn_shape st.groups.groups) path j g v))) := by
  unfold birch_file_ptn at h
  split at h
  · simp at h
  · next group hgroup =>
    split at h
    · simp at h
    · next p hp =>
      split at h
      · simp at h
      · next p1 r hmatch =>
        have hfr := ptn_match_frame p c p1 r hmatch
        have ho : p1.offs = p.offs := by rw [hfr]
        have hs : p1.size = p.size := by rw [hfr]
        have hsh : ptn_shape st.groups.groups g v = (p1.offs, p1.size) := by
          unfold ptn_shape
          rw [hgroup]
          simp only
          rw [hp]
          simp only [ho, hs]
        simp only at h
        split at h
        · simp only [Option.some.injEq] at h
          rw [← h]
          refine ⟨?_, Or.inr ⟨rfl, ?_⟩⟩
          · simp only [dist_update_groups, List.set_set]
            exact ptn_shape_set _ g v group p p1 _ hgroup hp ho hs
          · unfold current_matches match_at
            simp only [dist_update_groups, List.set_set, hsh]
            rw [map_set_comm]
        · simp only [Option.some.injEq] at h
          rw [← h]
          refine ⟨?_, Or.inl ⟨rfl, ?_⟩⟩
          · exact ptn_shape_set _ g v group p p1 _ hgroup hp ho hs
          · unfold current_matches
            exact map_set_same _ _ g group _ hgroup rfl

theorem match_at_inj (sh : Nat → Nat → Nat × Nat) (p j g v p1 j1 g1 v1 : Nat)
    (hj : j < 2 ^ 61) (hj1 : j1 < 2 ^ 61) (hs : (sh g v).2 < 2 ^ 64)
    (h : match_at sh p j g v = match_at sh p1 j1 g1 v1) : p = p1 ∧ j = j1 ∧ g = g1 ∧ v = v1 := by
  unfold match_at at h
  simp only [birch_match.mk.injEq, Option.some.injEq, Prod.mk.injEq] at h
  obtain ⟨⟨eg, ev⟩, ep, eo⟩ := h
  subst eg; subst ev
  refine ⟨ep, ?_, rfl, rfl⟩
  unfold sub_u64 CHAR_BIT at eo
  generalize (sh g v).1 = a at eo
  generalize (sh g v).2 = s at eo hs
  norm_num at hj hj1 hs eo
  omega

theorem history_before_mono (sh : Nat → Nat → Nat × Nat) (done : List Nat)
    (path j g v j2 g2 v2 : Nat) (H : List birch_match)
    (h : history_before sh done path j g v H)
    (hle : j < j2 ∨ (j = j2 ∧ (g < g2 ∨ (g = g2 ∧ v ≤ v2)))) :
    history_before sh done path j2 g2 v2 H := by
  intro m hm
  obtain ⟨p, j1, g1, v1, e, hj1, hpos⟩ := h m hm
  refine ⟨p, j1, g1, v1, e, hj1, ?_⟩
  rcases hpos with hd | ⟨hp, hlt⟩
  · exact Or.inl hd
  · exact Or.inr ⟨hp, by omega⟩

theorem birch_file_ptn_scan_invariant (mem : Nat → List Char) (sh : Nat → Nat → Nat × Nat)
    (G K : Nat) (done : List Nat) (path j c g v : Nat) (st st1 : scan_state)
    (hsize : ∀ g v, (sh g v).2 < 2 ^ 64) (hpath : path ∉ done) (h1 : 1 ≤ K) (h64 : K < 2 ^ 64)
    (hI : scan_invariant sh G K done path j g v st)
    (h : birch_file_ptn mem K path j c g v st = some st1) :
    scan_invariant sh G K done path j g (v + 1) st1 := by
  intro hj
  obtain ⟨H, hnd, hbef, hcur, hsnap, hpw, hlen, hshape⟩ := hI hj
  obtain ⟨hsh1, hcases⟩ := birch_file_ptn_cases mem K path j c g v st st1 h
  have hshape1 : ∀ g1 v1, ptn_shape st1.groups.groups g1 v1 = sh g1 v1 := by
    intro g1 v1
    rw [hsh1, hshape]
  rcases hcases with ⟨hr, hc⟩ | ⟨hr, hc⟩
  · refine ⟨H, hnd, ?_, by rw [hc]; exact hcur, by rw [hr]; exact hsnap,
      by rw [hr]; exact hpw, by rw [hr]; exact hlen, hshape1⟩
    exact history_before_mono sh done path j g v j g (v + 1) H hbef (by omega)
  · have hfun : ptn_shape st.groups.groups = sh := by
      funext g1 v1
      exact hshape g1 v1
    rw [hfun] at hc
    have hnew : match_at sh path j g v ∉ H := by
      intro hm
      obtain ⟨p, j1, g1, v1, e, hj1, hpos⟩ := hbef _ hm
      obtain ⟨e1, e2, e3, e4⟩ := match_at_inj sh path j g v p j1 g1 v1 hj hj1 (hsize g v) e
      rcases hpos with hd | ⟨_, hlt⟩
      · rw [← e1] at hd
        exact hpath hd
      · omega
    have hnd1 : (match_at sh path j g v :: H).Nodup := List.nodup_cons.mpr ⟨hnew, hnd⟩
    have hcur1 : current_matches st1.groups = snapshot G (match_at sh path j g v :: H) := by
      rw [hc, hcur, snapshot_cons G H _ g v rfl]
    have hres := result_add_dedup G K H (match_at sh path j g v) st1.groups st.results
      hnd1 hcur1 hlen.symm h1 h64 hsnap hpw
    refine ⟨match_at sh path j g v :: H, hnd1, ?_, hcur1, by rw [hr]; exact hres.1,
      by rw [hr]; exact hres.2, by rw [hr, result_add_length]; exact hlen, hshape1⟩
    intro m hm
    rcases List.mem_cons.mp hm with e | hmH
    · exact ⟨path, j, g, v, e, hj, Or.inr ⟨rfl, by omega⟩⟩
    · exact history_before_mono sh done path j g v j g (v + 1) H hbef (by omega) m hmH

theorem birch_file_scan_invariant (mem : Nat → List Char) (sh : Nat → Nat → Nat × Nat)
    (G K : Nat) (done : List Nat) (path : Nat) (content : List Nat) (st st1 : scan_state)
    (hsize : ∀ g v, (sh g v).2 < 2 ^ 64) (hpath : path ∉ done) (h1 : 1 ≤ K) (h64 : K < 2 ^ 64)
    (hlen : content.length < 2 ^ 61)
    (hI : scan_invariant sh G K done path 0 0 0 st)
    (h : birch_file mem st.results K path content st.groups = some st1) :
    ∀ p, scan_invariant sh G K (path :: done) p 0 0 0 st1 := by
  have hI0 : scan_invariant sh G K done path 0 0 0
      { groups := birch_file_reset st.groups, results := st.results } := by
    intro hj
    obtain ⟨H, hnd, hbef, hcur, hsnap, hpw, hl, hshape⟩ := hI hj
    refine ⟨H, hnd, hbef, ?_, hsnap, hpw, hl, ?_⟩
    · rw [(birch_file_reset_matches st.groups).1]; exact hcur
    · intro g1 v1
      rw [ptn_shape_reset]; exact hshape g1 v1
  have hend := birch_file_bytes_invariant mem K path
    (fun j g v s => scan_invariant sh G K done path j g v s)
    (fun j c g v s s1 hs hh =>
      birch_file_ptn_scan_invariant mem sh G K done path j c g v s s1 hsize hpath h1 h64 hs hh)
    (fun j g v s hs hj => by
      obtain ⟨H, hnd, hbef, rest⟩ := hs hj
      exact ⟨H, hnd, history_before_mono sh done path j g v j (g + 1) 0 H hbef (by omega), rest⟩)
    (fun j g s hs hj => by
      obtain ⟨H, hnd, hbef, rest⟩ := hs (by omega)
      exact ⟨H, hnd, history_before_mono sh done path j g 0 (j + 1) 0 0 H hbef (by omega), rest⟩)
    content 0 _ st1 hI0 h
  intro p hj
  obtain ⟨H, hnd, hbef, rest⟩ := hend (by simpa using hlen)
  refine ⟨H, hnd, ?_, rest⟩
  intro m hm
  obtain ⟨p1, j1, g1, v1, e, hj1, hpos⟩ := hbef m hm
  refine ⟨p1, j1, g1, v1, e, hj1, Or.inl ?_⟩
  rcases hpos with hd | ⟨hp, _⟩
  · exact List.mem_cons_of_mem _ hd
  · rw [hp]; exact List.mem_cons_self _ _

theorem scan_files_scan_invariant (mem : Nat → List Char) (sh : Nat → Nat → Nat × Nat)
    (G K : Nat) (hsize : ∀ g v, (sh g v).2 < 2 ^ 64) (h1 : 1 ≤ K) (h64 : K < 2 ^ 64) :
    ∀ (files : List (Nat × List Nat)) (done : List Nat) (st st1 : scan_state),
      (files.map Prod.fst).Nodup → (∀ f ∈ files, f.1 ∉ done) →
      (∀ f ∈ files, f.2.length < 2 ^ 61) →
      (∀ p, scan_invariant sh G K done p 0 0 0 st) →
      scan_files mem K files st = some st1 →
      ∃ done1, ∀ p, scan_invariant sh G K done1 p 0 0 0 st1 := by
  intro files
  induction files with
  | nil =>
    intro done st st1 _ _ _ hI h
    simp only [scan_files, Option.some.injEq] at h
    rw [← h]
    exact ⟨done, hI⟩
  | cons f rest ih =>
    intro done st st1 hnd hdone hlen hI h
    obtain ⟨path, content⟩ := f
    simp only [List.map_cons, List.nodup_cons] at hnd
    simp only [scan_files] at h
    split at h
    · simp at h
    · next st2 h2 =>
      have hI2 := birch_file_scan_invariant mem sh G K done path content st st2 hsize
        (hdone (path, content) (by simp)) h1 h64 (hlen (path, content) (by simp)) (hI path) h2
      apply ih (path :: done) st2 st1 hnd.2 _ (fun f hf => hlen f (by simp [hf])) hI2 h
      intro f hf hmem
      rcases List.mem_cons.mp hmem with e | hd
      · apply hnd.1
        rw [← e]
        exact List.mem_map_of_mem Prod.fst hf
      · exact hdone f (by simp [hf]) hd

theorem scan_init_scan_invariant (groups : List birch_ptn_group) (K : Nat)
    (hnull : ∀ g ∈ groups, g.cur_match = null_match) :
    ∀ p, scan_invariant (ptn_shape groups) groups.length K [] p 0 0 0 (scan_init groups K) := by
  intro p _
  have hnil : ∀ (l : List birch_ptn_group), (∀ g ∈ l, g.cur_match = null_match) →
      l.map (fun g => g.cur_match) = snapshot l.length [] := by
    intro l hl
    apply List.ext_getElem?
    intro h
    rw [snapshot_getElem?, List.getElem?_map]
    by_cases hh : h < l.length
    · rw [if_pos hh, List.getElem?_eq_getElem hh]
      simp only [Option.map_some', latest_match, Option.some.injEq]
      exact hl _ (List.getElem_mem _)
    · rw [if_neg hh, List.getElem?_eq_none (by omega)]
      rfl
  have hres : current_matches (result_from_groups (scan_init groups K).groups)
      = snapshot groups.length [] := by
    have := hnil ((scan_init groups K).groups.groups.map (fun group_from =>
      ({ ptns := group_from.ptns, cur_match := null_match } : birch_ptn_group)))
      (by
        intro g hg
        simp only [List.mem_map] at hg
        obtain ⟨g0, _, e⟩ := hg
        rw [← e])
    simp only [List.length_map] at this
    exact this
  refine ⟨[], List.nodup_nil, ?_, hnil groups hnull, ?_, ?_, ?_, fun _ _ => rfl⟩
  · intro m hm
    simp at hm
  · intro c hc
    refine ⟨[], List.suffix_refl _, ?_⟩
    unfold result_matches scan_init results_init at hc
    simp only [List.map_replicate, List.mem_replicate] at hc
    rw [hc.2]
    exact hres
  · unfold result_matches scan_init results_init
    simp only [List.map_replicate]
    rw [List.pairwise_replicate]
    right
    have e := hres
    unfold scan_init at e
    simp only at e
    rw [e, no_shared_snapshot]
    intro h _ _
    rfl
  · simp [scan_init, results_init]

theorem results_dedup_of_pairwise (results : List birch_ptn_groups)
    (hp : (result_matches results).Pairwise no_shared) : results_dedup results := by
  intro i k h m hi hk hik ha hb
  have hiL : i < (result_matches results).length := by simpa [result_matches] using hi
  have hkL : k < (result_matches results).length := by simpa [result_matches] using hk
  rw [result_matches_getD, List.getD_eq_getElem?_getD, List.getElem?_eq_getElem hiL] at ha
  rw [result_matches_getD, List.getD_eq_getElem?_getD, List.getElem?_eq_getElem hkL] at hb
  simp only [Option.getD_some] at ha hb
  rw [List.pairwise_iff_getElem] at hp
  rcases Nat.lt_or_gt_of_ne hik with hlt | hgt
  · exact hp i k hiL hkL hlt h m ha hb
  · exact hp k i hkL hiL hgt h m hb ha

theorem scan_files_dedup (mem : Nat → List Char) (K : Nat) (groups : List birch_ptn_group)
    (files : List (Nat × List Nat)) (st1 : scan_state) (h1 : 1 ≤ K) (h64 : K < 2 ^ 64)
    (hnull : ∀ g ∈ groups, g.cur_match = null_match)
    (hsize : ∀ g ∈ groups, ∀ p ∈ g.ptns, p.size < 2 ^ 64)
    (hpaths : (files.map Prod.fst).Nodup) (hlen : ∀ f ∈ files, f.2.length < 2 ^ 61)
    (h : scan_files mem K files (scan_init groups K) = some st1) :
    (result_matches st1.results).Pairwise no_shared := by
  have hsh : ∀ g v, (ptn_shape groups g v).2 < 2 ^ 64 := by
    intro g v
    unfold ptn_shape
    split
    · exact Nat.pow_pos (by norm_num)
    · next group hg =>
      split
      · exact Nat.pow_pos (by norm_num)
      · next p hp => exact hsize group (List.getElem?_mem hg) p (List.getElem?_mem hp)
  obtain ⟨done1, hI⟩ := scan_files_scan_invariant mem (ptn_shape groups) groups.length K hsh
    h1 h64 files [] (scan_init groups K) st1 hpaths (fun _ _ hm => by simp at hm) hlen
    (scan_init_scan_invariant groups K hnull) h
  obtain ⟨H, _, _, _, _, hpw, _⟩ := hI 0 (by norm_num)
  exact hpw

/-- C4: in the result list reached from the initial all-sentinel list of `K ≥ 1`
tuples by scanning any sequence of files with `birch_file`, no two distinct
result tuples hold an identical non-null match (same variant, same path, same
bit offset) in the same group.  The groups start without a match, the sizes of
the variants are 64-bit values, the files have their paths at distinct
addresses and less than `2 ^ 61` bytes each (their bit offsets fit 64 bits). -/
theorem scan_results_dedup (mem : Nat → List Char) (K : Nat) (groups : List birch_ptn_group)
    (files : List (Nat × List Nat)) (st1 : scan_state) (h1 : 1 ≤ K) (h64 : K < 2 ^ 64)
    (hnull : ∀ g ∈ groups, g.cur_match = null_match)
    (hsize : ∀ g ∈ groups, ∀ p ∈ g.ptns, p.size < 2 ^ 64)
    (hpaths : (files.map Prod.fst).Nodup) (hlen : ∀ f ∈ files, f.2.length < 2 ^ 61)
    (h : scan_files mem K files (scan_init groups K) = some st1) :
    results_dedup st1.results :=
  results_dedup_of_pairwise st1.results
    (scan_files_dedup mem K groups files st1 h1 h64 hnull hsize hpaths hlen h)

set_option maxRecDepth 100000 in
theorem scan_results_dedup_witness :
    ∃ st1, scan_files example_mem 2 [(1, [0, 0x12, 0x78]), (2, [0x78, 0x12, 0x12])]
        (scan_init example_two_groups 2) = some st1 ∧ results_dedup st1.results :=
  have hs : (scan_files example_mem 2 [(1, [0, 0x12, 0x78]), (2, [0x78, 0x12, 0x12])]
      (scan_init example_two_groups 2)).isSome = true := by decide
  ⟨Option.get _ hs, (Option.some_get hs).symm,
    scan_results_dedup example_mem 2 example_two_groups
      [(1, [0, 0x12, 0x78]), (2, [0x78, 0x12, 0x12])] (Option.get _ hs)
      (by decide) (by norm_num) (by decide) (by decide) (by decide) (by decide)
      (Option.some_get hs).symm⟩

/-! ### The streaming matcher -/

set_option maxRecDepth 100000 in
/-- C1 (failing inputs): the aligned 12-bit pattern `0xA1A` compiles to the bytes
`1A 0A` under the mask `FF 0F`; fed `1A 1A 0A` from cursor 0, `ptn_match`
returns 1 at index 1 and 0 at index 2, although the window `1A 0A` ending at
index 2 satisfies the mask test (a missed match).  The shift-4 variant of the
unaligned 16-bit pattern `0x1010` has the bytes `00 01 01` under the mask
`F0 FF 0F`; fed `00 01 A1 01`, `ptn_match` returns 1 at index 3 although the
window `01 A1 01` fails the test at its second byte (a false match). -/
theorem ptn_match_masked_divergence :
    (group_add_ptn example_host new_group "0xA1A".toList DATA_TYPE_INTEGER ALIGNMENT_ALIGNED
        ENDIAN_LITTLE 12).map (fun r => r.2.ptns.map (fun p =>
          (p.ptn, p.mask, ptn_run p [0x1a, 0x1a, 0x0a],
            decide (window_match p [0x1a, 0x1a, 0x0a] 2))))
      = some [([0x1a, 0x0a], [0xff, 0x0f], some [0, 1, 0], true)] ∧
    ((group_add_ptn example_host new_group "0x1010".toList DATA_TYPE_INTEGER ALIGNMENT_UNALIGNED
        ENDIAN_LITTLE 16).bind (fun r => r.2.ptns[4]?)).map (fun p =>
          (p.ptn, p.mask, ptn_run p [0x00, 0x01, 0xa1, 0x01],
            decide (window_match p [0x00, 0x01, 0xa1, 0x01] 3)))
      = some ([0x00, 0x01, 0x01], [0xf0, 0xff, 0x0f], some [0, 0, 1, 1], false) := by
  constructor <;> decide

set_option maxRecDepth 100000 in
/-- C2 (failing inputs): for the unaligned 8-bit pattern `0x01` and the file
`02 00`, the payload occurs at bit position 1 and the shift-1 variant reports
it, but the bit offset recorded is 9: `birch_file` computes
`8 * (j + 1) + offs - size` with `size` the 8 payload bits, where the window of
the variant is `size_bytes = 2` bytes long.  For the unaligned 8-bit pattern
`0x11` and the file `10 11 01`, the payload occurs at the bit positions 4, 8
and 12; the shift-0 and the shift-4 variant report at byte 1, and no variant
reports at byte 2, where the occurrence at position 12 ends. -/
theorem unaligned_coverage_divergence :
    (decide (payload_occurs [0x01] 8 [0x02, 0x00] 1) = true ∧
      (run_scan example_host example_mem
        [("0x01".toList, DATA_TYPE_INTEGER, ALIGNMENT_UNALIGNED, ENDIAN_LITTLE, 8)] 1
        [(1, [0x02, 0x00])]).map (fun r => r.1)
      = some [{ ptn := some (0, 1), path := 1, offs := 9 }]) ∧
    ((List.range 17).filter (fun p => decide (payload_occurs [0x11] 8 [0x10, 0x11, 0x01] p))
      = [4, 8, 12] ∧
      (group_add_ptn example_host new_group "0x11".toList DATA_TYPE_INTEGER ALIGNMENT_UNALIGNED
        ENDIAN_LITTLE 8).map (fun r => r.2.ptns.map (fun p =>
          (p.ptn, p.mask, ptn_run p [0x10, 0x11, 0x01])))
      = some [([0x11], [0xff], some [0, 1, 0]), ([0x22, 0x00], [0xfe, 0x01], some [0, 0, 0]),
          ([0x44, 0x00], [0xfc, 0x03], some [0, 0, 0]), ([0x88, 0x00], [0xf8, 0x07], some [0, 0, 0]),
          ([0x10, 0x01], [0xf0, 0x0f], some [0, 1, 0]), ([0x20, 0x02], [0xe0, 0x1f], some [0, 0, 0]),
          ([0x40, 0x04], [0xc0, 0x3f], some [0, 0, 0]),
          ([0x80, 0x08], [0x80, 0x7f], some [0, 0, 0])]) := by
  refine ⟨⟨?_, ?_⟩, ?_, ?_⟩ <;> decide

/-! ### The matcher on variants with nested masks -/

theorem fits_zero (p : birch_ptn) (hist : List Nat) : fits p hist 0 :=
  ⟨Nat.zero_le _, fun i hi => absurd hi (Nat.not_lt_zero i)⟩

theorem fits_cons (p : birch_ptn) (hist : List Nat) (c k : Nat) :
    fits p (c :: hist) (k + 1) ↔ ((c &&& p.mask.getD k 0) = p.ptn.getD k 0 ∧ fits p hist k) := by
  unfold fits
  constructor
  · intro ⟨hl, h⟩
    refine ⟨?_, by simpa using hl, ?_⟩
    · have := h k (by omega)
      simpa using this
    · intro i hi
      have := h i (by omega)
      have e : k + 1 - 1 - i = (k - 1 - i) + 1 := by omega
      rw [e, List.getD_cons_succ] at this
      exact this
  · intro ⟨hc, hl, h⟩
    refine ⟨by simpa using hl, ?_⟩
    intro i hi
    by_cases e : i = k
    · subst e
      simpa using hc
    · have e2 : k + 1 - 1 - i = (k - 1 - i) + 1 := by omega
      rw [e2, List.getD_cons_succ]
      exact h i (by omega)

theorem replay_hist_length (p : birch_ptn) : ∀ n, (replay_hist p n).length = n := by
  intro n
  induction n with
  | zero => rfl
  | succ n ih => simp [replay_hist, ih]

theorem replay_hist_getD (p : birch_ptn) :
    ∀ n j, j < n → (replay_hist p n).getD j 0 = p.ptn.getD (n - j) 0 := by
  intro n
  induction n with
  | zero => intro j hj; omega
  | succ n ih =>
    intro j hj
    cases j with
    | zero => simp [replay_hist]
    | succ j =>
      simp only [replay_hist, List.getD_cons_succ]
      rw [ih j (by omega)]
      congr 1
      omega

theorem land_nested (t mk mi pi : Nat) (hn : mk &&& mi = mk) (h : t &&& mi = pi) :
    t &&& mk = pi &&& mk := by
  rw [← h, Nat.land_assoc, Nat.land_comm mi mk, hn]

/-- Under nested masks, the shorter cursors that fit the bytes fed are those that
fit the replayed pattern bytes. -/
theorem fits_replay (p : birch_ptn) (hist : List Nat) (q : Nat) (hn : masks_nested p)
    (hq : q ≤ p.size_bytes) (hf : fits p hist q) (q1 : Nat) (h1 : q1 < q) :
    fits p hist q1 ↔ fits p (replay_hist p (q - 1)) q1 := by
  obtain ⟨hl, hfit⟩ := hf
  have key : ∀ i, i < q1 → hist.getD (q1 - 1 - i) 0 &&& p.mask.getD i 0
      = (replay_hist p (q - 1)).getD (q1 - 1 - i) 0 &&& p.mask.getD i 0 := by
    intro i hi
    rw [replay_hist_getD p (q - 1) (q1 - 1 - i) (by omega)]
    have e : q - 1 - (q1 - 1 - i) = q - q1 + i := by omega
    rw [e]
    have h2 := hfit (q - q1 + i) (by omega)
    have e2 : q - 1 - (q - q1 + i) = q1 - 1 - i := by omega
    rw [e2] at h2
    exact land_nested _ _ _ _ (hn i (q - q1 + i) (by omega) (by omega)) h2
  unfold fits
  rw [replay_hist_length]
  constructor
  · intro ⟨_, h⟩
    exact ⟨by omega, fun i hi => by rw [← key i hi]; exact h i hi⟩
  · intro ⟨_, h⟩
    exact ⟨by omega, fun i hi => by rw [key i hi]; exact h i hi⟩

theorem backtrack_loop_spec (p : birch_ptn) (pm : birch_ptn → Nat → Option (birch_ptn × Nat))
    (F : Nat) (hm1 : 1 ≤ p.size_bytes) (hpl : p.size_bytes ≤ p.ptn.length)
    (hpm : ∀ (hist : List Nat) (c q : Nat), q < p.size_bytes → q + 1 ≤ F → fits p hist q →
      (∀ q1, q < q1 → q1 < p.size_bytes → fits p hist q1 →
        (c &&& p.mask.getD q1 0) ≠ p.ptn.getD q1 0) →
      ∃ q1 r, pm { p with index := q } c = some ({ p with index := q1 }, r) ∧
        is_longest p (c :: hist) (p.size_bytes - 1) q1) :
    ∀ (k n q0 : Nat), n + 1 + k ≤ p.size_bytes → n + k ≤ F →
      is_longest p (replay_hist p n) (p.size_bytes - 1) q0 →
      ∃ q1, ptn_match_backtrack_loop pm k (n + 1) { p with index := q0 }
          = some { p with index := q1 } ∧
        is_longest p (replay_hist p (n + k)) (p.size_bytes - 1) q1 := by
  intro k
  induction k with
  | zero =>
    intro n q0 _ _ hl
    exact ⟨q0, rfl, hl⟩
  | succ k ih =>
    intro n q0 hnk hF hl
    obtain ⟨hb, hfit, hmax⟩ := hl
    have hq0 : q0 ≤ n := by
      have := hfit.1
      rw [replay_hist_length] at this
      exact this
    have hget : p.ptn[n + 1]? = some (p.ptn.getD (n + 1) 0) := by
      rw [List.getD_eq_getElem?_getD, List.getElem?_eq_getElem (by omega)]
      rfl
    obtain ⟨q1, r, hstep, hl1⟩ := hpm (replay_hist p n) (p.ptn.getD (n + 1) 0) q0 (by omega)
      (by omega) hfit (by
        intro q2 h1 h2 h3
        have := hmax q2 (by omega) h3
        omega)
    obtain ⟨q2, hloop, hl2⟩ := ih (n + 1) q1 (by omega) (by omega) hl1
    refine ⟨q2, ?_, ?_⟩
    · simp only [ptn_match_backtrack_loop, hget, hstep]
      exact hloop
    · have e : n + (k + 1) = n + 1 + k := by omega
      rw [e]
      exact hl2

theorem ptn_match_fuel_spec (p : birch_ptn) (hm1 : 1 ≤ p.size_bytes)
    (hpl : p.size_bytes ≤ p.ptn.length) (hml : p.size_bytes ≤ p.mask.length)
    (hn : masks_nested p) :
    ∀ (fuel : Nat) (hist : List Nat) (c q : Nat), q < p.size_bytes → q + 1 ≤ fuel →
      fits p hist q →
      (∀ q1, q < q1 → q1 < p.size_bytes → fits p hist q1 →
        (c &&& p.mask.getD q1 0) ≠ p.ptn.getD q1 0) →
      ∃ q1 r, ptn_match_fuel fuel { p with index := q } c = some ({ p with index := q1 }, r) ∧
        is_longest p (c :: hist) (p.size_bytes - 1) q1 ∧
        (r = 1 ↔ fits p (c :: hist) p.size_bytes) := by
  intro fuel
  induction fuel with
  | zero => intro hist c q _ hf; omega
  | succ fuel ih =>
    intro hist c q hq hfuel hfit hnoext
    have hmq : p.mask[q]? = some (p.mask.getD q 0) := by
      rw [List.getD_eq_getElem?_getD, List.getElem?_eq_getElem (by omega)]
      rfl
    have hpq : p.ptn[q]? = some (p.ptn.getD q 0) := by
      rw [List.getD_eq_getElem?_getD, List.getElem?_eq_getElem (by omega)]
      rfl
    have hpm : ∀ (hist : List Nat) (c q : Nat), q < p.size_bytes → q + 1 ≤ fuel →
        fits p hist q →
        (∀ q1, q < q1 → q1 < p.size_bytes → fits p hist q1 →
          (c &&& p.mask.getD q1 0) ≠ p.ptn.getD q1 0) →
        ∃ q1 r, ptn_match_fuel fuel { p with index := q } c = some ({ p with index := q1 }, r) ∧
          is_longest p (c :: hist) (p.size_bytes - 1) q1 := by
      intro hist c q h1 h2 h3 h4
      obtain ⟨q1, r, e, hl, _⟩ := ih hist c q h1 h2 h3 h4
      exact ⟨q1, r, e, hl⟩
    have hnil : is_longest p (replay_hist p 0) (p.size_bytes - 1) 0 := by
      refine ⟨Nat.zero_le _, fits_zero p _, ?_⟩
      intro q1 _ hf
      have := hf.1
      simpa [replay_hist] using this
    -- a longer cursor that fits the bytes with `c` would extend one that fits without
    have hext : ∀ k, q < k → k < p.size_bytes → ¬ fits p (c :: hist) (k + 1) := by
      intro k hk hkm hf
      obtain ⟨hc, hfk⟩ := (fits_cons p hist c k).mp hf
      exact hnoext k hk hkm hfk hc
    simp only [ptn_match_fuel, hmq, hpq]
    by_cases hc : (c &&& p.mask.getD q 0) = p.ptn.getD q 0
    · rw [if_pos hc]
      have hfit1 : fits p (c :: hist) (q + 1) := (fits_cons p hist c q).mpr ⟨hc, hfit⟩
      by_cases hfull : q + 1 = p.size_bytes
      · rw [if_pos hfull]
        obtain ⟨q1, hloop, hl⟩ := backtrack_loop_spec p (ptn_match_fuel fuel) fuel hm1 hpl hpm
          q 0 0 (by omega) (by omega) hnil
        have e : ptn_match_backtrack (ptn_match_fuel fuel) { p with index := q + 1 } (q + 1)
            = some { p with index := q1 } := hloop
        rw [e]
        refine ⟨q1, 1, rfl, ?_, ?_⟩
        · obtain ⟨hb, hf, hmax⟩ := hl
          rw [Nat.zero_add] at hf hmax
          have hq1 : q1 ≤ q := by
            have := hf.1
            rw [replay_hist_length] at this
            exact this
          have heq : ∀ q2, q2 < q + 1 → (fits p (c :: hist) q2 ↔ fits p (replay_hist p q) q2) :=
            fun q2 h2 => fits_replay p (c :: hist) (q + 1) hn (by omega) hfit1 q2 h2
          refine ⟨hb, (heq q1 (by omega)).mpr hf, ?_⟩
          intro q2 hq2 hf2
          exact hmax q2 hq2 ((heq q2 (by omega)).mp hf2)
        · rw [← hfull]
          exact ⟨fun _ => hfit1, fun _ => rfl⟩
      · rw [if_neg hfull]
        refine ⟨q + 1, 0, rfl, ⟨by omega, hfit1, ?_⟩, ?_⟩
        · intro q2 hq2 hf2
          by_contra hgt
          cases q2 with
          | zero => omega
          | succ k => exact hext k (by omega) (by omega) hf2
        · constructor
          · intro h; omega
          · intro hf
            have e : p.size_bytes = (p.size_bytes - 1) + 1 := by omega
            rw [e] at hf
            exact absurd hf (hext _ (by omega) (by omega))
    · rw [if_neg hc]
      have hnofull : ¬ fits p (c :: hist) p.size_bytes := by
        intro hf
        have e : p.size_bytes = (p.size_bytes - 1) + 1 := by omega
        rw [e] at hf
        by_cases e2 : p.size_bytes - 1 = q
        · rw [e2] at hf
          exact hc ((fits_cons p hist c q).mp hf).1
        · exact hext _ (by omega) (by omega) hf
      by_cases hq0 : q = 0
      · rw [if_neg (by simpa using hq0)]
        subst hq0
        refine ⟨0, 0, rfl, ⟨Nat.zero_le _, fits_zero p _, ?_⟩, ?_⟩
        · intro q2 hq2 hf2
          cases q2 with
          | zero => omega
          | succ k =>
            exfalso
            by_cases e2 : k = 0
            · subst e2
              exact hc ((fits_cons p hist c 0).mp hf2).1
            · exact hext k (by omega) (by omega) hf2
        · exact ⟨fun h => by omega, fun hf => absurd hf hnofull⟩
      · rw [if_pos (by simpa using hq0)]
        obtain ⟨q1, hloop, hl⟩ := backtrack_loop_spec p (ptn_match_fuel fuel) fuel hm1 hpl hpm
          (q - 1) 0 0 (by omega) (by omega) hnil
        have e : ptn_match_backtrack (ptn_match_fuel fuel) { p with index := q } q
            = some { p with index := q1 } := hloop
        rw [e]
        obtain ⟨hb, hf, hmax⟩ := hl
        rw [Nat.zero_add] at hf hmax
        have hq1 : q1 ≤ q - 1 := by
          have := hf.1
          rw [replay_hist_length] at this
          exact this
        have heq : ∀ q2, q2 < q → (fits p hist q2 ↔ fits p (replay_hist p (q - 1)) q2) :=
          fun q2 h2 => fits_replay p hist q hn (by omega) hfit q2 h2
        obtain ⟨q2, r, hrec, hl2, _⟩ := ih hist c q1 (by omega) (by omega)
          ((heq q1 (by omega)).mpr hf) (by
            intro q3 h1 h2 h3
            by_cases e3 : q3 < q
            · have := hmax q3 (by omega) ((heq q3 e3).mp h3)
              omega
            · by_cases e4 : q3 = q
              · rw [e4]; exact hc
              · exact hnoext q3 (by omega) h2 h3)
        simp only [hrec]
        exact ⟨q2, 0, rfl, hl2, ⟨fun h => by omega, fun hf => absurd hf hnofull⟩⟩

theorem ptn_run_spec (p : birch_ptn) (hm1 : 1 ≤ p.size_bytes)
    (hpl : p.size_bytes ≤ p.ptn.length) (hml : p.size_bytes ≤ p.mask.length)
    (hn : masks_nested p) :
    ∀ (text hist : List Nat) (q0 : Nat), is_longest p hist (p.size_bytes - 1) q0 →
      ∃ rs, ptn_run { p with index := q0 } text = some rs ∧ rs.length = text.length ∧
        ∀ j, j < text.length →
          (rs.getD j 0 = 1 ↔ fits p ((text.take (j + 1)).reverse ++ hist) p.size_bytes) := by
  intro text
  induction text with
  | nil =>
    intro hist q0 _
    exact ⟨[], rfl, rfl, fun j hj => absurd hj (Nat.not_lt_zero j)⟩
  | cons c cs ih =>
    intro hist q0 hl
    obtain ⟨hb, hfit, hmax⟩ := hl
    obtain ⟨q1, r, hstep, hl1, hr⟩ := ptn_match_fuel_spec p hm1 hpl hml hn (q0 + 1) hist c q0
      (by omega) (Nat.le_refl _) hfit (by
        intro q2 h1 h2 h3
        have := hmax q2 (by omega) h3
        omega)
    obtain ⟨rs, hrun, hlen, hrs⟩ := ih (c :: hist) q1 hl1
    have hstep1 : ptn_match { p with index := q0 } c = some ({ p with index := q1 }, r) := hstep
    refine ⟨r :: rs, ?_, by simp [hlen], ?_⟩
    · simp only [ptn_run, hstep1, hrun, Option.map_some']
    · intro j hj
      cases j with
      | zero =>
        simp only [List.getD_cons_zero, Nat.zero_add, List.take_succ_cons, List.take_zero,
          List.reverse_cons, List.reverse_nil, List.nil_append, List.singleton_append]
        exact hr
      | succ j =>
        simp only [List.getD_cons_succ, List.take_succ_cons, List.reverse_cons,
          List.append_assoc, List.singleton_append]
        exact hrs j (by simpa using hj)

theorem reverse_take_getD (text : List Nat) (j k : Nat) (hj : j < text.length) (hk : k ≤ j) :
    ((text.take (j + 1)).reverse).getD k 0 = text.getD (j - k) 0 := by
  have hlen : (text.take (j + 1)).length = j + 1 := by
    rw [List.length_take]; omega
  rw [List.getD_eq_getElem?_getD, List.getD_eq_getElem?_getD,
    List.getElem?_reverse (by omega), hlen, List.getElem?_take_of_lt (by omega)]
  congr 2

theorem fits_iff_window_match (p : birch_ptn) (text : List Nat) (j : Nat)
    (hj : j < text.length) :
    fits p ((text.take (j + 1)).reverse ++ []) p.size_bytes ↔ window_match p text j := by
  have hlen : (text.take (j + 1)).length = j + 1 := by
    rw [List.length_take]; omega
  unfold fits window_match
  rw [List.append_nil, List.length_reverse, hlen]
  constructor
  · intro ⟨h1, h2⟩
    refine ⟨h1, hj, ?_⟩
    intro i hi
    have := h2 i hi
    rw [reverse_take_getD text j _ hj (by omega)] at this
    have e : j - (p.size_bytes - 1 - i) = j + 1 - p.size_bytes + i := by omega
    rw [e] at this
    exact this
  · intro ⟨h1, _, h2⟩
    refine ⟨h1, ?_⟩
    intro i hi
    rw [reverse_take_getD text j _ hj (by omega)]
    have e : j - (p.size_bytes - 1 - i) = j + 1 - p.size_bytes + i := by omega
    rw [e]
    exact h2 i hi

theorem masks_nested_of_full (p : birch_ptn)
    (h : ∀ i, i < p.size_bytes → p.mask.getD i 0 = 0xff) : masks_nested p := by
  intro k i hk hi
  rw [h k (by omega), h i hi]
  rfl

/-- Match correctness where the masks are nested, in particular all `0xff` (the
aligned patterns whose size is a multiple of 8): fed any byte sequence from
cursor 0, `ptn_match` returns a value at every byte, and it returns 1 at byte
index `j` if and only if the `size_bytes` bytes ending at `j` pass the mask
test. -/
theorem ptn_run_nested_masks (p : birch_ptn) (text : List Nat) (h0 : p.index = 0)
    (hm1 : 1 ≤ p.size_bytes) (hpl : p.size_bytes ≤ p.ptn.length)
    (hml : p.size_bytes ≤ p.mask.length) (hn : masks_nested p) :
    ∃ rs, ptn_run p text = some rs ∧ rs.length = text.length ∧
      ∀ j, j < text.length → (rs.getD j 0 = 1 ↔ window_match p text j) := by
  have e : p = { p with index := 0 } := by
    cases p
    simp only at h0
    subst h0
    rfl
  have hl : is_longest p [] (p.size_bytes - 1) 0 := by
    refine ⟨Nat.zero_le _, fits_zero p _, ?_⟩
    intro q1 _ hf
    simpa using hf.1
  obtain ⟨rs, hrun, hlen, hrs⟩ := ptn_run_spec p hm1 hpl hml hn text [] 0 hl
  rw [← e] at hrun
  refine ⟨rs, hrun, hlen, ?_⟩
  intro j hj
  rw [hrs j hj]
  exact fits_iff_window_match p text j hj

/-! ### The number of variants of a group -/

theorem ptn_unalign_loop_length (h : host) :
    ∀ (k shift : Nat) (l : List birch_ptn), (ptn_unalign_loop h k shift l).length = l.length := by
  intro k
  induction k with
  | zero => intro shift l; rfl
  | succ k ih =>
    intro shift l
    simp only [ptn_unalign_loop, ih, List.length_set]

theorem ptn_unalign_length (h : host) (l : List birch_ptn) :
    (ptn_unalign h l).length = l.length :=
  ptn_unalign_loop_length h _ _ l

theorem ptn_group_modify_both_length (h : host) (esl : Nat) :
    ∀ (k from_ : Nat) (l : List birch_ptn),
      (ptn_group_modify_both h esl k from_ l).length = l.length := by
  intro k
  induction k with
  | zero => intro from_ l; rfl
  | succ k ih =>
    intro from_ l
    simp only [ptn_group_modify_both, ih, List.length_set]

theorem ptn_group_modify_reverse_length (h : host) :
    ∀ (k i : Nat) (l : List birch_ptn),
      (ptn_group_modify_reverse h k i l).length = l.length := by
  intro k
  induction k with
  | zero => intro i l; rfl
  | succ k ih =>
    intro i l
    simp only [ptn_group_modify_reverse, ih, List.length_set]

theorem ptn_group_modify_length (h : host) (l : List birch_ptn) (al : alignment)
    (en te : endian) : (ptn_group_modify h l al en te).length = l.length := by
  unfold ptn_group_modify
  simp only
  split
  · rw [ptn_group_modify_both_length]
    split
    · exact ptn_unalign_length h l
    · rfl
  · split
    · rw [ptn_group_modify_reverse_length]
      split
      · exact ptn_unalign_length h l
      · rfl
    · split
      · exact ptn_unalign_length h l
      · rfl

theorem added_eq_variant_count (type : data_type) (al : alignment) (en : endian) :
    (if en = ENDIAN_BOTH ∧ type ≠ DATA_TYPE_STRING then
        (if al = ALIGNMENT_UNALIGNED then CHAR_BIT <<< 1 else 2)
      else if al = ALIGNMENT_UNALIGNED then CHAR_BIT
      else 1) = variant_count type al en := by
  cases type <;> cases al <;> cases en <;> decide

theorem new_slots_length (gp : List birch_ptn) (added : Nat) (u p : birch_ptn)
    (modify : List birch_ptn → List birch_ptn) (hm : ∀ l, (modify l).length = l.length) :
    ((gp ++ List.replicate added u).take gp.length
      ++ modify (((gp ++ List.replicate added u).drop gp.length).set 0 p)).length
      = gp.length + added := by
  rw [List.length_append, hm, List.length_set, List.length_take, List.length_drop,
    List.length_append, List.length_replicate]
  omega

/-- C11: whenever `group_add_ptn` returns (with whatever code), the group's
variant count has grown by exactly 1 for Aligned with a single endian, 2 for
Aligned with endian Both, 8 for Unaligned with a single endian and 16 for
Unaligned with endian Both, the endian option never doubling the count of a
String pattern.  The call does not return only when `size_bytes` is 0 (the
division by zero in `malloc_safe`) or `bit_arr_from_str` leaves its buffer. -/
theorem group_add_ptn_variant_count (h : host) (group : birch_ptn_group) (arg_str : List Char)
    (type : data_type) (al : alignment) (en : endian) (size : Nat) :
    (group_add_ptn h group arg_str type al en size).map (fun r => r.2.ptns.length)
      = if (size + (CHAR_BIT - 1)) % 2 ^ 64 / CHAR_BIT = 0 ∨
            (type = DATA_TYPE_INTEGER ∧
              bit_arr_from_str arg_str ((size + (CHAR_BIT - 1)) % 2 ^ 64 / CHAR_BIT)
                = bit_arr_result.out_of_bounds) then none
        else some (group.ptns.length + variant_count type al en) := by
  unfold group_add_ptn
  simp only [added_eq_variant_count]
  generalize (size + (CHAR_BIT - 1)) % 2 ^ 64 / CHAR_BIT = sb
  by_cases hsb : sb = 0
  · simp [ptn_mask_gen, hsb]
  · have hmask : ∃ mask, ptn_mask_gen size sb = some mask := by
      unfold ptn_mask_gen
      rw [if_neg hsb]
      exact ⟨_, rfl⟩
    obtain ⟨mask, hmask⟩ := hmask
    simp only [hmask, hsb, false_or]
    cases type with
    | DATA_TYPE_INTEGER =>
      simp only [true_and]
      cases hb : bit_arr_from_str arg_str sb with
      | out_of_bounds => simp
      | null =>
        simp only [Option.map_some', reduceCtorEq, if_false, Option.some.injEq]
        exact new_slots_length _ _ _ _ id (fun _ => rfl)
      | arr bytes =>
        simp only [Option.map_some', reduceCtorEq, if_false, Option.some.injEq]
        exact new_slots_length _ _ _ _ _ (fun l => ptn_group_modify_length h l al en _)
    | DATA_TYPE_FLOAT =>
      simp only [reduceCtorEq, false_and, if_false]
      split
      · split
        · simp only [Option.map_some', Option.some.injEq]
          exact new_slots_length _ _ _ _ id (fun _ => rfl)
        · simp only [Option.map_some', Option.some.injEq]
          exact new_slots_length _ _ _ _ _ (fun l => ptn_group_modify_length h l al en _)
      · split
        · split
          · simp only [Option.map_some', Option.some.injEq]
            exact new_slots_length _ _ _ _ id (fun _ => rfl)
          · simp only [Option.map_some', Option.some.injEq]
            exact new_slots_length _ _ _ _ _ (fun l => ptn_group_modify_length h l al en _)
        · simp only [Option.map_some', Option.some.injEq]
          exact new_slots_length _ _ _ _ id (fun _ => rfl)
    | DATA_TYPE_STRING =>
      simp only [reduceCtorEq, false_and, if_false]
      split
      · simp only [Option.map_some', Option.some.injEq]
        exact new_slots_length _ _ _ _ id (fun _ => rfl)
      · simp only [Option.map_some', Option.some.injEq]
        exact new_slots_length _ _ _ _
          (fun slots => if al = ALIGNMENT_UNALIGNED then ptn_unalign h slots else slots)
          (by
            intro l
            simp only
            split
            · exact ptn_unalign_length h l
            · rfl)

/-! ### The distance of a pair of matches -/

/-- C12: for matches `a`, `b` with 64-bit offsets, `ptn_group_match_dist_calc`
yields `(1, 0, 0, 0)` if either has a null variant reference; otherwise `nexist`
is 0, `dir_diff` is `path_dir_diff` of the two paths, `file_diff` is 1 if the
paths differ at some index and 0 if they are equal, and `offs_diff` is the exact
absolute difference of the two offsets. -/
theorem dist_calc_spec (mem : Nat → List Char) (a b : birch_match) (ha : a.offs < 2 ^ 64)
    (hb : b.offs < 2 ^ 64) :
    ((a.ptn = none ∨ b.ptn = none) →
      ptn_group_match_dist_calc mem a b
        = { nexist := 1, dir_diff := 0, file_diff := 0, offs_diff := 0 }) ∧
    ((a.ptn ≠ none ∧ b.ptn ≠ none) →
      (ptn_group_match_dist_calc mem a b).nexist = 0 ∧
      (ptn_group_match_dist_calc mem a b).dir_diff = path_dir_diff (mem a.path) (mem b.path) ∧
      ((∃ i : Nat, (mem a.path)[i]? ≠ (mem b.path)[i]?) →
        (ptn_group_match_dist_calc mem a b).file_diff = 1) ∧
      ((∀ i : Nat, (mem a.path)[i]? = (mem b.path)[i]?) →
        (ptn_group_match_dist_calc mem a b).file_diff = 0) ∧
      (ptn_group_match_dist_calc mem a b).offs_diff
        = max a.offs b.offs - min a.offs b.offs) := by
  constructor
  · intro h
    unfold ptn_group_match_dist_calc
    rw [if_pos h]
  · intro ⟨h1, h2⟩
    have hn : ¬ (a.ptn = none ∨ b.ptn = none) := fun h => h.elim h1 h2
    unfold ptn_group_match_dist_calc
    rw [if_neg hn]
    refine ⟨rfl, rfl, ?_, ?_, ?_⟩
    · intro ⟨i, hi⟩
      have hne : mem a.path ≠ mem b.path := fun e => hi (by rw [e])
      simp only [hne, ne_eq, not_false_eq_true, if_true]
    · intro hall
      have he : mem a.path = mem b.path := List.ext_getElem? hall
      simp only [he, ne_eq, not_true_eq_false, if_false]
    · simp only
      unfold sub_u64
      split_ifs <;> omega

theorem dist_calc_spec_witness :
    (ptn_group_match_dist_calc example_mem ⟨some (0, 0), 1, 8⟩ ⟨some (1, 0), 2, 2 ^ 64 - 1⟩).nexist = 0 ∧
    (ptn_group_match_dist_calc example_mem ⟨some (0, 0), 1, 8⟩ ⟨some (1, 0), 2, 2 ^ 64 - 1⟩).dir_diff
      = path_dir_diff (example_mem 1) (example_mem 2) ∧
    ((∃ i : Nat, (example_mem 1)[i]? ≠ (example_mem 2)[i]?) →
      (ptn_group_match_dist_calc example_mem ⟨some (0, 0), 1, 8⟩
        ⟨some (1, 0), 2, 2 ^ 64 - 1⟩).file_diff = 1) ∧
    ((∀ i : Nat, (example_mem 1)[i]? = (example_mem 2)[i]?) →
      (ptn_group_match_dist_calc example_mem ⟨some (0, 0), 1, 8⟩
        ⟨some (1, 0), 2, 2 ^ 64 - 1⟩).file_diff = 0) ∧
    (ptn_group_match_dist_calc example_mem ⟨some (0, 0), 1, 8⟩ ⟨some (1, 0), 2, 2 ^ 64 - 1⟩).offs_diff
      = max 8 (2 ^ 64 - 1) - min 8 (2 ^ 64 - 1) :=
  (dist_calc_spec example_mem ⟨some (0, 0), 1, 8⟩ ⟨some (1, 0), 2, 2 ^ 64 - 1⟩
    (by norm_num) (by norm_num)).2 ⟨by simp, by simp⟩

theorem path_delim_count_eq : ∀ (p : List Char) (d : Nat), d + p.count '/' < 2 ^ 32 →
    path_delim_count p d = d + p.count '/' := by
  intro p
  induction p with
  | nil => intro d _; rfl
  | cons c p ih =>
    intro d hd
    simp only [path_delim_count, List.count_cons] at hd ⊢
    by_cases hc : c = '/'
    · subst hc
      simp only [beq_self_eq_true, if_true] at hd ⊢
      rw [Nat.mod_eq_of_lt (by omega), ih _ (by omega)]
      omega
    · have hb : (c == '/') = false := by simpa using hc
      simp only [hb, if_neg hc] at hd ⊢
      rw [ih _ (by simpa using hd)]
      simp

theorem path_dir_diff_eq :
    ∀ (p q : List Char), p.count '/' + q.count '/' < 2 ^ 32 →
      path_dir_diff p q = (p.drop (common_prefix_length p q)).count '/'
        + (q.drop (common_prefix_length p q)).count '/' := by
  have hbase : ∀ (p q : List Char), p.count '/' + q.count '/' < 2 ^ 32 →
      (path_delim_count p 0 + path_delim_count q 0) % 2 ^ 32 = p.count '/' + q.count '/' := by
    intro p q h
    rw [path_delim_count_eq p 0 (by omega), path_delim_count_eq q 0 (by omega),
      Nat.zero_add, Nat.zero_add, Nat.mod_eq_of_lt h]
  intro p
  induction p with
  | nil =>
    intro q h
    cases q with
    | nil => rfl
    | cons y ys =>
      simp only [path_dir_diff, common_prefix_length, List.drop_zero]
      exact hbase [] (y :: ys) h
  | cons x xs ih =>
    intro q h
    cases q with
    | nil =>
      simp only [path_dir_diff, common_prefix_length, List.drop_zero]
      exact hbase (x :: xs) [] h
    | cons y ys =>
      simp only [path_dir_diff, common_prefix_length]
      by_cases hxy : x = y
      · rw [if_pos hxy, if_pos hxy]
        simp only [List.drop_succ_cons]
        apply ih ys
        simp only [List.count_cons] at h
        omega
      · rw [if_neg hxy, if_neg hxy]
        simp only [List.drop_zero]
        exact hbase (x :: xs) (y :: ys) h

theorem path_dir_diff_no_delim :
    ∀ (x y : List Char), '/' ∉ x → '/' ∉ y → path_dir_diff x y = 0 := by
  intro x y hx hy
  have h := path_dir_diff_eq x y (by
    rw [List.count_eq_zero_of_not_mem hx, List.count_eq_zero_of_not_mem hy]; norm_num)
  rw [h]
  have h1 : '/' ∉ x.drop (common_prefix_length x y) := fun hm => hx (List.mem_of_mem_drop hm)
  have h2 : '/' ∉ y.drop (common_prefix_length x y) := fun hm => hy (List.mem_of_mem_drop hm)
  rw [List.count_eq_zero_of_not_mem h1, List.count_eq_zero_of_not_mem h2]

theorem path_dir_diff_append (d : List Char) :
    ∀ (x y : List Char), path_dir_diff (d ++ x) (d ++ y) = path_dir_diff x y := by
  induction d with
  | nil => intro x y; rfl
  | cons c d ih =>
    intro x y
    simp only [List.cons_append, path_dir_diff, if_true]
    exact ih x y

/-- C13: `path_dir_diff(p, q)` is the number of `/` characters in the remainders
of `p` and `q` after their longest common prefix, summed (the count being an
`unsigned int`, for paths with fewer than `2 ^ 32` of them); and for every
directory prefix `d` and basenames `x`, `y` without `/`,
`path_dir_diff(d ++ x, d ++ y) = 0`. -/
theorem path_dir_diff_spec :
    (∀ (p q : List Char), p.count '/' + q.count '/' < 2 ^ 32 →
      path_dir_diff p q = (p.drop (common_prefix_length p q)).count '/'
        + (q.drop (common_prefix_length p q)).count '/') ∧
    (∀ (d x y : List Char), '/' ∉ x → '/' ∉ y → path_dir_diff (d ++ x) (d ++ y) = 0) :=
  ⟨path_dir_diff_eq, fun d x y hx hy => by
    rw [path_dir_diff_append]; exact path_dir_diff_no_delim x y hx hy⟩

theorem path_dir_diff_spec_witness :
    path_dir_diff "a/b/c".toList "a/x/y/z".toList
        = ("a/b/c".toList.drop (common_prefix_length "a/b/c".toList "a/x/y/z".toList)).count '/'
          + ("a/x/y/z".toList.drop
              (common_prefix_length "a/b/c".toList "a/x/y/z".toList)).count '/' ∧
      path_dir_diff ("d/e/".toList ++ "x".toList) ("d/e/".toList ++ "yz".toList) = 0 :=
  ⟨path_dir_diff_spec.1 "a/b/c".toList "a/x/y/z".toList (by decide),
    path_dir_diff_spec.2 "d/e/".toList "x".toList "yz".toList (by decide) (by decide)⟩

/-- C14: `ptn_group_match_dist_cmp(a, b)` is negative, zero or positive exactly
when `a` is lexicographically less than, equal to or greater than `b`, the
component `nexist` most significant, then `dir_diff`, `file_diff`, `offs_diff`. -/
theorem dist_cmp_sign (a b : match_dist_t) :
    (ptn_group_match_dist_cmp a b < 0 ↔ dist_lt a b) ∧
    (ptn_group_match_dist_cmp a b = 0 ↔ a = b) ∧
    (0 < ptn_group_match_dist_cmp a b ↔ dist_lt b a) := by
  refine ⟨dist_cmp_lt_iff a b, ?_, ?_⟩
  · constructor
    · intro h
      unfold ptn_group_match_dist_cmp at h
      split_ifs at h
      all_goals first
        | exact absurd h (by decide)
        | exact match_dist_ext a b (by omega) (by omega) (by omega) (by omega)
    · intro h
      rw [h]
      simp [ptn_group_match_dist_cmp]
  · unfold ptn_group_match_dist_cmp dist_lt
    split_ifs <;> constructor <;> intro h <;> omega

/-! ### Offers that leave the result list unchanged -/

theorem not_dist_lt_of_le (a b : match_dist_t) (h : dist_le a b) : ¬ dist_lt b a := by
  rcases h with h | h
  · unfold dist_lt at h ⊢
    omega
  · rw [h]
    unfold dist_lt
    omega

theorem result_add_bubble_noop (results : List birch_ptn_groups) (hs : results_sorted results)
    (i : Nat) (hi : i < results.length) : result_add_bubble results i = results := by
  cases i with
  | zero => rfl
  | succ j =>
    simp only [result_add_bubble]
    rw [if_neg]
    rw [dist_cmp_lt_iff]
    exact not_dist_lt_of_le _ _ (hs j (by omega))

theorem result_add_find_first (groups : birch_ptn_groups) (results : List birch_ptn_groups)
    (i : Nat) (hc : groups_cmp (result_at results i) groups ≠ 0) :
    ∀ (n : Nat), i < n → (∀ k, i < k → k < n → groups_cmp (result_at results k) groups = 0) →
      result_add_find groups results n = some i := by
  intro n
  induction n with
  | zero => intro h; omega
  | succ n ih =>
    intro hi hk
    simp only [result_add_find]
    by_cases e : i = n
    · subst e
      rw [if_pos hc]
    · rw [if_neg (by simpa using hk n (by omega) (by omega))]
      exact ih (by omega) (fun k h1 h2 => hk k h1 (by omega))

/-- C15: for a sorted result list of `K ≥ 1` tuples and a groups state `S`: if
the first tuple found scanning from the last slot to the first that shares a
non-null match with `S` has a distance not above that of `S`, or if no tuple
shares a match with `S` and the distance of the last slot is not above that of
`S`, then `result_add` returns the result list unchanged. -/
theorem result_add_unchanged (S : birch_ptn_groups) (results : List birch_ptn_groups)
    (K : Nat) (hK : K = results.length) (h1 : 1 ≤ K) (h64 : K < 2 ^ 64)
    (hs : results_sorted results)
    (h : (∃ i, i < K ∧
          ¬ no_shared (current_matches (result_at results i)) (current_matches S) ∧
          (∀ k, i < k → k < K →
            no_shared (current_matches (result_at results k)) (current_matches S)) ∧
          dist_le (result_at results i).match_dist S.match_dist) ∨
        ((∀ k, k < K →
            no_shared (current_matches (result_at results k)) (current_matches S)) ∧
          dist_le (result_at results (K - 1)).match_dist S.match_dist)) :
    result_add S results K = results := by
  unfold result_add
  rcases h with ⟨i, hi, hshare, hfirst, hle⟩ | ⟨hnone, hle⟩
  · have hf : result_add_find S results K = some i :=
      result_add_find_first S results i
        (fun e => hshare ((groups_cmp_eq_zero _ _).mp e)) K hi
        (fun k h2 h3 => (groups_cmp_eq_zero _ _).mpr (hfirst k h2 h3))
    rw [hf]
    simp only
    rw [if_neg]
    rw [dist_cmp_lt_iff]
    exact not_dist_lt_of_le _ _ hle
  · have hf : result_add_find S results K = none := by
      cases hfind : result_add_find S results K with
      | none => rfl
      | some i =>
        obtain ⟨hi, hc⟩ := result_add_find_some S results K i hfind
        exact absurd ((groups_cmp_eq_zero _ _).mpr (hnone i hi)) hc
    rw [hf]
    have e : sub_u64 K 1 = K - 1 := by unfold sub_u64; omega
    simp only [e]
    rw [if_neg]
    · exact result_add_bubble_noop results hs (K - 1) (by omega)
    · rw [dist_cmp_lt_iff]
      exact not_dist_lt_of_le _ _ hle

theorem result_add_unchanged_witness :
    result_add (example_tuple [⟨some (0, 0), 1, 8⟩, ⟨some (1, 0), 1, 64⟩] ⟨0, 0, 0, 56⟩)
        [example_tuple [⟨some (0, 0), 1, 8⟩, ⟨some (1, 0), 1, 32⟩] ⟨0, 0, 0, 24⟩,
          example_tuple [null_match, null_match] ⟨2, 0, 0, 0⟩] 2
      = [example_tuple [⟨some (0, 0), 1, 8⟩, ⟨some (1, 0), 1, 32⟩] ⟨0, 0, 0, 24⟩,
          example_tuple [null_match, null_match] ⟨2, 0, 0, 0⟩] :=
  result_add_unchanged _ _ 2 rfl (by norm_num) (by norm_num) (by decide)
    (Or.inl ⟨0, by norm_num,
      fun h => absurd (h 0 ⟨some (0, 0), 1, 8⟩ rfl rfl) (by decide),
      fun k h2 h3 => by
        have e : k = 1 := by omega
        subst e
        intro g m ha hb
        cases g with
        | zero =>
          simp only [result_at, example_tuple, current_matches, List.getD_cons_succ,
            List.getD_cons_zero, List.map_cons, List.getElem?_cons_zero,
            Option.some.injEq] at ha
          rw [← ha]; rfl
        | succ g =>
          cases g with
          | zero =>
            simp only [result_at, example_tuple, current_matches, List.getD_cons_succ,
              List.getD_cons_zero, List.map_cons, List.getElem?_cons_succ,
              List.getElem?_cons_zero, Option.some.injEq] at ha
            rw [← ha]; rfl
          | succ g =>
            simp [result_at, example_tuple, current_matches] at ha,
      by decide⟩)

/-! ### The distance update is equivalent to recomputing the sum -/

theorem match_dist_eq_of_get (a b : match_dist_t) (h : ∀ j, a.get j = b.get j) : a = b :=
  match_dist_ext a b (h 0) (h 1) (h 2) (h 3)

/-- C20: for any number of groups (in particular `G ≥ 2`) with 64-bit offsets, if before
`ptn_group_match_dist_update(groups, &g.match, m_new)` the aggregate vector `D`
equals the element-wise sum of `pair_distance` over the unordered pairs of
distinct groups' current matches, then after the update and the installation
of `m_new` as the current match of group `g`, `D` equals that sum recomputed
over the new current matches, provided both sums fit in 64 bits. -/
theorem dist_update_recompute (mem : Nat → List Char) (groups : birch_ptn_groups) (g : Nat)
    (group : birch_ptn_group) (m_new : birch_match)
    (hg : groups.groups[g]? = some group) (hnew : m_new.offs < 2 ^ 64)
    (hoffs : ∀ m ∈ current_matches groups, m.offs < 2 ^ 64)
    (hbefore : groups.match_dist = pair_distance_sum mem (current_matches groups))
    (hfit0 : ∀ j, (pair_distance_sum mem (current_matches groups)).get j < 2 ^ 64)
    (hfit1 : ∀ j, (pair_distance_sum mem ((current_matches groups).set g m_new)).get j
      < 2 ^ 64) :
    (ptn_group_match_dist_update mem groups g m_new).match_dist
      = pair_distance_sum mem (current_matches
          { groups := (ptn_group_match_dist_update mem groups g m_new).groups.set g
              { group with cur_match := m_new },
            match_dist := (ptn_group_match_dist_update mem groups g m_new).match_dist }) := by
  have hgl : g < groups.groups.length := by
    by_contra hh
    rw [List.getElem?_eq_none (by omega)] at hg
    simp at hg
  have hcm : current_matches
      { groups := (ptn_group_match_dist_update mem groups g m_new).groups.set g
          { group with cur_match := m_new },
        match_dist := (ptn_group_match_dist_update mem groups g m_new).match_dist }
      = (current_matches groups).set g m_new := by
    unfold current_matches
    simp only [dist_update_groups]
    rw [map_set_comm]
  rw [hcm]
  apply match_dist_eq_of_get
  intro j
  rw [dist_update_pair_sum mem groups g m_new hgl hnew hoffs
    (fun _ j => by rw [hbefore, Nat.mod_eq_of_lt (hfit0 j)]) j]
  exact Nat.mod_eq_of_lt (hfit1 j)

set_option maxRecDepth 100000 in
theorem dist_update_recompute_witness :
    (ptn_group_match_dist_update example_mem
        { groups := [{ ptns := [], cur_match := ⟨some (0, 0), 1, 40⟩ },
            { ptns := [], cur_match := null_match }, { ptns := [], cur_match := ⟨some (2, 0), 2, 8⟩ }],
          match_dist := ⟨2, 0, 1, 32⟩ } 1 ⟨some (1, 0), 2, 100⟩).match_dist
      = pair_distance_sum example_mem (current_matches
          { groups := (ptn_group_match_dist_update example_mem
              { groups := [{ ptns := [], cur_match := ⟨some (0, 0), 1, 40⟩ },
                  { ptns := [], cur_match := null_match },
                  { ptns := [], cur_match := ⟨some (2, 0), 2, 8⟩ }],
                match_dist := ⟨2, 0, 1, 32⟩ } 1 ⟨some (1, 0), 2, 100⟩).groups.set 1
              { ptns := [], cur_match := ⟨some (1, 0), 2, 100⟩ },
            match_dist := (ptn_group_match_dist_update example_mem
              { groups := [{ ptns := [], cur_match := ⟨some (0, 0), 1, 40⟩ },
                  { ptns := [], cur_match := null_match },
                  { ptns := [], cur_match := ⟨some (2, 0), 2, 8⟩ }],
                match_dist := ⟨2, 0, 1, 32⟩ } 1 ⟨some (1, 0), 2, 100⟩).match_dist }) :=
  dist_update_recompute example_mem
    { groups := [{ ptns := [], cur_match := ⟨some (0, 0), 1, 40⟩ },
        { ptns := [], cur_match := null_match }, { ptns := [], cur_match := ⟨some (2, 0), 2, 8⟩ }],
      match_dist := ⟨2, 0, 1, 32⟩ } 1 { ptns := [], cur_match := null_match }
    ⟨some (1, 0), 2, 100⟩ rfl (by norm_num) (by decide) (by decide)
    (fun j => by
      have e : ∀ j, (⟨2, 0, 1, 32⟩ : match_dist_t).get j ≤ 32 := by
        intro j; unfold match_dist_t.get; split <;> norm_num
      have h : pair_distance_sum example_mem (current_matches
          { groups := [{ ptns := [], cur_match := ⟨some (0, 0), 1, 40⟩ },
              { ptns := [], cur_match := null_match },
              { ptns := [], cur_match := ⟨some (2, 0), 2, 8⟩ }],
            match_dist := ⟨2, 0, 1, 32⟩ }) = ⟨2, 0, 1, 32⟩ := by decide
      rw [h]
      exact Nat.lt_of_le_of_lt (e j) (by norm_num))
    (fun j => by
      have e : ∀ j, (⟨0, 0, 2, 184⟩ : match_dist_t).get j ≤ 184 := by
        intro j; unfold match_dist_t.get; split <;> norm_num
      have h : pair_distance_sum example_mem ((current_matches
          { groups := [{ ptns := [], cur_match := ⟨some (0, 0), 1, 40⟩ },
              { ptns := [], cur_match := null_match },
              { ptns := [], cur_match := ⟨some (2, 0), 2, 8⟩ }],
            match_dist := ⟨2, 0, 1, 32⟩ }).set 1 ⟨some (1, 0), 2, 100⟩) = ⟨0, 0, 2, 184⟩ := by
        decide
      rw [h]
      exact Nat.lt_of_le_of_lt (e j) (by norm_num))

/-! ### Scenarios of the scan -/

set_option maxRecDepth 100000 in
/-- C17: with two groups, one holding the aligned little-endian 8-bit integer
pattern `0x12` and the other the aligned little-endian 8-bit integer pattern
`0x78`, the scan of the single file `00 12 34 56 78 00` with `K = 1` ends with
a single result tuple in which both groups are matched, at the bit offsets 8
and 32, and whose distance is `(0, 0, 0, 24)`. -/
theorem two_groups_one_file_scenario :
    run_scan example_host example_mem
        [("0x12".toList, DATA_TYPE_INTEGER, ALIGNMENT_ALIGNED, ENDIAN_LITTLE, 8),
          ("0x78".toList, DATA_TYPE_INTEGER, ALIGNMENT_ALIGNED, ENDIAN_LITTLE, 8)] 1
        [(1, [0x00, 0x12, 0x34, 0x56, 0x78, 0x00])]
      = some ([⟨some (0, 0), 1, 8⟩, ⟨some (1, 0), 1, 32⟩], ⟨0, 0, 0, 24⟩,
          [([⟨some (0, 0), 1, 8⟩, ⟨some (1, 0), 1, 32⟩], ⟨0, 0, 0, 24⟩)]) := by
  decide

/-! ### The return code of `group_add_ptn` -/

/-- The return code of `group_add_ptn` for a size of at least one byte, when
`bit_arr_from_str` stays inside its buffer: -1 for an integer text it rejects,
-2 for a float of a size other than 32 and 64, -1 for a string shorter than
`size_bytes`, and 0 for every other integer or string pattern. -/
theorem group_add_ptn_return_code (h : host) (group : birch_ptn_group) (arg_str : List Char)
    (al : alignment) (en : endian) (size : Nat)
    (hsb : (size + (CHAR_BIT - 1)) % 2 ^ 64 / CHAR_BIT ≠ 0) :
    (bit_arr_from_str arg_str ((size + (CHAR_BIT - 1)) % 2 ^ 64 / CHAR_BIT) = bit_arr_result.null →
      (group_add_ptn h group arg_str DATA_TYPE_INTEGER al en size).map (fun r => r.1)
        = some (-1)) ∧
    (∀ bytes, bit_arr_from_str arg_str ((size + (CHAR_BIT - 1)) % 2 ^ 64 / CHAR_BIT)
        = bit_arr_result.arr bytes →
      (group_add_ptn h group arg_str DATA_TYPE_INTEGER al en size).map (fun r => r.1)
        = some 0) ∧
    (size ≠ 32 → size ≠ 64 →
      (group_add_ptn h group arg_str DATA_TYPE_FLOAT al en size).map (fun r => r.1)
        = some (-2)) ∧
    (arg_str.length < (size + (CHAR_BIT - 1)) % 2 ^ 64 / CHAR_BIT →
      (group_add_ptn h group arg_str DATA_TYPE_STRING al en size).map (fun r => r.1)
        = some (-1)) ∧
    ((size + (CHAR_BIT - 1)) % 2 ^ 64 / CHAR_BIT ≤ arg_str.length →
      (group_add_ptn h group arg_str DATA_TYPE_STRING al en size).map (fun r => r.1)
        = some 0) := by
  have hmask : ∃ mask, ptn_mask_gen size ((size + (CHAR_BIT - 1)) % 2 ^ 64 / CHAR_BIT)
      = some mask := by
    unfold ptn_mask_gen
    rw [if_neg hsb]
    exact ⟨_, rfl⟩
  obtain ⟨mask, hmask⟩ := hmask
  refine ⟨?_, ?_, ?_, ?_, ?_⟩
  · intro hb
    unfold group_add_ptn
    simp only [hmask, hb, Option.map_some']
  · intro bytes hb
    unfold group_add_ptn
    simp only [hmask, hb, Option.map_some']
  · intro h32 h64
    unfold group_add_ptn
    simp only [hmask]
    rw [if_neg (by unfold CHAR_BIT; omega), if_neg (by unfold CHAR_BIT; omega)]
    rfl
  · intro hlt
    unfold group_add_ptn
    simp only [hmask]
    rw [if_pos hlt]
    rfl
  · intro hle
    unfold group_add_ptn
    simp only [hmask]
    rw [if_neg (by omega)]
    rfl

set_option maxRecDepth 100000 in
/-- C19 (failing inputs): with a size of 0 bits `group_add_ptn` does not return:
`size_bytes` is 0 and `ptn_mask_gen` calls `malloc_safe(0, 1)`, which divides by
zero, before the type of the pattern is looked at.  So a float of size 0
(neither 32 nor 64) gets no error code and an integer or a string of size 0
does not compile.  With the integer text `65536x` of size 16, which holds a
character that is no digit, `bit_arr_from_str` leaves its buffer before it
meets that character and no code is returned either; the text `6553x` is
rejected with -1 and a float of size 16 with -2. -/
theorem group_add_ptn_no_return :
    group_add_ptn example_host new_group "1.0".toList DATA_TYPE_FLOAT ALIGNMENT_ALIGNED
        ENDIAN_LITTLE 0 = none ∧
    group_add_ptn example_host new_group "5".toList DATA_TYPE_INTEGER ALIGNMENT_ALIGNED
        ENDIAN_LITTLE 0 = none ∧
    group_add_ptn example_host new_group "abc".toList DATA_TYPE_STRING ALIGNMENT_ALIGNED
        ENDIAN_LITTLE 0 = none ∧
    group_add_ptn example_host new_group "65536x".toList DATA_TYPE_INTEGER ALIGNMENT_ALIGNED
        ENDIAN_LITTLE 16 = none ∧
    (group_add_ptn example_host new_group "6553x".toList DATA_TYPE_INTEGER ALIGNMENT_ALIGNED
        ENDIAN_LITTLE 16).map (fun r => r.1) = some (-1) ∧
    (group_add_ptn example_host new_group "1.0".toList DATA_TYPE_FLOAT ALIGNMENT_ALIGNED
        ENDIAN_LITTLE 16).map (fun r => r.1) = some (-2) := by
  refine ⟨?_, ?_, ?_, ?_, ?_, ?_⟩ <;> decide

/-! ### The distance of the result tuples and what `results_print` prints -/

theorem result_contents_getD (results : List birch_ptn_groups) (i : Nat) :
    (current_matches (result_at results i), (result_at results i).match_dist)
      = (result_contents results).getD i ([], ⟨0, 0, 0, 0⟩) := by
  unfold result_at result_contents
  rw [List.getD_eq_getElem?_getD, List.getD_eq_getElem?_getD, List.getElem?_map]
  cases results[i]? <;> rfl

theorem result_contents_length (results : List birch_ptn_groups) :
    (result_contents results).length = results.length := by
  simp [result_contents]

theorem result_contents_mem (results : List birch_ptn_groups) (i : Nat)
    (hi : i < results.length) :
    (current_matches (result_at results i), (result_at results i).match_dist)
      ∈ result_contents results := by
  rw [result_contents_getD, List.getD_eq_getElem?_getD,
    List.getElem?_eq_getElem (by rw [result_contents_length]; exact hi)]
  exact List.getElem_mem _

theorem result_add_bubble_contents (G : Nat) :
    ∀ (i : Nat) (results : List birch_ptn_groups), i < results.length →
      (∀ c ∈ result_contents results, c.1.length = G) →
      List.Perm (result_contents (result_add_bubble results i)) (result_contents results) := by
  intro i
  induction i with
  | zero => intro results _ _; exact List.Perm.refl _
  | succ j ih =>
    intro results hi hlen
    simp only [result_add_bubble]
    split
    · have hl : ∀ k, k < results.length → (result_at results k).groups.length = G := by
        intro k hk
        have := hlen _ (result_contents_mem results k hk)
        simpa [current_matches] using this
      have hsw := results_swap_matches (result_at results (j + 1)) (result_at results j)
        (by rw [hl _ hi, hl _ (by omega)])
      have hsd := results_swap_dist (result_at results (j + 1)) (result_at results j)
      have e : result_contents ((results.set (j + 1)
            (results_swap (result_at results (j + 1)) (result_at results j)).1).set j
            (results_swap (result_at results (j + 1)) (result_at results j)).2)
          = ((result_contents results).set (j + 1)
              ((result_contents results).getD j ([], ⟨0, 0, 0, 0⟩))).set j
              ((result_contents results).getD (j + 1) ([], ⟨0, 0, 0, 0⟩)) := by
        unfold result_contents
        rw [map_set_comm, map_set_comm, hsw.1, hsw.2, hsd.1, hsd.2]
        rw [← result_contents, result_contents_getD, result_contents_getD]
      have hp := swap_adjacent_perm ([], ⟨0, 0, 0, 0⟩) (result_contents results) j
        (by rw [result_contents_length]; exact hi)
      have hrec := ih ((results.set (j + 1)
            (results_swap (result_at results (j + 1)) (result_at results j)).1).set j
            (results_swap (result_at results (j + 1)) (result_at results j)).2)
        (by simp; omega)
        (by
          rw [e]
          intro c hc
          exact hlen c ((List.Perm.mem_iff hp).mp hc))
      rw [e] at hrec
      exact hrec.trans hp
    · exact List.Perm.refl _

/-- The tuples of the result list after `result_add` are those before, one of
them possibly replaced by the groups state offered. -/
theorem result_add_contents (G : Nat) (S1 : birch_ptn_groups) (results : List birch_ptn_groups)
    (K : Nat) (hK : K = results.length) (h1 : 1 ≤ K) (h64 : K < 2 ^ 64)
    (hlen : ∀ c ∈ result_contents results, c.1.length = G) (hS : S1.groups.length = G) :
    List.Perm (result_contents (result_add S1 results K)) (result_contents results) ∨
    ∃ i, i < K ∧
      List.Perm (result_contents (result_add S1 results K))
        ((result_contents results).set i (current_matches S1, S1.match_dist)) := by
  have hl : ∀ k, k < results.length → (result_at results k).groups.length = G := by
    intro k hk
    have := hlen _ (result_contents_mem results k hk)
    simpa [current_matches] using this
  have hset : ∀ i, i < results.length →
      List.Perm (result_contents (result_add_bubble
        (results.set i (results_cpy (result_at results i) S1)) i))
        ((result_contents results).set i (current_matches S1, S1.match_dist)) := by
    intro i hi
    have e : result_contents (results.set i (results_cpy (result_at results i) S1))
        = (result_contents results).set i (current_matches S1, S1.match_dist) := by
      unfold result_contents
      rw [map_set_comm, results_cpy_matches _ _ (by rw [hl i hi, hS])]
      rfl
    rw [← e]
    apply result_add_bubble_contents G i _ (by simpa using hi)
    rw [e]
    intro c hc
    rcases List.mem_or_eq_of_mem_set hc with hc | hc
    · exact hlen c hc
    · rw [hc]; simpa [current_matches] using hS
  unfold result_add
  split
  · next i hfind =>
    obtain ⟨hi, _⟩ := result_add_find_some S1 results K i hfind
    split
    · exact Or.inr ⟨i, hi, hset i (by omega)⟩
    · exact Or.inl (List.Perm.refl _)
  · have e : sub_u64 K 1 = K - 1 := by unfold sub_u64; omega
    simp only [e]
    split
    · exact Or.inr ⟨K - 1, by omega, hset (K - 1) (by omega)⟩
    · exact Or.inl (result_add_bubble_contents G (K - 1) results (by omega) hlen)

theorem birch_file_ptn_tuples_invariant (mem : Nat → List Char) (G K path j c g v : Nat)
    (st st1 : scan_state) (h1 : 1 ≤ K) (h64 : K < 2 ^ 64)
    (hI : tuples_invariant mem G K st)
    (h : birch_file_ptn mem K path j c g v st = some st1) : tuples_invariant mem G K st1 := by
  obtain ⟨hG, hD, hK, hok⟩ := hI
  have hD1 := birch_file_ptn_dist_invariant mem K path j c g v st st1 hD h
  obtain ⟨_, hcases⟩ := birch_file_ptn_cases mem K path j c g v st st1 h
  have hG1 : st1.groups.groups.length = G := by
    rcases hcases with ⟨_, hc⟩ | ⟨_, hc⟩
    · have := congrArg List.length hc
      simpa [current_matches, hG] using this
    · have := congrArg List.length hc
      simpa [current_matches, hG] using this
  rcases hcases with ⟨hr, _⟩ | ⟨hr, _⟩
  · exact ⟨hG1, hD1, by rw [hr]; exact hK, by rw [hr]; exact hok⟩
  · refine ⟨hG1, hD1, by rw [hr, result_add_length]; exact hK, ?_⟩
    rw [hr]
    rcases result_add_contents G st1.groups st.results K hK.symm h1 h64
      (fun c hc => (hok c hc).1) hG1 with hp | ⟨i, _, hp⟩
    · intro c hc
      exact hok c ((List.Perm.mem_iff hp).mp hc)
    · intro c hc
      rcases List.mem_or_eq_of_mem_set ((List.Perm.mem_iff hp).mp hc) with hc | hc
      · exact hok c hc
      · rw [hc]
        exact ⟨by simpa [current_matches] using hG1, Or.inr hD1.2⟩

theorem scan_files_tuples_invariant (mem : Nat → List Char) (K : Nat)
    (groups : List birch_ptn_group) (files : List (Nat × List Nat)) (st1 : scan_state)
    (h1 : 1 ≤ K) (h64 : K < 2 ^ 64) (h2 : 2 ≤ groups.length) (h20 : groups.length ≤ 20)
    (hnull : ∀ g ∈ groups, g.cur_match = null_match)
    (h : scan_files mem K files (scan_init groups K) = some st1) :
    tuples_invariant mem groups.length K st1 := by
  apply scan_files_invariant mem K (fun st => tuples_invariant mem groups.length K st)
    (fun path j c g v st st2 hP hh =>
      birch_file_ptn_tuples_invariant mem groups.length K path j c g v st st2 h1 h64 hP hh)
    _ files (scan_init groups K) st1 _ h
  · intro st ⟨hG, hD, hK, hok⟩
    obtain ⟨e1, e2⟩ := birch_file_reset_matches st.groups
    refine ⟨?_, ?_, hK, hok⟩
    · simpa [birch_file_reset] using hG
    · unfold dist_invariant
      simp only [e1, e2]
      exact hD
  · refine ⟨rfl, scan_init_dist_invariant mem groups K h2 h20 hnull,
      by simp [scan_init, results_init], ?_⟩
    intro c hc
    unfold result_contents scan_init results_init at hc
    simp only [List.map_replicate, List.mem_replicate] at hc
    rw [hc.2]
    refine ⟨by simp [current_matches, result_from_groups, parse_args_init_dist], Or.inl ?_⟩
    intro m hm
    simp only [current_matches, result_from_groups, List.map_map, List.mem_map,
      Function.comp] at hm
    obtain ⟨_, _, e⟩ := hm
    rw [← e]
    rfl

theorem pair_distance_sum_three (mem : Nat → List Char) (a b c : birch_match)
    (h : ([a, b, c].filter (fun m => m.ptn ≠ none)).length = 2) :
    (pair_distance_sum mem [a, b, c]).nexist = 2 := by
  obtain ⟨pa, _, _⟩ := a
  obtain ⟨pb, _, _⟩ := b
  obtain ⟨pc, _, _⟩ := c
  cases pa <;> cases pb <;> cases pc <;>
    simp [List.filter] at h <;>
    simp [pair_distance_sum, pair_distance_row, ptn_group_match_dist_calc,
      match_dist_t.add, match_dist_zero]

theorem dist_le_nexist (a b : match_dist_t) (h : dist_le a b) : a.nexist ≤ b.nexist := by
  rcases h with h | h
  · unfold dist_lt at h
    omega
  · rw [h]

theorem results_print_loop_mem (nexist_max : Nat) :
    ∀ (l : List birch_ptn_groups) (i0 k : Nat), k < l.length →
      (∀ k1, k1 ≤ k → (result_at l k1).match_dist.nexist ≤ nexist_max) →
      (i0 + k + 1, (result_at l k).match_dist,
        (current_matches (result_at l k)).filter (fun m => m.ptn ≠ none))
        ∈ results_print_loop nexist_max l i0 := by
  intro l
  induction l with
  | nil => intro i0 k hk; simp at hk
  | cons r rest ih =>
    intro i0 k hk hle
    have h0 : ¬ r.match_dist.nexist > nexist_max := by
      have := hle 0 (Nat.zero_le _)
      simp only [result_at, List.getD_cons_zero] at this
      omega
    simp only [results_print_loop, if_neg h0]
    cases k with
    | zero =>
      simp only [result_at, List.getD_cons_zero, Nat.add_zero, current_matches]
      exact List.mem_cons_self _ _
    | succ k =>
      apply List.mem_cons_of_mem
      have := ih (i0 + 1) k (by simpa using hk) (by
        intro k1 hk1
        have := hle (k1 + 1) (by omega)
        simpa [result_at] using this)
      have e : i0 + 1 + k + 1 = i0 + (k + 1) + 1 := by omega
      rw [e] at this
      simpa [result_at] using this

theorem scan_partial_tuple (mem : Nat → List Char) (K : Nat) (groups : List birch_ptn_group)
    (files : List (Nat × List Nat)) (st1 : scan_state) (i : Nat) (hG : groups.length = 3)
    (h1 : 1 ≤ K) (h64 : K < 2 ^ 64) (hnull : ∀ g ∈ groups, g.cur_match = null_match)
    (h : scan_files mem K files (scan_init groups K) = some st1) (hi : i < K)
    (htwo : ((current_matches (result_at st1.results i)).filter
      (fun m => m.ptn ≠ none)).length = 2) :
    (result_at st1.results i).match_dist.nexist = 2 ∧
    combinations2 (result_at st1.results 0) = 3 ∧
    (i + 1, (result_at st1.results i).match_dist,
      (current_matches (result_at st1.results i)).filter (fun m => m.ptn ≠ none))
      ∈ results_print st1.results K := by
  obtain ⟨_, _, hK, hok⟩ := scan_files_tuples_invariant mem K groups files st1 h1 h64
    (by omega) (by omega) hnull h
  have hsorted := scan_files_sorted mem K h1 h64 groups files st1 h
  -- the tuple at `i`
  obtain ⟨hlen, hdist⟩ := hok _ (result_contents_mem st1.results i (by omega))
  simp only [hG] at hlen
  have hn : (result_at st1.results i).match_dist.nexist = 2 := by
    obtain ⟨a, b, c, e⟩ : ∃ a b c, current_matches (result_at st1.results i) = [a, b, c] := by
      match hcm : current_matches (result_at st1.results i), hlen with
      | [a, b, c], _ => exact ⟨a, b, c, rfl⟩
    rw [e] at htwo
    rcases hdist with hall | hsum
    · exfalso
      rw [e] at hall
      have ha := hall a (by simp)
      have hb := hall b (by simp)
      have hc := hall c (by simp)
      simp [List.filter, ha, hb, hc] at htwo
    · have := hsum 0
      simp only [e] at this
      have h3 := pair_distance_sum_three mem a b c htwo
      have e0 : ∀ d : match_dist_t, d.get 0 = d.nexist := fun _ => rfl
      rw [e0, e0, h3] at this
      exact this
  -- the first tuple has three groups
  have hc3 : combinations2 (result_at st1.results 0) = 3 := by
    obtain ⟨hlen0, _⟩ := hok _ (result_contents_mem st1.results 0 (by omega))
    simp only [hG, current_matches, List.length_map] at hlen0
    have := combinations2_small (result_at st1.results 0) (by omega) (by omega)
    rw [hlen0] at this
    omega
  refine ⟨hn, hc3, ?_⟩
  unfold results_print
  rw [hc3, List.take_of_length_le (by omega)]
  have := results_print_loop_mem 3 st1.results 0 i (by omega) (by
    intro k1 hk1
    have hle := results_sorted_le st1.results hsorted (i - k1) k1 (by omega)
    have e : k1 + (i - k1) = i := by omega
    rw [e] at hle
    have := dist_le_nexist _ _ hle
    omega)
  simpa using this

/-- C18 (amended): with three groups, a result tuple of the scan in which exactly
two groups hold a match has `nexist = G - 1 = 2` (each unordered pair with an
absent match counted once), which does not exceed `C(3, 2) = 3`, and
`results_print` prints that tuple, with its two matches. -/
theorem partial_tuple_printed (mem : Nat → List Char) (K : Nat)
    (groups : List birch_ptn_group) (files : List (Nat × List Nat)) (st1 : scan_state)
    (i : Nat) (hG : groups.length = 3) (h1 : 1 ≤ K) (h64 : K < 2 ^ 64)
    (hnull : ∀ g ∈ groups, g.cur_match = null_match)
    (h : scan_files mem K files (scan_init groups K) = some st1) (hi : i < K)
    (htwo : ((current_matches (result_at st1.results i)).filter
      (fun m => m.ptn ≠ none)).length = 2) :
    (result_at st1.results i).match_dist.nexist = 2 ∧
    combinations2 (result_at st1.results 0) = 3 ∧
    (i + 1, (result_at st1.results i).match_dist,
      (current_matches (result_at st1.results i)).filter (fun m => m.ptn ≠ none))
      ∈ results_print st1.results K :=
  scan_partial_tuple mem K groups files st1 i hG h1 h64 hnull h hi htwo

set_option maxRecDepth 100000 in
theorem example_three_scan_some :
    (scan_files example_mem 1 [(1, [0x00, 0x12, 0x34, 0x56, 0x78, 0x00])]
      (scan_init example_three_groups 1)).isSome = true := by
  decide

set_option maxRecDepth 100000 in
theorem partial_tuple_printed_witness :
    ∃ st1, scan_files example_mem 1 [(1, [0x00, 0x12, 0x34, 0x56, 0x78, 0x00])]
        (scan_init example_three_groups 1) = some st1 ∧
      (result_at st1.results 0).match_dist.nexist = 2 ∧
      combinations2 (result_at st1.results 0) = 3 ∧
      (0 + 1, (result_at st1.results 0).match_dist,
        (current_matches (result_at st1.results 0)).filter (fun m => m.ptn ≠ none))
        ∈ results_print st1.results 1 :=
  ⟨Option.get _ example_three_scan_some, (Option.some_get example_three_scan_some).symm,
    partial_tuple_printed example_mem 1 example_three_groups
      [(1, [0x00, 0x12, 0x34, 0x56, 0x78, 0x00])] (Option.get _ example_three_scan_some) 0
      (by decide) (by decide) (by norm_num) (by decide)
      (Option.some_get example_three_scan_some).symm (by decide) (by decide)⟩

set_option maxRecDepth 100000 in
/-- C18 (counterexample): three groups holding the aligned 8-bit patterns `0x12`,
`0x78` and `0x99`, the file `00 12 34 56 78 00`, `K = 1`: the first two groups
match and the third never does; the result tuple has `nexist = 2`, not 4, and
`results_print`, whose bound is `C(3, 2) = 3`, prints it. -/
theorem partial_tuple_counterexample :
    ((scan_files example_mem 1 [(1, [0x00, 0x12, 0x34, 0x56, 0x78, 0x00])]
        (scan_init example_three_groups 1)).map (fun st => result_contents st.results)
      = some [([⟨some (0, 0), 1, 8⟩, ⟨some (1, 0), 1, 32⟩, null_match], ⟨2, 0, 0, 24⟩)]) ∧
    ((scan_files example_mem 1 [(1, [0x00, 0x12, 0x34, 0x56, 0x78, 0x00])]
        (scan_init example_three_groups 1)).map
          (fun st => combinations2 (result_at st.results 0)) = some 3) ∧
    ((scan_files example_mem 1 [(1, [0x00, 0x12, 0x34, 0x56, 0x78, 0x00])]
        (scan_init example_three_groups 1)).map (fun st => results_print st.results 1)
      = some [(1, ⟨2, 0, 0, 24⟩, [⟨some (0, 0), 1, 8⟩, ⟨some (1, 0), 1, 32⟩])]) := by
  refine ⟨?_, ?_, ?_⟩ <;> decide

/-! ### A single group with a single aligned variant -/

theorem ptn_match_fuel_ret (fuel : Nat) (p : birch_ptn) (c : Nat) (p1 : birch_ptn) (r : Nat)
    (h : ptn_match_fuel fuel p c = some (p1, r)) : r = 0 ∨ r = 1 := by
  cases fuel with
  | zero => simp [ptn_match_fuel] at h
  | succ fuel =>
    simp only [ptn_match_fuel] at h
    split at h
    · split at h
      · split at h
        · split at h
          · simp at h
          · simp only [Option.some.injEq, Prod.mk.injEq] at h
            exact Or.inr h.2.symm
        · simp only [Option.some.injEq, Prod.mk.injEq] at h
          exact Or.inl h.2.symm
      · split at h
        · split at h
          · simp at h
          · split at h
            · simp at h
            · simp only [Option.some.injEq, Prod.mk.injEq] at h
              exact Or.inl h.2.symm
        · simp only [Option.some.injEq, Prod.mk.injEq] at h
          exact Or.inl h.2.symm
    · simp at h

theorem birch_file_groups_single (mem : Nat → List Char) (K path j c : Nat) (p : birch_ptn)
    (q : Nat) (cm : birch_match) (D : match_dist_t) (R : List birch_ptn_groups) :
    birch_file_groups mem K path j c 1 0 (single_state p q cm D R)
      = birch_file_ptn mem K path j c 0 0 (single_state p q cm D R) := by
  simp only [birch_file_groups, single_state, List.getElem?_cons_zero, Option.map_some',
    Option.getD_some, List.length_singleton, birch_file_ptns]
  cases birch_file_ptn mem K path j c 0 0
    { groups := { groups := [{ ptns := [{ p with index := q }], cur_match := cm }],
                  match_dist := D },
      results := R } <;> rfl

theorem birch_file_ptn_single (mem : Nat → List Char) (K path j c : Nat) (p : birch_ptn)
    (q q1 r : Nat) (cm : birch_match) (D : match_dist_t) (R : List birch_ptn_groups)
    (hmatch : ptn_match { p with index := q } c = some ({ p with index := q1 }, r)) :
    birch_file_ptn mem K path j c 0 0 (single_state p q cm D R)
      = some (if r ≠ 0 then
          single_state p q1
            ⟨some (0, 0), path,
              (sub_u64 (((j * CHAR_BIT) % 2 ^ 64 + p.offs) % 2 ^ 64) p.size + CHAR_BIT) % 2 ^ 64⟩
            ⟨0, 0, 0, 0⟩
            (result_add
              { groups := [{ ptns := [{ p with index := q1 }],
                             cur_match := ⟨some (0, 0), path,
                               (sub_u64 (((j * CHAR_BIT) % 2 ^ 64 + p.offs) % 2 ^ 64) p.size
                                 + CHAR_BIT) % 2 ^ 64⟩ }],
                match_dist := ⟨0, 0, 0, 0⟩ } R K)
        else single_state p q1 cm D R) := by
  simp only [birch_file_ptn, single_state, List.getElem?_cons_zero, hmatch,
    List.set_cons_zero, ptn_group_match_dist_update, List.length_singleton, if_true]
  split <;> rfl

theorem result_add_single_first (S : birch_ptn_groups) (ps : List birch_ptn)
    (ps1 : List birch_ptn) (m : birch_match)
    (hS : S = { groups := [{ ptns := ps1, cur_match := m }], match_dist := ⟨0, 0, 0, 0⟩ }) :
    result_add S [{ groups := [{ ptns := ps, cur_match := null_match }],
                    match_dist := ⟨2, 0, 0, 0⟩ }] 1
      = [{ groups := [{ ptns := ps, cur_match := m }], match_dist := ⟨0, 0, 0, 0⟩ }] := by
  subst hS
  simp [result_add, result_add_find, groups_cmp, groups_cmp_loop, result_at, null_match,
    sub_u64, ptn_group_match_dist_cmp, result_add_bubble, results_cpy, results_cpy_loop]

theorem result_add_single_later (S t : birch_ptn_groups) (hS : S.match_dist = ⟨0, 0, 0, 0⟩)
    (ht : t.match_dist = ⟨0, 0, 0, 0⟩) : result_add S [t] 1 = [t] := by
  have hcmp : ¬ ptn_group_match_dist_cmp S.match_dist t.match_dist < 0 := by
    rw [hS, ht]
    decide
  unfold result_add
  cases hf : result_add_find S [t] 1 with
  | some i =>
    obtain ⟨hi, _⟩ := result_add_find_some S [t] 1 i hf
    have e : i = 0 := by omega
    subst e
    simp only [result_at, List.getD_cons_zero]
    rw [if_neg hcmp]
  | none =>
    have e : sub_u64 1 1 = 0 := by decide
    simp only [e, result_at, List.getD_cons_zero]
    rw [if_neg hcmp]
    rfl

theorem single_step (mem : Nat → List Char) (K path j c : Nat) (p : birch_ptn)
    (hm1 : 1 ≤ p.size_bytes) (hpl : p.size_bytes ≤ p.ptn.length)
    (hml : p.size_bytes ≤ p.mask.length) (hn : masks_nested p)
    (hist : List Nat) (q : Nat) (hl : is_longest p hist (p.size_bytes - 1) q)
    (cm : birch_match) (D : match_dist_t) (R : List birch_ptn_groups) :
    ∃ q1, is_longest p (c :: hist) (p.size_bytes - 1) q1 ∧
      birch_file_groups mem K path j c 1 0 (single_state p q cm D R)
        = some (if fits p (c :: hist) p.size_bytes then
            single_state p q1
              ⟨some (0, 0), path,
                (sub_u64 (((j * CHAR_BIT) % 2 ^ 64 + p.offs) % 2 ^ 64) p.size + CHAR_BIT)
                  % 2 ^ 64⟩
              ⟨0, 0, 0, 0⟩
              (result_add
                { groups := [{ ptns := [{ p with index := q1 }],
                               cur_match := ⟨some (0, 0), path,
                                 (sub_u64 (((j * CHAR_BIT) % 2 ^ 64 + p.offs) % 2 ^ 64) p.size
                                   + CHAR_BIT) % 2 ^ 64⟩ }],
                  match_dist := ⟨0, 0, 0, 0⟩ } R K)
          else single_state p q1 cm D R) := by

  obtain ⟨hb, hfit, hmax⟩ := hl
  obtain ⟨q1, r, hstep, hl1, hr⟩ := ptn_match_fuel_spec p hm1 hpl hml hn (q + 1) hist c q
    (by omega) (Nat.le_refl _) hfit (by
      intro q2 h1 h2 h3
      have := hmax q2 (by omega) h3
      omega)
  have hstep1 : ptn_match { p with index := q } c = some ({ p with index := q1 }, r) := hstep
  have hret := ptn_match_fuel_ret _ _ _ _ _ hstep
  refine ⟨q1, hl1, ?_⟩
  rw [birch_file_groups_single, birch_file_ptn_single mem K path j c p q q1 r cm D R hstep1]
  by_cases hf : fits p (c :: hist) p.size_bytes
  · have hr1 : r = 1 := hr.mpr hf
    rw [if_pos hf, if_pos (by omega)]
  · have hr0 : r = 0 := by
      rcases hret with e | e
      · exact e
      · exact absurd (hr.mp e) hf
    rw [if_neg hf, if_neg (by omega)]

theorem single_phase_later (mem : Nat → List Char) (path : Nat) (p : birch_ptn)
    (hm1 : 1 ≤ p.size_bytes) (hpl : p.size_bytes ≤ p.ptn.length)
    (hml : p.size_bytes ≤ p.mask.length) (hn : masks_nested p) (t : birch_ptn_groups)
    (ht : t.match_dist = ⟨0, 0, 0, 0⟩) :
    ∀ (rest : List Nat) (j : Nat) (hist : List Nat) (q : Nat) (cm : birch_match),
      is_longest p hist (p.size_bytes - 1) q →
      ∃ st1, birch_file_bytes mem 1 path rest j (single_state p q cm ⟨0, 0, 0, 0⟩ [t])
          = some st1 ∧ st1.results = [t] := by
  intro rest
  induction rest with
  | nil =>
    intro j hist q cm _
    exact ⟨_, rfl, rfl⟩
  | cons c rest ih =>
    intro j hist q cm hl
    obtain ⟨q1, hl1, hstep⟩ := single_step mem 1 path j c p hm1 hpl hml hn hist q hl cm
      ⟨0, 0, 0, 0⟩ [t]
    have hlen : (single_state p q cm ⟨0, 0, 0, 0⟩ [t]).groups.groups.length = 1 := rfl
    simp only [birch_file_bytes, hlen, hstep]
    by_cases hf : fits p (c :: hist) p.size_bytes
    · rw [if_pos hf, result_add_single_later _ t rfl ht]
      exact ih (j + 1) (c :: hist) q1 _ hl1
    · rw [if_neg hf]
      exact ih (j + 1) (c :: hist) q1 _ hl1

theorem single_phase_first (mem : Nat → List Char) (path : Nat) (p : birch_ptn)
    (hm1 : 1 ≤ p.size_bytes) (hpl : p.size_bytes ≤ p.ptn.length)
    (hml : p.size_bytes ≤ p.mask.length) (hn : masks_nested p) (ps : List birch_ptn)
    (c : Nat) (post : List Nat) :
    ∀ (pre : List Nat) (j : Nat) (hist : List Nat) (q : Nat),
      is_longest p hist (p.size_bytes - 1) q →
      (∀ n, n < pre.length → ¬ fits p ((pre.take (n + 1)).reverse ++ hist) p.size_bytes) →
      fits p (c :: (pre.reverse ++ hist)) p.size_bytes →
      ∃ st1, birch_file_bytes mem 1 path (pre ++ c :: post) j
          (single_state p q null_match ⟨1, 0, 0, 0⟩
            [single_tuple ps null_match ⟨2, 0, 0, 0⟩]) = some st1 ∧
        st1.results = [single_tuple ps
          ⟨some (0, 0), path,
            (sub_u64 ((((j + pre.length) * CHAR_BIT) % 2 ^ 64 + p.offs) % 2 ^ 64) p.size
              + CHAR_BIT) % 2 ^ 64⟩ ⟨0, 0, 0, 0⟩] := by
  intro pre
  induction pre with
  | nil =>
    intro j hist q hl _ hfit
    obtain ⟨q1, hl1, hstep⟩ := single_step mem 1 path j c p hm1 hpl hml hn hist q hl null_match
      ⟨1, 0, 0, 0⟩ [single_tuple ps null_match ⟨2, 0, 0, 0⟩]
    have hlen : (single_state p q null_match ⟨1, 0, 0, 0⟩
        [single_tuple ps null_match ⟨2, 0, 0, 0⟩]).groups.groups.length = 1 := rfl
    simp only [List.reverse_nil, List.nil_append] at hfit
    simp only [List.nil_append, birch_file_bytes, hlen, hstep, if_pos hfit,
      List.length_nil, Nat.add_zero]
    unfold single_tuple
    rw [result_add_single_first _ ps _ _ rfl]
    exact single_phase_later mem path p hm1 hpl hml hn _ rfl post (j + 1) (c :: hist) q1 _ hl1
  | cons x pre ih =>
    intro j hist q hl hno hfit
    obtain ⟨q1, hl1, hstep⟩ := single_step mem 1 path j x p hm1 hpl hml hn hist q hl null_match
      ⟨1, 0, 0, 0⟩ [single_tuple ps null_match ⟨2, 0, 0, 0⟩]
    have hlen : (single_state p q null_match ⟨1, 0, 0, 0⟩
        [single_tuple ps null_match ⟨2, 0, 0, 0⟩]).groups.groups.length = 1 := rfl
    have hx : ¬ fits p (x :: hist) p.size_bytes := by
      have := hno 0 (by simp)
      simpa using this
    simp only [List.cons_append, birch_file_bytes, hlen, hstep, if_neg hx]
    have := ih (j + 1) (x :: hist) q1 hl1
      (by
        intro n hn1
        have := hno (n + 1) (by simpa using hn1)
        simpa [List.take_succ_cons, List.reverse_cons, List.append_assoc] using this)
      (by simpa [List.reverse_cons, List.append_assoc] using hfit)
    have e : j + 1 + pre.length = j + (x :: pre).length := by
      simp only [List.length_cons]; omega
    rw [e] at this
    exact this

theorem single_aligned_first_match (mem : Nat → List Char) (p : birch_ptn) (path : Nat)
    (content : List Nat) (s : Nat) (hoffs : p.offs = 0) (hsize : p.size = 8 * p.size_bytes)
    (hm1 : 1 ≤ p.size_bytes) (hpl : p.size_bytes ≤ p.ptn.length)
    (hml : p.size_bytes ≤ p.mask.length) (hn : masks_nested p)
    (hlen : content.length < 2 ^ 61)
    (hocc : window_match p content (s + p.size_bytes - 1))
    (hfirst : ∀ j, j < s + p.size_bytes - 1 → ¬ window_match p content j) :
    ∃ st1, scan_files mem 1 [(path, content)]
        (scan_init [{ ptns := [p], cur_match := null_match }] 1) = some st1 ∧
      result_contents st1.results = [([⟨some (0, 0), path, 8 * s⟩], ⟨0, 0, 0, 0⟩)] := by
  have hj0 : s + p.size_bytes - 1 < content.length := hocc.2.1
  have hsplit : content = content.take (s + p.size_bytes - 1)
      ++ content[s + p.size_bytes - 1] :: content.drop (s + p.size_bytes - 1 + 1) := by
    rw [← List.drop_eq_getElem_cons hj0, List.take_append_drop]
  have hprelen : (content.take (s + p.size_bytes - 1)).length = s + p.size_bytes - 1 := by
    rw [List.length_take]; omega
  have hl0 : is_longest p [] (p.size_bytes - 1) 0 := by
    refine ⟨Nat.zero_le _, fits_zero p _, ?_⟩
    intro q1 _ hf
    simpa using hf.1
  obtain ⟨st1, hrun, hres⟩ := single_phase_first mem path p hm1 hpl hml hn [p]
    (content[s + p.size_bytes - 1]) (content.drop (s + p.size_bytes - 1 + 1))
    (content.take (s + p.size_bytes - 1)) 0 [] 0 hl0
    (by
      intro n hn1
      rw [hprelen] at hn1
      rw [List.take_take, Nat.min_eq_left (by omega),
        fits_iff_window_match p content n (by omega)]
      exact hfirst n hn1)
    (by
      have h := (fits_iff_window_match p content (s + p.size_bytes - 1) hj0).mpr hocc
      rw [List.take_succ, List.getElem?_eq_getElem hj0] at h
      simp only [Option.toList, List.reverse_append, List.reverse_cons, List.reverse_nil,
        List.nil_append, List.singleton_append, List.cons_append] at h
      exact h)
  rw [← hsplit] at hrun
  refine ⟨st1, ?_, ?_⟩
  · have hinit : scan_state.mk
          (birch_file_reset (scan_init [{ ptns := [p], cur_match := null_match }] 1).groups)
          (scan_init [{ ptns := [p], cur_match := null_match }] 1).results
        = single_state p 0 null_match ⟨1, 0, 0, 0⟩ [single_tuple [p] null_match ⟨2, 0, 0, 0⟩] := by
      rfl
    simp only [scan_files, birch_file, hinit, hrun]
  · rw [hres, hprelen, hoffs, hsize]
    have e : (sub_u64 ((((0 + (s + p.size_bytes - 1)) * CHAR_BIT) % 2 ^ 64 + 0) % 2 ^ 64)
        (8 * p.size_bytes) + CHAR_BIT) % 2 ^ 64 = 8 * s := by
      unfold sub_u64 CHAR_BIT
      norm_num at hlen ⊢
      omega
    rw [e]
    rfl

set_option maxRecDepth 100000 in
/-- C16: for a single group holding one aligned variant with `offs = 0` and
`size = 8 * size_bytes` (its masks nested, as the all-`0xff` masks the
compiler gives it are) and `K = 1`, the scan of a file shorter than `2 ^ 61`
bytes in which the pattern window first occurs starting at the byte index `s`
returns and leaves one result tuple, holding the match at the bit offset
`8 * s` with the distance `(0, 0, 0, 0)`.  On the file `00 12 34 56 78 00`
with the aligned little-endian 32-bit integer pattern `0x78563412`, the scan
ends with exactly one result, at the bit offset 8, all distances 0. -/
theorem single_aligned_scan :
    (∀ (mem : Nat → List Char) (p : birch_ptn) (path : Nat) (content : List Nat) (s : Nat),
      p.offs = 0 → p.size = 8 * p.size_bytes → 1 ≤ p.size_bytes →
      p.size_bytes ≤ p.ptn.length → p.size_bytes ≤ p.mask.length → masks_nested p →
      content.length < 2 ^ 61 → window_match p content (s + p.size_bytes - 1) →
      (∀ j, j < s + p.size_bytes - 1 → ¬ window_match p content j) →
      ∃ st1, scan_files mem 1 [(path, content)]
          (scan_init [{ ptns := [p], cur_match := null_match }] 1) = some st1 ∧
        result_contents st1.results = [([⟨some (0, 0), path, 8 * s⟩], ⟨0, 0, 0, 0⟩)]) ∧
    run_scan example_host example_mem
        [("0x78563412".toList, DATA_TYPE_INTEGER, ALIGNMENT_ALIGNED, ENDIAN_LITTLE, 32)] 1
        [(1, [0x00, 0x12, 0x34, 0x56, 0x78, 0x00])]
      = some ([⟨some (0, 0), 1, 8⟩], ⟨0, 0, 0, 0⟩, [([⟨some (0, 0), 1, 8⟩], ⟨0, 0, 0, 0⟩)]) :=
  ⟨fun mem p path content s hoffs hsize hm1 hpl hml hn hlen hocc hfirst =>
      single_aligned_first_match mem p path content s hoffs hsize hm1 hpl hml hn hlen hocc hfirst,
    by decide⟩

set_option maxRecDepth 100000 in
theorem single_aligned_scan_witness :
    ∃ st1, scan_files example_mem 1 [(1, [0x00, 0x12, 0x34, 0x56, 0x78, 0x00])]
        (scan_init [{ ptns := [example_aligned_ptn], cur_match := null_match }] 1) = some st1 ∧
      result_contents st1.results = [([⟨some (0, 0), 1, 8 * 1⟩], ⟨0, 0, 0, 0⟩)] :=
  single_aligned_scan.1 example_mem example_aligned_ptn
    1 [0x00, 0x12, 0x34, 0x56, 0x78, 0x00] 1 rfl rfl (by decide) (by decide) (by decide)
    (by decide) (by norm_num) (by decide) (by decide)

/-! ### The initial result list -/

theorem scan_init_results (groups : List birch_ptn_group) (K : Nat) (h2 : 2 ≤ groups.length)
    (h20 : groups.length ≤ 20) :
    (scan_init groups K).results
      = List.replicate K
          { groups := groups.map (fun g => { ptns := g.ptns, cur_match := null_match })
            match_dist := ⟨Nat.choose groups.length 2 + 1, 0, 0, 0⟩ } := by
  have hc := combinations2_small
    { groups := groups, match_dist := { nexist := 0, dir_diff := 0, file_diff := 0, offs_diff := 0 } }
    h2 h20
  simp only at hc
  have hch : Nat.choose groups.length 2 * 2 = groups.length * (groups.length - 1) := by
    rw [Nat.choose_two_right, Nat.div_mul_cancel]
    exact (Nat.even_mul_pred_self groups.length).two_dvd
  have hle : groups.length * (groups.length - 1) ≤ 20 * 19 :=
    Nat.mul_le_mul h20 (by omega)
  have e : combinations2
      { groups := groups, match_dist := { nexist := 0, dir_diff := 0, file_diff := 0, offs_diff := 0 } }
      = Nat.choose groups.length 2 := by omega
  unfold scan_init results_init result_from_groups parse_args_init_dist
  simp only [e]
  have e2 : (Nat.choose groups.length 2 + 1) % 2 ^ 64 = Nat.choose groups.length 2 + 1 := by
    apply Nat.mod_eq_of_lt
    omega
  rw [e2]

/-- C30 (amended): before any offer, for `2 ≤ G ≤ 20` groups, the result list
holds `K` slots, each a sentinel tuple of `G` groups in which every group's
match is absent and whose distance vector is `(C(G,2) + 1, 0, 0, 0)`: one more
than the `nexist` of the groups state, by the `++` of `result_from_groups`. -/
theorem results_init_sentinel (groups : List birch_ptn_group) (K : Nat)
    (h2 : 2 ≤ groups.length) (h20 : groups.length ≤ 20) :
    (scan_init groups K).results.length = K ∧
    (scan_init groups K).groups.match_dist = ⟨Nat.choose groups.length 2, 0, 0, 0⟩ ∧
    ∀ r ∈ (scan_init groups K).results,
      (current_matches r).length = groups.length ∧
      (∀ m ∈ current_matches r, m = null_match) ∧
      r.match_dist = ⟨Nat.choose groups.length 2 + 1, 0, 0, 0⟩ := by
  have hr := scan_init_results groups K h2 h20
  refine ⟨by rw [hr, List.length_replicate], ?_, ?_⟩
  · have hc := combinations2_small
      { groups := groups, match_dist := { nexist := 0, dir_diff := 0, file_diff := 0, offs_diff := 0 } }
      h2 h20
    simp only at hc
    have hch : Nat.choose groups.length 2 * 2 = groups.length * (groups.length - 1) := by
      rw [Nat.choose_two_right, Nat.div_mul_cancel]
      exact (Nat.even_mul_pred_self groups.length).two_dvd
    show (parse_args_init_dist _).match_dist = _
    unfold parse_args_init_dist
    simp only [match_dist_t.mk.injEq, and_true]
    omega
  · intro r hrm
    rw [hr] at hrm
    have := List.eq_of_mem_replicate hrm
    subst this
    refine ⟨by simp [current_matches], ?_, rfl⟩
    intro m hm
    simp only [current_matches, List.map_map, List.mem_map, Function.comp] at hm
    obtain ⟨_, _, hm⟩ := hm
    exact hm.symm

theorem results_init_sentinel_witness :
    (scan_init example_three_groups 2).results.length = 2 ∧
    (scan_init example_three_groups 2).groups.match_dist = ⟨Nat.choose 3 2, 0, 0, 0⟩ ∧
    ∀ r ∈ (scan_init example_three_groups 2).results,
      (current_matches r).length = 3 ∧
      (∀ m ∈ current_matches r, m = null_match) ∧
      r.match_dist = ⟨Nat.choose 3 2 + 1, 0, 0, 0⟩ :=
  results_init_sentinel example_three_groups 2 (by decide) (by decide)

/-- C30 (counterexample): with two groups and one result slot the sentinel holds
the distance `(2, 0, 0, 0)`, while `C(2,2) = 1`. -/
theorem results_init_sentinel_counterexample :
    result_contents (scan_init example_two_groups 1).results
      = [([null_match, null_match], ⟨2, 0, 0, 0⟩)] ∧
    Nat.choose example_two_groups.length 2 = 1 := by
  constructor
  · decide
  · decide

/-! ### Endian Both -/

/-- C27: compiling `-iae 32 0x12345678` (integer, aligned, endian Both, 32 bits)
returns 0 and yields the primary variant with bytes `78 56 34 12` and a
duplicate that records `size_bytes = 4` but whose buffers hold one byte each,
`78` and `ff`: `endian_reverse_copy` is handed `size_bytes` where it expects a
size in bits, so it copies `(4 - 1) / 8 + 1 = 1` byte and reverses nothing.
With an 8-bit pattern the duplicate is the one-byte copy of the primary.  A
scan with the 16-bit pattern `0x1234` reads past the duplicate's one-byte
buffers once its first byte has matched. -/
theorem endian_both_duplicate_short :
    (group_add_ptn example_host new_group "0x12345678".toList DATA_TYPE_INTEGER
        ALIGNMENT_ALIGNED ENDIAN_BOTH 32).map
      (fun r => (r.1, r.2.ptns.map (fun p => (p.ptn, p.mask))))
      = some (0, [([0x78, 0x56, 0x34, 0x12], [0xff, 0xff, 0xff, 0xff]), ([0x78], [0xff])]) ∧
    (group_add_ptn example_host new_group "0x12345678".toList DATA_TYPE_INTEGER
        ALIGNMENT_ALIGNED ENDIAN_BOTH 32).map
      (fun r => r.2.ptns.map (fun p => (p.size, p.size_bytes)))
      = some [(32, 4), (32, 4)] ∧
    (group_add_ptn example_host new_group "0x12".toList DATA_TYPE_INTEGER
        ALIGNMENT_ALIGNED ENDIAN_BOTH 8).map
      (fun r => (r.1, r.2.ptns.map (fun p => (p.ptn, p.mask))))
      = some (0, [([0x12], [0xff]), ([0x12], [0xff])]) ∧
    (run_scan example_host example_mem
        [("0x1234".toList, DATA_TYPE_INTEGER, ALIGNMENT_ALIGNED, ENDIAN_BOTH, 16)] 1
        [(1, [0x34, 0x12, 0x00])]).isNone = true := by
  decide

/-! ### Literals wider than the buffer -/

/-- C28: the decimal literal `65536` with a 2-byte buffer makes `add_uchar` carry
out of the buffer (the outcome `out_of_bounds`: a write to `arr[2]`) instead of
returning the bytes `00 00` of `65536 mod 2^16`.  The hexadecimal literal
`0x12345` and the octal literal `01234567` are truncated to their low 16 bits,
and so is the decimal literal `65791`, whose overflow happens in `mul_10`. -/
theorem bit_arr_from_str_wide_decimal :
    bit_arr_from_str "65536".toList 2 = .out_of_bounds ∧
    bit_arr_from_str "0x12345".toList 2 = .arr [0x45, 0x23] ∧
    bit_arr_from_str "01234567".toList 2 = .arr [0x77, 0x39] ∧
    bit_arr_from_str "65791".toList 2 = .arr [0xff, 0x00] := by
  refine ⟨by decide, by decide, by decide, by decide⟩

/-! ### Occurrences under a full mask -/

theorem and_255_of_lt (c : Nat) (h : c < 256) : c &&& 0xff = c := by
  have e : (0xff : Nat) = 2 ^ 8 - 1 := by norm_num
  rw [e, Nat.and_pow_two_sub_one_eq_mod]
  exact Nat.mod_eq_of_lt (by omega)

theorem window_match_full (p : birch_ptn) (text : List Nat) (j : Nat) (hj : j < text.length)
    (hfull : ∀ i, i < p.size_bytes → p.mask.getD i 0 = 0xff) (ht : is_bytes text) :
    window_match p text j ↔
      (p.size_bytes ≤ j + 1 ∧
        ∀ i, i < p.size_bytes → text.getD (j + 1 - p.size_bytes + i) 0 = p.ptn.getD i 0) := by
  have hb : ∀ x, text.getD x 0 < 256 := by
    intro x
    rw [List.getD_eq_getElem?_getD]
    by_cases hx : x < text.length
    · rw [List.getElem?_eq_getElem hx]
      exact ht _ (List.getElem_mem _)
    · rw [List.getElem?_eq_none (by omega)]
      simp
  unfold window_match
  constructor
  · rintro ⟨h1, _, h3⟩
    refine ⟨h1, fun i hi => ?_⟩
    have := h3 i hi
    rw [hfull i hi, and_255_of_lt _ (hb _)] at this
    exact this
  · rintro ⟨h1, h3⟩
    refine ⟨h1, hj, fun i hi => ?_⟩
    rw [hfull i hi, and_255_of_lt _ (hb _)]
    exact h3 i hi

/-- C22: for a variant whose `size_bytes ≥ 1` mask bytes are all `0xff` and every
sequence of bytes fed through `ptn_match` from cursor 0, every call returns,
and the call for the byte of index `j` returns 1 if and only if the
`size_bytes` bytes ending at `j` exist and equal the pattern bytes; an
occurrence that overlaps an earlier one is reported as well. -/
theorem ptn_match_full_mask_occurrences (p : birch_ptn) (text : List Nat) (h0 : p.index = 0)
    (hm1 : 1 ≤ p.size_bytes) (hpl : p.size_bytes ≤ p.ptn.length)
    (hml : p.size_bytes ≤ p.mask.length)
    (hfull : ∀ i, i < p.size_bytes → p.mask.getD i 0 = 0xff) (ht : is_bytes text) :
    ∃ rs, ptn_run p text = some rs ∧ rs.length = text.length ∧
      ∀ j, j < text.length → (rs.getD j 0 = 1 ↔
        (p.size_bytes ≤ j + 1 ∧
          ∀ i, i < p.size_bytes → text.getD (j + 1 - p.size_bytes + i) 0 = p.ptn.getD i 0)) := by
  obtain ⟨rs, h1, h2, h3⟩ :=
    ptn_run_nested_masks p text h0 hm1 hpl hml (masks_nested_of_full p hfull)
  refine ⟨rs, h1, h2, fun j hj => ?_⟩
  rw [h3 j hj]
  exact window_match_full p text j hj hfull ht

theorem ptn_match_full_mask_occurrences_witness :
    ptn_run example_aa_ptn [0x61, 0x61, 0x61] = some [0, 1, 1] ∧
    ∃ rs, ptn_run example_aa_ptn [0x61, 0x61, 0x61] = some rs ∧
      rs.length = [0x61, 0x61, 0x61].length ∧
      ∀ j, j < [0x61, 0x61, 0x61].length → (rs.getD j 0 = 1 ↔
        (example_aa_ptn.size_bytes ≤ j + 1 ∧
          ∀ i, i < example_aa_ptn.size_bytes →
            [0x61, 0x61, 0x61].getD (j + 1 - example_aa_ptn.size_bytes + i) 0
              = example_aa_ptn.ptn.getD i 0)) :=
  ⟨by decide,
    ptn_match_full_mask_occurrences example_aa_ptn [0x61, 0x61, 0x61] rfl (by decide)
      (by decide) (by decide) (by decide) (by decide)⟩

/-! ### Cursor bounds and termination of the matcher, for arbitrary masks -/

theorem backtrack_loop_cursor (p : birch_ptn) (pm : birch_ptn → Nat → Option (birch_ptn × Nat))
    (F : Nat) (hpl : p.size_bytes ≤ p.ptn.length)
    (hpm : ∀ (c q : Nat), q < p.size_bytes → q + 1 ≤ F →
      ∃ q1 r, pm { p with index := q } c = some ({ p with index := q1 }, r) ∧
        q1 ≤ q + 1 ∧ q1 < p.size_bytes) :
    ∀ (k i q : Nat), i + k ≤ p.size_bytes → q < p.size_bytes → q + k ≤ F →
      ∃ q1, ptn_match_backtrack_loop pm k i { p with index := q } = some { p with index := q1 } ∧
        q1 ≤ q + k ∧ q1 < p.size_bytes := by
  intro k
  induction k with
  | zero =>
    intro i q _ hq _
    exact ⟨q, rfl, by omega, hq⟩
  | succ k ih =>
    intro i q hik hq hF
    have hget : p.ptn[i]? = some (p.ptn.getD i 0) := by
      rw [List.getD_eq_getElem?_getD, List.getElem?_eq_getElem (by omega)]
      rfl
    obtain ⟨q1, r, hstep, h1, h2⟩ := hpm (p.ptn.getD i 0) q hq (by omega)
    obtain ⟨q2, hloop, h3, h4⟩ := ih (i + 1) q1 (by omega) h2 (by omega)
    refine ⟨q2, ?_, by omega, h4⟩
    simp only [ptn_match_backtrack_loop, hget, hstep]
    exact hloop

theorem ptn_match_fuel_cursor (p : birch_ptn) (hm1 : 1 ≤ p.size_bytes)
    (hpl : p.size_bytes ≤ p.ptn.length) (hml : p.size_bytes ≤ p.mask.length) :
    ∀ (fuel c q : Nat), q < p.size_bytes → q + 1 ≤ fuel →
      ∃ q1 r, ptn_match_fuel fuel { p with index := q } c = some ({ p with index := q1 }, r) ∧
        q1 ≤ q + 1 ∧ q1 < p.size_bytes ∧ (r = 0 ∨ r = 1) := by
  intro fuel
  induction fuel with
  | zero => intro c q _ hf; omega
  | succ fuel ih =>
    intro c q hq hfuel
    have hmq : p.mask[q]? = some (p.mask.getD q 0) := by
      rw [List.getD_eq_getElem?_getD, List.getElem?_eq_getElem (by omega)]
      rfl
    have hpq : p.ptn[q]? = some (p.ptn.getD q 0) := by
      rw [List.getD_eq_getElem?_getD, List.getElem?_eq_getElem (by omega)]
      rfl
    have hpm : ∀ (c q : Nat), q < p.size_bytes → q + 1 ≤ fuel →
        ∃ q1 r, ptn_match_fuel fuel { p with index := q } c = some ({ p with index := q1 }, r) ∧
          q1 ≤ q + 1 ∧ q1 < p.size_bytes := by
      intro c q h1 h2
      obtain ⟨q1, r, e, h3, h4, _⟩ := ih c q h1 h2
      exact ⟨q1, r, e, h3, h4⟩
    simp only [ptn_match_fuel, hmq, hpq]
    by_cases hc : (c &&& p.mask.getD q 0) = p.ptn.getD q 0
    · rw [if_pos hc]
      by_cases hfull : q + 1 = p.size_bytes
      · rw [if_pos hfull]
        obtain ⟨q1, hloop, h1, h2⟩ := backtrack_loop_cursor p (ptn_match_fuel fuel) fuel hpl hpm
          q 1 0 (by omega) (by omega) (by omega)
        have e : ptn_match_backtrack (ptn_match_fuel fuel) { p with index := q + 1 } (q + 1)
            = some { p with index := q1 } := hloop
        rw [e]
        exact ⟨q1, 1, rfl, by omega, h2, Or.inr rfl⟩
      · rw [if_neg hfull]
        exact ⟨q + 1, 0, rfl, Nat.le_refl _, by omega, Or.inl rfl⟩
    · rw [if_neg hc]
      by_cases hq0 : q = 0
      · rw [if_neg (by simpa using hq0)]
        subst hq0
        exact ⟨0, 0, rfl, by omega, hq, Or.inl rfl⟩
      · rw [if_pos (by simpa using hq0)]
        obtain ⟨q1, hloop, h1, h2⟩ := backtrack_loop_cursor p (ptn_match_fuel fuel) fuel hpl hpm
          (q - 1) 1 0 (by omega) (by omega) (by omega)
        have e : ptn_match_backtrack (ptn_match_fuel fuel) { p with index := q } q
            = some { p with index := q1 } := hloop
        rw [e]
        obtain ⟨q2, r, hrec, h3, h4, _⟩ := ih c q1 h2 (by omega)
        simp only [hrec]
        exact ⟨q2, 0, rfl, by omega, h4, Or.inl rfl⟩

theorem ptn_run_total (p : birch_ptn) (hm1 : 1 ≤ p.size_bytes)
    (hpl : p.size_bytes ≤ p.ptn.length) (hml : p.size_bytes ≤ p.mask.length) :
    ∀ (text : List Nat) (q : Nat), q < p.size_bytes →
      ∃ rs, ptn_run { p with index := q } text = some rs ∧ rs.length = text.length := by
  intro text
  induction text with
  | nil => intro q _; exact ⟨[], rfl, rfl⟩
  | cons c cs ih =>
    intro q hq
    obtain ⟨q1, r, hstep, _, h2, _⟩ :=
      ptn_match_fuel_cursor p hm1 hpl hml (q + 1) c q hq (Nat.le_refl _)
    have hstep1 : ptn_match { p with index := q } c = some ({ p with index := q1 }, r) := hstep
    obtain ⟨rs, hrun, hlen⟩ := ih q1 h2
    exact ⟨r :: rs, by simp only [ptn_run, hstep1, hrun, Option.map_some'], by simp [hlen]⟩

theorem backtrack_loop_mono (pm pm1 : birch_ptn → Nat → Option (birch_ptn × Nat))
    (h : ∀ p c x, pm p c = some x → pm1 p c = some x) :
    ∀ (k i : Nat) (p y : birch_ptn), ptn_match_backtrack_loop pm k i p = some y →
      ptn_match_backtrack_loop pm1 k i p = some y := by
  intro k
  induction k with
  | zero => intro i p y hh; exact hh
  | succ k ih =>
    intro i p y hh
    simp only [ptn_match_backtrack_loop] at hh ⊢
    cases hb : p.ptn[i]? with
    | none => rw [hb] at hh; simp at hh
    | some b =>
      rw [hb] at hh
      simp only at hh ⊢
      cases hs : pm p b with
      | none => rw [hs] at hh; simp at hh
      | some x =>
        rw [hs] at hh
        rw [h p b x hs]
        exact ih (i + 1) x.1 y hh

theorem ptn_match_backtrack_mono (pm pm1 : birch_ptn → Nat → Option (birch_ptn × Nat))
    (h : ∀ p c x, pm p c = some x → pm1 p c = some x) (p : birch_ptn) (count : Nat)
    (y : birch_ptn) (hh : ptn_match_backtrack pm p count = some y) :
    ptn_match_backtrack pm1 p count = some y :=
  backtrack_loop_mono pm pm1 h _ _ _ _ hh

theorem ptn_match_fuel_mono :
    ∀ (fuel : Nat) (p : birch_ptn) (c : Nat) (x : birch_ptn × Nat),
      ptn_match_fuel fuel p c = some x → ptn_match_fuel (fuel + 1) p c = some x := by
  intro fuel
  induction fuel with
  | zero => intro p c x h; simp [ptn_match_fuel] at h
  | succ fuel ih =>
    intro p c x h
    rw [ptn_match_fuel] at h ⊢
    cases hm : p.mask[p.index]? with
    | none => simp [hm] at h
    | some m =>
      cases hp : p.ptn[p.index]? with
      | none => simp [hm, hp] at h
      | some b =>
        simp only [hm, hp] at h ⊢
        by_cases hc : (c &&& m) = b
        · rw [if_pos hc] at h ⊢
          by_cases hf : p.index + 1 = p.size_bytes
          · rw [if_pos hf] at h ⊢
            split at h
            · simp at h
            · next y hy =>
              rw [ptn_match_backtrack_mono _ _ ih _ _ _ hy]
              exact h
          · rw [if_neg hf] at h ⊢
            exact h
        · rw [if_neg hc] at h ⊢
          by_cases hq0 : p.index ≠ 0
          · rw [if_pos hq0] at h ⊢
            split at h
            · simp at h
            · next y hy =>
              rw [ptn_match_backtrack_mono _ _ ih _ _ _ hy]
              simp only
              split at h
              · simp at h
              · next z r hz =>
                rw [ih _ _ _ hz]
                exact h
          · rw [if_neg hq0] at h ⊢
            exact h

theorem ptn_match_fuel_enough (p : birch_ptn) (c : Nat) (x : birch_ptn × Nat)
    (h : ptn_match p c = some x) :
    ∀ fuel, p.index + 1 ≤ fuel → ptn_match_fuel fuel p c = some x := by
  intro fuel hf
  obtain ⟨d, rfl⟩ : ∃ d, fuel = p.index + 1 + d := ⟨fuel - (p.index + 1), by omega⟩
  clear hf
  induction d with
  | zero => exact h
  | succ d ih => exact ptn_match_fuel_mono _ p c x ih

/-- C23: for every variant with `size_bytes ≥ 1` whose buffers hold at least
`size_bytes` bytes (in particular exactly `size_bytes`, where a read at an
index `≥ size_bytes` is the outcome `none`), every cursor `< size_bytes` and
every input byte, `ptn_match` returns, nested backtrack replays included, with
the cursor again `< size_bytes` (and at most one above the old cursor), also
after a reported completion; hence every byte sequence is fed through without
a read outside the buffers. -/
theorem ptn_match_cursor_in_bounds (p : birch_ptn) (c : Nat) (hm1 : 1 ≤ p.size_bytes)
    (hpl : p.size_bytes ≤ p.ptn.length) (hml : p.size_bytes ≤ p.mask.length)
    (hq : p.index < p.size_bytes) :
    (∃ q1 r, ptn_match p c = some ({ p with index := q1 }, r) ∧
      q1 < p.size_bytes ∧ q1 ≤ p.index + 1 ∧ (r = 0 ∨ r = 1)) ∧
    ∀ text : List Nat, ∃ rs, ptn_run p text = some rs ∧ rs.length = text.length := by
  constructor
  · obtain ⟨q1, r, h, h1, h2, h3⟩ :=
      ptn_match_fuel_cursor p hm1 hpl hml (p.index + 1) c p.index hq (Nat.le_refl _)
    exact ⟨q1, r, h, h2, h1, h3⟩
  · intro text
    exact ptn_run_total p hm1 hpl hml text p.index hq

set_option maxRecDepth 100000 in
theorem ptn_match_cursor_in_bounds_witness :
    ptn_match { example_aligned_ptn with index := 3 } 0x78
      = some ({ example_aligned_ptn with index := 0 }, 1) ∧
    ((∃ q1 r, ptn_match { example_aligned_ptn with index := 3 } 0x78
        = some ({ example_aligned_ptn with index := q1 }, r) ∧
      q1 < 4 ∧ q1 ≤ 3 + 1 ∧ (r = 0 ∨ r = 1)) ∧
    ∀ text : List Nat, ∃ rs, ptn_run { example_aligned_ptn with index := 3 } text = some rs ∧
      rs.length = text.length) :=
  ⟨by decide,
    ptn_match_cursor_in_bounds { example_aligned_ptn with index := 3 } 0x78 (by decide)
      (by decide) (by decide) (by decide)⟩

/-- C24: for every variant with `size_bytes ≥ 1`, every cursor `< size_bytes` and
every input byte, the mutual recursion of `ptn_match` and
`ptn_match_backtrack` terminates: a nesting depth of `cursor + 1` calls
suffices, and every larger bound gives the same result.  The replay a call at
cursor `q` triggers starts from cursor 0 and runs `q` steps (completion) or
`q - 1` steps (mismatch); after `s < q` steps of it the cursor is at most `s`,
so each nested `ptn_match` call of the replay, and the re-application of the
current byte after the `q - 1` steps, starts from a cursor `< q`. -/
theorem ptn_match_terminates (p : birch_ptn) (c : Nat) (hm1 : 1 ≤ p.size_bytes)
    (hpl : p.size_bytes ≤ p.ptn.length) (hml : p.size_bytes ≤ p.mask.length)
    (hq : p.index < p.size_bytes) :
    (∃ x, ∀ fuel, p.index + 1 ≤ fuel → ptn_match_fuel fuel p c = some x) ∧
    ∀ s, s < p.index →
      ∃ q1, ptn_match_backtrack_loop (ptn_match_fuel p.index) s 1 { p with index := 0 }
          = some { p with index := q1 } ∧
        q1 ≤ s ∧ q1 < p.index := by
  constructor
  · obtain ⟨q1, r, h, _⟩ :=
      ptn_match_fuel_cursor p hm1 hpl hml (p.index + 1) c p.index hq (Nat.le_refl _)
    exact ⟨_, ptn_match_fuel_enough p c _ h⟩
  · intro s hs
    obtain ⟨q1, hloop, h1, _⟩ := backtrack_loop_cursor p (ptn_match_fuel p.index) p.index hpl
      (fun c q h1 h2 => by
        obtain ⟨q1, r, e, h3, h4, _⟩ := ptn_match_fuel_cursor p hm1 hpl hml p.index c q h1 h2
        exact ⟨q1, r, e, h3, h4⟩)
      s 1 0 (by omega) (by omega) (by omega)
    exact ⟨q1, hloop, by omega, by omega⟩

set_option maxRecDepth 100000 in
theorem ptn_match_terminates_witness :
    ptn_match_fuel 3 { example_aa_ptn with index := 1 } 0x62
      = some ({ example_aa_ptn with index := 0 }, 0) ∧
    ((∃ x, ∀ fuel, 1 + 1 ≤ fuel →
        ptn_match_fuel fuel { example_aa_ptn with index := 1 } 0x62 = some x) ∧
    ∀ s, s < 1 →
      ∃ q1, ptn_match_backtrack_loop (ptn_match_fuel 1) s 1 { example_aa_ptn with index := 0 }
          = some { example_aa_ptn with index := q1 } ∧
        q1 ≤ s ∧ q1 < 1) :=
  ⟨by decide,
    ptn_match_terminates { example_aa_ptn with index := 1 } 0x62 (by decide) (by decide)
      (by decide) (by decide)⟩

/-! ### The first result slot holds the minimum -/

theorem dist_le_antisymm (a b : match_dist_t) (h1 : dist_le a b) (h2 : dist_le b a) : a = b := by
  rcases h1 with h1 | h1
  · exact absurd h1 (not_dist_lt_of_le b a h2)
  · exact h1

theorem result_dists_getD (results : List birch_ptn_groups) (i : Nat) :
    (result_at results i).match_dist = (result_dists results).getD i ⟨0, 0, 0, 0⟩ := by
  unfold result_at result_dists
  rw [List.getD_eq_getElem?_getD, List.getD_eq_getElem?_getD, List.getElem?_map]
  cases results[i]? <;> rfl

theorem result_dists_mem (results : List birch_ptn_groups) (i : Nat) (hi : i < results.length) :
    (result_at results i).match_dist ∈ result_dists results := by
  rw [result_dists_getD, List.getD_eq_getElem?_getD,
    List.getElem?_eq_getElem (by simp [result_dists]; exact hi)]
  exact List.getElem_mem _

theorem result_add_bubble_dists :
    ∀ (i : Nat) (results : List birch_ptn_groups), i < results.length →
      List.Perm (result_dists (result_add_bubble results i)) (result_dists results) := by
  intro i
  induction i with
  | zero => intro results _; exact List.Perm.refl _
  | succ j ih =>
    intro results hi
    simp only [result_add_bubble]
    split
    · have hsd := results_swap_dist (result_at results (j + 1)) (result_at results j)
      have e : result_dists ((results.set (j + 1)
            (results_swap (result_at results (j + 1)) (result_at results j)).1).set j
            (results_swap (result_at results (j + 1)) (result_at results j)).2)
          = ((result_dists results).set (j + 1)
              ((result_dists results).getD j ⟨0, 0, 0, 0⟩)).set j
              ((result_dists results).getD (j + 1) ⟨0, 0, 0, 0⟩) := by
        unfold result_dists
        rw [map_set_comm, map_set_comm, hsd.1, hsd.2]
        rw [← result_dists, result_dists_getD, result_dists_getD]
      have hp := swap_adjacent_perm (⟨0, 0, 0, 0⟩ : match_dist_t) (result_dists results) j
        (by simp [result_dists]; exact hi)
      have hrec := ih ((results.set (j + 1)
            (results_swap (result_at results (j + 1)) (result_at results j)).1).set j
            (results_swap (result_at results (j + 1)) (result_at results j)).2)
        (by simp; omega)
      rw [e] at hrec
      exact hrec.trans hp
    · exact List.Perm.refl _

/-- The distances of the result list after `result_add` are those before, or
those before with one that was strictly higher than the offered distance
replaced by it; in the first case the offered distance is not lower than that
of some tuple of the list. -/
theorem result_add_dists (S1 : birch_ptn_groups) (results : List birch_ptn_groups)
    (K : Nat) (hK : K = results.length) (h1 : 1 ≤ K) (h64 : K < 2 ^ 64) :
    (List.Perm (result_dists (result_add S1 results K)) (result_dists results) ∧
      ∃ i, i < K ∧ dist_le (result_at results i).match_dist S1.match_dist) ∨
    ∃ i, i < K ∧ dist_lt S1.match_dist (result_at results i).match_dist ∧
      List.Perm (result_dists (result_add S1 results K))
        ((result_dists results).set i S1.match_dist) := by
  have hset : ∀ i, i < results.length →
      List.Perm (result_dists (result_add_bubble
        (results.set i (results_cpy (result_at results i) S1)) i))
        ((result_dists results).set i S1.match_dist) := by
    intro i hi
    have e : result_dists (results.set i (results_cpy (result_at results i) S1))
        = (result_dists results).set i S1.match_dist := by
      unfold result_dists
      rw [map_set_comm]
      rfl
    rw [← e]
    exact result_add_bubble_dists i _ (by simpa using hi)
  unfold result_add
  split
  · next i hfind =>
    have hi := result_add_find_lt S1 results K i hfind
    split
    · next hlt => exact Or.inr ⟨i, hi, (dist_cmp_lt_iff _ _).mp hlt, hset i (by omega)⟩
    · next hlt =>
      exact Or.inl ⟨List.Perm.refl _, i, hi,
        dist_le_of_not_lt _ _ (fun hh => hlt ((dist_cmp_lt_iff _ _).mpr hh))⟩
  · have e : sub_u64 K 1 = K - 1 := by unfold sub_u64; omega
    simp only [e]
    split
    · next hlt =>
      exact Or.inr ⟨K - 1, by omega, (dist_cmp_lt_iff _ _).mp hlt, hset (K - 1) (by omega)⟩
    · next hlt =>
      exact Or.inl ⟨result_add_bubble_dists (K - 1) results (by omega), K - 1, by omega,
        dist_le_of_not_lt _ _ (fun hh => hlt ((dist_cmp_lt_iff _ _).mpr hh))⟩

theorem results_sorted_first_le (results : List birch_ptn_groups) (hs : results_sorted results)
    (d : match_dist_t) (hd : d ∈ result_dists results) :
    dist_le (result_at results 0).match_dist d := by
  unfold result_dists at hd
  obtain ⟨r, hr, rfl⟩ := List.mem_map.mp hd
  obtain ⟨i, hi, rfl⟩ := List.getElem_of_mem hr
  have := results_sorted_le results hs i 0 (by omega)
  rw [Nat.zero_add] at this
  have e : result_at results i = results[i] := by
    unfold result_at
    rw [List.getD_eq_getElem?_getD, List.getElem?_eq_getElem hi]
    rfl
  rw [e] at this
  exact this

/-- One offer: the first slot of a sorted result list keeps its distance when
the offered distance is not lower, and takes the offered distance when it is
lower. -/
theorem result_add_first (S1 : birch_ptn_groups) (results : List birch_ptn_groups)
    (K : Nat) (hK : K = results.length) (h1 : 1 ≤ K) (h64 : K < 2 ^ 64)
    (hs : results_sorted results) :
    ((result_at (result_add S1 results K) 0).match_dist = (result_at results 0).match_dist ∧
        dist_le (result_at results 0).match_dist S1.match_dist) ∨
    ((result_at (result_add S1 results K) 0).match_dist = S1.match_dist ∧
        dist_lt S1.match_dist (result_at results 0).match_dist) := by
  have hs1 := result_add_keeps_sorted S1 results K hK h1 h64 hs
  have hlen := result_add_length S1 results K
  have hn0 := result_dists_mem (result_add S1 results K) 0 (by omega)
  have hm0 := result_dists_mem results 0 (by omega)
  rcases result_add_dists S1 results K hK h1 h64 with ⟨hp, i, hi, hle⟩ | ⟨i, hi, hlt, hp⟩
  · left
    have a1 := results_sorted_first_le results hs _ ((List.Perm.mem_iff hp).mp hn0)
    have a2 := results_sorted_first_le _ hs1 _ ((List.Perm.mem_iff hp).mpr hm0)
    refine ⟨dist_le_antisymm _ _ a2 a1, ?_⟩
    have a3 := results_sorted_le results hs i 0 (by omega)
    rw [Nat.zero_add] at a3
    exact dist_le_trans _ _ _ a3 hle
  · have hSmem : S1.match_dist ∈ result_dists (result_add S1 results K) := by
      apply (List.Perm.mem_iff hp).mpr
      apply List.mem_iff_getElem.mpr
      exact ⟨i, by simp [result_dists]; omega, by simp⟩
    have b1 := results_sorted_first_le _ hs1 _ hSmem
    have hn1 := (List.Perm.mem_iff hp).mp hn0
    by_cases hlt0 : dist_lt S1.match_dist (result_at results 0).match_dist
    · right
      refine ⟨?_, hlt0⟩
      rcases List.mem_or_eq_of_mem_set hn1 with hmem | heq
      · have := results_sorted_first_le results hs _ hmem
        exact absurd hlt0 (not_dist_lt_of_le _ _ (dist_le_trans _ _ _ this b1))
      · exact heq
    · left
      have hle0 := dist_le_of_not_lt _ _ hlt0
      refine ⟨?_, hle0⟩
      have hi0 : i ≠ 0 := by
        intro e
        rw [e] at hlt
        exact hlt0 hlt
      have hm1 : (result_at results 0).match_dist
          ∈ (result_dists results).set i S1.match_dist := by
        apply List.mem_iff_getElem.mpr
        refine ⟨0, by simp [result_dists]; omega, ?_⟩
        rw [List.getElem_set_ne hi0]
        rw [result_dists_getD, List.getD_eq_getElem?_getD,
          List.getElem?_eq_getElem (by simp [result_dists]; omega)]
        rfl
      have a2 := results_sorted_first_le _ hs1 _ ((List.Perm.mem_iff hp).mpr hm1)
      rcases List.mem_or_eq_of_mem_set hn1 with hmem | heq
      · exact dist_le_antisymm _ _ a2 (results_sorted_first_le results hs _ hmem)
      · rw [heq]
        rw [heq] at a2
        exact dist_le_antisymm _ _ a2 hle0

theorem offer_all_first (K : Nat) (h1 : 1 ≤ K) (h64 : K < 2 ^ 64) :
    ∀ (states : List birch_ptn_groups) (results : List birch_ptn_groups),
      K = results.length → results_sorted results →
      ((result_at (offer_all K states results) 0).match_dist = (result_at results 0).match_dist ∨
        ∃ S ∈ states, (result_at (offer_all K states results) 0).match_dist = S.match_dist) ∧
      dist_le (result_at (offer_all K states results) 0).match_dist
        (result_at results 0).match_dist ∧
      ∀ S ∈ states,
        dist_le (result_at (offer_all K states results) 0).match_dist S.match_dist := by
  intro states
  induction states with
  | nil =>
    intro results _ _
    exact ⟨Or.inl rfl, dist_le_refl _, fun S hS => absurd hS (List.not_mem_nil S)⟩
  | cons S1 rest ih =>
    intro results hK hs
    have hs1 := result_add_keeps_sorted S1 results K hK h1 h64 hs
    have hlen := result_add_length S1 results K
    obtain ⟨i1, i2, i3⟩ := ih (result_add S1 results K) (by rw [hlen]; exact hK) hs1
    have e : offer_all K (S1 :: rest) results = offer_all K rest (result_add S1 results K) := rfl
    rw [e]
    rcases result_add_first S1 results K hK h1 h64 hs with ⟨f1, f2⟩ | ⟨f1, f2⟩
    · rw [f1] at i1 i2
      refine ⟨?_, i2, ?_⟩
      · rcases i1 with i1 | ⟨S, hS, i1⟩
        · exact Or.inl i1
        · exact Or.inr ⟨S, List.mem_cons_of_mem _ hS, i1⟩
      · intro S hS
        rcases List.mem_cons.mp hS with hS | hS
        · rw [hS]; exact dist_le_trans _ _ _ i2 f2
        · exact i3 S hS
    · rw [f1] at i1 i2
      refine ⟨?_, dist_le_trans _ _ _ i2 (dist_le_of_lt _ _ f2), ?_⟩
      · rcases i1 with i1 | ⟨S, hS, i1⟩
        · exact Or.inr ⟨S1, List.mem_cons_self _ _, i1⟩
        · exact Or.inr ⟨S, List.mem_cons_of_mem _ hS, i1⟩
      · intro S hS
        rcases List.mem_cons.mp hS with hS | hS
        · rw [hS]; exact i2
        · exact i3 S hS

/-- C21: for every `K ≥ 1` (a `size_t`) and every sequence of groups states
offered through `result_add` to the initial list of `K` sentinels, the
distance of the first result slot afterwards is the lexicographic minimum of
the sentinel distance and the distances of all states offered: it is one of
them, and it is lower than or equal to each of them. -/
theorem first_slot_minimum (groups : birch_ptn_groups) (K : Nat)
    (states : List birch_ptn_groups) (h1 : 1 ≤ K) (h64 : K < 2 ^ 64) :
    ((result_at (offer_all K states (results_init groups K)) 0).match_dist
        = (result_from_groups groups).match_dist ∨
      ∃ S ∈ states,
        (result_at (offer_all K states (results_init groups K)) 0).match_dist = S.match_dist) ∧
    dist_le (result_at (offer_all K states (results_init groups K)) 0).match_dist
      (result_from_groups groups).match_dist ∧
    ∀ S ∈ states,
      dist_le (result_at (offer_all K states (results_init groups K)) 0).match_dist
        S.match_dist := by
  have e : result_at (results_init groups K) 0 = result_from_groups groups := by
    unfold result_at results_init
    rw [List.getD_eq_getElem?_getD, List.getElem?_replicate, if_pos (by omega)]
    rfl
  have := offer_all_first K h1 h64 states (results_init groups K)
    (by simp [results_init]) (results_init_sorted groups K)
  rw [e] at this
  exact this

theorem first_slot_minimum_witness :
    result_contents (offer_all 2 example_offers (results_init example_offered_groups 2))
      = [([⟨some (0, 0), 1, 40⟩, ⟨some (1, 0), 1, 48⟩], ⟨0, 0, 0, 8⟩),
          ([⟨some (0, 0), 1, 8⟩, ⟨some (1, 0), 1, 32⟩], ⟨0, 0, 0, 24⟩)] ∧
    (((result_at (offer_all 2 example_offers (results_init example_offered_groups 2)) 0).match_dist
        = (result_from_groups example_offered_groups).match_dist ∨
      ∃ S ∈ example_offers,
        (result_at (offer_all 2 example_offers
          (results_init example_offered_groups 2)) 0).match_dist = S.match_dist) ∧
    dist_le
      (result_at (offer_all 2 example_offers (results_init example_offered_groups 2)) 0).match_dist
      (result_from_groups example_offered_groups).match_dist ∧
    ∀ S ∈ example_offers,
      dist_le
        (result_at (offer_all 2 example_offers
          (results_init example_offered_groups 2)) 0).match_dist
        S.match_dist) :=
  ⟨by decide, first_slot_minimum example_offered_groups 2 example_offers (by decide) (by norm_num)⟩

/-! ### The shift variants as little-endian numbers -/

theorem shl1_or_shr7 (a p : Nat) (hp : p < 256) :
    ((a <<< 1) ||| (p >>> (CHAR_BIT - 1))) % 256 + 256 * (a / 128) = 2 * a + p / 128 := by
  have := lshift_head 1 a p (by norm_num) (by norm_num) hp
  rw [this]
  norm_num
  omega

theorem lshift_copy_loop_val :
    ∀ (as : List Nat) (prev : Nat), is_bytes as → prev < 256 →
      is_bytes (lshift_copy_loop as prev).1 ∧ (lshift_copy_loop as prev).2 < 256 ∧
      le_val (lshift_copy_loop as prev).1
          + 256 ^ as.length * ((lshift_copy_loop as prev).2 / 128)
        = 2 * le_val as + prev / 128 := by
  intro as
  induction as with
  | nil =>
    intro prev _ hp
    refine ⟨?_, hp, ?_⟩
    · simp [lshift_copy_loop, is_bytes]
    · simp [lshift_copy_loop, le_val]
  | cons a rest ih =>
    intro prev hb hp
    have ha : a < 256 := hb a (by simp)
    have hr : is_bytes rest := fun y hy => hb y (by simp [hy])
    obtain ⟨i1, i2, i3⟩ := ih a hr ha
    have hh := shl1_or_shr7 a prev hp
    simp only [lshift_copy_loop]
    refine ⟨?_, i2, ?_⟩
    · intro x hx
      simp only [List.mem_cons] at hx
      rcases hx with hx | hx
      · rw [hx]; exact Nat.mod_lt _ (by norm_num)
      · exact i1 x hx
    · simp only [le_val, List.length_cons, pow_succ]
      have e : 256 ^ rest.length * 256 * ((lshift_copy_loop rest a).2 / 128)
          = 256 * (256 ^ rest.length * ((lshift_copy_loop rest a).2 / 128)) := by ring
      rw [e]
      omega

/-- The copy `lshift_copy` makes holds twice the value of the bytes copied, when
that fits the bytes of the copy. -/
theorem lshift_copy_val (a : List Nat) (n n1 : Nat) (ha : n ≤ a.length)
    (hb : is_bytes (a.take n)) (hn1 : n1 = n ∨ n1 = n + 1) (hpos : 1 ≤ n1)
    (hfit : 2 * le_val (a.take n) < 256 ^ n1) :
    (lshift_copy a n n1).length = n1 ∧ is_bytes (lshift_copy a n n1) ∧
      le_val (lshift_copy a n n1) = 2 * le_val (a.take n) := by
  obtain ⟨h1, h2, h3⟩ := lshift_copy_loop_val (a.take n) 0 hb (by norm_num)
  have la := lshift_copy_loop_length (a.take n) 0
  rw [List.length_take, Nat.min_eq_left ha] at la h3
  unfold lshift_copy
  rw [if_neg (by omega)]
  rcases hn1 with e | e
  · subst e
    simp only [Nat.lt_irrefl, if_false]
    have hlt := le_val_lt _ h1
    rw [la] at hlt
    refine ⟨la, h1, ?_⟩
    have h0 : (lshift_copy_loop (a.take n1) 0).2 / 128 = 0 := by
      by_contra hne
      have : 256 ^ n1 ≤ 256 ^ n1 * ((lshift_copy_loop (a.take n1) 0).2 / 128) :=
        Nat.le_mul_of_pos_right _ (by omega)
      omega
    rw [h0] at h3
    omega
  · subst e
    simp only [Nat.lt_succ_self, if_true]
    have e7 : CHAR_BIT - 1 = 7 := rfl
    refine ⟨by simp [la], ?_, ?_⟩
    · intro x hx
      rcases List.mem_append.mp hx with hx | hx
      · exact h1 x hx
      · simp only [List.mem_singleton] at hx
        rw [hx, e7, Nat.shiftRight_eq_div_pow]
        omega
    · rw [le_val_append, la]
      simp only [le_val, e7, Nat.shiftRight_eq_div_pow]
      norm_num
      omega

theorem unalign_step_shifted (f : birch_ptn → List Nat)
    (hf : ∀ prev cur, f (ptn_unalign_step prev cur)
      = lshift_copy (f prev) prev.size_bytes (ptn_unalign_step prev cur).size_bytes)
    (size V k : Nat) (hV : V < 2 ^ size) (hsize : 1 ≤ size) (h64 : size + 16 < 2 ^ 64)
    (hk : k ≤ 6) (prev cur : birch_ptn) (hp : shifted_by f size V k prev) :
    shifted_by f size V (k + 1) (ptn_unalign_step prev cur) := by
  obtain ⟨h1, h2, h3, h4, h5, h6⟩ := hp
  have e1 : (prev.offs + 1) % 2 ^ 32 = k + 1 := by omega
  have e2 : (prev.size + (k + 1)) % 2 ^ 64 = size + (k + 1) := by omega
  have e3 : sub_u64 (size + (k + 1)) 1 = size + k := by unfold sub_u64; omega
  have hsb : (ptn_unalign_step prev cur).size_bytes = (size + k) / 8 + 1 := by
    unfold ptn_unalign_step
    simp only [e1, e2, e3]
    rfl
  have hn : (size + k) / 8 + 1 = prev.size_bytes ∨ (size + k) / 8 + 1 = prev.size_bytes + 1 := by
    omega
  have hfit : 2 * le_val ((f prev).take prev.size_bytes) < 256 ^ ((size + k) / 8 + 1) := by
    rw [h6]
    have a1 : V * 2 ^ k < 2 ^ size * 2 ^ k :=
      Nat.mul_lt_mul_of_pos_right hV (Nat.pow_pos (by norm_num))
    have e256 : (256 : Nat) ^ ((size + k) / 8 + 1) = 2 ^ (8 * ((size + k) / 8 + 1)) := by
      rw [show (256 : Nat) = 2 ^ 8 by norm_num, ← pow_mul]
    have hle : 2 ^ (size + k + 1) ≤ 2 ^ (8 * ((size + k) / 8 + 1)) :=
      Nat.pow_le_pow_right (by norm_num) (by omega)
    have a2 : 2 ^ (size + k + 1) = 2 * (2 ^ size * 2 ^ k) := by
      rw [pow_succ, pow_add]; ring
    rw [e256]
    omega
  obtain ⟨l1, l2, l3⟩ := lshift_copy_val (f prev) prev.size_bytes ((size + k) / 8 + 1) h4 h5 hn
    (by omega) hfit
  have hfe : f (ptn_unalign_step prev cur)
      = lshift_copy (f prev) prev.size_bytes ((size + k) / 8 + 1) := by
    rw [hf, hsb]
  have htake : (f (ptn_unalign_step prev cur)).take ((size + k) / 8 + 1)
      = lshift_copy (f prev) prev.size_bytes ((size + k) / 8 + 1) := by
    rw [hfe]
    exact List.take_of_length_le (by rw [l1])
  refine ⟨?_, ?_, ?_, ?_, ?_, ?_⟩
  · unfold ptn_unalign_step
    exact e1
  · unfold ptn_unalign_step
    exact h2
  · rw [hsb]; omega
  · rw [hsb, hfe, l1]
  · rw [hsb, htake]; exact l2
  · rw [hsb, htake, l3, h6, pow_succ]; ring

theorem unalign_chain_shifted (f : birch_ptn → List Nat)
    (hf : ∀ prev cur, f (ptn_unalign_step prev cur)
      = lshift_copy (f prev) prev.size_bytes (ptn_unalign_step prev cur).size_bytes)
    (size V : Nat) (hV : V < 2 ^ size) (hsize : 1 ≤ size) (h64 : size + 16 < 2 ^ 64)
    (cur : birch_ptn) :
    ∀ (t : Nat) (prev : birch_ptn) (k : Nat), shifted_by f size V k prev → k + t ≤ 7 →
      ∀ j, j < t → ∃ v, (unalign_chain cur t prev)[j]? = some v ∧
        shifted_by f size V (k + j + 1) v := by
  intro t
  induction t with
  | zero => intro prev k _ _ j hj; omega
  | succ t ih =>
    intro prev k hp hkt j hj
    have hs := unalign_step_shifted f hf size V k hV hsize h64 (by omega) prev cur hp
    cases j with
    | zero => exact ⟨ptn_unalign_step prev cur, by simp [unalign_chain], hs⟩
    | succ j =>
      obtain ⟨v, hv, hsv⟩ := ih (ptn_unalign_step prev cur) (k + 1) hs (by omega) j (by omega)
      refine ⟨v, ?_, ?_⟩
      · simp only [unalign_chain, List.getElem?_cons_succ]
        exact hv
      · have e : k + (j + 1) + 1 = k + 1 + j + 1 := by omega
        rw [e]
        exact hsv

/-- Every variant `ptn_unalign` produces from a base variant is the shift of the
base by its index. -/
theorem ptn_unalign_shifted (f : birch_ptn → List Nat)
    (hf : ∀ prev cur, f (ptn_unalign_step prev cur)
      = lshift_copy (f prev) prev.size_bytes (ptn_unalign_step prev cur).size_bytes)
    (h : host) (base : birch_ptn) (V : Nat) (hV : V < 2 ^ base.size) (hsize : 1 ≤ base.size)
    (h64 : base.size + 16 < 2 ^ 64) (hb : shifted_by f base.size V 0 base) (k : Nat)
    (hk : k < 8) :
    ∃ v, (ptn_unalign h (base :: List.replicate 7 h.uninit))[k]? = some v ∧
      shifted_by f base.size V k v := by
  rw [ptn_unalign_eq_chain]
  cases k with
  | zero => exact ⟨base, rfl, hb⟩
  | succ j =>
    obtain ⟨v, hv, hsv⟩ := unalign_chain_shifted f hf base.size V hV hsize h64 h.uninit 7 base 0
      hb (by omega) j (by omega)
    refine ⟨v, ?_, ?_⟩
    · simp only [List.getElem?_cons_succ]
      exact hv
    · have e : 0 + j + 1 = j + 1 := by omega
      rw [e] at hsv
      exact hsv

theorem le_val_replicate_ff (n : Nat) : le_val (List.replicate n 0xff) + 1 = 256 ^ n := by
  induction n with
  | zero => rfl
  | succ n ih =>
    simp only [List.replicate_succ, le_val, pow_succ]
    omega

/-- The mask `ptn_mask_gen` builds for `size` bits holds the value `2 ^ size - 1`. -/
theorem ptn_mask_gen_val (size : Nat) (hsize : 1 ≤ size) (mask : List Nat)
    (h : ptn_mask_gen size ((size + 7) / 8) = some mask) :
    mask.length = (size + 7) / 8 ∧ is_bytes mask ∧ le_val mask + 1 = 2 ^ size := by
  obtain ⟨m1, hm1, hl, hbytes, _⟩ := ptn_mask_gen_spec size ((size + 7) / 8) (by omega)
  rw [h] at hm1
  simp only [Option.some.injEq] at hm1
  subst hm1
  refine ⟨hl, hbytes, ?_⟩
  unfold ptn_mask_gen at h
  rw [if_neg (by omega)] at h
  simp only [Option.some.injEq] at h
  rw [← h, le_val_append, List.length_replicate]
  have hff := le_val_replicate_ff ((size + 7) / 8 - 1)
  have hdm := Nat.div_add_mod size 8
  have hr : size % 8 < 8 := Nat.mod_lt _ (by norm_num)
  have e2 : (2 : Nat) ^ size = 256 ^ (size / 8) * 2 ^ (size % 8) := by
    conv_lhs => rw [← hdm]
    rw [pow_add, pow_mul]
    norm_num
  rw [e2, Nat.shiftLeft_eq, Nat.one_mul]
  simp only [le_val, Nat.mul_zero, Nat.add_zero]
  by_cases h0 : size % 8 = 0
  · have eq : (size + 7) / 8 - 1 + 1 = size / 8 := by omega
    rw [h0] at *
    simp only [pow_zero, Nat.sub_self, Nat.zero_mod, if_true, Nat.mul_one]
    rw [← eq, pow_succ]
    omega
  · have eq : (size + 7) / 8 - 1 = size / 8 := by omega
    rw [eq] at hff ⊢
    have hcase : size % 8 = 1 ∨ size % 8 = 2 ∨ size % 8 = 3 ∨ size % 8 = 4 ∨ size % 8 = 5 ∨
        size % 8 = 6 ∨ size % 8 = 7 := by omega
    rcases hcase with e | e | e | e | e | e | e <;> rw [e] <;> norm_num <;> omega

theorem within_byte_le (b m : Nat) (hb : b < 256) (h : within_byte b m) : b ≤ m := by
  have e : b &&& m = b := by
    apply Nat.eq_of_testBit_eq
    intro j
    rw [Nat.testBit_and]
    by_cases hj : j < 8
    · cases hbj : b.testBit j
      · simp
      · simp [within_byte_bits b m h j hj hbj]
    · simp [testBit_of_lt_256 b j hb (by omega)]
  rw [← e]
  exact Nat.and_le_right

theorem le_val_take_le :
    ∀ (n : Nat) (a m : List Nat), n ≤ a.length → n ≤ m.length →
      (∀ i, i < n → a.getD i 0 ≤ m.getD i 0) → le_val (a.take n) ≤ le_val (m.take n) := by
  intro n
  induction n with
  | zero => intro a m _ _ _; simp [le_val]
  | succ n ih =>
    intro a m ha hm h
    cases a with
    | nil => simp at ha
    | cons x xs =>
      cases m with
      | nil => simp at hm
      | cons y ys =>
        simp only [List.take_succ_cons, le_val]
        have h0 : x ≤ y := by simpa using h 0 (by omega)
        have := ih xs ys (by simpa using ha) (by simpa using hm) (fun i hi => by
          simpa using h (i + 1) (by omega))
        omega

theorem le_val_testBit :
    ∀ (arr : List Nat), is_bytes arr → ∀ p, (le_val arr).testBit p = file_bit arr p := by
  intro arr
  induction arr with
  | nil =>
    intro _ p
    simp [le_val, file_bit]
  | cons x xs ih =>
    intro hb p
    have hx : x < 2 ^ 8 := hb x (by simp)
    have hxs : is_bytes xs := fun y hy => hb y (by simp [hy])
    have e : le_val (x :: xs) = 2 ^ 8 * le_val xs + x := by
      simp only [le_val]; omega
    rw [e, Nat.testBit_mul_pow_two_add _ hx]
    unfold file_bit CHAR_BIT
    by_cases hp : p < 8
    · rw [if_pos hp]
      have e1 : p / 8 = 0 := by omega
      have e2 : p % 8 = p := by omega
      rw [e1, e2]
      rfl
    · rw [if_neg hp, ih hxs]
      unfold file_bit CHAR_BIT
      have e1 : p / 8 = (p - 8) / 8 + 1 := by omega
      have e2 : p % 8 = (p - 8) % 8 := by omega
      rw [e1, e2]
      rfl

theorem base_mask_shifted (base : birch_ptn) (hsize : 1 ≤ base.size) (hoffs : base.offs = 0)
    (hsb : base.size_bytes = (base.size + 7) / 8)
    (hmask : ptn_mask_gen base.size base.size_bytes = some base.mask) :
    shifted_by (fun v => v.mask) base.size (2 ^ base.size - 1) 0 base ∧
      le_val (base.mask.take base.size_bytes) + 1 = 2 ^ base.size := by
  rw [hsb] at hmask
  obtain ⟨hl, hbytes, hv⟩ := ptn_mask_gen_val base.size hsize base.mask hmask
  have htake : base.mask.take base.size_bytes = base.mask :=
    List.take_of_length_le (by rw [hl, hsb])
  refine ⟨⟨hoffs, rfl, by rw [hsb], by rw [hl, hsb], ?_, ?_⟩, ?_⟩
  · simp only [htake]; exact hbytes
  · simp only [htake, pow_zero, Nat.mul_one]; omega
  · rw [htake]; exact hv

/-- C25: for every base variant (`offs = 0`) of `size ≥ 1` bits as `group_add_ptn`
builds it (`size_bytes = ⌈size / 8⌉`, the mask of `ptn_mask_gen`) whose bytes
lie within its mask, and every `k` in `[0, 8)`, the variant of index `k` that
`ptn_unalign` produces has `offs = k`, the same `size`,
`size_bytes = ⌈(size + k) / 8⌉`, and bytes and mask (their first `size_bytes`
bytes, all of them `< 256`) that, read as little-endian integers, are the base
bytes and the base mask multiplied by `2 ^ k`, that is shifted left by `k`
bits. -/
theorem ptn_unalign_variant_shift (h : host) (base : birch_ptn) (k : Nat) (hk : k < 8)
    (hsize : 1 ≤ base.size) (h64 : base.size + 16 < 2 ^ 64) (hoffs : base.offs = 0)
    (hsb : base.size_bytes = (base.size + 7) / 8)
    (hmask : ptn_mask_gen base.size base.size_bytes = some base.mask)
    (hlen : base.size_bytes ≤ base.ptn.length)
    (hbytes : is_bytes (base.ptn.take base.size_bytes)) (hin : ptn_within_mask base) :
    ∃ v, (ptn_unalign h (base :: List.replicate 7 h.uninit))[k]? = some v ∧
      v.offs = k ∧ v.size = base.size ∧ v.size_bytes = (base.size + k + 7) / 8 ∧
      v.size_bytes ≤ v.ptn.length ∧ v.size_bytes ≤ v.mask.length ∧
      is_bytes (v.ptn.take v.size_bytes) ∧ is_bytes (v.mask.take v.size_bytes) ∧
      le_val (v.ptn.take v.size_bytes) = le_val (base.ptn.take base.size_bytes) * 2 ^ k ∧
      le_val (v.mask.take v.size_bytes) = le_val (base.mask.take base.size_bytes) * 2 ^ k := by
  obtain ⟨hm0, hmv⟩ := base_mask_shifted base hsize hoffs hsb hmask
  have hml : base.size_bytes ≤ base.mask.length := hm0.2.2.2.1
  have hle : le_val (base.ptn.take base.size_bytes) ≤ le_val (base.mask.take base.size_bytes) := by
    apply le_val_take_le _ _ _ hlen hml
    intro i hi
    have hb : base.ptn.getD i 0 < 256 := by
      apply hbytes
      rw [List.getD_eq_getElem?_getD, List.getElem?_eq_getElem (by omega)]
      exact List.mem_take_iff_getElem.mpr ⟨i, by omega, rfl⟩
    exact within_byte_le _ _ hb (hin i hi).2.2
  have hp0 : shifted_by (fun v => v.ptn) base.size (le_val (base.ptn.take base.size_bytes)) 0
      base := ⟨hoffs, rfl, by rw [hsb], hlen, hbytes, by simp⟩
  obtain ⟨v, hv, p1, p2, p3, p4, p5, p6⟩ := ptn_unalign_shifted (fun v => v.ptn)
    (fun _ _ => rfl) h base _ (by omega) hsize h64 hp0 k hk
  obtain ⟨v1, hv1, _, _, _, m4, m5, m6⟩ := ptn_unalign_shifted (fun v => v.mask)
    (fun _ _ => rfl) h base _ (by omega) hsize h64 hm0 k hk
  rw [hv] at hv1
  simp only [Option.some.injEq] at hv1
  subst hv1
  refine ⟨v, hv, p1, p2, p3, p4, m4, p5, m5, p6, ?_⟩
  rw [m6]
  congr 1
  omega

/-- C26: for every `size ≥ 1` and every shift `k` in `[0, 8)` (`k = 0` being the
base mask of `ptn_mask_gen`), the mask of the variant of index `k`, read as a
little-endian bit string of `8 * size_bytes` bits, has exactly the bits
`k .. k + size - 1` set: no bit below `offs` and no bit at or above
`offs + size`. -/
theorem variant_mask_bits (h : host) (base : birch_ptn) (k : Nat) (hk : k < 8)
    (hsize : 1 ≤ base.size) (h64 : base.size + 16 < 2 ^ 64) (hoffs : base.offs = 0)
    (hsb : base.size_bytes = (base.size + 7) / 8)
    (hmask : ptn_mask_gen base.size base.size_bytes = some base.mask) :
    ∃ v, (ptn_unalign h (base :: List.replicate 7 h.uninit))[k]? = some v ∧
      v.offs = k ∧ v.size = base.size ∧ v.size_bytes = (base.size + k + 7) / 8 ∧
      v.size_bytes ≤ v.mask.length ∧
      ∀ j, file_bit (v.mask.take v.size_bytes) j = decide (v.offs ≤ j ∧ j < v.offs + v.size) := by
  obtain ⟨hm0, hmv⟩ := base_mask_shifted base hsize hoffs hsb hmask
  obtain ⟨v, hv, m1, m2, m3, m4, m5, m6⟩ := ptn_unalign_shifted (fun v => v.mask)
    (fun _ _ => rfl) h base _ (by omega) hsize h64 hm0 k hk
  refine ⟨v, hv, m1, m2, m3, m4, fun j => ?_⟩
  simp only at m5 m6
  rw [← le_val_testBit _ m5, m6, ← Nat.shiftLeft_eq, Nat.testBit_shiftLeft,
    Nat.testBit_two_pow_sub_one, m1, m2]
  by_cases h1 : k ≤ j
  · by_cases h2 : j < k + base.size
    · simp [h1, h2]; omega
    · simp [h1, h2]; omega
  · simp [h1]

theorem ptn_unalign_variant_shift_witness :
    (ptn_unalign example_host (example_base_ptn :: List.replicate 7 example_host.uninit)).map
        (fun v => (v.ptn, v.mask))
      = example_unaligned_ptns.map (fun v => (v.ptn, v.mask)) ∧
    ∃ v, (ptn_unalign example_host
        (example_base_ptn :: List.replicate 7 example_host.uninit))[5]? = some v ∧
      v.offs = 5 ∧ v.size = example_base_ptn.size ∧
      v.size_bytes = (example_base_ptn.size + 5 + 7) / 8 ∧
      v.size_bytes ≤ v.ptn.length ∧ v.size_bytes ≤ v.mask.length ∧
      is_bytes (v.ptn.take v.size_bytes) ∧ is_bytes (v.mask.take v.size_bytes) ∧
      le_val (v.ptn.take v.size_bytes)
        = le_val (example_base_ptn.ptn.take example_base_ptn.size_bytes) * 2 ^ 5 ∧
      le_val (v.mask.take v.size_bytes)
        = le_val (example_base_ptn.mask.take example_base_ptn.size_bytes) * 2 ^ 5 :=
  ⟨by decide,
    ptn_unalign_variant_shift example_host example_base_ptn 5 (by decide) (by decide)
      (by norm_num [example_base_ptn]) rfl rfl rfl (by decide) (by decide) (by decide)⟩

theorem variant_mask_bits_witness :
    (ptn_unalign example_host (example_base_ptn :: List.replicate 7 example_host.uninit)).map
        (fun v => v.mask)
      = [[0xff], [0xfe, 0x01], [0xfc, 0x03], [0xf8, 0x07], [0xf0, 0x0f], [0xe0, 0x1f],
          [0xc0, 0x3f], [0x80, 0x7f]] ∧
    ∃ v, (ptn_unalign example_host
        (example_base_ptn :: List.replicate 7 example_host.uninit))[3]? = some v ∧
      v.offs = 3 ∧ v.size = example_base_ptn.size ∧
      v.size_bytes = (example_base_ptn.size + 3 + 7) / 8 ∧
      v.size_bytes ≤ v.mask.length ∧
      ∀ j, file_bit (v.mask.take v.size_bytes) j = decide (v.offs ≤ j ∧ j < v.offs + v.size) :=
  ⟨by decide,
    variant_mask_bits example_host example_base_ptn 3 (by decide) (by decide)
      (by norm_num [example_base_ptn]) rfl rfl rfl⟩

/-! ### Grouping of patterns by `parse_args` -/

set_option maxRecDepth 100000 in
/-- C29: on `birch ROOT -gial 8 0x12 -ial 8 0x78` the second pattern value has no
`g` flag since the first one, yet `parse_args` appends it to the first group:
one group of two variants instead of two groups.  The `g` given before the
first pattern is still pending, because `group_link` is cleared only in the
branch that appends and the first pattern took the branch that creates a
group.  The claim's example `-ial 8 0x12 -gial 8 0x78` yields one group of two
variants, `-ial 8 0x12 -ial 8 0x78` two groups, and a `g` given after a first
pattern links only the next pattern. -/
theorem parse_args_stale_group_link :
    parsed_group_bytes (parse_args example_host example_strtol
        (example_argv ["-gial", "8", "0x12", "-ial", "8", "0x78"])) = [[[0x12], [0x78]]] ∧
    parsed_group_bytes (parse_args example_host example_strtol
        (example_argv ["-ial", "8", "0x12", "-gial", "8", "0x78"])) = [[[0x12], [0x78]]] ∧
    parsed_group_bytes (parse_args example_host example_strtol
        (example_argv ["-ial", "8", "0x12", "-ial", "8", "0x78"])) = [[[0x12]], [[0x78]]] ∧
    parsed_group_bytes (parse_args example_host example_strtol
        (example_argv ["-ial", "8", "0x12", "-gial", "8", "0x78", "-ial", "8", "0x99"]))
      = [[[0x12], [0x78]], [[0x99]]] := by
  decide

/-! ### The number of pairs of groups -/

set_option maxRecDepth 100000 in
/-- C31 (failing input): with 21 groups `combinations2` returns 58, not
`C(21,2) = 210`: `factorial(21)` is `21!` reduced modulo `2 ^ 64`, since
`21! > 2 ^ 64`, and the quotient by `2 * 19!` is 58.  That value is the initial
`nexist` of the groups state.  For every `G ≤ 20` the function returns 1 when
`G < 2` and `C(G,2)` otherwise; with 23 groups it returns 0, and with 66 groups
the divisor `factorial(64) << 1` is zero. -/
theorem combinations2_overflow :
    combinations2 (groups_of_size 21) = 58 ∧ Nat.choose 21 2 = 210 ∧
    21 * (21 - 1) / 2 % 2 ^ 64 = 210 ∧
    2 ^ 64 < Nat.factorial 21 ∧ factorial 21 1 = Nat.factorial 21 % 2 ^ 64 ∧
    (scan_init (List.replicate 21 new_group) 1).groups.match_dist.nexist = 58 ∧
    (List.range 21).map (fun G => combinations2 (groups_of_size G))
      = (List.range 21).map (fun G => if G < 2 then 1 else Nat.choose G 2) ∧
    combinations2 (groups_of_size 23) = 0 ∧
    (factorial 64 1 <<< 1) % 2 ^ 64 = 0 := by
  refine ⟨by decide, by decide, by decide, by decide, by decide, by decide, by decide, by decide,
    by decide⟩

end Birch
